import Mathlib

/-!
# dwm (dongxu-pc/mess): a shallow embedding of `dwm/dwm.c` with `btwdwm/config.h`

Conventions of the embedding.

* C `int` values are unbounded `Int` (signed overflow is undefined behaviour in C
  and is not modelled); where the source computes in `unsigned int` (the locals of
  `tile`), the arithmetic is carried out modulo `2^32` through `toU` and `toI`.
* A C `float` or `double` value is the rational it denotes, and every operation on such
  values rounds its exact result as IEEE 754 prescribes (binary32 and binary64, round to
  nearest, ties to even, no excess precision), through `tofloat` and `todouble`.  An
  infinity is represented by `fltinf` or its negative, a magnitude above every finite
  `float`, and a NaN, which fails every comparison the source makes, by 0.
* A `Client *` is a natural number (the address of the record); the heap of client
  records is the function `State.client`.  The `next` and `snext` chains of a monitor
  are the lists `Monitor.clients` and `Monitor.stack` of such addresses, and a null
  pointer is `none` or the empty list.
* A `Monitor *` is a natural number as well; the heap of monitor records is
  `State.monitor`, and the chain that starts at the global `mons` and runs along
  `next` is the list `State.mons` of addresses.
* Calls into Xlib and cairo that do not touch the window manager's own records are
  dropped; what the X server reports is an argument of the operation that asks for it.
-/

namespace Dwm

/-! ## config.h -/

/-- The constant `borderpx` of config.h. -/
def borderpx : Int := 1

/-- The constant `snap` of config.h. -/
def snap : Int := 32

/-- The constant `showbar` of config.h. -/
def showbar : Bool := true

/-- The value of `LENGTH(tags)`: config.h declares fourteen tags. -/
def LENGTH_tags : Nat := 14

/-- The constant `mfact` of config.h (0.50). -/
def mfact : ℚ := 1 / 2

/-- The constant `nmaster` of config.h. -/
def nmaster : Int := 1

/-! ## Data model -/

/-- The record `struct Client`; `next` and `snext` live in the owning monitor's lists. -/
structure Client where
  name : String
  mina : ℚ
  maxa : ℚ
  x : Int
  y : Int
  w : Int
  h : Int
  oldx : Int
  oldy : Int
  oldw : Int
  oldh : Int
  basew : Int
  baseh : Int
  incw : Int
  inch : Int
  maxw : Int
  maxh : Int
  minw : Int
  minh : Int
  bw : Int
  oldbw : Int
  tag : Nat
  isfixed : Bool
  isfloating : Bool
  isurgent : Bool
  neverfocus : Bool
  oldstate : Bool
  isfullscreen : Bool
  mon : Nat
  win : Nat

/-- The record `Tag`. -/
structure Tag where
  lt : Nat
  ltsymbol : String
  mfact : ℚ
  nmaster : Int

/-- The record `struct Monitor` without its X windows and cairo handles; `tag0` and
`tag1` are the two cells of the array `tag[2]`. -/
structure Monitor where
  num : Int
  mx : Int
  my : Int
  mw : Int
  mh : Int
  wx : Int
  wy : Int
  ww : Int
  wh : Int
  seltag : Nat
  tag0 : Nat
  tag1 : Nat
  tags : Nat → Tag
  clients : List Nat
  sel : Option Nat
  stack : List Nat
  bary : Int
  showbar : Bool

/-- The global variables of dwm.c that the modelled operations read or write. -/
structure State where
  sw : Int
  sh : Int
  bh : Int
  mons : List Nat
  monitor : Nat → Monitor
  selmon : Nat
  client : Nat → Client

/-- What `applysizehints` hands back: the four cells it writes and its return value. -/
structure Resolved where
  x : Int
  y : Int
  w : Int
  h : Int
  changed : Bool
deriving DecidableEq, Repr

/-! ## Macros -/

/-- The macro `WIDTH(X)`. -/
def WIDTH (c : Client) : Int := c.w + 2 * c.bw

/-- The macro `HEIGHT(X)`. -/
def HEIGHT (c : Client) : Int := c.h + 2 * c.bw

/-- The cell `m->tag[m->seltag]`; `seltag` only ever holds 0 or 1. -/
def Monitor.curtag (m : Monitor) : Nat := if m.seltag = 0 then m.tag0 else m.tag1

/-- The macro `ISVISIBLE(C)`, with `C->mon` resolved in the state. -/
def ISVISIBLE (s : State) (c : Nat) : Bool :=
  (s.client c).tag == (s.monitor (s.client c).mon).curtag

/-- Conversion of `int` to `unsigned int`. -/
def toU (i : Int) : Nat := (i % 4294967296).toNat

/-- Conversion of `unsigned int` to `int` (two's complement). -/
def toI (n : Nat) : Int :=
  if n % 4294967296 < 2147483648 then ((n % 4294967296 : Nat) : Int)
  else ((n % 4294967296 : Nat) : Int) - 4294967296

/-! ## Floating-point rounding -/

/-- Rounding of a rational to the nearest integer, a tie going to the even one. -/
def rne (q : ℚ) : Int :=
  if q - Int.floor q < 1 / 2 then Int.floor q
  else if 1 / 2 < q - Int.floor q then Int.floor q + 1
  else if Int.floor q % 2 = 0 then Int.floor q else Int.floor q + 1

/-- Rounding of a rational to the nearest binary floating-point value with `p` bits of
precision and smallest normal exponent `emin` (IEEE 754, round to nearest, ties to even).
A value beyond the largest finite one is rounded like any other and not turned into an
infinity. -/
def fpround (p : Nat) (emin : Int) (q : ℚ) : ℚ :=
  if q = 0 then 0
  else
    (rne (q / 2 ^ (max (Int.log 2 (abs q)) emin - ((p : Int) - 1))) : ℚ)
      * 2 ^ (max (Int.log 2 (abs q)) emin - ((p : Int) - 1))

/-- Conversion to `float` (IEEE 754 binary32). -/
def tofloat (q : ℚ) : ℚ := fpround 24 (-126) q

/-- Conversion to `double` (IEEE 754 binary64). -/
def todouble (q : ℚ) : ℚ := fpround 53 (-1022) q

/-- The magnitude that stands for an infinity, above every finite `float`: the rational
`fltinf` is read as the infinity of C and `-fltinf` as its negative. -/
def fltinf : ℚ := 2 ^ 128

/-- Conversion of `int` to `float`. -/
def itof (i : Int) : ℚ := tofloat (i : ℚ)

/-- Conversion of a floating value to `int`: truncation toward zero. -/
def ftoi (q : ℚ) : Int := q.num.tdiv q.den

/-- The quotient `(float)p / q` of two `int` values: the divisor is converted to `float`
and the quotient is rounded to `float`.  A zero divisor gives an infinity with the sign of
`p`, or a NaN when `p` is zero as well. -/
def fltquot (p q : Int) : ℚ :=
  if q = 0 then (if 0 < p then fltinf else if p < 0 then -fltinf else 0)
  else tofloat (itof p / itof q)

/-- The test `a < (float)p / q`, which is false when the quotient is a NaN. -/
def fltdiv (a : ℚ) (p q : Int) : Bool :=
  if q = 0 ∧ p = 0 then false else decide (a < fltquot p q)

/-! ## Geometry resolver -/

/-- The function `applysizehints` of dwm.c; `m` is `c->mon`. -/
def applysizehints (sw sh bh : Int) (m : Monitor) (c : Client) (x y w h : Int)
    (interact : Bool) : Resolved :=
  -- set minimum possible
  let w := max 1 w
  let h := max 1 h
  let x1 := if interact then (if x > sw then sw - WIDTH c else x)
            else (if x ≥ m.wx + m.ww then m.wx + m.ww - WIDTH c else x)
  let y1 := if interact then (if y > sh then sh - HEIGHT c else y)
            else (if y ≥ m.wy + m.wh then m.wy + m.wh - HEIGHT c else y)
  let x2 := if interact then (if x1 + w + 2 * c.bw < 0 then 0 else x1)
            else (if x1 + w + 2 * c.bw ≤ m.wx then m.wx else x1)
  let y2 := if interact then (if y1 + h + 2 * c.bw < 0 then 0 else y1)
            else (if y1 + h + 2 * c.bw ≤ m.wy then m.wy else y1)
  let h := if h < bh then bh else h
  let w := if w < bh then bh else w
  if c.isfloating then
    -- see last two sentences in ICCCM 4.1.2.3
    let baseismin := c.basew = c.minw ∧ c.baseh = c.minh
    -- temporarily remove base dimensions
    let w := if baseismin then w else w - c.basew
    let h := if baseismin then h else h - c.baseh
    -- adjust for aspect limits
    let aspect := 0 < c.mina ∧ 0 < c.maxa
    let wa := if aspect ∧ fltdiv c.maxa w h = true
              then ftoi (todouble (tofloat (itof h * c.maxa) + 1 / 2)) else w
    let ha := if aspect ∧ fltdiv c.maxa w h = false ∧ fltdiv c.mina h w = true
              then ftoi (todouble (tofloat (itof w * c.mina) + 1 / 2)) else h
    -- increment calculation requires this
    let w := if baseismin then wa - c.basew else wa
    let h := if baseismin then ha - c.baseh else ha
    -- adjust for increment value
    let w := if c.incw ≠ 0 then w - w.tmod c.incw else w
    let h := if c.inch ≠ 0 then h - h.tmod c.inch else h
    -- restore base dimensions
    let w := max (w + c.basew) c.minw
    let h := max (h + c.baseh) c.minh
    let w := if c.maxw ≠ 0 then min w c.maxw else w
    let h := if c.maxh ≠ 0 then min h c.maxh else h
    ⟨x2, y2, w, h, decide (x2 ≠ c.x ∨ y2 ≠ c.y ∨ w ≠ c.w ∨ h ≠ c.h)⟩
  else
    ⟨x2, y2, w, h, decide (x2 ≠ c.x ∨ y2 ≠ c.y ∨ w ≠ c.w ∨ h ≠ c.h)⟩

/-- The record part of `resizeclient`: the old geometry is saved, the new one stored. -/
def Client.resized (c : Client) (x y w h : Int) : Client :=
  { c with oldx := c.x, x := x, oldy := c.y, y := y, oldw := c.w, w := w, oldh := c.h, h := h }

/-- Replacement of the record at address `c`. -/
def State.setClient (s : State) (c : Nat) (v : Client) : State :=
  { s with client := Function.update s.client c v }

/-- Replacement of the record at the monitor address `m`. -/
def State.setMon (s : State) (m : Nat) (v : Monitor) : State :=
  { s with monitor := Function.update s.monitor m v }

/-- The function `resizeclient` of dwm.c. -/
def resizeclient (s : State) (c : Nat) (x y w h : Int) : State :=
  s.setClient c ((s.client c).resized x y w h)

/-- The function `resize` of dwm.c. -/
def resize (s : State) (c : Nat) (x y w h : Int) (interact : Bool) : State :=
  let r := applysizehints s.sw s.sh s.bh (s.monitor (s.client c).mon) (s.client c) x y w h interact
  if r.changed then resizeclient s c r.x r.y r.w r.h else s

/-! ## Layouts -/

/-- Unsigned subtraction `a - b` on `unsigned int`. -/
def usub (a b : Nat) : Nat := (a + 4294967296 - b % 4294967296) % 4294967296

/-- Unsigned addition `a + b` on `unsigned int`. -/
def uadd (a b : Nat) : Nat := (a + b) % 4294967296

/-- The function `montotag` of dwm.c, as the record it points to. -/
def montotag (m : Monitor) : Tag := m.tags m.curtag

/-- A write through the pointer `montotag(m)`. -/
def Monitor.setTag (m : Monitor) (t : Tag) : Monitor :=
  { m with tags := Function.update m.tags m.curtag t }

/-- The function `nexttiled` of dwm.c on the rest of a client list: the rest that starts
at the first client that is neither floating nor invisible. -/
def nexttiled (s : State) : List Nat → List Nat
  | [] => []
  | c :: cs => if (s.client c).isfloating || !ISVISIBLE s c then nexttiled s cs else c :: cs

/-- The counting loop `for (n = 0, c = nexttiled(l); c; c = nexttiled(c->next), n++)`. -/
def counttiled (s : State) : List Nat → Nat
  | [] => 0
  | c :: cs =>
    if (s.client c).isfloating || !ISVISIBLE s c then counttiled s cs else counttiled s cs + 1

/-- The label `snprintf` writes into the 16 bytes of `ltsymbol` in `tile`. -/
def tilesymbol (n : Nat) (nm : Int) : String :=
  ("[" ++ toString (toI (if toU nm < n then toU nm else n)) ++ "-"
    ++ toString (max (toI (usub n (toU nm))) 0) ++ "]").take 15

/-- The second loop of `tile`, over the rest of the client list, with the `unsigned int`
locals `i`, `my` and `ty`; clients that `nexttiled` skips are passed over. -/
def tileloop (m n mw : Nat) : List Nat → Nat → Nat → Nat → State → State
  | [], _, _, _, s => s
  | c :: cs, i, my, ty, s =>
    if (s.client c).isfloating || !ISVISIBLE s c then tileloop m n mw cs i my ty s
    else
      let M := s.monitor m
      let t := montotag M
      if i < toU t.nmaster then
        let h := usub (toU M.wh) my / usub (if n < toU t.nmaster then n else toU t.nmaster) i
        let s1 := resize s c M.wx (toI (uadd (toU M.wy) my))
          (toI (usub mw (toU (2 * (s.client c).bw)))) (toI (usub h (toU (2 * (s.client c).bw))))
          false
        tileloop m n mw cs (uadd i 1) (uadd my (toU (HEIGHT (s1.client c)))) ty s1
      else
        let h := usub (toU M.wh) ty / usub n i
        let s1 := resize s c (toI (uadd (toU M.wx) mw)) (toI (uadd (toU M.wy) ty))
          (toI (usub (usub (toU M.ww) mw) (toU (2 * (s.client c).bw))))
          (toI (usub h (toU (2 * (s.client c).bw)))) false
        tileloop m n mw cs (uadd i 1) my (uadd ty (toU (HEIGHT (s1.client c)))) s1

/-- The function `tile` of dwm.c.  The product `m->ww * t->mfact` is a `float` product,
converted to `unsigned int` by truncation (the conversion of a negative product is
undefined in C; it wraps here). -/
def tile (s : State) (m : Nat) : State :=
  let M := s.monitor m
  let t := montotag M
  let n := counttiled s M.clients
  if n = 0 then
    s.setMon m (M.setTag { t with mfact := mfact, nmaster := nmaster })
  else
    let s1 := s.setMon m (M.setTag { t with ltsymbol := tilesymbol n t.nmaster })
    let mw := if n > toU t.nmaster then
                (if t.nmaster ≠ 0 then toU (ftoi (tofloat (itof M.ww * t.mfact))) else 0)
              else toU M.ww
    tileloop m n mw M.clients 0 0 0 s1

/-- The number of visible clients that `monocle` counts. -/
def countvisible (s : State) (l : List Nat) : Nat := (l.filter (fun c => ISVISIBLE s c)).length

/-- The resizing loop of `monocle`. -/
def monocleloop (m : Nat) : List Nat → State → State
  | [], s => s
  | c :: cs, s =>
    if (s.client c).isfloating || !ISVISIBLE s c then monocleloop m cs s
    else
      let M := s.monitor m
      monocleloop m cs
        (resize s c M.wx M.wy (M.ww - 2 * (s.client c).bw) (M.wh - 2 * (s.client c).bw) false)

/-- The function `monocle` of dwm.c. -/
def monocle (s : State) (m : Nat) : State :=
  let M := s.monitor m
  let n := countvisible s M.clients
  let s1 := if n > 0 then
      s.setMon m (M.setTag { montotag M with ltsymbol := ("[" ++ toString n ++ "]").take 15 })
    else s
  monocleloop m M.clients s1

/-- The function `showhide` of dwm.c, along a focus stack. -/
def showhide : List Nat → State → State
  | [], s => s
  | c :: cs, s =>
    if ISVISIBLE s c then
      let C := s.client c
      showhide cs (if C.isfloating && !C.isfullscreen then resize s c C.x C.y C.w C.h false else s)
    else showhide cs s

/-- The function `arrangemon` of dwm.c: `layouts[0]` is `tile`, `layouts[1]` is `monocle`,
and the value `~0` of `lt` stands for no layout.  `restack` only talks to the X server. -/
def arrangemon (s : State) (m : Nat) : State :=
  let M := s.monitor m
  let t := montotag M
  if t.lt = 0 then tile (s.setMon m (M.setTag { t with ltsymbol := "[0-0]" })) m
  else if t.lt = 1 then monocle (s.setMon m (M.setTag { t with ltsymbol := "[0]" })) m
  else s

/-- The function `arrange` of dwm.c; `none` is the null argument (all monitors). -/
def arrange (s : State) (m : Option Nat) : State :=
  match m with
  | some m => arrangemon (showhide (s.monitor m).stack s) m
  | none =>
    let s1 := s.mons.foldl (fun s m => showhide (s.monitor m).stack s) s
    s1.mons.foldl arrangemon s1

/-- The function `incnmaster` of dwm.c with `arg->i = i`. -/
def incnmaster (s : State) (i : Int) : State :=
  let M := s.monitor s.selmon
  let t := montotag M
  let n : Int := counttiled s M.clients
  let nm := max (t.nmaster + i) 0
  let nm := min nm n
  arrange (s.setMon s.selmon (M.setTag { t with nmaster := nm })) (some s.selmon)

/-- The function `setmfact` of dwm.c with `arg->f = a`, a finite value.  The sum of two
`float` operands is rounded to `float`, the difference with the `double` constant `1.0` to
`double`, and the assignment to `float f` rounds to `float` (IEEE 754 arithmetic without
excess precision); `f` is then compared with the `double` constants `0.1` and `0.9`. -/
def setmfact (s : State) (a : ℚ) : State :=
  let M := s.monitor s.selmon
  let t := montotag M
  let f := tofloat (if a < 1 then tofloat (a + t.mfact) else todouble (a - 1))
  if f < todouble (1 / 10) ∨ f > todouble (9 / 10) then s
  else arrange (s.setMon s.selmon (M.setTag { t with mfact := f })) (some s.selmon)

/-! ## Client registry and focus -/

/-- The function `attach` of dwm.c. -/
def attach (s : State) (c : Nat) : State :=
  let m := (s.client c).mon
  s.setMon m { s.monitor m with clients := c :: (s.monitor m).clients }

/-- The function `detach` of dwm.c: the first cell of `c->mon->clients` that holds `c`
is unlinked.  (Every call site passes a client of that list.) -/
def detach (s : State) (c : Nat) : State :=
  let m := (s.client c).mon
  s.setMon m { s.monitor m with clients := (s.monitor m).clients.erase c }

/-- The function `attachstack` of dwm.c. -/
def attachstack (s : State) (c : Nat) : State :=
  let m := (s.client c).mon
  s.setMon m { s.monitor m with stack := c :: (s.monitor m).stack }

/-- The walk `for (t = l; t && !ISVISIBLE(t); t = t->snext)` along a focus stack. -/
def firstvisible (s : State) : List Nat → Option Nat
  | [] => none
  | t :: ts => if ISVISIBLE s t then some t else firstvisible s ts

/-- The function `detachstack` of dwm.c. -/
def detachstack (s : State) (c : Nat) : State :=
  let m := (s.client c).mon
  let s1 := s.setMon m { s.monitor m with stack := (s.monitor m).stack.erase c }
  if (s1.monitor m).sel = some c then
    s1.setMon m { s1.monitor m with sel := firstvisible s1 (s1.monitor m).stack }
  else s1

/-- The record part of `clearurgent`. -/
def clearurgent (s : State) (c : Nat) : State :=
  s.setClient c { s.client c with isurgent := false }

/-- The first statement of `focus`: a null or invisible argument is replaced by the first
visible client of the selected monitor's focus stack. -/
def focuscandidate (s : State) (c : Option Nat) : Option Nat :=
  match c with
  | some c => if ISVISIBLE s c then some c else firstvisible s (s.monitor s.selmon).stack
  | none => firstvisible s (s.monitor s.selmon).stack

/-- The function `focus` of dwm.c; `none` is the null argument.  `unfocus`, the button
grabs, the border colour and `setfocus` only talk to the X server. -/
def focus (s : State) (c : Option Nat) : State :=
  match focuscandidate s c with
  | some c =>
    let s1 := if (s.client c).mon ≠ s.selmon then { s with selmon := (s.client c).mon } else s
    let s2 := if (s1.client c).isurgent then clearurgent s1 c else s1
    let s3 := attachstack (detachstack s2 c) c
    s3.setMon s3.selmon { s3.monitor s3.selmon with sel := some c }
  | none => s.setMon s.selmon { s.monitor s.selmon with sel := none }

/-- The function `unmanage` of dwm.c; the freed record stays behind as garbage. -/
def unmanage (s : State) (c : Nat) : State :=
  let m := (s.client c).mon
  arrange (focus (detachstack (detach s c) c) none) (some m)

/-- The function `pop` of dwm.c. -/
def pop (s : State) (c : Nat) : State :=
  let s1 := focus (attach (detach s c) c) (some c)
  arrange s1 (some (s1.client c).mon)

/-- The function `sendmon` of dwm.c. -/
def sendmon (s : State) (c m : Nat) : State :=
  if (s.client c).mon = m then s
  else
    let s1 := detachstack (detach s c) c
    let s2 := s1.setClient c { s1.client c with mon := m, tag := (s1.monitor m).curtag }
    arrange (focus (attachstack (attach s2 c) c) none) none

/-- The function `wintoclient` of dwm.c. -/
def wintoclient (s : State) (w : Nat) : Option Nat :=
  (s.mons.flatMap (fun m => (s.monitor m).clients)).find? (fun c => (s.client c).win == w)

/-- The function `setfullscreen` of dwm.c. -/
def setfullscreen (s : State) (c : Nat) (fullscreen : Bool) : State :=
  let C := s.client c
  if fullscreen then
    let s1 := s.setClient c
      { C with isfullscreen := true, oldstate := C.isfloating, oldbw := C.bw, bw := 0,
               isfloating := true }
    let M := s1.monitor (s1.client c).mon
    resizeclient s1 c M.mx M.my M.mw M.mh
  else
    let s1 := s.setClient c
      { C with isfullscreen := false, isfloating := C.oldstate, bw := C.oldbw,
               x := C.oldx, y := C.oldy, w := C.oldw, h := C.oldh }
    let C1 := s1.client c
    let s2 := resizeclient s1 c C1.x C1.y C1.w C1.h
    arrange s2 (some (s2.client c).mon)

/-! ## Managing a new window -/

/-- The rule record `Rule` of dwm.c; `none` is a null pattern. -/
structure Rule where
  class_ : Option String
  instance_ : Option String
  title : Option String
  tag : Nat
  isfloating : Bool
  monitor : Int

/-- The fields of `XWindowAttributes` that `manage` reads. -/
structure XWindowAttributes where
  x : Int
  y : Int
  width : Int
  height : Int
  border_width : Int

/-- The fields of `XSizeHints` that `updatesizehints` reads; the flags are booleans. -/
structure XSizeHints where
  PBaseSize : Bool
  PMinSize : Bool
  PResizeInc : Bool
  PMaxSize : Bool
  PAspect : Bool
  base_width : Int
  base_height : Int
  min_width : Int
  min_height : Int
  width_inc : Int
  height_inc : Int
  max_width : Int
  max_height : Int
  min_aspect_x : Int
  min_aspect_y : Int
  max_aspect_x : Int
  max_aspect_y : Int

/-- The fields of `XWMHints` that `updatewmhints` reads. -/
structure XWMHints where
  XUrgencyHint : Bool
  InputHint : Bool
  input : Bool

/-- What the X server answers about a window while `manage` runs: the title that
`gettextprop` finds (empty if none), the `WM_TRANSIENT_FOR` window, the class hint, whether
`_NET_WM_STATE` is the fullscreen atom, whether the window type is the dialog atom, the
normal hints and the WM hints (`none` when the property is absent). -/
structure WindowInfo where
  name : String
  trans : Option Nat
  res_class : Option String
  res_name : Option String
  fullscreen : Bool
  dialog : Bool
  size : Option XSizeHints
  wmh : Option XWMHints

/-- The string `broken` of dwm.c. -/
def broken : String := "broken"

/-- The test `strstr(hay, needle) != NULL`. -/
def strstr (hay needle : String) : Bool := decide (List.IsInfix needle.toList hay.toList)

/-- A record as `calloc` returns it. -/
def zeroClient : Client :=
  { name := "", mina := 0, maxa := 0, x := 0, y := 0, w := 0, h := 0, oldx := 0, oldy := 0,
    oldw := 0, oldh := 0, basew := 0, baseh := 0, incw := 0, inch := 0, maxw := 0, maxh := 0,
    minw := 0, minh := 0, bw := 0, oldbw := 0, tag := 0, isfixed := false, isfloating := false,
    isurgent := false, neverfocus := false, oldstate := false, isfullscreen := false,
    mon := 0, win := 0 }

/-- The test of one rule in `applyrules`. -/
def Rule.matches (r : Rule) (name cls inst : String) : Bool :=
  (match r.title with | none => true | some t => strstr name t)
  && (match r.class_ with | none => true | some t => strstr cls t)
  && (match r.instance_ with | none => true | some t => strstr inst t)

/-- The function `applyrules` of dwm.c for the rule table `rules` and the class hint
`(res_class, res_name)` of the window. -/
def applyrules (rules : List Rule) (s : State) (c : Nat) (res_class res_name : Option String) :
    State :=
  let cls := res_class.getD broken
  let inst := res_name.getD broken
  let C0 := { s.client c with isfloating := false, tag := 4294967295 }
  let C1 := rules.foldl (fun (C : Client) r =>
    if r.matches C.name cls inst then
      let C := { C with isfloating := r.isfloating, tag := r.tag }
      match s.mons.find? (fun m => decide ((s.monitor m).num = r.monitor)) with
      | some m => { C with mon := m }
      | none => C
    else C) C0
  s.setClient c (if C1.tag ≥ LENGTH_tags then { C1 with tag := (s.monitor C1.mon).curtag } else C1)

/-- The function `updatesizehints` of dwm.c, on the record. -/
def updatesizehints (C : Client) (size : Option XSizeHints) : Client :=
  let z : XSizeHints := ⟨false, false, false, false, false, 0, 0, 0, 0, 0, 0, 0, 0, 0, 0, 0, 0⟩
  let sz := size.getD z
  let C := if sz.PBaseSize then { C with basew := sz.base_width, baseh := sz.base_height }
           else if sz.PMinSize then { C with basew := sz.min_width, baseh := sz.min_height }
           else { C with basew := 0, baseh := 0 }
  let C := if sz.PResizeInc then { C with incw := sz.width_inc, inch := sz.height_inc }
           else { C with incw := 0, inch := 0 }
  let C := if sz.PMaxSize then { C with maxw := sz.max_width, maxh := sz.max_height }
           else { C with maxw := 0, maxh := 0 }
  let C := if sz.PMinSize then { C with minw := sz.min_width, minh := sz.min_height }
           else if sz.PBaseSize then { C with minw := sz.base_width, minh := sz.base_height }
           else { C with minw := 0, minh := 0 }
  let C := if sz.PAspect then
             { C with mina := fltquot sz.min_aspect_y sz.min_aspect_x,
                      maxa := fltquot sz.max_aspect_x sz.max_aspect_y }
           else { C with maxa := 0, mina := 0 }
  { C with isfixed := decide (C.maxw ≠ 0 ∧ C.minw ≠ 0 ∧ C.maxh ≠ 0 ∧ C.minh ≠ 0
                              ∧ C.maxw = C.minw ∧ C.maxh = C.minh) }

/-- The function `updatewmhints` of dwm.c. -/
def updatewmhints (s : State) (c : Nat) (wmh : Option XWMHints) : State :=
  match wmh with
  | none => s
  | some hints =>
    let C := s.client c
    let C := if (s.monitor s.selmon).sel = some c ∧ hints.XUrgencyHint = true then C
             else { C with isurgent := hints.XUrgencyHint }
    s.setClient c { C with neverfocus := if hints.InputHint then !hints.input else false }

/-- The function `updatewindowtype` of dwm.c. -/
def updatewindowtype (s : State) (c : Nat) (fullscreen dialog : Bool) : State :=
  let s1 := if fullscreen then setfullscreen s c true else s
  if dialog then s1.setClient c { s1.client c with isfloating := true } else s1

/-- The first part of `manage`: the new record at address `c` with its window and title,
and its monitor and tag, from the client the window is transient for or else from the
selected monitor and the rules. -/
def managenew (rules : List Rule) (s : State) (c w : Nat) (info : WindowInfo) : State :=
  let C0 := { zeroClient with win := w,
                              name := if info.name = "" then broken else info.name }
  let t := match info.trans with
    | some tw => wintoclient s tw
    | none => none
  match t with
  | some t => s.setClient c { C0 with mon := (s.client t).mon, tag := (s.client t).tag }
  | none => applyrules rules (s.setClient c { C0 with mon := s.selmon }) c
              info.res_class info.res_name

/-- The geometry part of `manage`: the window attributes are stored, the client is moved
inside its monitor and given the configured border width. -/
def managegeometry (s : State) (c : Nat) (wa : XWindowAttributes) : State :=
  let C : Client :=
    { s.client c with x := wa.x, oldx := wa.x, y := wa.y, oldy := wa.y, w := wa.width,
                      oldw := wa.width, h := wa.height, oldh := wa.height,
                      oldbw := wa.border_width }
  let M : Monitor := s.monitor C.mon
  let C : Client :=
    if C.x + WIDTH C > M.mx + M.mw then { C with x := M.mx + M.mw - WIDTH C } else C
  let C : Client :=
    if C.y + HEIGHT C > M.my + M.mh then { C with y := M.my + M.mh - HEIGHT C } else C
  let C : Client := { C with x := max C.x M.mx }
  -- only fix client y-offset, if the client center might cover the bar
  let ylow : Int :=
    if M.bary = M.my ∧ C.x + C.w.tdiv 2 ≥ M.wx ∧ C.x + C.w.tdiv 2 < M.wx + M.ww then s.bh
    else M.my
  let C : Client := { C with y := max C.y ylow }
  s.setClient c { C with bw := borderpx }

/-- The part of `manage` that reads the window type, the size hints and the WM hints and
settles the floating flag. -/
def manageprops (s : State) (c : Nat) (info : WindowInfo) : State :=
  let s2 := updatewindowtype s c info.fullscreen info.dialog
  let s3 := s2.setClient c (updatesizehints (s2.client c) info.size)
  let s4 := updatewmhints s3 c info.wmh
  let C4 := s4.client c
  let fl := decide (info.trans ≠ none) || C4.isfixed
  if C4.isfloating then s4
  else s4.setClient c { C4 with isfloating := fl, oldstate := fl }

/-- The function `manage` of dwm.c for the window `w`; `c` is the address that `calloc`
returns for the new record. -/
def manage (rules : List Rule) (s : State) (c w : Nat) (wa : XWindowAttributes)
    (info : WindowInfo) : State :=
  let s5 := manageprops (managegeometry (managenew rules s c w info) c wa) c info
  let s6 := attachstack (attach s5 c) c
  let m := (s6.client c).mon
  let s7 := s6.setMon m { s6.monitor m with sel := some c }
  focus (arrange s7 (some m)) none

/-! ## Multi-output reconciliation -/

/-- The record `XineramaScreenInfo`. -/
structure XineramaScreenInfo where
  screen_number : Int
  x_org : Int
  y_org : Int
  width : Int
  height : Int
deriving DecidableEq, Repr

/-- The function `isuniquegeom` of dwm.c: `unique[n-1]`, ..., `unique[0]` are compared
with `info`.  (The caller never passes an `n` beyond the cells it has written.) -/
def isuniquegeom (unique : List XineramaScreenInfo) : Nat → XineramaScreenInfo → Bool
  | 0, _ => true
  | n + 1, info =>
    match unique[n]? with
    | some u =>
      if u.x_org = info.x_org ∧ u.y_org = info.y_org ∧ u.width = info.width
          ∧ u.height = info.height then false
      else isuniquegeom unique n info
    | none => isuniquegeom unique n info

/-- The loop of `updategeom` that copies the unique geometries: `unique` holds the `j`
cells written so far. -/
def uniquegeoms (info : List XineramaScreenInfo) : List XineramaScreenInfo :=
  info.foldl (fun unique x => if isuniquegeom unique unique.length x then unique ++ [x]
                              else unique) []

/-- The function `createtag` of dwm.c. -/
def createtag : Tag := { lt := 0, ltsymbol := "[0-0]", mfact := mfact, nmaster := nmaster }

/-- The function `createmon` of dwm.c; the cells of `tags` from `LENGTH(tags)` on stay
null, which is a record of zeros here. -/
def createmon : Monitor :=
  { num := 0, mx := 0, my := 0, mw := 0, mh := 0, wx := 0, wy := 0, ww := 0, wh := 0,
    seltag := 0, tag0 := 0, tag1 := 0,
    tags := fun i => if i < LENGTH_tags then createtag
                     else { lt := 0, ltsymbol := "", mfact := 0, nmaster := 0 },
    clients := [], sel := none, stack := [], bary := 0, showbar := showbar }

/-- The function `updatebarpos` of dwm.c. -/
def updatebarpos (bh : Int) (m : Monitor) : Monitor :=
  let m1 := { m with wy := m.my, wh := m.mh }
  if m1.showbar then { m1 with wh := m1.wh - bh, bary := m1.wy, wy := m1.wy + bh }
  else { m1 with bary := -bh }

/-- The macro `INTERSECT(x,y,w,h,m)`. -/
def INTERSECT (x y w h : Int) (m : Monitor) : Int :=
  max 0 (min (x + w) (m.wx + m.ww) - max x m.wx)
    * max 0 (min (y + h) (m.wy + m.wh) - max y m.wy)

/-- The function `recttomon` of dwm.c. -/
def recttomon (s : State) (x y w h : Int) : Nat :=
  (s.mons.foldl (fun (ra : Nat × Int) m =>
      if INTERSECT x y w h (s.monitor m) > ra.2 then (m, INTERSECT x y w h (s.monitor m))
      else ra) (s.selmon, 0)).1

/-- The address `calloc` hands to `createmon`: one that is not in the chain, and not
the null address 0. -/
def freshmon (s : State) : Nat := s.mons.foldl (fun b a => max b (a + 1)) 1

/-- The loop of `updategeom` that links `k` new monitors at the tail of the chain. -/
def addmons : Nat → State → State
  | 0, s => s
  | k + 1, s => addmons k ({ s with mons := s.mons ++ [freshmon s] }.setMon (freshmon s) createmon)

/-- The loop `for (i = 0, m = mons; i < nn && m; m = m->next, i++)` of `updategeom`, from
position `i` on, with the flag `dirty`. -/
def setgeoms (n : Nat) : List Nat → List XineramaScreenInfo → Nat → State × Bool → State × Bool
  | m :: ms, u :: us, i, (s, dirty) =>
    let M := s.monitor m
    if i ≥ n ∨ u.x_org ≠ M.mx ∨ u.y_org ≠ M.my ∨ u.width ≠ M.mw ∨ u.height ≠ M.mh then
      setgeoms n ms us (i + 1)
        (s.setMon m (updatebarpos s.bh
          { M with num := i, mx := u.x_org, wx := u.x_org, my := u.y_org, wy := u.y_org,
                   mw := u.width, ww := u.width, mh := u.height, wh := u.height }), true)
    else setgeoms n ms us (i + 1) (s, dirty)
  | _, _, _, r => r

/-- The loop `while (m->clients)` of `updategeom`, at most `fuel` rounds of it. -/
def migrate (m : Nat) : Nat → State → State
  | 0, s => s
  | fuel + 1, s =>
    match (s.monitor m).clients with
    | [] => s
    | c :: rest =>
      let s1 := detachstack (s.setMon m { s.monitor m with clients := rest }) c
      let s2 := s1.setClient c { s1.client c with mon := s1.mons.headD 0 }
      migrate m fuel (attachstack (attach s2 c) c)

/-- The function `cleanupmon` of dwm.c: the monitor is unlinked from the chain. -/
def cleanupmon (s : State) (mon : Nat) : State := { s with mons := s.mons.erase mon }

/-- The loop `for (i = nn; i < n; i++)` of `updategeom`, `k` rounds of it.  The result is
`none` when the inner `while` loop cannot end: the last monitor of the chain is also the
first and owns a client, so that every client it hands over comes back to it. -/
def removemons : Nat → State × Bool → Option (State × Bool)
  | 0, r => some r
  | k + 1, (s, dirty) =>
    match s.mons.getLast? with
    | none => none
    | some m =>
      if s.mons.head? = some m ∧ (s.monitor m).clients ≠ [] then none
      else
        let s1 := migrate m (s.monitor m).clients.length s
        let s2 := if m = s1.selmon then { s1 with selmon := s1.mons.headD 0 } else s1
        removemons k (cleanupmon s2 m, dirty || !(s.monitor m).clients.isEmpty)

/-- The call `wintomon(root)` at the end of `updategeom`; `ptr` is what `getrootptr`
reports (`none` when the query fails). -/
def wintomonroot (s : State) (ptr : Option (Int × Int)) : Nat :=
  match ptr with
  | some (x, y) => recttomon s x y 1 1
  | none => s.selmon

/-- The end of `updategeom`: `if (dirty) { selmon = mons; selmon = wintomon(root); }`
and the return of `dirty`. -/
def updategeomend (ptr : Option (Int × Int)) (sd : State × Bool) : State × Bool :=
  if sd.2 then
    ({ sd.1 with selmon := wintomonroot { sd.1 with selmon := sd.1.mons.headD 0 } ptr }, true)
  else sd

/-- The function `updategeom` of dwm.c.  `xinerama` is `none` when Xinerama is not
active and else the screens `XineramaQueryScreens` reports. -/
def updategeom (s : State) (xinerama : Option (List XineramaScreenInfo))
    (ptr : Option (Int × Int)) : Option (State × Bool) :=
  let r : Option (State × Bool) :=
    match xinerama with
    | some info =>
      let n := s.mons.length
      -- only consider unique geometries as separate screens
      let unique := uniquegeoms info
      let nn := unique.length
      if n ≤ nn then
        -- new monitors available
        let s1 := addmons (nn - n) s
        some (setgeoms n s1.mons unique 0 (s1, false))
      else
        -- less monitors available nn < n
        removemons (n - nn) (s, false)
    | none =>
      -- default monitor setup
      let s1 := if s.mons = [] then addmons 1 s else s
      let m := s1.mons.headD 0
      let M := s1.monitor m
      if M.mw ≠ s1.sw ∨ M.mh ≠ s1.sh then
        some (s1.setMon m (updatebarpos s1.bh
          { M with mw := s1.sw, ww := s1.sw, mh := s1.sh, wh := s1.sh }), true)
      else some (s1, false)
  r.map (updategeomend ptr)

/-! ## Tags, views and client messages -/

/-- A write to the cell `m->tag[m->seltag]`. -/
def Monitor.setcurtag (m : Monitor) (t : Nat) : Monitor :=
  if m.seltag = 0 then { m with tag0 := t } else { m with tag1 := t }

/-- The statement `m->seltag ^= 1`. -/
def Monitor.fliptag (m : Monitor) : Monitor := { m with seltag := m.seltag ^^^ 1 }

/-- The function `view` of dwm.c with `arg->ui = ui`. -/
def view (s : State) (ui : Nat) : State :=
  let M := s.monitor s.selmon
  if ui = M.curtag then s
  else
    let M1 := M.fliptag
    let M2 := if ui < LENGTH_tags then M1.setcurtag ui else M1
    let s1 := focus (s.setMon s.selmon M2) none
    arrange s1 (some s1.selmon)

/-- The function `cycleview` of dwm.c with `arg->i = i`. -/
def cycleview (s : State) (i : Int) : State :=
  let M := s.monitor s.selmon
  let newtag : Int := toI M.curtag + i
  let newtag : Int := if newtag < 0 then (LENGTH_tags : Int) - 1 else newtag
  let newtag : Int := if newtag ≥ (LENGTH_tags : Int) then 0 else newtag
  let s1 := focus (s.setMon s.selmon (M.fliptag.setcurtag (toU newtag))) none
  arrange s1 (some s1.selmon)

/-- The function `tag` of dwm.c with `arg->ui = ui`. -/
def tag (s : State) (ui : Nat) : State :=
  match (s.monitor s.selmon).sel with
  | some c =>
    if ui < LENGTH_tags then
      let s1 := focus (s.setClient c { s.client c with tag := ui }) none
      arrange s1 (some s1.selmon)
    else s
  | none => s

/-- The atom in `message_type` of a client message, as far as `clientmessage` tells it
apart. -/
inductive MessageType where
  | NetWMState
  | NetActiveWindow
  | other
deriving DecidableEq, Repr

/-- The fields of `XClientMessageEvent` that `clientmessage` reads; `fullscreen` tells
whether `data.l[1]` or `data.l[2]` is the atom `_NET_WM_STATE_FULLSCREEN`. -/
structure XClientMessageEvent where
  window : Nat
  message_type : MessageType
  l0 : Int
  fullscreen : Bool

/-- The function `clientmessage` of dwm.c. -/
def clientmessage (s : State) (cme : XClientMessageEvent) : State :=
  match wintoclient s cme.window with
  | none => s
  | some c =>
    match cme.message_type with
    | MessageType.NetWMState =>
      if cme.fullscreen then
        setfullscreen s c
          (decide (cme.l0 = 1) || (decide (cme.l0 = 2) && !(s.client c).isfullscreen))
      else s
    | MessageType.NetActiveWindow =>
      let s1 := if !ISVISIBLE s c then
          let m := (s.client c).mon
          s.setMon m ((s.monitor m).fliptag.setcurtag (s.client c).tag)
        else s
      pop s1 c
    | MessageType.other => s

/-! ## Interactive move -/

/-- The C library function `abs`. -/
def iabs (a : Int) : Int := if a < 0 then -a else a

/-- The function `togglefloating` of dwm.c. -/
def togglefloating (s : State) : State :=
  match (s.monitor s.selmon).sel with
  | none => s
  | some c =>
    let C := s.client c
    let s1 := s.setClient c { C with isfloating := !C.isfloating || C.isfixed }
    let C1 := s1.client c
    let s2 := if C1.isfloating then resize s1 c C1.x C1.y C1.w C1.h false else s1
    arrange s2 (some s2.selmon)

/-- The snap tests of `mousemove` for the dragged client `c`: the candidate position
`(nx, ny)` after the tests against the edges of the work area of the selected monitor. -/
def mousemovesnap (s : State) (c : Nat) (nx ny : Int) : Int × Int :=
  let M := s.monitor s.selmon
  let C := s.client c
  let nx1 :=
    if iabs (M.wx - nx) < snap then M.wx
    else if iabs ((M.wx + M.ww) - (nx + WIDTH C)) < snap then M.wx + M.ww - WIDTH C
    else nx
  let ny1 :=
    if iabs (M.wy - ny) < snap then M.wy
    else if iabs ((M.wy + M.wh) - (ny + HEIGHT C)) < snap then M.wy + M.wh - HEIGHT C
    else ny
  (nx1, ny1)

/-- The case `MotionNotify` of the loop of `mousemove` (past the rate limit) for the
dragged client `c`: `(ocx, ocy)` is the position of the client and `(x, y)` that of the
pointer when the drag began, `(evx, evy)` the pointer position of the event. -/
def mousemovemotion (s : State) (c : Nat) (ocx ocy x y evx evy : Int) : State :=
  let nx := ocx + (evx - x)
  let ny := ocy + (evy - y)
  let M := s.monitor s.selmon
  if nx ≥ M.wx ∧ nx ≤ M.wx + M.ww ∧ ny ≥ M.wy ∧ ny ≤ M.wy + M.wh then
    let p := mousemovesnap s c nx ny
    let s1 :=
      if (s.client c).isfloating = false
          ∧ (iabs (p.1 - (s.client c).x) > snap ∨ iabs (p.2 - (s.client c).y) > snap)
      then togglefloating s else s
    if (s1.client c).isfloating then resize s1 c p.1 p.2 (s1.client c).w (s1.client c).h true
    else s1
  else
    if (s.client c).isfloating then resize s c nx ny (s.client c).w (s.client c).h true
    else s

/-! ## Properties, scenarios and auxiliary definitions -/

/-- The position that `applysizehints` computes along one axis: `p` and `d` are the
proposed position and extent, `W` the stored outer extent of the client, `s` the display
extent and `lo`, `len` the work area along that axis. -/
def clampPos (i : Bool) (s lo len W bw p d : Int) : Int :=
  let p1 := if i then (if p > s then s - W else p)
            else (if p ≥ lo + len then lo + len - W else p)
  if i then (if p1 + max 1 d + 2 * bw < 0 then 0 else p1)
  else (if p1 + max 1 d + 2 * bw ≤ lo then lo else p1)

/-- The property of claim C1 at one input: resolving the output again, for the client
that has received it, returns the same rectangle and reports no change. -/
def IdempotentAt (sw sh bh : Int) (m : Monitor) (c : Client) (x y w h : Int) (i : Bool) : Prop :=
  applysizehints sw sh bh m
      (c.resized (applysizehints sw sh bh m c x y w h i).x (applysizehints sw sh bh m c x y w h i).y
        (applysizehints sw sh bh m c x y w h i).w (applysizehints sw sh bh m c x y w h i).h)
      (applysizehints sw sh bh m c x y w h i).x (applysizehints sw sh bh m c x y w h i).y
      (applysizehints sw sh bh m c x y w h i).w (applysizehints sw sh bh m c x y w h i).h i
    = { applysizehints sw sh bh m c x y w h i with changed := false }

/-- The number of pixels two rectangles share. -/
def overlapArea (x y w h X Y W H : Int) : Int :=
  max 0 (min (x + w) (X + W) - max x X) * max 0 (min (y + h) (Y + H) - max y Y)

/-- The property of claim C9 at one input. -/
def OnScreenAt (sw sh bh : Int) (m : Monitor) (c : Client) (x y w h : Int) (i : Bool) : Prop :=
  let r := applysizehints sw sh bh m c x y w h i
  if i then 0 < overlapArea r.x r.y (r.w + 2 * c.bw) (r.h + 2 * c.bw) 0 0 sw sh
  else 0 < overlapArea r.x r.y (r.w + 2 * c.bw) (r.h + 2 * c.bw) m.wx m.wy m.ww m.wh

/-- A client record with its geometry blanked. -/
def Client.geomless (c : Client) : Client :=
  { c with x := 0, y := 0, w := 0, h := 0, oldx := 0, oldy := 0, oldw := 0, oldh := 0 }

/-- A monitor record with the label, fraction and master count of every tag blanked. -/
def Monitor.layoutless (m : Monitor) : Monitor :=
  { m with tags := fun i => { m.tags i with ltsymbol := "", mfact := 0, nmaster := 0 } }

/-- The second state differs from the first at most in client geometry and in the label,
fraction and master count of tags. -/
def Frame (s s' : State) : Prop :=
  s'.sw = s.sw ∧ s'.sh = s.sh ∧ s'.bh = s.bh ∧ s'.mons = s.mons ∧ s'.selmon = s.selmon
    ∧ (∀ m, (s'.monitor m).layoutless = (s.monitor m).layoutless)
    ∧ (∀ c, (s'.client c).geomless = (s.client c).geomless)

/-- The master count of the active tag of the selected monitor. -/
def nmasterOf (s : State) : Int := (montotag (s.monitor s.selmon)).nmaster

/-- The master fraction of the active tag of the selected monitor. -/
def mfactOf (s : State) : ℚ := (montotag (s.monitor s.selmon)).mfact

/-- The number of tiled clients on the selected monitor. -/
def ntiled (s : State) : Nat := counttiled s (s.monitor s.selmon).clients

/-- The layout index of the active tag of the selected monitor. -/
def layoutOf (s : State) : Nat := (montotag (s.monitor s.selmon)).lt

/-- The property of claim C3 for one call: afterwards the master count is the clamped
sum, and so lies between 0 and the number of tiled clients. -/
def ClampedAfter (s : State) (i : Int) : Prop :=
  nmasterOf (incnmaster s i) = min (max (nmasterOf s + i) 0) (ntiled (incnmaster s i))
    ∧ 0 ≤ nmasterOf (incnmaster s i) ∧ nmasterOf (incnmaster s i) ≤ ntiled (incnmaster s i)

/-- One monitor as `createmon` builds it, 1280x800 with the bar (20 pixels) shown, and no
client. -/
def bareMonitor : Monitor :=
  { createmon with mw := 1280, mh := 800, ww := 1280, wh := 780, wy := 20 }

/-- A state of one monitor and no client. -/
def bareState : State :=
  { sw := 1280, sh := 800, bh := 20, mons := [0], monitor := fun _ => bareMonitor, selmon := 0,
    client := fun _ => zeroClient }

/-- The state `bareState` with one tiled client (address 1, tag 0) on its monitor. -/
def oneClientState : State :=
  { bareState with
      monitor := fun _ => { bareMonitor with clients := [1], stack := [1], sel := some 1 },
      client := fun _ => { zeroClient with w := 100, h := 100, bw := 1 } }

/-- The size-hint arithmetic of `applysizehints` along one axis when no aspect bound
applies: remove the base, cut down to a multiple of the increment, restore the base, then
apply the minimum and the maximum. -/
def hintDim (base inc lo hi v : Int) : Int :=
  let v1 := v - base
  let v2 := if inc ≠ 0 then v1 - v1.tmod inc else v1
  let v3 := max (v2 + base) lo
  if hi ≠ 0 then min v3 hi else v3

/-- The floating client of Scenario B: base size (5,5), increment (10,10). -/
def scenarioB : Client :=
  { zeroClient with
      isfloating := true, basew := 5, baseh := 5, incw := 10, inch := 10, w := 300, h := 300 }

/-- The property of claim C8 at one input. -/
def MinSizeAt (sw sh bh : Int) (m : Monitor) (c : Client) (x y w h : Int) (i : Bool) : Prop :=
  1 ≤ (applysizehints sw sh bh m c x y w h i).w ∧ bh ≤ (applysizehints sw sh bh m c x y w h i).w
    ∧ 1 ≤ (applysizehints sw sh bh m c x y w h i).h
    ∧ bh ≤ (applysizehints sw sh bh m c x y w h i).h

/-- A floating client whose size hints set a maximum width of 10. -/
def narrowClient : Client :=
  { zeroClient with isfloating := true, maxw := 10, w := 10, h := 100 }

/-- A tiled client with a border of one pixel. -/
def tiledClient : Client := { zeroClient with w := 100, h := 100, bw := 1 }

/-- The members of a column of `d` clients that share `R` pixels from `y` downward, as
pairs of start and outer height: each member takes the remaining height divided by the
remaining count and the next one starts where it ends. -/
def column (y : Int) (R : Nat) : Nat → List (Int × Int)
  | 0 => []
  | d + 1 => (y, ((R / (d + 1) : Nat) : Int))
      :: column (y + ((R / (d + 1) : Nat) : Int)) (R - R / (d + 1)) d

/-- The tiled clients of a client list, in list order: what the walk with `nexttiled`
enumerates. -/
def tiledclients (s : State) (l : List Nat) : List Nat :=
  l.filter (fun c => !((s.client c).isfloating || !ISVISIBLE s c))

/-- Start and outer height of a client. -/
def vgeom (s : State) (c : Nat) : Int × Int := ((s.client c).y, HEIGHT (s.client c))

/-- The number of master-column members of monitor `m`: `min(n, nmaster)`. -/
def mastercnt (s : State) (m : Nat) : Nat :=
  min (counttiled s (s.monitor m).clients) (montotag (s.monitor m)).nmaster.toNat

/-- The master column of monitor `m`: its first `mastercnt` tiled clients. -/
def masters (s : State) (m : Nat) : List Nat :=
  (tiledclients s (s.monitor m).clients).take (mastercnt s m)

/-- The stack column of monitor `m`: its tiled clients after the master column. -/
def stackers (s : State) (m : Nat) : List Nat :=
  (tiledclients s (s.monitor m).clients).drop (mastercnt s m)

/-- The property of claim C5 for one run of `tile`: each non-empty column fills the
work-area height exactly and its members follow one another without gap or overlap. -/
def HeightsConserved (s : State) (m : Nat) : Prop :=
  ((masters s m ≠ [] →
      ((masters s m).map (fun c => HEIGHT ((tile s m).client c))).sum = (s.monitor m).wh)
    ∧ (stackers s m ≠ [] →
      ((stackers s m).map (fun c => HEIGHT ((tile s m).client c))).sum = (s.monitor m).wh))
  ∧ (∀ (j : Nat) (hj : j < (masters s m).length),
      ((tile s m).client ((masters s m).get ⟨j, hj⟩)).y
        = (s.monitor m).wy
          + (((masters s m).take j).map (fun c => HEIGHT ((tile s m).client c))).sum)
  ∧ (∀ (j : Nat) (hj : j < (stackers s m).length),
      ((tile s m).client ((stackers s m).get ⟨j, hj⟩)).y
        = (s.monitor m).wy
          + (((stackers s m).take j).map (fun c => HEIGHT ((tile s m).client c))).sum)

/-- Forty tiled clients (addresses 1 to 40, border 1) on the 1280x800 monitor, whose
active tag has no master slot. -/
def crowdedState : State :=
  { bareState with
      monitor := fun _ =>
        { bareMonitor with
            clients := List.range' 1 40, stack := List.range' 1 40, sel := some 1,
            tags := fun _ => { createtag with nmaster := 0 } },
      client := fun _ => { zeroClient with w := 100, h := 100, bw := 1 } }

/-- The preconditions under which `tile` conserves heights on monitor `m`: the tiled
clients are distinct records owned by `m` with a non-negative border, the work area and
the master count are non-negative and within `int` range, and for every member of a
column the floor share of that column leaves at least `max 1 bh` inside the border. -/
def TileFits (s : State) (m : Nat) : Prop :=
  (tiledclients s (s.monitor m).clients).Nodup
  ∧ (∀ c ∈ tiledclients s (s.monitor m).clients, (s.client c).mon = m ∧ 0 ≤ (s.client c).bw)
  ∧ 0 ≤ (montotag (s.monitor m)).nmaster ∧ (montotag (s.monitor m)).nmaster < 2147483648
  ∧ 0 ≤ (s.monitor m).wh ∧ (s.monitor m).wh < 2147483648
  ∧ -2147483648 ≤ (s.monitor m).wy ∧ (s.monitor m).wy + (s.monitor m).wh < 2147483648
  ∧ (∀ c ∈ masters s m,
      max 1 s.bh + 2 * (s.client c).bw ≤ (s.monitor m).wh / ((masters s m).length : Int))
  ∧ (∀ c ∈ stackers s m,
      max 1 s.bh + 2 * (s.client c).bw ≤ (s.monitor m).wh / ((stackers s m).length : Int))

/-- Scenario A: three tiled clients (addresses 1, 2, 3, border 1) on the 1280x800
monitor with the bar shown, master count 1 and master fraction 0.5. -/
def scenarioA : State :=
  { bareState with
      monitor := fun _ =>
        { bareMonitor with clients := [1, 2, 3], stack := [1, 2, 3], sel := some 1 },
      client := fun _ => { zeroClient with w := 100, h := 100, bw := 1 } }

/-- The width `mw` of the master column that `tile` computes for monitor `m`. -/
def masterwidth (s : State) (m : Nat) : Nat :=
  if counttiled s (s.monitor m).clients > toU (montotag (s.monitor m)).nmaster then
    (if (montotag (s.monitor m)).nmaster ≠ 0
     then toU (ftoi (tofloat
            (itof (s.monitor m).ww * (montotag (s.monitor m)).mfact))) else 0)
  else toU (s.monitor m).ww

/-- Position and outer width of a client. -/
def hgeom (s : State) (c : Nat) : Int × Int := ((s.client c).x, WIDTH (s.client c))

/-- The preconditions under which `tile` gives the columns of monitor `m` their widths
unclamped: distinct tiled clients owned by `m` with a non-negative border, a master count
and a work area within `int` range, and column widths that leave at least `max 1 bh`
inside every border. -/
def TileWide (s : State) (m : Nat) : Prop :=
  (tiledclients s (s.monitor m).clients).Nodup
  ∧ (∀ c ∈ tiledclients s (s.monitor m).clients, (s.client c).mon = m ∧ 0 ≤ (s.client c).bw)
  ∧ 0 ≤ (montotag (s.monitor m)).nmaster ∧ (montotag (s.monitor m)).nmaster < 2147483648
  ∧ (tiledclients s (s.monitor m).clients).length < 4294967296
  ∧ -2147483648 ≤ (s.monitor m).wx ∧ (s.monitor m).wx + (s.monitor m).ww < 2147483648
  ∧ 0 < (s.monitor m).ww ∧ (s.monitor m).ww < 2147483648
  ∧ (masterwidth s m : Int) ≤ (s.monitor m).ww
  ∧ (∀ c ∈ masters s m, max 1 s.bh + 2 * (s.client c).bw ≤ (masterwidth s m : Int))
  ∧ (∀ c ∈ stackers s m,
      max 1 s.bh + 2 * (s.client c).bw ≤ (s.monitor m).ww - (masterwidth s m : Int))

/-- The outer rectangle of a client: position, and size with the border on both sides. -/
def outerRect (s : State) (c : Nat) : Int × Int × Int × Int :=
  ((s.client c).x, (s.client c).y, WIDTH (s.client c), HEIGHT (s.client c))

/-- The setting of Scenario A on monitor `m`: work area (0, 20, 1280, 780), master count
1, master fraction 0.5 and exactly the three tiled clients `a`, `b`, `c` in list order,
each owned by `m` with a border that leaves room in a share of 390. -/
def IsScenarioA (s : State) (m a b c : Nat) : Prop :=
  (s.monitor m).wx = 0 ∧ (s.monitor m).wy = 20 ∧ (s.monitor m).ww = 1280
  ∧ (s.monitor m).wh = 780
  ∧ (montotag (s.monitor m)).nmaster = 1 ∧ (montotag (s.monitor m)).mfact = 1 / 2
  ∧ tiledclients s (s.monitor m).clients = [a, b, c] ∧ [a, b, c].Nodup
  ∧ ∀ c' ∈ [a, b, c], (s.client c').mon = m ∧ 0 ≤ (s.client c').bw
      ∧ max 1 s.bh + 2 * (s.client c').bw ≤ 390

/-- The property of claim C6 as the spec states it. -/
def ScenarioAClaim (s : State) (m a b c : Nat) : Prop :=
  outerRect (tile s m) a = (0, 20, 640, 780)
  ∧ outerRect (tile s m) b = (640, 20, 640, 390)
  ∧ outerRect (tile s m) c = (640, 410, 640, 370)

/-- Origin and size of a reported screen. -/
def XineramaScreenInfo.geom (i : XineramaScreenInfo) : Int × Int × Int × Int :=
  (i.x_org, i.y_org, i.width, i.height)

/-- One round of the copying loop of `updategeom`. -/
def uniquestep (unique : List XineramaScreenInfo) (x : XineramaScreenInfo) :
    List XineramaScreenInfo :=
  if isuniquegeom unique unique.length x then unique ++ [x] else unique

/-- The property of claim C10 for one list of reported screens. -/
def DedupSpec (info : List XineramaScreenInfo) : Prop :=
  (uniquegeoms info).Sublist info
  ∧ ((uniquegeoms info).map XineramaScreenInfo.geom).Nodup
  ∧ (∀ x ∈ info, x.geom ∈ (uniquegeoms info).map XineramaScreenInfo.geom)
  ∧ (∀ u ∈ uniquegeoms info, info.find? (fun x => decide (x.geom = u.geom)) = some u)
  ∧ (uniquegeoms info).length = ((info.map XineramaScreenInfo.geom).dedup).length

/-- The clients that are managed: those in the client list of a monitor of the chain. -/
def managed (s : State) : List Nat := s.mons.flatMap (fun m => (s.monitor m).clients)

/-- The registry invariant: the chain has no repeated monitor and holds the selected
monitor; every monitor of the chain has a client list without repetition, a focus stack
that is a permutation of it, and is the `mon` of each of its clients. -/
def RegistryInv (s : State) : Prop :=
  s.mons.Nodup ∧ s.selmon ∈ s.mons
  ∧ ∀ m ∈ s.mons, (s.monitor m).clients.Nodup
      ∧ (s.monitor m).stack.Perm (s.monitor m).clients
      ∧ ∀ c ∈ (s.monitor m).clients, (s.client c).mon = m

/-- The registry invariant, with the client `c` in no list of the chain. -/
def AbsentInv (s : State) (c : Nat) : Prop :=
  RegistryInv s ∧ ∀ m ∈ s.mons, c ∉ (s.monitor m).clients

/-- Two states with the same chain, selection of monitor, lists and `mon` references. -/
def SameReg (s s' : State) : Prop :=
  s'.mons = s.mons ∧ s'.selmon = s.selmon
  ∧ (∀ m, (s'.monitor m).clients = (s.monitor m).clients
      ∧ (s'.monitor m).stack = (s.monitor m).stack)
  ∧ ∀ c, (s'.client c).mon = (s.client c).mon

/-- The client `c` is in no list, the invariant holds, and `c->mon` is in the chain. -/
def Pending (s : State) (c : Nat) : Prop := AbsentInv s c ∧ (s.client c).mon ∈ s.mons

/-- The registry property of one state: the chain names no monitor twice; every managed
client has its `mon` in the chain, sits exactly once in the client list and exactly once
in the focus stack of that monitor and in neither list of any other monitor of the chain;
the focus stack of every monitor of the chain is a permutation of its client list. -/
def RegistryHolds (s : State) : Prop :=
  s.mons.Nodup
  ∧ (∀ c ∈ managed s,
      (s.client c).mon ∈ s.mons
      ∧ (s.monitor (s.client c).mon).clients.count c = 1
      ∧ (s.monitor (s.client c).mon).stack.count c = 1
      ∧ ∀ m ∈ s.mons, m ≠ (s.client c).mon →
          c ∉ (s.monitor m).clients ∧ c ∉ (s.monitor m).stack)
  ∧ ∀ m ∈ s.mons, (s.monitor m).stack.Perm (s.monitor m).clients

/-- The states the window manager reaches.  It starts with a chain of monitors that hold
no client.  `manage` is run on a fresh record, `pop`, `focus` and the detach/attach pairs
on managed clients, `sendmon` towards a monitor of the chain; `updategeom` is a step when
it returns and Xinerama, if active, reports at least one screen. -/
inductive Reachable (rules : List Rule) : State → Prop
  | start (s : State) : s.mons.Nodup → s.selmon ∈ s.mons →
      (∀ m ∈ s.mons, (s.monitor m).clients = [] ∧ (s.monitor m).stack = []) → Reachable rules s
  | manage (s : State) (c w : Nat) (wa : XWindowAttributes) (info : WindowInfo) :
      Reachable rules s → c ∉ managed s → Reachable rules (Dwm.manage rules s c w wa info)
  | unmanage (s : State) (c : Nat) : Reachable rules s → Reachable rules (Dwm.unmanage s c)
  | sendmon (s : State) (c m : Nat) :
      Reachable rules s → m ∈ s.mons → Reachable rules (Dwm.sendmon s c m)
  | pop (s : State) (c : Nat) :
      Reachable rules s → c ∈ managed s → Reachable rules (Dwm.pop s c)
  | focus (s : State) (c : Option Nat) :
      Reachable rules s → (∀ t, c = some t → t ∈ managed s) → Reachable rules (Dwm.focus s c)
  | reattach (s : State) (c : Nat) :
      Reachable rules s → c ∈ managed s → Reachable rules (attach (detach s c) c)
  | reattachstack (s : State) (c : Nat) :
      Reachable rules s → c ∈ managed s → Reachable rules (attachstack (detachstack s c) c)
  | updategeom (s : State) (xin : Option (List XineramaScreenInfo)) (ptr : Option (Int × Int))
      (t : State) (d : Bool) :
      Reachable rules s → xin ≠ some [] → Dwm.updategeom s xin ptr = some (t, d) →
      Reachable rules t

/-- A window as the X server describes it, with no property set. -/
def plainWindow : WindowInfo :=
  { name := "xterm", trans := none, res_class := none, res_name := none, fullscreen := false,
    dialog := false, size := none, wmh := none }

/-- The attributes of a window of 300 by 200 at (10, 40). -/
def plainAttributes : XWindowAttributes :=
  { x := 10, y := 40, width := 300, height := 200, border_width := 0 }

/-- A screen of 1280 by 800 at the origin, as Xinerama reports it. -/
def plainScreen : XineramaScreenInfo :=
  { screen_number := 0, x_org := 0, y_org := 0, width := 1280, height := 800 }

/-- The walk `for (c = nexttiled(l); c; c = nexttiled(c->next))` of `tile` and `monocle`:
the clients it visits, at most `fuel` of them. -/
def tiledwalk (s : State) : Nat → List Nat → List Nat
  | 0, _ => []
  | fuel + 1, l =>
    match nexttiled s l with
    | [] => []
    | c :: cs => c :: tiledwalk s fuel cs

/-- The property of claim C19 for `detachstack(c)` on the monitor `c->mon`: the stack is
the old one without `c`; a selection that was `c` becomes the first remaining client whose
tag is the active tag of the monitor, or null; any other selection stays; and the selection
is not `c` afterwards. -/
def DetachstackSpec (s : State) (c : Nat) : Prop :=
  ((detachstack s c).monitor (s.client c).mon).stack
      = (s.monitor (s.client c).mon).stack.filter (fun t => t ≠ c)
  ∧ ((detachstack s c).monitor (s.client c).mon).sel
      = (if (s.monitor (s.client c).mon).sel = some c then
          ((s.monitor (s.client c).mon).stack.filter (fun t => t ≠ c)).find?
            (fun t => (s.client t).tag == (s.monitor (s.client c).mon).curtag)
         else (s.monitor (s.client c).mon).sel)
  ∧ ((detachstack s c).monitor (s.client c).mon).sel ≠ some c

/-- A state whose monitor 0 stacks the clients 1, 2, 3 and selects 1; client 2 is on tag 5,
the others on tag 0. -/
def stackedState : State :=
  { bareState with
      monitor := fun _ =>
        { bareMonitor with clients := [3, 2, 1], stack := [1, 2, 3], sel := some 1 },
      client := fun c => { zeroClient with tag := if c = 2 then 5 else 0 } }

/-- The cell of `m->tag` that `m->seltag` does not select: the previous tag. -/
def Monitor.prevtag (m : Monitor) : Nat := if m.seltag = 0 then m.tag1 else m.tag0

/-- The index `seltag` is 0 or 1 and both cells of `tag` are indices of configured tags. -/
def SlotsOk (m : Monitor) : Prop := m.seltag < 2 ∧ m.tag0 < LENGTH_tags ∧ m.tag1 < LENGTH_tags

/-- Two states agree on the tag of every client and on `seltag` and `tag` of every
monitor. -/
def SameTags (s s' : State) : Prop :=
  (∀ c, (s'.client c).tag = (s.client c).tag)
  ∧ ∀ m, (s'.monitor m).seltag = (s.monitor m).seltag ∧ (s'.monitor m).tag0 = (s.monitor m).tag0
      ∧ (s'.monitor m).tag1 = (s.monitor m).tag1

/-- The value `~0` of an `unsigned int`. -/
def allbits : Nat := 4294967295

/-- One round of the loop of `applyrules`, on the record of the client. -/
def rulestep (s : State) (cls inst : String) (C : Client) (r : Rule) : Client :=
  if r.matches C.name cls inst then
    let C := { C with isfloating := r.isfloating, tag := r.tag }
    match s.mons.find? (fun m => decide ((s.monitor m).num = r.monitor)) with
    | some m => { C with mon := m }
    | none => C
  else C

/-- The property of claim C14 for a rule table whose last matching rule is `r2`: the
client has the tag and the floating flag of `r2` and the monitor that `r2` alone would
give it. -/
def LastRuleWins (rules : List Rule) (r2 : Rule) (s : State) (c : Nat)
    (res_class res_name : Option String) : Prop :=
  ((applyrules rules s c res_class res_name).client c).tag = r2.tag
  ∧ ((applyrules rules s c res_class res_name).client c).isfloating = r2.isfloating
  ∧ ((applyrules rules s c res_class res_name).client c).mon
      = ((applyrules [r2] s c res_class res_name).client c).mon

/-- Two monitors, at the addresses 1 (number 0, selected) and 2 (number 1), without
clients. -/
def twoMonitors : State :=
  { bareState with
      mons := [1, 2], selmon := 1,
      monitor := fun m => { bareMonitor with num := if m = 2 then 1 else 0 },
      client := fun _ => { zeroClient with mon := 1 } }

/-- A rule for the class `Foo`: tag 2, floating, monitor number 1. -/
def ruleFooMon : Rule :=
  { class_ := some "Foo", instance_ := none, title := none, tag := 2, isfloating := true,
    monitor := 1 }

/-- A rule that matches every window: tag 3, not floating, no monitor (-1). -/
def ruleAny : Rule :=
  { class_ := none, instance_ := none, title := none, tag := 3, isfloating := false,
    monitor := -1 }

/-- The property of claim C15 on monitor `m`: the walk with `nexttiled` visits exactly the
clients of the list that are not floating and are visible, in list order; `tile` counts
exactly those; and `tile` and `monocle` leave the record of every other client as it was. -/
def TiledSubsequence (s : State) (m : Nat) : Prop :=
  (∀ fuel, (s.monitor m).clients.length ≤ fuel →
      tiledwalk s fuel (s.monitor m).clients
        = (s.monitor m).clients.filter (fun c => !(s.client c).isfloating && ISVISIBLE s c))
  ∧ counttiled s (s.monitor m).clients
      = ((s.monitor m).clients.filter
          (fun c => !(s.client c).isfloating && ISVISIBLE s c)).length
  ∧ (∀ c, (s.client c).mon = m →
      (ISVISIBLE s c = true ↔ (s.client c).tag = (s.monitor m).curtag))
  ∧ (∀ c, c ∉ (s.monitor m).clients.filter
        (fun c => !(s.client c).isfloating && ISVISIBLE s c) →
      (tile s m).client c = s.client c ∧ (monocle s m).client c = s.client c)

/-- The rule of Scenario C: class `Foo`, tag 3, floating. -/
def ruleFoo : Rule :=
  { class_ := some "Foo", instance_ := none, title := none, tag := 3, isfloating := true,
    monitor := -1 }

/-- Scenario C: the three tiled clients of Scenario A and, at the head of the client
list, a client (address 7) whose record is the one `applyrules` leaves for a window of
class `Foo` under the rule `ruleFoo`. -/
def scenarioC : State :=
  { scenarioA with
      monitor := fun _ =>
        { bareMonitor with clients := [7, 1, 2, 3], stack := [7, 1, 2, 3], sel := some 7 },
      client := fun c =>
        if c = 7 then
          ((applyrules [ruleFoo]
              (scenarioA.setClient 7 { zeroClient with name := "foo", w := 300, h := 200 })
              7 (some "Foo") (some "foo")).client 7)
        else scenarioA.client c }

/-- The work area of a monitor is its rectangle with the bar height taken off the top
when the bar is shown. -/
def WorkAreaOk (bh : Int) (M : Monitor) : Prop :=
  M.wx = M.mx ∧ M.ww = M.mw ∧ M.wy = M.my + (if M.showbar then bh else 0)
    ∧ M.wh = M.mh - (if M.showbar then bh else 0)

/-- The stored rectangle of a monitor differs from a reported screen: the test of the
geometry loop of `updategeom`. -/
def geomdiffers (M : Monitor) (u : XineramaScreenInfo) : Prop :=
  u.x_org ≠ M.mx ∨ u.y_org ≠ M.my ∨ u.width ≠ M.mw ∨ u.height ≠ M.mh

/-- What one round of the geometry loop of `updategeom` leaves in the record of the
monitor at position `i`, for `n` monitors before the call. -/
def geomupd (bh : Int) (n i : Nat) (M : Monitor) (u : XineramaScreenInfo) : Monitor :=
  if i ≥ n ∨ u.x_org ≠ M.mx ∨ u.y_org ≠ M.my ∨ u.width ≠ M.mw ∨ u.height ≠ M.mh then
    updatebarpos bh
      { M with num := i, mx := u.x_org, wx := u.x_org, my := u.y_org, wy := u.y_org,
               mw := u.width, ww := u.width, mh := u.height, wh := u.height }
  else M

/-- The property of claim C13 for a call of `updategeom` that returns `(s', d)` from the
state `s` and the reported screens `info`. -/
def GrowthSpec (s : State) (info : List XineramaScreenInfo) (s' : State) (d : Bool) : Prop :=
  s'.mons.length = (uniquegeoms info).length
  ∧ s'.mons.take s.mons.length = s.mons
  ∧ (∀ m ∈ s.mons,
      (s'.monitor m).clients = (s.monitor m).clients ∧ (s'.monitor m).stack = (s.monitor m).stack
      ∧ (s'.monitor m).sel = (s.monitor m).sel ∧ (s'.monitor m).tags = (s.monitor m).tags
      ∧ (s'.monitor m).seltag = (s.monitor m).seltag ∧ (s'.monitor m).tag0 = (s.monitor m).tag0
      ∧ (s'.monitor m).tag1 = (s.monitor m).tag1)
  ∧ (∀ m ∈ s'.mons, m ∉ s.mons →
      (s'.monitor m).clients = [] ∧ (s'.monitor m).stack = [] ∧ (s'.monitor m).sel = none
      ∧ (s'.monitor m).tags = createmon.tags ∧ (s'.monitor m).seltag = 0
      ∧ (s'.monitor m).tag0 = 0 ∧ (s'.monitor m).tag1 = 0)
  ∧ s'.client = s.client
  ∧ (∀ (i m : Nat) (u : XineramaScreenInfo), s'.mons[i]? = some m → (uniquegeoms info)[i]? = some u →
      ((s'.monitor m).mx = u.x_org ∧ (s'.monitor m).my = u.y_org ∧ (s'.monitor m).mw = u.width
        ∧ (s'.monitor m).mh = u.height)
      ∧ WorkAreaOk s.bh (s'.monitor m))
  ∧ (d = true ↔ s.mons.length < (uniquegeoms info).length
      ∨ ∃ (i m : Nat) (u : XineramaScreenInfo), s.mons[i]? = some m ∧ (uniquegeoms info)[i]? = some u
          ∧ geomdiffers (s.monitor m) u)

/-- Two monitor records agree on everything but geometry, number and bar position. -/
def SameOwner (a b : Monitor) : Prop :=
  a.clients = b.clients ∧ a.stack = b.stack ∧ a.sel = b.sel ∧ a.tags = b.tags
    ∧ a.seltag = b.seltag ∧ a.tag0 = b.tag0 ∧ a.tag1 = b.tag1 ∧ a.showbar = b.showbar

/-- A screen of 1280 by 800 to the right of `plainScreen`. -/
def rightScreen : XineramaScreenInfo :=
  { screen_number := 1, x_org := 1280, y_org := 0, width := 1280, height := 800 }

/-- The client `c` is in the client list of one of the monitors `l`. -/
def onmons (s : State) (l : List Nat) (c : Nat) : Prop := ∃ m ∈ l, c ∈ (s.monitor m).clients

/-- One round of the loop `for (i = nn; i < n; i++)` of `updategeom` for the last monitor
`m` of the chain: its clients move to the first monitor, the selection of monitor follows,
and `m` is unlinked. -/
def shrinkround (s : State) (m : Nat) : State :=
  let s1 := migrate m (s.monitor m).clients.length s
  let s2 := if m = s1.selmon then { s1 with selmon := s1.mons.headD 0 } else s1
  cleanupmon s2 m

/-- What moving the clients of the monitors `gone` to the monitor `head` leaves behind:
the other monitors `kept` keep their lists, `head` gains exactly the moved clients in both
lists, the moved clients name `head`, no other client changes its monitor, and no tag
changes. -/
def MovedTo (s s' : State) (head : Nat) (kept gone : List Nat) : Prop :=
  (∀ a ∈ kept, a ≠ head → (s'.monitor a).clients = (s.monitor a).clients
      ∧ (s'.monitor a).stack = (s.monitor a).stack)
  ∧ (∀ c, c ∈ (s'.monitor head).clients ↔ c ∈ (s.monitor head).clients ∨ onmons s gone c)
  ∧ (∀ c, c ∈ (s'.monitor head).stack ↔ c ∈ (s.monitor head).stack ∨ onmons s gone c)
  ∧ (∀ c, onmons s gone c → (s'.client c).mon = head)
  ∧ (∀ c, ¬ onmons s gone c → (s'.client c).mon = (s.client c).mon)
  ∧ SameTags s s'

/-- The property of claim C11 for a call of `updategeom` that leaves `s'` when `nn`
distinct screens are reported: the first `nn` monitors remain; every client of a removed
monitor is in both lists of the first monitor, names it, and keeps its tag; the managed
clients are the same, each registered once; the selected monitor is in the chain. -/
def UnplugSpec (s : State) (nn : Nat) (s' : State) : Prop :=
  s'.mons = s.mons.take nn
  ∧ (∀ m ∈ s.mons.drop nn, ∀ c ∈ (s.monitor m).clients,
      c ∈ (s'.monitor (s.mons.headD 0)).clients ∧ c ∈ (s'.monitor (s.mons.headD 0)).stack
      ∧ (s'.client c).mon = s.mons.headD 0 ∧ (s'.client c).tag = (s.client c).tag)
  ∧ (managed s').Perm (managed s)
  ∧ RegistryHolds s'
  ∧ s'.selmon ∈ s'.mons

/-- The property of claim C12: a call of `updategeom` with fewer distinct screens than
monitors returns true. -/
def RemovalDirty (s : State) (info : List XineramaScreenInfo) (ptr : Option (Int × Int)) :
    Prop :=
  (uniquegeoms info).length < s.mons.length →
    ∃ s', updategeom s (some info) ptr = some (s', true)

/-- Two monitors as `twoMonitors`; the second one owns the clients 5 and 6 (tags 2
and 0), the first one the client 4. -/
def dockedState : State :=
  { twoMonitors with
      monitor := fun m =>
        if m = 2 then { bareMonitor with num := 1, clients := [5, 6], stack := [6, 5],
                                         sel := some 6 }
        else { bareMonitor with clients := [4], stack := [4], sel := some 4 },
      client := fun c =>
        { zeroClient with mon := if c = 4 then 1 else 2, tag := if c = 5 then 2 else 0 } }

/-- Tag validity of a state: the slots of every monitor of the chain hold configured tags
and so does the tag of every managed client. -/
def TagsValid (s : State) : Prop :=
  (∀ m ∈ s.mons, SlotsOk (s.monitor m)) ∧ ∀ c ∈ managed s, (s.client c).tag < LENGTH_tags

/-- The second state differs from the first only in client records. -/
def ClientsOnly (s s' : State) : Prop := s'.mons = s.mons ∧ s'.monitor = s.monitor

/-- The states the window manager reaches through the operations that touch tags.  It
starts with a chain of monitors that hold no client and whose slots are as `createmon`
leaves them.  `manage` is run on a fresh record, `pop` and `focus` on managed clients,
`sendmon` towards a monitor of the chain; `tag`, `view`, `cycleview` and `clientmessage`
take any argument; `updategeom` is a step when it returns and Xinerama, if active,
reports at least one screen. -/
inductive Runs (rules : List Rule) : State → Prop
  | start (s : State) : s.mons.Nodup → s.selmon ∈ s.mons →
      (∀ m ∈ s.mons, (s.monitor m).clients = [] ∧ (s.monitor m).stack = []
        ∧ (s.monitor m).seltag = createmon.seltag ∧ (s.monitor m).tag0 = createmon.tag0
        ∧ (s.monitor m).tag1 = createmon.tag1) → Runs rules s
  | manage (s : State) (c w : Nat) (wa : XWindowAttributes) (info : WindowInfo) :
      Runs rules s → c ∉ managed s → Runs rules (Dwm.manage rules s c w wa info)
  | unmanage (s : State) (c : Nat) : Runs rules s → Runs rules (Dwm.unmanage s c)
  | sendmon (s : State) (c m : Nat) :
      Runs rules s → m ∈ s.mons → Runs rules (Dwm.sendmon s c m)
  | pop (s : State) (c : Nat) : Runs rules s → c ∈ managed s → Runs rules (Dwm.pop s c)
  | focus (s : State) (c : Option Nat) :
      Runs rules s → (∀ t, c = some t → t ∈ managed s) → Runs rules (Dwm.focus s c)
  | tag (s : State) (ui : Nat) : Runs rules s → Runs rules (Dwm.tag s ui)
  | view (s : State) (ui : Nat) : Runs rules s → Runs rules (Dwm.view s ui)
  | cycleview (s : State) (i : Int) : Runs rules s → Runs rules (Dwm.cycleview s i)
  | clientmessage (s : State) (cme : XClientMessageEvent) :
      Runs rules s → Runs rules (Dwm.clientmessage s cme)
  | updategeom (s : State) (xin : Option (List XineramaScreenInfo)) (ptr : Option (Int × Int))
      (t : State) (d : Bool) :
      Runs rules s → xin ≠ some [] → Dwm.updategeom s xin ptr = some (t, d) → Runs rules t

/-- The candidate of `focus` in the words of the claim: the argument when it is non-null
and visible, and else the first visible client of the focus stack of the selected
monitor. -/
def focustarget (s : State) (c : Option Nat) : Option Nat :=
  match c with
  | some t =>
    if ISVISIBLE s t = true then some t
    else (s.monitor s.selmon).stack.find? (fun t => ISVISIBLE s t)
  | none => (s.monitor s.selmon).stack.find? (fun t => ISVISIBLE s t)

/-- The property of claim C21 for one call `focus(c)`. -/
def FocusSpec (s : State) (c : Option Nat) : Prop :=
  (focustarget s c = none →
      (focus s c).selmon = s.selmon ∧ ((focus s c).monitor (focus s c).selmon).sel = none)
  ∧ (∀ t, focustarget s c = some t →
      ((focus s c).client t).mon = (s.client t).mon
      ∧ (focus s c).selmon = (s.client t).mon
      ∧ ((focus s c).monitor (focus s c).selmon).sel = some t
      ∧ ((focus s c).monitor (s.client t).mon).stack.head? = some t
      ∧ ((focus s c).monitor (s.client t).mon).stack.filter (fun a => a ≠ t)
          = (s.monitor (s.client t).mon).stack.filter (fun a => a ≠ t)
      ∧ ((focus s c).client t).isurgent = false)
  ∧ ∀ m, ((focus s c).monitor m).clients = (s.monitor m).clients

/-- A state of one monitor whose focus stack is 1, 2, 3; client 1 is on tag 5 and so not
visible, client 2 is urgent. -/
def urgentState : State :=
  { bareState with
      monitor := fun _ =>
        { bareMonitor with clients := [3, 2, 1], stack := [1, 2, 3], sel := some 3 },
      client := fun c =>
        { zeroClient with tag := if c = 1 then 5 else 0, isurgent := decide (c = 2) } }

/-- The snap rule of claim C22 along one axis: `lo` and `len` are the work area, `W` the
outer extent of the client, `p` the candidate and `q` the position that results.  A
candidate within `snap` pixels of the near edge lands on it; else a far edge of the client
within `snap` pixels of the far edge of the work area lands on that; else the candidate
stays. -/
def SnapRule (lo len W p q : Int) : Prop :=
  (iabs (lo - p) < snap → q = lo)
  ∧ (¬ iabs (lo - p) < snap → iabs (lo + len - (p + W)) < snap → q + W = lo + len)
  ∧ (¬ iabs (lo - p) < snap → ¬ iabs (lo + len - (p + W)) < snap → q = p)

/-- A floating client (address 1, 100 by 100, border 1) at (500, 300) on the 1280x800
monitor, selected. -/
def floatingState : State :=
  { bareState with
      monitor := fun _ => { bareMonitor with clients := [1], stack := [1], sel := some 1 },
      client := fun _ =>
        { zeroClient with x := 500, y := 300, w := 100, h := 100, bw := 1, isfloating := true } }

/-- The property of claim C23 for one run of `tile` on monitor `m`: of two members of the
same column, the earlier one is at least as high as the later one, by at most one pixel. -/
def EarlierNotShorter (s : State) (m : Nat) : Prop :=
  ∀ col ∈ [masters s m, stackers s m], ∀ (i j a b : Nat), i < j →
    col[i]? = some a → col[j]? = some b →
    HEIGHT ((tile s m).client b) ≤ HEIGHT ((tile s m).client a)
    ∧ HEIGHT ((tile s m).client a) ≤ HEIGHT ((tile s m).client b) + 1

/-- The order the code produces: of two members of the same column, the later one is at
least as high as the earlier one, by at most one pixel. -/
def LaterNotShorter (s : State) (m : Nat) : Prop :=
  ∀ col ∈ [masters s m, stackers s m], ∀ (i j a b : Nat), i < j →
    col[i]? = some a → col[j]? = some b →
    HEIGHT ((tile s m).client a) ≤ HEIGHT ((tile s m).client b)
    ∧ HEIGHT ((tile s m).client b) ≤ HEIGHT ((tile s m).client a) + 1

/-- Scenario A on a monitor whose work area is 781 pixels high. -/
def oddState : State :=
  { scenarioA with
      monitor := fun _ =>
        { bareMonitor with clients := [1, 2, 3], stack := [1, 2, 3], sel := some 1, wh := 781 } }

/-- The property of claim C24 for a client record and its monitor: the client starts
inside the monitor, and ends inside it when it is no larger than the monitor. -/
def InsideMonitor (C : Client) (M : Monitor) : Prop :=
  M.mx ≤ C.x ∧ M.my ≤ C.y
  ∧ (C.w ≤ M.mw ∧ C.h ≤ M.mh → C.x + C.w ≤ M.mx + M.mw ∧ C.y + C.h ≤ M.my + M.mh)

/-- Claim C24 for one call of `manage`: the record the geometry part of `manage` stores
lies inside the monitor the client was assigned to. -/
def ManageInside (rules : List Rule) (s : State) (c w : Nat) (wa : XWindowAttributes)
    (info : WindowInfo) : Prop :=
  InsideMonitor ((managegeometry (managenew rules s c w info) c wa).client c)
    (s.monitor ((managenew rules s c w info).client c).mon)

/-- The test of `manage` for "the client center might cover the bar": the bar is at the
top edge of the monitor and the horizontal centre of the client is in the work area. -/
def coversbar (C : Client) (M : Monitor) : Prop :=
  M.bary = M.my ∧ M.wx ≤ C.x + C.w.tdiv 2 ∧ C.x + C.w.tdiv 2 < M.wx + M.ww

/-- What the geometry part of `manage` guarantees for the record `C` on the monitor `M`:
the horizontal extent lies in the monitor when it fits; the vertical extent lies in the
monitor when it fits and the client cannot cover the bar; and on a monitor at the top of
the display a client that can cover the bar starts below it, and ends in the monitor when
it fits under the bar. -/
def ManageClamped (bh : Int) (C : Client) (M : Monitor) : Prop :=
  M.mx ≤ C.x ∧ (C.w ≤ M.mw → C.x + C.w ≤ M.mx + M.mw)
  ∧ (¬ coversbar C M → M.my ≤ C.y ∧ (C.h ≤ M.mh → C.y + C.h ≤ M.my + M.mh))
  ∧ (coversbar C M → M.my = 0 →
      M.my + bh ≤ C.y ∧ (C.h ≤ M.mh - bh → C.y + C.h ≤ M.my + M.mh))

/-- The attributes of a window that covers the whole 1280x800 monitor. -/
def bigAttributes : XWindowAttributes :=
  { x := 0, y := 0, width := 1280, height := 800, border_width := 0 }

/-- A dialog window with no other property set. -/
def dialogWindow : WindowInfo := { plainWindow with dialog := true }

/-- A display of 1280 by 1600 whose only monitor is the lower half: its top edge, and its
bar, are at y = 800. -/
def lowerState : State :=
  { bareState with
      sh := 1600,
      monitor := fun _ => { bareMonitor with my := 800, wy := 820, bary := 800 } }

/-- The property of claim C25 for one rect: when some monitor of the chain overlaps the
rect, `recttomon` returns a monitor of the chain whose overlap no monitor of the chain exceeds
and that every monitor before it in the chain falls short of; when none overlaps it,
`recttomon` returns the selected monitor. -/
def RecttomonSpec (s : State) (x y w h : Int) : Prop :=
  ((∃ m ∈ s.mons, 0 < INTERSECT x y w h (s.monitor m)) →
      0 < INTERSECT x y w h (s.monitor (recttomon s x y w h))
      ∧ (∀ m ∈ s.mons,
          INTERSECT x y w h (s.monitor m) ≤ INTERSECT x y w h (s.monitor (recttomon s x y w h)))
      ∧ ∃ pre post, s.mons = pre ++ recttomon s x y w h :: post
          ∧ ∀ m ∈ pre,
              INTERSECT x y w h (s.monitor m)
                < INTERSECT x y w h (s.monitor (recttomon s x y w h)))
  ∧ ((∀ m ∈ s.mons, INTERSECT x y w h (s.monitor m) = 0) → recttomon s x y w h = s.selmon)

/-- Two monitors side by side as `twoMonitors`, each with a work area of 1280 by 780. -/
def sideBySide : State :=
  { twoMonitors with
      monitor := fun m =>
        if m = 2 then { bareMonitor with num := 1, mx := 1280, wx := 1280 } else bareMonitor }

/-- The statements of `sendmon` before `focus(NULL)`, for a client that is not on `m`. -/
def sendmonmove (s : State) (c m : Nat) : State :=
  let s1 := detachstack (detach s c) c
  let s2 := s1.setClient c { s1.client c with mon := m, tag := (s1.monitor m).curtag }
  attachstack (attach s2 c) c

/-- The property of claim C28 for `sendmon(c, m)` with `c` on another monitor: `c` is gone
from both lists of its old monitor and heads both lists of `m`, it names `m` and has the
active tag of `m`, and the other clients of the four lists keep their order. -/
def SendmonClaim (s : State) (c m : Nat) : Prop :=
  c ∉ ((sendmon s c m).monitor (s.client c).mon).clients
  ∧ c ∉ ((sendmon s c m).monitor (s.client c).mon).stack
  ∧ ((sendmon s c m).monitor m).clients.head? = some c
  ∧ ((sendmon s c m).monitor m).stack.head? = some c
  ∧ ((sendmon s c m).client c).mon = m
  ∧ ((sendmon s c m).client c).tag = (s.monitor m).curtag
  ∧ ((sendmon s c m).monitor (s.client c).mon).clients
      = (s.monitor (s.client c).mon).clients.filter (fun a => a ≠ c)
  ∧ ((sendmon s c m).monitor (s.client c).mon).stack
      = (s.monitor (s.client c).mon).stack.filter (fun a => a ≠ c)
  ∧ ((sendmon s c m).monitor m).clients.filter (fun a => a ≠ c) = (s.monitor m).clients
  ∧ ((sendmon s c m).monitor m).stack.filter (fun a => a ≠ c) = (s.monitor m).stack

/-- What `sendmon(c, m)` does for a client `c` on another monitor: as `SendmonClaim`,
except for the focus stack of the old monitor when it is the selected one, where the
closing `focus(NULL)` moves the first remaining client on the active tag to the head. -/
def SendmonSpec (s : State) (c m : Nat) : Prop :=
  c ∉ ((sendmon s c m).monitor (s.client c).mon).clients
  ∧ c ∉ ((sendmon s c m).monitor (s.client c).mon).stack
  ∧ ((sendmon s c m).monitor m).clients = c :: (s.monitor m).clients
  ∧ ((sendmon s c m).monitor m).stack = c :: (s.monitor m).stack
  ∧ ((sendmon s c m).client c).mon = m
  ∧ ((sendmon s c m).client c).tag = (s.monitor m).curtag
  ∧ ((sendmon s c m).monitor (s.client c).mon).clients
      = (s.monitor (s.client c).mon).clients.filter (fun a => a ≠ c)
  ∧ (s.selmon ≠ (s.client c).mon →
      ((sendmon s c m).monitor (s.client c).mon).stack
        = (s.monitor (s.client c).mon).stack.filter (fun a => a ≠ c))
  ∧ (s.selmon = (s.client c).mon →
      ((sendmon s c m).monitor (s.client c).mon).stack
        = match ((s.monitor (s.client c).mon).stack.filter (fun a => a ≠ c)).find?
              (fun t => (s.client t).tag == (s.monitor (s.client c).mon).curtag) with
          | some t =>
            t :: (((s.monitor (s.client c).mon).stack.filter (fun a => a ≠ c)).filter
                    (fun a => a ≠ t))
          | none => (s.monitor (s.client c).mon).stack.filter (fun a => a ≠ c))

/-- Two monitors; the first one is selected and owns the clients 1, 2, 3, of which client 2
is on tag 5 and the others on the active tag 0. -/
def crossState : State :=
  { twoMonitors with
      monitor := fun m =>
        if m = 2 then { bareMonitor with num := 1 }
        else { bareMonitor with clients := [1, 2, 3], stack := [1, 2, 3], sel := some 1 },
      client := fun c =>
        { zeroClient with mon := 1, tag := if c = 2 then 5 else 0, w := 100, h := 100, bw := 1 } }

/-- The selection of monitor `m` is null, or a client of the focus stack of `m` whose tag
is the active tag of `m`. -/
def SelOk (s : State) (m : Nat) : Prop :=
  ∀ c, (s.monitor m).sel = some c →
    c ∈ (s.monitor m).stack ∧ (s.client c).tag = (s.monitor m).curtag

/-- The selection invariant: `SelOk` for every monitor of the chain. -/
def SelInv (s : State) : Prop := ∀ m ∈ s.mons, SelOk s m

/-- The property of claim C26 in one state: the selection of every monitor of the chain is
null, or a client of the focus stack of that monitor whose tag is the active tag of the
monitor and that `ISVISIBLE` accepts. -/
def SelectionClaim (s : State) : Prop :=
  ∀ m ∈ s.mons, ∀ c, (s.monitor m).sel = some c →
    c ∈ (s.monitor m).stack ∧ (s.client c).tag = (s.monitor m).curtag ∧ ISVISIBLE s c = true

/-- The window that `manage` is called for lands on the selected monitor, or on the active
tag of the monitor it lands on; monitor and tag are the ones the first part of `manage`
(transient inheritance or else the rules) gives the new client. -/
def LandsVisible (rules : List Rule) (s : State) (c w : Nat) (info : WindowInfo) : Prop :=
  ((managenew rules s c w info).client c).mon = s.selmon
  ∨ ((managenew rules s c w info).client c).tag
      = (s.monitor ((managenew rules s c w info).client c).mon).curtag

/-- No condition on the window that `manage` is called for. -/
def AnyWindow (_ : State) (_ _ : Nat) (_ : WindowInfo) : Prop := True

/-- The states the window manager reaches through `manage`, `unmanage`, `focus`, `view`,
`cycleview`, `tag`, `sendmon` and `updategeom`, from a chain of monitors that hold no
client and select none.  `manage` is run on a fresh record for a window that satisfies
`land`, `focus` on the null pointer or a managed client, `sendmon` towards a monitor of
the chain; `updategeom` is a step when it returns and Xinerama, if active, reports at
least one screen. -/
inductive Reaches (rules : List Rule) (land : State → Nat → Nat → WindowInfo → Prop) :
    State → Prop
  | start (s : State) : s.mons.Nodup → s.selmon ∈ s.mons →
      (∀ m ∈ s.mons, (s.monitor m).clients = [] ∧ (s.monitor m).stack = []
        ∧ (s.monitor m).sel = none) → Reaches rules land s
  | manage (s : State) (c w : Nat) (wa : XWindowAttributes) (info : WindowInfo) :
      Reaches rules land s → c ∉ managed s → land s c w info →
      Reaches rules land (Dwm.manage rules s c w wa info)
  | unmanage (s : State) (c : Nat) : Reaches rules land s → Reaches rules land (Dwm.unmanage s c)
  | focus (s : State) (c : Option Nat) :
      Reaches rules land s → (∀ t, c = some t → t ∈ managed s) →
      Reaches rules land (Dwm.focus s c)
  | view (s : State) (ui : Nat) : Reaches rules land s → Reaches rules land (Dwm.view s ui)
  | cycleview (s : State) (i : Int) :
      Reaches rules land s → Reaches rules land (Dwm.cycleview s i)
  | tag (s : State) (ui : Nat) : Reaches rules land s → Reaches rules land (Dwm.tag s ui)
  | sendmon (s : State) (c m : Nat) :
      Reaches rules land s → m ∈ s.mons → Reaches rules land (Dwm.sendmon s c m)
  | updategeom (s : State) (xin : Option (List XineramaScreenInfo)) (ptr : Option (Int × Int))
      (t : State) (d : Bool) :
      Reaches rules land s → xin ≠ some [] → Dwm.updategeom s xin ptr = some (t, d) →
      Reaches rules land t

/-- A window of class `Foo`, instance `foo`. -/
def fooWindow : WindowInfo :=
  { plainWindow with res_class := some "Foo", res_name := some "foo" }

/-- One division of the second loop of `tile`, as it is carried out for the client
`client`: the counter `i`, the bound `lim` it is subtracted from (`MIN(n, nmaster)` in the
master column, `n` in the stack column), the offset `off` (`my` or `ty`) that is subtracted
from `wh` (the value of `m->wh` as `unsigned int`), the quotient `h`, and the border width
of the client. -/
structure TileDiv where
  client : Nat
  i : Nat
  lim : Nat
  off : Nat
  wh : Nat
  h : Nat
  bw : Int
deriving DecidableEq, Repr

/-- The divisions of the second loop of `tile`, in the order of the loop: the loop
`tileloop` with a record of every division it carries out. -/
def tiledivs (m n mw : Nat) : List Nat → Nat → Nat → Nat → State → List TileDiv
  | [], _, _, _, _ => []
  | c :: cs, i, my, ty, s =>
    if (s.client c).isfloating || !ISVISIBLE s c then tiledivs m n mw cs i my ty s
    else
      let M := s.monitor m
      let t := montotag M
      if i < toU t.nmaster then
        let h := usub (toU M.wh) my / usub (if n < toU t.nmaster then n else toU t.nmaster) i
        let s1 := resize s c M.wx (toI (uadd (toU M.wy) my))
          (toI (usub mw (toU (2 * (s.client c).bw)))) (toI (usub h (toU (2 * (s.client c).bw))))
          false
        { client := c, i := i, lim := if n < toU t.nmaster then n else toU t.nmaster, off := my,
          wh := toU M.wh, h := h, bw := (s.client c).bw }
          :: tiledivs m n mw cs (uadd i 1) (uadd my (toU (HEIGHT (s1.client c)))) ty s1
      else
        let h := usub (toU M.wh) ty / usub n i
        let s1 := resize s c (toI (uadd (toU M.wx) mw)) (toI (uadd (toU M.wy) ty))
          (toI (usub (usub (toU M.ww) mw) (toU (2 * (s.client c).bw))))
          (toI (usub h (toU (2 * (s.client c).bw)))) false
        { client := c, i := i, lim := n, off := ty, wh := toU M.wh, h := h,
          bw := (s.client c).bw }
          :: tiledivs m n mw cs (uadd i 1) my (uadd ty (toU (HEIGHT (s1.client c)))) s1

/-- The divisions that one call of `tile` on monitor `m` carries out. -/
def tiletrace (s : State) (m : Nat) : List TileDiv :=
  let M := s.monitor m
  let t := montotag M
  let n := counttiled s M.clients
  if n = 0 then []
  else
    let s1 := s.setMon m (M.setTag { t with ltsymbol := tilesymbol n t.nmaster })
    let mw := if n > toU t.nmaster then
                (if t.nmaster ≠ 0 then toU (ftoi (tofloat (itof M.ww * t.mfact))) else 0)
              else toU M.ww
    tiledivs m n mw M.clients 0 0 0 s1

/-- The setting in which claim C27 speaks of the heights `tile` hands out on monitor `m`:
the tiled clients are distinct records owned by `m` with a non-negative border, and the
work area is non-negative and within `int` range. -/
def TileEnv (s : State) (m : Nat) : Prop :=
  (tiledclients s (s.monitor m).clients).Nodup
  ∧ (∀ c ∈ tiledclients s (s.monitor m).clients, (s.client c).mon = m ∧ 0 ≤ (s.client c).bw)
  ∧ 0 ≤ (s.monitor m).wh ∧ (s.monitor m).wh < 2147483648
  ∧ -2147483648 ≤ (s.monitor m).wy ∧ (s.monitor m).wy + (s.monitor m).wh < 2147483648

/-- The property of claim C27 for one call of `tile` on monitor `m`: at every division the
counter is below the bound it is subtracted from, so that the divisor is at least 1; and
when every quotient leaves at least `max 1 bh` inside the border of its client, no offset
exceeds `wh` and each non-empty column fills the height of the work area exactly. -/
def TileGuarded (s : State) (m : Nat) : Prop :=
  (∀ d ∈ tiletrace s m, d.i < d.lim ∧ 1 ≤ usub d.lim d.i)
  ∧ (TileEnv s m → (∀ d ∈ tiletrace s m, max 1 s.bh ≤ (d.h : Int) - 2 * d.bw) →
      (∀ d ∈ tiletrace s m, ((d.wh : Nat) : Int) = (s.monitor m).wh ∧ d.off ≤ d.wh)
      ∧ (masters s m ≠ [] →
          ((masters s m).map (fun c => HEIGHT ((tile s m).client c))).sum = (s.monitor m).wh)
      ∧ (stackers s m ≠ [] →
          ((stackers s m).map (fun c => HEIGHT ((tile s m).client c))).sum = (s.monitor m).wh))

/-- The `else` branch of `setfullscreen` up to its call of `arrange`: the flags, the
border and the geometry are taken back from the saved cells and handed to
`resizeclient`. -/
def leavefullscreen (s : State) (c : Nat) : State :=
  let C := s.client c
  let s1 := s.setClient c
    { C with isfullscreen := false, isfloating := C.oldstate, bw := C.oldbw,
             x := C.oldx, y := C.oldy, w := C.oldw, h := C.oldh }
  let C1 := s1.client c
  resizeclient s1 c C1.x C1.y C1.w C1.h

/-- Position and size of a client record. -/
def Client.rect (c : Client) : Int × Int × Int × Int := (c.x, c.y, c.w, c.h)

/-- The full rect of a monitor. -/
def Monitor.screen (m : Monitor) : Int × Int × Int × Int := (m.mx, m.my, m.mw, m.mh)

/-- The first half of claim C29: `setfullscreen(c, true)` gives the client the full rect
of its monitor, border 0 and the floating flag; a following `setfullscreen(c, false)` hands
the old geometry to `resizeclient` before it re-arranges, and restores the border width and
the floating flag. -/
def FullscreenRoundTrip (s : State) (c : Nat) : Prop :=
  ((setfullscreen s c true).client c).rect = (s.monitor (s.client c).mon).screen
  ∧ ((setfullscreen s c true).client c).bw = 0
  ∧ ((setfullscreen s c true).client c).isfloating = true
  ∧ ((setfullscreen s c true).client c).isfullscreen = true
  ∧ setfullscreen (setfullscreen s c true) c false
      = arrange (leavefullscreen (setfullscreen s c true) c) (some (s.client c).mon)
  ∧ ((leavefullscreen (setfullscreen s c true) c).client c).rect = (s.client c).rect
  ∧ ((leavefullscreen (setfullscreen s c true) c).client c).bw = (s.client c).bw
  ∧ ((leavefullscreen (setfullscreen s c true) c).client c).isfloating = (s.client c).isfloating
  ∧ ((setfullscreen (setfullscreen s c true) c false).client c).bw = (s.client c).bw
  ∧ ((setfullscreen (setfullscreen s c true) c false).client c).isfloating
      = (s.client c).isfloating
  ∧ ((setfullscreen (setfullscreen s c true) c false).client c).isfullscreen = false

/-- The second half of claim C29: after `setfullscreen(c, true)` twice, leaving hands the
full rect of the monitor to `resizeclient` and leaves border 0 and the floating flag, so
that a client with another geometry, a border or no floating flag does not get them
back. -/
def FullscreenTwice (s : State) (c : Nat) : Prop :=
  ((leavefullscreen (setfullscreen (setfullscreen s c true) c true) c).client c).rect
      = (s.monitor (s.client c).mon).screen
  ∧ ((setfullscreen (setfullscreen (setfullscreen s c true) c true) c false).client c).bw = 0
  ∧ ((setfullscreen (setfullscreen (setfullscreen s c true) c true) c false).client c).isfloating
      = true
  ∧ (((s.client c).rect ≠ (s.monitor (s.client c).mon).screen ∨ (s.client c).bw ≠ 0
        ∨ (s.client c).isfloating = false) →
      ¬ (((leavefullscreen (setfullscreen (setfullscreen s c true) c true) c).client c).rect
            = (s.client c).rect
          ∧ ((setfullscreen (setfullscreen (setfullscreen s c true) c true) c false).client
              c).bw = (s.client c).bw
          ∧ ((setfullscreen (setfullscreen (setfullscreen s c true) c true) c false).client
              c).isfloating = (s.client c).isfloating))

/-- The candidate fraction of `setmfact` in exact arithmetic: the sum for a nudge
`a < 1`, and else `a - 1`. -/
def mfactexact (s : State) (a : ℚ) : ℚ := if a < 1 then a + mfactOf s else a - 1

/-- The candidate fraction of `setmfact` in the arithmetic of the code: rounded to
`float`. -/
def mfactrounded (s : State) (a : ℚ) : ℚ :=
  tofloat (if a < 1 then tofloat (a + mfactOf s) else todouble (a - 1))

/-- The property of claim C4 for one call, with fractions read as exact rationals: from a
fraction in [1/10, 9/10] the fraction after `setmfact` is in [1/10, 9/10], and when the
candidate is outside [1/10, 9/10] the record of the tag is left as it was. -/
def MfactClaim (s : State) (a : ℚ) : Prop :=
  1 / 10 ≤ mfactOf s ∧ mfactOf s ≤ 9 / 10 →
    (1 / 10 ≤ mfactOf (setmfact s a) ∧ mfactOf (setmfact s a) ≤ 9 / 10)
    ∧ (mfactexact s a < 1 / 10 ∨ 9 / 10 < mfactexact s a →
        montotag ((setmfact s a).monitor s.selmon) = montotag (s.monitor s.selmon))

/-- What `setmfact` does with the candidate it computes in `float`: the fraction stays in
[1/10, 9/10]; a candidate outside [1/10, 9/10] leaves the state unchanged; a candidate
inside is stored, unless the tiled layout finds no tiled client and puts the default
back. -/
def MfactRounded (s : State) (a : ℚ) : Prop :=
  (1 / 10 ≤ mfactOf (setmfact s a) ∧ mfactOf (setmfact s a) ≤ 9 / 10)
  ∧ (mfactrounded s a < 1 / 10 ∨ 9 / 10 < mfactrounded s a → setmfact s a = s)
  ∧ (1 / 10 ≤ mfactrounded s a → mfactrounded s a ≤ 9 / 10 →
      mfactOf (setmfact s a)
        = if layoutOf s = 0 ∧ ntiled s = 0 then mfact else mfactrounded s a)

/-- The block `if (c->isfloating) { ... }` of `applysizehints`: what the size hints of `c`
make of the size `(w, h)` that is handed to them. -/
def hintsize (c : Client) (w h : Int) : Int × Int :=
  -- see last two sentences in ICCCM 4.1.2.3
  let baseismin := c.basew = c.minw ∧ c.baseh = c.minh
  -- temporarily remove base dimensions
  let w := if baseismin then w else w - c.basew
  let h := if baseismin then h else h - c.baseh
  -- adjust for aspect limits
  let aspect := 0 < c.mina ∧ 0 < c.maxa
  let wa := if aspect ∧ fltdiv c.maxa w h = true
            then ftoi (todouble (tofloat (itof h * c.maxa) + 1 / 2)) else w
  let ha := if aspect ∧ fltdiv c.maxa w h = false ∧ fltdiv c.mina h w = true
            then ftoi (todouble (tofloat (itof w * c.mina) + 1 / 2)) else h
  -- increment calculation requires this
  let w := if baseismin then wa - c.basew else wa
  let h := if baseismin then ha - c.baseh else ha
  -- adjust for increment value
  let w := if c.incw ≠ 0 then w - w.tmod c.incw else w
  let h := if c.inch ≠ 0 then h - h.tmod c.inch else h
  -- restore base dimensions
  let w := max (w + c.basew) c.minw
  let h := max (h + c.baseh) c.minh
  let w := if c.maxw ≠ 0 then min w c.maxw else w
  let h := if c.maxh ≠ 0 then min h c.maxh else h
  (w, h)

/-- The extent `applysizehints` hands to the size hints: the proposed extent `v` raised
to at least 1 and at least the bar height. -/
def raised (bh v : Int) : Int := max (max 1 v) bh

/-- The size hints of `c` leave the size of the proposal `(w, h)` alone: `applysizehints`
returns the proposal raised to at least 1 and `bh`, as it always does for a client that is
not floating. -/
def HintsKeep (bh : Int) (c : Client) (w h : Int) : Prop :=
  c.isfloating = true → hintsize c (raised bh w) (raised bh h) = (raised bh w, raised bh h)

/-- The size hints of `c` do not make the proposal `(w, h)` smaller: the size that
`applysizehints` returns is at least the proposed one (and at least 1), as it always is
for a client that is not floating. -/
def HintsNoShrink (bh : Int) (c : Client) (w h : Int) : Prop :=
  c.isfloating = true →
    max 1 w ≤ (hintsize c (raised bh w) (raised bh h)).1
    ∧ max 1 h ≤ (hintsize c (raised bh w) (raised bh h)).2

/-- The size hints of `c` cannot undercut `max 1 bh`: on each axis the maximum size is
not set or is at least `max 1 bh`, and either the minimum size is at least `max 1 bh` or
there are no aspect limits and the increment is not set or the base size is at least
`max 1 bh`.  A client that is not floating has its hints ignored. -/
def HintsGuard (bh : Int) (c : Client) : Prop :=
  c.isfloating = true →
    (c.maxw = 0 ∨ max 1 bh ≤ c.maxw) ∧ (c.maxh = 0 ∨ max 1 bh ≤ c.maxh)
    ∧ (max 1 bh ≤ c.minw
        ∨ (¬ (0 < c.mina ∧ 0 < c.maxa) ∧ (c.incw = 0 ∨ max 1 bh ≤ c.basew)))
    ∧ (max 1 bh ≤ c.minh
        ∨ (¬ (0 < c.mina ∧ 0 < c.maxa) ∧ (c.inch = 0 ∨ max 1 bh ≤ c.baseh)))

/-- A floating client of 100 by 100 with a border of one pixel and no size hints. -/
def floatClient : Client := { zeroClient with isfloating := true, w := 100, h := 100, bw := 1 }

/-- A floating client of 100 by 100 whose hints set the minimum size 200 by 100 and the
increments 7 and 7. -/
def minClient : Client :=
  { zeroClient with
      isfloating := true, w := 100, h := 100, bw := 1, minw := 200, minh := 100, incw := 7,
      inch := 7 }

/-- A floating client whose hints set the base height 50, the height increment 7 and the
minimum height 25. -/
def growClient : Client :=
  { zeroClient with isfloating := true, w := 100, h := 25, baseh := 50, inch := 7, minh := 25 }

/-- The stored size of the record `C` is one that `applysizehints` returns as it is: it is
at least 1 and at least the bar height, and the size hints of `C` leave it alone. -/
def SizeSettled (bh : Int) (C : Client) : Prop :=
  raised bh C.w = C.w ∧ raised bh C.h = C.h ∧ hintsize C C.w C.h = (C.w, C.h)

/-- The position that the snap rule gives for the candidate `(nx, ny)` is more than `snap`
pixels from the stored position of the client `c`, along some axis. -/
def Displaced (s : State) (c : Nat) (nx ny : Int) : Prop :=
  ∃ qx qy,
    SnapRule (s.monitor s.selmon).wx (s.monitor s.selmon).ww (WIDTH (s.client c)) nx qx
    ∧ SnapRule (s.monitor s.selmon).wy (s.monitor s.selmon).wh (HEIGHT (s.client c)) ny qy
    ∧ (snap < iabs (qx - (s.client c).x) ∨ snap < iabs (qy - (s.client c).y))

/-- The amended property of claim C22 for one motion event of a move drag with the
candidate `(nx, ny)`, from the state `s` to the state `t`.  A client that is floating, or
that is tiled and displaced by more than `snap` pixels, is floating afterwards, keeps its
outer size, and has the position that the snap rule gives on each axis; for a tiled client
that is not displaced by more than `snap` pixels the event changes nothing. -/
def MoveSpec (s : State) (c : Nat) (nx ny : Int) (t : State) : Prop :=
  ((s.client c).isfloating = true ∨ Displaced s c nx ny →
      SnapRule (s.monitor s.selmon).wx (s.monitor s.selmon).ww (WIDTH (t.client c)) nx
        (t.client c).x
      ∧ SnapRule (s.monitor s.selmon).wy (s.monitor s.selmon).wh (HEIGHT (t.client c)) ny
        (t.client c).y
      ∧ WIDTH (t.client c) = WIDTH (s.client c) ∧ HEIGHT (t.client c) = HEIGHT (s.client c)
      ∧ (t.client c).isfloating = true)
  ∧ ((s.client c).isfloating = false → ¬ Displaced s c nx ny → t = s)

/-- Four tiled clients on the 1280x800 monitor as `tile` lays them out with one master and
the fraction 1/2: the master (address 1) and three stack clients of 260 pixels each
(addresses 2, 3, 4); the middle stack client 3, at (640, 280), is selected. -/
def stackState : State :=
  { bareState with
      monitor := fun _ =>
        { bareMonitor with clients := [1, 2, 3, 4], stack := [3, 1, 2, 4], sel := some 3 },
      client := fun c =>
        if c = 1 then { zeroClient with x := 0, y := 20, w := 638, h := 778, bw := 1 }
        else
          { zeroClient with
              x := 640, y := 20 + 260 * ((c : Int) - 2), w := 638, h := 258, bw := 1 } }

/-- The floating client of `floatingState` with the stored width 100 and a maximum width
of 10 in its size hints. -/
def cappedState : State :=
  { floatingState with
      client := fun _ =>
        { zeroClient with
            x := 500, y := 300, w := 100, h := 100, bw := 1, isfloating := true, maxw := 10 } }

/-! # Theorems -/

/-! ## The resolver `applysizehints` -/

theorem applysizehints_x (sw sh bh : Int) (m : Monitor) (c : Client) (x y w h : Int) (i : Bool) :
    (applysizehints sw sh bh m c x y w h i).x = clampPos i sw m.wx m.ww (WIDTH c) c.bw x w := by
  cases hfl : c.isfloating <;>
    simp only [applysizehints, hfl, Bool.false_eq_true, ↓reduceIte, clampPos]

theorem applysizehints_y (sw sh bh : Int) (m : Monitor) (c : Client) (x y w h : Int) (i : Bool) :
    (applysizehints sw sh bh m c x y w h i).y = clampPos i sh m.wy m.wh (HEIGHT c) c.bw y h := by
  cases hfl : c.isfloating <;>
    simp only [applysizehints, hfl, Bool.false_eq_true, ↓reduceIte, clampPos]

theorem applysizehints_w_tiled (sw sh bh : Int) (m : Monitor) (c : Client) (x y w h : Int)
    (i : Bool) (hf : c.isfloating = false) :
    (applysizehints sw sh bh m c x y w h i).w = max (max 1 w) bh := by
  simp only [applysizehints, hf, Bool.false_eq_true, ↓reduceIte]
  split_ifs <;> omega

theorem applysizehints_h_tiled (sw sh bh : Int) (m : Monitor) (c : Client) (x y w h : Int)
    (i : Bool) (hf : c.isfloating = false) :
    (applysizehints sw sh bh m c x y w h i).h = max (max 1 h) bh := by
  simp only [applysizehints, hf, Bool.false_eq_true, ↓reduceIte]
  split_ifs <;> omega

theorem applysizehints_changed (sw sh bh : Int) (m : Monitor) (c : Client) (x y w h : Int)
    (i : Bool) :
    (applysizehints sw sh bh m c x y w h i).changed
      = decide ((applysizehints sw sh bh m c x y w h i).x ≠ c.x
          ∨ (applysizehints sw sh bh m c x y w h i).y ≠ c.y
          ∨ (applysizehints sw sh bh m c x y w h i).w ≠ c.w
          ∨ (applysizehints sw sh bh m c x y w h i).h ≠ c.h) := by
  cases hfl : c.isfloating <;>
    simp only [applysizehints, hfl, Bool.false_eq_true, ↓reduceIte]

theorem clampPos_idem (i : Bool) (s lo len cd bw p d d' : Int)
    (hbw : 0 ≤ bw) (hw : 0 < cd) (hs : 0 < s) (hlen : 0 < len) (hd : max 1 d ≤ d') :
    clampPos i s lo len (d' + 2 * bw) bw (clampPos i s lo len (cd + 2 * bw) bw p d) d'
      = clampPos i s lo len (cd + 2 * bw) bw p d := by
  unfold clampPos
  cases i
  · simp only [Bool.false_eq_true, ↓reduceIte]
    split_ifs <;> omega
  · simp only [↓reduceIte]
    split_ifs <;> omega

theorem Resolved.eq_of (a b : Resolved) (hx : a.x = b.x) (hy : a.y = b.y) (hw : a.w = b.w)
    (hh : a.h = b.h) (hc : a.changed = b.changed) : a = b := by
  cases a; cases b; simp_all

theorem applysizehints_idem_tiled (sw sh bh : Int) (m : Monitor) (c c' : Client)
    (x y w h : Int) (i : Bool) (r : Resolved)
    (hr : applysizehints sw sh bh m c x y w h i = r)
    (hf : c.isfloating = false) (hf' : c'.isfloating = false) (hb : c'.bw = c.bw)
    (hx : c'.x = r.x) (hy : c'.y = r.y) (hw' : c'.w = r.w) (hh' : c'.h = r.h)
    (hbw : 0 ≤ c.bw) (hw : 0 < c.w) (hh : 0 < c.h)
    (hsw : 0 < sw) (hsh : 0 < sh) (hww : 0 < m.ww) (hwh : 0 < m.wh) :
    applysizehints sw sh bh m c' r.x r.y r.w r.h i = { r with changed := false } := by
  have e1 := applysizehints_w_tiled sw sh bh m c x y w h i hf
  have e2 := applysizehints_h_tiled sw sh bh m c x y w h i hf
  have e3 := applysizehints_x sw sh bh m c x y w h i
  have e4 := applysizehints_y sw sh bh m c x y w h i
  rw [hr] at e1 e2 e3 e4
  have kw := applysizehints_w_tiled sw sh bh m c' r.x r.y r.w r.h i hf'
  have kh := applysizehints_h_tiled sw sh bh m c' r.x r.y r.w r.h i hf'
  have kx : (applysizehints sw sh bh m c' r.x r.y r.w r.h i).x = r.x := by
    rw [applysizehints_x, hb]
    have : WIDTH c' = r.w + 2 * c.bw := by simp only [WIDTH, hw', hb]
    rw [this]
    have hc : WIDTH c = c.w + 2 * c.bw := rfl
    rw [e3, hc]
    exact clampPos_idem i sw m.wx m.ww c.w c.bw x w _ hbw hw hsw hww (by omega)
  have ky : (applysizehints sw sh bh m c' r.x r.y r.w r.h i).y = r.y := by
    rw [applysizehints_y, hb]
    have : HEIGHT c' = r.h + 2 * c.bw := by simp only [HEIGHT, hh', hb]
    rw [this]
    have hc : HEIGHT c = c.h + 2 * c.bw := rfl
    rw [e4, hc]
    exact clampPos_idem i sh m.wy m.wh c.h c.bw y h _ hbw hh hsh hwh (by omega)
  have kw' : (applysizehints sw sh bh m c' r.x r.y r.w r.h i).w = r.w := by omega
  have kh' : (applysizehints sw sh bh m c' r.x r.y r.w r.h i).h = r.h := by omega
  apply Resolved.eq_of
  · exact kx
  · exact ky
  · exact kw'
  · exact kh'
  · rw [applysizehints_changed, kx, ky, kw', kh', hx, hy, hw', hh']
    simp

/-- The size that `applysizehints` returns. -/
theorem applysizehints_size (sw sh bh : Int) (m : Monitor) (c : Client) (x y w h : Int)
    (i : Bool) :
    ((applysizehints sw sh bh m c x y w h i).w, (applysizehints sw sh bh m c x y w h i).h)
      = if c.isfloating = true then hintsize c (raised bh w) (raised bh h)
        else (raised bh w, raised bh h) := by
  have e1 : (if max 1 w < bh then bh else max 1 w) = raised bh w := by
    unfold raised; split_ifs <;> omega
  have e2 : (if max 1 h < bh then bh else max 1 h) = raised bh h := by
    unfold raised; split_ifs <;> omega
  cases hf : c.isfloating
  · simp only [applysizehints, hf, Bool.false_eq_true, ↓reduceIte, e1, e2]
  · simp only [applysizehints, hf, ↓reduceIte, e1, e2, hintsize]

theorem raised_ge (bh v : Int) : max 1 v ≤ raised bh v ∧ 1 ≤ raised bh v ∧ bh ≤ raised bh v := by
  unfold raised; omega

/-- A remainder of C lies between 0 and the dividend. -/
theorem tmod_between (a b : Int) :
    (0 ≤ a → 0 ≤ a.tmod b ∧ a.tmod b ≤ a) ∧ (a ≤ 0 → a ≤ a.tmod b ∧ a.tmod b ≤ 0) := by
  have key : ∀ n k : Nat, (((n % k : Nat) : Int)) ≤ (n : Int) := by
    intro n k
    exact_mod_cast Nat.mod_le n k
  have pos : ∀ n k : Nat, (0 : Int) ≤ ((n % k : Nat) : Int) := fun n k => Int.ofNat_nonneg _
  cases a with
  | ofNat n =>
    cases b with
    | ofNat k =>
      have h1 := key n k
      have h2 := pos n k
      have e : Int.tmod (Int.ofNat n) (Int.ofNat k) = ((n % k : Nat) : Int) := rfl
      rw [e]
      have e3 : Int.ofNat n = (n : Int) := rfl
      rw [e3]
      exact ⟨fun _ => ⟨h2, h1⟩, fun h => ⟨by omega, by omega⟩⟩
    | negSucc k =>
      have h1 := key n (k + 1)
      have h2 := pos n (k + 1)
      have e : Int.tmod (Int.ofNat n) (Int.negSucc k) = ((n % (k + 1) : Nat) : Int) := rfl
      rw [e]
      have e3 : Int.ofNat n = (n : Int) := rfl
      rw [e3]
      exact ⟨fun _ => ⟨h2, h1⟩, fun h => ⟨by omega, by omega⟩⟩
  | negSucc n =>
    cases b with
    | ofNat k =>
      have h1 := key (n + 1) k
      have h2 := pos (n + 1) k
      have e : Int.tmod (Int.negSucc n) (Int.ofNat k) = -((((n + 1) % k : Nat)) : Int) := rfl
      rw [e]
      have e3 : Int.negSucc n = -(((n + 1 : Nat)) : Int) := rfl
      rw [e3]
      exact ⟨fun h => ⟨by omega, by omega⟩, fun _ => ⟨by omega, by omega⟩⟩
    | negSucc k =>
      have h1 := key (n + 1) (k + 1)
      have h2 := pos (n + 1) (k + 1)
      have e : Int.tmod (Int.negSucc n) (Int.negSucc k)
          = -((((n + 1) % (k + 1) : Nat)) : Int) := rfl
      rw [e]
      have e3 : Int.negSucc n = -(((n + 1 : Nat)) : Int) := rfl
      rw [e3]
      exact ⟨fun h => ⟨by omega, by omega⟩, fun _ => ⟨by omega, by omega⟩⟩

/-- A client without size hints keeps every size. -/
theorem hintsize_plain (c : Client) (w h : Int) (hb : c.basew = 0 ∧ c.baseh = 0)
    (hi : c.incw = 0 ∧ c.inch = 0) (hlo : c.minw = 0 ∧ c.minh = 0)
    (hhi : c.maxw = 0 ∧ c.maxh = 0) (ha : c.mina = 0 ∧ c.maxa = 0) (hw : 0 ≤ w) (hh : 0 ≤ h) :
    hintsize c w h = (w, h) := by
  simp only [hintsize, hb.1, hb.2, hi.1, hi.2, hlo.1, hlo.2, hhi.1, hhi.2, ha.1, ha.2,
    lt_self_iff_false, and_self, false_and, ↓reduceIte, sub_zero, add_zero, ne_eq,
    not_true_eq_false, and_true]
  rw [max_eq_left hw, max_eq_left hh]

/-- Hints that leave the size alone do not make it smaller. -/
theorem HintsKeep.noshrink {bh : Int} {c : Client} {w h : Int} (hk : HintsKeep bh c w h) :
    HintsNoShrink bh c w h := by
  intro hf
  rw [hk hf]
  exact ⟨(raised_ge bh w).1, (raised_ge bh h).1⟩

/-- Hints that enlarge a size need not accept their own result: with the base height 50,
the increment 7 and the minimum 25 a proposed height of 20 becomes 25, and 25 becomes 29.
A size that the hints do not make smaller is therefore not enough for a second call to
return the same. -/
theorem applysizehints_not_idempotent_growing :
    HintsNoShrink 20 growClient 100 20
    ∧ ¬ IdempotentAt 1280 800 20 bareMonitor growClient 0 20 100 20 false := by
  constructor
  · intro _; decide
  · unfold IdempotentAt; decide

/-! ## Frames: what a resize leaves alone -/

theorem Frame.refl (s : State) : Frame s s := ⟨rfl, rfl, rfl, rfl, rfl, fun _ => rfl, fun _ => rfl⟩

theorem Frame.trans {a b c : State} (h1 : Frame a b) (h2 : Frame b c) : Frame a c := by
  obtain ⟨a1, a2, a3, a4, a5, a6, a7⟩ := h1
  obtain ⟨b1, b2, b3, b4, b5, b6, b7⟩ := h2
  exact ⟨b1.trans a1, b2.trans a2, b3.trans a3, b4.trans a4, b5.trans a5,
    fun m => (b6 m).trans (a6 m), fun c => (b7 c).trans (a7 c)⟩

theorem geomless_fields {a b : Client} (h : a.geomless = b.geomless) :
    a.isfloating = b.isfloating ∧ a.tag = b.tag ∧ a.mon = b.mon ∧ a.bw = b.bw
      ∧ a.isfullscreen = b.isfullscreen ∧ a.win = b.win := by
  have h1 := congrArg Client.isfloating h
  have h2 := congrArg Client.tag h
  have h3 := congrArg Client.mon h
  have h4 := congrArg Client.bw h
  have h5 := congrArg Client.isfullscreen h
  have h6 := congrArg Client.win h
  exact ⟨h1, h2, h3, h4, h5, h6⟩

theorem layoutless_fields {a b : Monitor} (h : a.layoutless = b.layoutless) :
    a.clients = b.clients ∧ a.stack = b.stack ∧ a.sel = b.sel ∧ a.curtag = b.curtag
      ∧ a.wx = b.wx ∧ a.wy = b.wy ∧ a.ww = b.ww ∧ a.wh = b.wh
      ∧ ∀ i, (a.tags i).lt = (b.tags i).lt := by
  have k1 := congrArg Monitor.clients h
  have k2 := congrArg Monitor.stack h
  have k3 := congrArg Monitor.sel h
  have k4 := congrArg Monitor.wx h
  have k5 := congrArg Monitor.wy h
  have k6 := congrArg Monitor.ww h
  have k7 := congrArg Monitor.wh h
  refine ⟨k1, k2, k3, ?_, k4, k5, k6, k7, ?_⟩
  · have h1 := congrArg Monitor.seltag h
    have h2 := congrArg Monitor.tag0 h
    have h3 := congrArg Monitor.tag1 h
    simp only [Monitor.layoutless] at h1 h2 h3
    simp only [Monitor.curtag, h1, h2, h3]
  · intro i
    have h1 := congrArg Tag.lt (congrFun (congrArg Monitor.tags h) i)
    exact h1

theorem Frame.isvisible {s s' : State} (h : Frame s s') (c : Nat) :
    ISVISIBLE s' c = ISVISIBLE s c := by
  obtain ⟨_, _, _, _, _, h6, h7⟩ := h
  have hc := geomless_fields (h7 c)
  simp only [ISVISIBLE, hc.2.1, hc.2.2.1, (layoutless_fields (h6 _)).2.2.2.1]

theorem Frame.skip {s s' : State} (h : Frame s s') (c : Nat) :
    ((s'.client c).isfloating || !ISVISIBLE s' c) = ((s.client c).isfloating || !ISVISIBLE s c) := by
  rw [h.isvisible c, (geomless_fields (h.2.2.2.2.2.2 c)).1]

theorem Frame.counttiled_eq {s s' : State} (h : Frame s s') (l : List Nat) :
    counttiled s' l = counttiled s l := by
  induction l with
  | nil => rfl
  | cons c cs ih => simp only [counttiled, h.skip c, ih]

@[simp] theorem setClient_client_self (s : State) (c : Nat) (v : Client) :
    (s.setClient c v).client c = v := by simp [State.setClient]

theorem setClient_client_ne (s : State) (c c' : Nat) (v : Client) (h : c' ≠ c) :
    (s.setClient c v).client c' = s.client c' := by simp [State.setClient, h]

@[simp] theorem setMon_monitor_self (s : State) (m : Nat) (v : Monitor) :
    (s.setMon m v).monitor m = v := by simp [State.setMon]

theorem setMon_monitor_ne (s : State) (m m' : Nat) (v : Monitor) (h : m' ≠ m) :
    (s.setMon m v).monitor m' = s.monitor m' := by simp [State.setMon, h]

theorem setClient_frame (s : State) (c : Nat) (v : Client)
    (h : v.geomless = (s.client c).geomless) : Frame s (s.setClient c v) := by
  refine ⟨rfl, rfl, rfl, rfl, rfl, fun _ => rfl, fun c' => ?_⟩
  by_cases hc : c' = c
  · subst hc; simpa using h
  · rw [setClient_client_ne _ _ _ _ hc]

theorem setMon_frame (s : State) (m : Nat) (v : Monitor)
    (h : v.layoutless = (s.monitor m).layoutless) : Frame s (s.setMon m v) := by
  refine ⟨rfl, rfl, rfl, rfl, rfl, fun m' => ?_, fun _ => rfl⟩
  by_cases hm : m' = m
  · subst hm; simpa using h
  · rw [setMon_monitor_ne _ _ _ _ hm]

theorem setTag_layoutless (M : Monitor) (t : Tag) (h : t.lt = (montotag M).lt) :
    (M.setTag t).layoutless = M.layoutless := by
  simp only [Monitor.setTag, Monitor.layoutless]
  congr 1
  funext i
  by_cases hi : i = M.curtag
  · subst hi; simp [h, montotag]
  · rw [Function.update_noteq hi]

theorem resize_eq (s : State) (c : Nat) (x y w h : Int) (i : Bool) :
    resize s c x y w h i
      = if (applysizehints s.sw s.sh s.bh (s.monitor (s.client c).mon) (s.client c)
              x y w h i).changed = true
        then resizeclient s c
          (applysizehints s.sw s.sh s.bh (s.monitor (s.client c).mon) (s.client c) x y w h i).x
          (applysizehints s.sw s.sh s.bh (s.monitor (s.client c).mon) (s.client c) x y w h i).y
          (applysizehints s.sw s.sh s.bh (s.monitor (s.client c).mon) (s.client c) x y w h i).w
          (applysizehints s.sw s.sh s.bh (s.monitor (s.client c).mon) (s.client c) x y w h i).h
        else s := rfl

theorem resize_frame (s : State) (c : Nat) (x y w h : Int) (i : Bool) :
    Frame s (resize s c x y w h i) := by
  rw [resize_eq]
  split
  · exact setClient_frame _ _ _ rfl
  · exact Frame.refl s

theorem resize_monitor (s : State) (c : Nat) (x y w h : Int) (i : Bool) :
    (resize s c x y w h i).monitor = s.monitor := by
  rw [resize_eq]
  split <;> rfl

theorem resize_client_ne (s : State) (c c' : Nat) (x y w h : Int) (i : Bool) (hne : c' ≠ c) :
    (resize s c x y w h i).client c' = s.client c' := by
  rw [resize_eq]
  split
  · exact setClient_client_ne _ _ _ _ hne
  · rfl

/-- Whether or not `resize` calls `resizeclient`, the client ends up with the rectangle
that `applysizehints` returned. -/
theorem resize_client_self (s : State) (c : Nat) (x y w h : Int) (i : Bool) :
    ((resize s c x y w h i).client c).x
        = (applysizehints s.sw s.sh s.bh (s.monitor (s.client c).mon) (s.client c) x y w h i).x
    ∧ ((resize s c x y w h i).client c).y
        = (applysizehints s.sw s.sh s.bh (s.monitor (s.client c).mon) (s.client c) x y w h i).y
    ∧ ((resize s c x y w h i).client c).w
        = (applysizehints s.sw s.sh s.bh (s.monitor (s.client c).mon) (s.client c) x y w h i).w
    ∧ ((resize s c x y w h i).client c).h
        = (applysizehints s.sw s.sh s.bh (s.monitor (s.client c).mon) (s.client c) x y w h i).h := by
  have hch := applysizehints_changed s.sw s.sh s.bh (s.monitor (s.client c).mon) (s.client c) x y w h i
  rw [resize_eq]
  split
  · simp [resizeclient, Client.resized]
  · rename_i hn
    rw [hch] at hn
    simp only [decide_eq_true_eq, not_or, not_not] at hn
    exact ⟨hn.1.symm, hn.2.1.symm, hn.2.2.1.symm, hn.2.2.2.symm⟩

theorem showhide_frame (l : List Nat) (s : State) : Frame s (showhide l s) := by
  induction l generalizing s with
  | nil => exact Frame.refl s
  | cons c cs ih =>
    simp only [showhide]
    split
    · split
      · exact (resize_frame _ _ _ _ _ _ _).trans (ih _)
      · exact ih _
    · exact ih _

theorem showhide_monitor (l : List Nat) (s : State) : (showhide l s).monitor = s.monitor := by
  induction l generalizing s with
  | nil => rfl
  | cons c cs ih =>
    simp only [showhide]
    split
    · split
      · rw [ih, resize_monitor]
      · exact ih _
    · exact ih _

theorem tileloop_frame (m n mw : Nat) (l : List Nat) (i my ty : Nat) (s : State) :
    Frame s (tileloop m n mw l i my ty s) := by
  induction l generalizing i my ty s with
  | nil => exact Frame.refl s
  | cons c cs ih =>
    simp only [tileloop]
    split
    · exact ih _ _ _ _
    · split
      · exact (resize_frame _ _ _ _ _ _ _).trans (ih _ _ _ _)
      · exact (resize_frame _ _ _ _ _ _ _).trans (ih _ _ _ _)

theorem tileloop_monitor (m n mw : Nat) (l : List Nat) (i my ty : Nat) (s : State) :
    (tileloop m n mw l i my ty s).monitor = s.monitor := by
  induction l generalizing i my ty s with
  | nil => rfl
  | cons c cs ih =>
    simp only [tileloop]
    split
    · exact ih _ _ _ _
    · split
      · rw [ih, resize_monitor]
      · rw [ih, resize_monitor]

theorem monocleloop_frame (m : Nat) (l : List Nat) (s : State) :
    Frame s (monocleloop m l s) := by
  induction l generalizing s with
  | nil => exact Frame.refl s
  | cons c cs ih =>
    simp only [monocleloop]
    split
    · exact ih _
    · exact (resize_frame _ _ _ _ _ _ _).trans (ih _)

theorem monocleloop_monitor (m : Nat) (l : List Nat) (s : State) :
    (monocleloop m l s).monitor = s.monitor := by
  induction l generalizing s with
  | nil => rfl
  | cons c cs ih =>
    simp only [monocleloop]
    split
    · exact ih _
    · rw [ih, resize_monitor]

theorem tile_frame (s : State) (m : Nat) : Frame s (tile s m) := by
  simp only [tile]
  split
  · exact setMon_frame _ _ _ (setTag_layoutless _ _ rfl)
  · refine Frame.trans ?_ (tileloop_frame _ _ _ _ _ _ _ _)
    exact setMon_frame _ _ _ (setTag_layoutless _ _ rfl)

theorem monocle_frame (s : State) (m : Nat) : Frame s (monocle s m) := by
  simp only [monocle]
  split
  · refine Frame.trans ?_ (monocleloop_frame _ _ _)
    exact setMon_frame _ _ _ (setTag_layoutless _ _ rfl)
  · exact monocleloop_frame _ _ _

theorem arrangemon_frame (s : State) (m : Nat) : Frame s (arrangemon s m) := by
  simp only [arrangemon]
  split
  · refine Frame.trans ?_ (tile_frame _ _)
    exact setMon_frame _ _ _ (setTag_layoutless _ _ rfl)
  · split
    · refine Frame.trans ?_ (monocle_frame _ _)
      exact setMon_frame _ _ _ (setTag_layoutless _ _ rfl)
    · exact Frame.refl s

theorem foldl_frame (f : State → Nat → State) (hf : ∀ s m, Frame s (f s m)) (l : List Nat)
    (s : State) : Frame s (l.foldl f s) := by
  induction l generalizing s with
  | nil => exact Frame.refl s
  | cons a as ih => exact (hf s a).trans (ih _)

theorem arrange_frame (s : State) (m : Option Nat) : Frame s (arrange s m) := by
  cases m with
  | some m => exact (showhide_frame _ _).trans (arrangemon_frame _ _)
  | none =>
    exact (foldl_frame _ (fun s m => showhide_frame _ s) _ _).trans
      (foldl_frame _ arrangemon_frame _ _)

/-! ## Layout parameters of the active tag -/

@[simp] theorem montotag_setTag (M : Monitor) (t : Tag) : montotag (M.setTag t) = t := by
  simp [montotag, Monitor.setTag, Monitor.curtag]

@[simp] theorem setTag_clients (M : Monitor) (t : Tag) : (M.setTag t).clients = M.clients := rfl

@[simp] theorem setTag_stack (M : Monitor) (t : Tag) : (M.setTag t).stack = M.stack := rfl

@[simp] theorem setTag_setTag (M : Monitor) (t t' : Tag) :
    (M.setTag t).setTag t' = M.setTag t' := by
  simp [Monitor.setTag, Monitor.curtag]

theorem tile_montotag (s : State) (m : Nat) :
    montotag ((tile s m).monitor m)
      = if counttiled s (s.monitor m).clients = 0
        then { montotag (s.monitor m) with mfact := mfact, nmaster := nmaster }
        else { montotag (s.monitor m) with
                 ltsymbol := tilesymbol (counttiled s (s.monitor m).clients)
                               (montotag (s.monitor m)).nmaster } := by
  simp only [tile]
  split
  · simp
  · simp [tileloop_monitor]

theorem monocle_montotag (s : State) (m : Nat) :
    (montotag ((monocle s m).monitor m)).lt = (montotag (s.monitor m)).lt
    ∧ (montotag ((monocle s m).monitor m)).nmaster = (montotag (s.monitor m)).nmaster
    ∧ (montotag ((monocle s m).monitor m)).mfact = (montotag (s.monitor m)).mfact := by
  simp only [monocle]
  split
  · simp [monocleloop_monitor]
  · simp [monocleloop_monitor]

theorem counttiled_setTag (s : State) (m : Nat) (t : Tag) (l : List Nat)
    (h : t.lt = (montotag (s.monitor m)).lt) :
    counttiled (s.setMon m ((s.monitor m).setTag t)) l = counttiled s l :=
  (setMon_frame _ _ _ (setTag_layoutless _ _ h)).counttiled_eq l

theorem counttiled_setsymbol (s : State) (m : Nat) (sym : String) (l : List Nat) :
    counttiled (s.setMon m ((s.monitor m).setTag
      { montotag (s.monitor m) with ltsymbol := sym })) l = counttiled s l :=
  counttiled_setTag s m _ l rfl

theorem counttiled_setnmaster (s : State) (m : Nat) (v : Int) (l : List Nat) :
    counttiled (s.setMon m ((s.monitor m).setTag
      { montotag (s.monitor m) with nmaster := v })) l = counttiled s l :=
  counttiled_setTag s m _ l rfl

theorem counttiled_setmfact (s : State) (m : Nat) (v : ℚ) (l : List Nat) :
    counttiled (s.setMon m ((s.monitor m).setTag
      { montotag (s.monitor m) with mfact := v })) l = counttiled s l :=
  counttiled_setTag s m _ l rfl

/-- What `arrangemon` leaves in the active tag of the monitor it arranges: the configured
defaults when the tiled layout finds no tiled client, and else the values it found. -/
theorem arrangemon_montotag (s : State) (m : Nat) :
    (montotag ((arrangemon s m).monitor m)).lt = (montotag (s.monitor m)).lt
    ∧ (montotag ((arrangemon s m).monitor m)).nmaster
        = (if (montotag (s.monitor m)).lt = 0 ∧ counttiled s (s.monitor m).clients = 0
           then nmaster else (montotag (s.monitor m)).nmaster)
    ∧ (montotag ((arrangemon s m).monitor m)).mfact
        = (if (montotag (s.monitor m)).lt = 0 ∧ counttiled s (s.monitor m).clients = 0
           then mfact else (montotag (s.monitor m)).mfact) := by
  simp only [arrangemon]
  split
  · rename_i h0
    rw [tile_montotag]
    simp only [setMon_monitor_self, setTag_clients, montotag_setTag]
    rw [counttiled_setsymbol]
    split <;> simp_all
  · rename_i h0
    split
    · have := monocle_montotag (s.setMon m ((s.monitor m).setTag
        { montotag (s.monitor m) with ltsymbol := "[0]" })) m
      simp only [setMon_monitor_self, montotag_setTag] at this
      simp [this, h0]
    · simp [h0]

theorem arrange_some_montotag (s : State) (m : Nat) :
    (montotag ((arrange s (some m)).monitor m)).lt = (montotag (s.monitor m)).lt
    ∧ (montotag ((arrange s (some m)).monitor m)).nmaster
        = (if (montotag (s.monitor m)).lt = 0 ∧ counttiled s (s.monitor m).clients = 0
           then nmaster else (montotag (s.monitor m)).nmaster)
    ∧ (montotag ((arrange s (some m)).monitor m)).mfact
        = (if (montotag (s.monitor m)).lt = 0 ∧ counttiled s (s.monitor m).clients = 0
           then mfact else (montotag (s.monitor m)).mfact) := by
  have h := arrangemon_montotag (showhide (s.monitor m).stack s) m
  rw [showhide_monitor, (showhide_frame (s.monitor m).stack s).counttiled_eq] at h
  exact h

/-- The state `incnmaster` hands to `arrange`. -/
theorem incnmaster_eq (s : State) (i : Int) :
    incnmaster s i = arrange (s.setMon s.selmon ((s.monitor s.selmon).setTag
      { montotag (s.monitor s.selmon) with
          nmaster := min (max (nmasterOf s + i) 0) (ntiled s) })) (some s.selmon) := rfl

theorem incnmaster_frame (s : State) (i : Int) : Frame s (incnmaster s i) := by
  rw [incnmaster_eq]
  refine Frame.trans ?_ (arrange_frame _ _)
  exact setMon_frame _ _ _ (setTag_layoutless _ _ rfl)

theorem Frame.ntiled_eq {s s' : State} (h : Frame s s') : ntiled s' = ntiled s := by
  unfold ntiled
  rw [h.counttiled_eq, h.2.2.2.2.1, (layoutless_fields (h.2.2.2.2.2.1 s.selmon)).1]

theorem Frame.layoutOf_eq {s s' : State} (h : Frame s s') : layoutOf s' = layoutOf s := by
  unfold layoutOf montotag
  rw [h.2.2.2.2.1, (layoutless_fields (h.2.2.2.2.2.1 s.selmon)).2.2.2.1]
  exact (layoutless_fields (h.2.2.2.2.2.1 s.selmon)).2.2.2.2.2.2.2.2 _

/-- The master count after one call of `incnmaster`, re-arrange included. -/
theorem incnmaster_nmaster (s : State) (i : Int) :
    nmasterOf (incnmaster s i)
      = if layoutOf s = 0 ∧ ntiled s = 0 then nmaster
        else min (max (nmasterOf s + i) 0) (ntiled s) := by
  have hsel : (incnmaster s i).selmon = s.selmon := (incnmaster_frame s i).2.2.2.2.1
  unfold nmasterOf
  rw [hsel, incnmaster_eq]
  have h := (arrange_some_montotag (s.setMon s.selmon ((s.monitor s.selmon).setTag
      { montotag (s.monitor s.selmon) with
          nmaster := min (max (nmasterOf s + i) 0) (ntiled s) })) s.selmon).2.1
  rw [h]
  simp only [setMon_monitor_self, montotag_setTag, setTag_clients]
  rw [counttiled_setnmaster]
  rfl

theorem incnmaster_seq (s : State) (ds : List Int) (hne : ds ≠ [])
    (h : 1 ≤ ntiled s ∨ layoutOf s ≠ 0) :
    0 ≤ nmasterOf (ds.foldl incnmaster s) ∧ nmasterOf (ds.foldl incnmaster s) ≤ ntiled s
      ∧ ntiled (ds.foldl incnmaster s) = ntiled s := by
  have key : ∀ (ds : List Int) (s : State), (1 ≤ ntiled s ∨ layoutOf s ≠ 0) →
      (0 ≤ nmasterOf s ∧ nmasterOf s ≤ ntiled s) →
      0 ≤ nmasterOf (ds.foldl incnmaster s) ∧ nmasterOf (ds.foldl incnmaster s) ≤ ntiled s
        ∧ ntiled (ds.foldl incnmaster s) = ntiled s := by
    intro ds
    induction ds with
    | nil => intro s _ h2; exact ⟨h2.1, h2.2, rfl⟩
    | cons d ds ih =>
      intro s h1 _
      have hfr := incnmaster_frame s d
      have hn := hfr.ntiled_eq
      have hl := hfr.layoutOf_eq
      have hv := incnmaster_nmaster s d
      have hcond : ¬ (layoutOf s = 0 ∧ ntiled s = 0) := by
        rintro ⟨a, b⟩; rcases h1 with h1 | h1
        · omega
        · exact h1 a
      rw [if_neg hcond] at hv
      have := ih (incnmaster s d) (by rw [hn, hl]; exact h1) (by rw [hv, hn]; omega)
      simp only [List.foldl_cons]
      rw [hn] at this
      exact this
  cases ds with
  | nil => exact absurd rfl hne
  | cons d ds =>
    have hfr := incnmaster_frame s d
    have hn := hfr.ntiled_eq
    have hl := hfr.layoutOf_eq
    have hv := incnmaster_nmaster s d
    have hcond : ¬ (layoutOf s = 0 ∧ ntiled s = 0) := by
      rintro ⟨a, b⟩; rcases h with h | h
      · omega
      · exact h a
    rw [if_neg hcond] at hv
    have := key ds (incnmaster s d) (by rw [hn, hl]; exact h) (by rw [hv, hn]; omega)
    simp only [List.foldl_cons]
    rw [hn] at this
    exact this

/-! ## Master count and master fraction -/

theorem rne_floor (q : ℚ) : rne q = Int.floor q ∨ rne q = Int.floor q + 1 := by
  unfold rne
  split_ifs <;> simp

theorem rne_near (q : ℚ) : (rne q : ℚ) - q ≤ 1 / 2 ∧ q - (rne q : ℚ) ≤ 1 / 2 := by
  have h1 : ((Int.floor q : Int) : ℚ) ≤ q := Int.floor_le q
  have h2 : q < ((Int.floor q : Int) : ℚ) + 1 := Int.lt_floor_add_one q
  unfold rne
  split_ifs with a b c
  · constructor <;> linarith
  · push_cast
    constructor <;> linarith
  · have e : q - ((Int.floor q : Int) : ℚ) = 1 / 2 := le_antisymm (not_lt.mp b) (not_lt.mp a)
    constructor <;> linarith
  · have e : q - ((Int.floor q : Int) : ℚ) = 1 / 2 := le_antisymm (not_lt.mp b) (not_lt.mp a)
    push_cast
    constructor <;> linarith

/-- Rounding does not cross an integer. -/
theorem rne_mono_int (q : ℚ) (n : Int) :
    ((n : ℚ) ≤ q → n ≤ rne q) ∧ (q ≤ (n : ℚ) → rne q ≤ n) := by
  have h1 : ((Int.floor q : Int) : ℚ) ≤ q := Int.floor_le q
  have h2 : q < ((Int.floor q : Int) : ℚ) + 1 := Int.lt_floor_add_one q
  constructor
  · intro h
    have hf : n ≤ Int.floor q := Int.le_floor.mpr h
    rcases rne_floor q with e | e <;> omega
  · intro h
    by_cases hq : q = (n : ℚ)
    · have hf : Int.floor q = n := by rw [hq]; exact Int.floor_intCast n
      have : rne q = n := by
        unfold rne
        rw [hf, hq]
        simp
      omega
    · have hlt : q < (n : ℚ) := lt_of_le_of_ne h hq
      have hf : Int.floor q < n := Int.floor_lt.mpr hlt
      rcases rne_floor q with e | e <;> omega

/-- The value of `rne` at a rational that is nearer to the integer `k` than to any
other, or half-way between `k` and a neighbour when `k` is even. -/
theorem rne_eq (q : ℚ) (k : Int)
    (h : ((k : ℚ) - 1 / 2 < q ∧ q < (k : ℚ) + 1 / 2)
      ∨ (k % 2 = 0 ∧ (q = (k : ℚ) + 1 / 2 ∨ q = (k : ℚ) - 1 / 2))) : rne q = k := by
  rcases h with ⟨a, b⟩ | ⟨hev, hq | hq⟩
  · by_cases hk : (k : ℚ) ≤ q
    · have hf : Int.floor q = k := Int.floor_eq_iff.mpr ⟨hk, by linarith⟩
      unfold rne
      rw [hf, if_pos (by linarith)]
    · have hf : Int.floor q = k - 1 := Int.floor_eq_iff.mpr ⟨by push_cast; linarith, by
        push_cast; linarith⟩
      unfold rne
      rw [hf]
      push_cast
      rw [if_neg (by linarith), if_pos (by linarith)]
      omega
  · have hf : Int.floor q = k := Int.floor_eq_iff.mpr ⟨by linarith, by linarith⟩
    unfold rne
    rw [hf, if_neg (by linarith), if_neg (by linarith), if_pos hev]
  · have hf : Int.floor q = k - 1 := Int.floor_eq_iff.mpr ⟨by push_cast; linarith, by
      push_cast; linarith⟩
    unfold rne
    rw [hf]
    push_cast
    rw [if_neg (by linarith), if_neg (by linarith), if_neg (by omega)]
    omega

/-- The value of `fpround` at a rational whose binary exponent `e` is known. -/
theorem fpround_eval (p : Nat) (emin e : Int) (q : ℚ) (hq : q ≠ 0)
    (h1 : (2 : ℚ) ^ e ≤ abs q) (h2 : abs q < (2 : ℚ) ^ (e + 1)) (he : emin ≤ e) :
    fpround p emin q
      = (rne (q / 2 ^ (e - ((p : Int) - 1))) : ℚ) * 2 ^ (e - ((p : Int) - 1)) := by
  have hpos : 0 < abs q := abs_pos.mpr hq
  have hlog : Int.log 2 (abs q) = e := by
    have a : e ≤ Int.log 2 (abs q) :=
      (Int.zpow_le_iff_le_log (by norm_num) hpos).mp (by exact_mod_cast h1)
    have b : Int.log 2 (abs q) < e + 1 :=
      (Int.lt_zpow_iff_log_lt (by norm_num) hpos).mp (by exact_mod_cast h2)
    omega
  unfold fpround
  rw [if_neg hq, hlog, max_eq_left he]

/-- The exponent that `fpround` works with. -/
theorem fpround_exponent (emin : Int) (q : ℚ) (hq : q ≠ 0) :
    abs q < (2 : ℚ) ^ (max (Int.log 2 (abs q)) emin + 1)
    ∧ (emin < max (Int.log 2 (abs q)) emin → (2 : ℚ) ^ (max (Int.log 2 (abs q)) emin) ≤ abs q) := by
  have hpos : 0 < abs q := abs_pos.mpr hq
  have a : ((2 : Nat) : ℚ) ^ Int.log 2 (abs q) ≤ abs q := Int.zpow_log_le_self (by norm_num) hpos
  have b : abs q < ((2 : Nat) : ℚ) ^ (Int.log 2 (abs q) + 1) :=
    Int.lt_zpow_succ_log_self (by norm_num) _
  constructor
  · refine lt_of_lt_of_le b ?_
    have : ((2 : Nat) : ℚ) = 2 := by norm_num
    rw [this]
    exact zpow_le_zpow_right₀ (by norm_num) (by omega)
  · intro h
    have e : max (Int.log 2 (abs q)) emin = Int.log 2 (abs q) := by omega
    rw [e]
    exact_mod_cast a

/-- The `double` constant `0.1`. -/
theorem todouble_tenth : todouble (1 / 10) = 3602879701896397 / 36028797018963968 := by
  unfold todouble
  rw [fpround_eval 53 (-1022) (-4) (1 / 10) (by norm_num) (by rw [abs_of_pos] <;> norm_num)
    (by rw [abs_of_pos] <;> norm_num) (by norm_num)]
  have e : rne ((1 / 10 : ℚ) / 2 ^ ((-4 : Int) - (((53 : Nat) : Int) - 1))) = 7205759403792794 := by
    apply rne_eq
    left
    norm_num
  rw [e]
  norm_num

/-- The `double` constant `0.9`. -/
theorem todouble_ninetenths : todouble (9 / 10) = 8106479329266893 / 9007199254740992 := by
  unfold todouble
  rw [fpround_eval 53 (-1022) (-1) (9 / 10) (by norm_num) (by rw [abs_of_pos] <;> norm_num)
    (by rw [abs_of_pos] <;> norm_num) (by norm_num)]
  have e : rne ((9 / 10 : ℚ) / 2 ^ ((-1 : Int) - (((53 : Nat) : Int) - 1))) = 8106479329266893 := by
    apply rne_eq
    left
    norm_num
  rw [e]
  norm_num

/-- No `float` lies above 9/10 and at or below the `double` constant `0.9`: a `float`
that is not greater than the constant is at most 9/10. -/
theorem tofloat_le_ninetenths (q : ℚ) (h : tofloat q ≤ todouble (9 / 10)) :
    tofloat q ≤ 9 / 10 := by
  rw [todouble_ninetenths] at h
  by_cases hq : q = 0
  · have : tofloat q = 0 := by unfold tofloat fpround; rw [if_pos hq]
    rw [this]; norm_num
  obtain ⟨hx1, hx2⟩ := fpround_exponent (-126) q hq
  have hf : tofloat q = (rne (q / 2 ^ (max (Int.log 2 (abs q)) (-126) - (((24 : Nat) : Int) - 1))) : ℚ)
      * 2 ^ (max (Int.log 2 (abs q)) (-126) - (((24 : Nat) : Int) - 1)) := by
    unfold tofloat fpround
    rw [if_neg hq]
  generalize max (Int.log 2 (abs q)) (-126) = e at hx1 hx2 hf
  have e24 : (((24 : Nat) : Int) - 1) = 23 := by norm_num
  rw [e24] at hf
  have hu : (0 : ℚ) < 2 ^ (e - 23) := zpow_pos (by norm_num) _
  rw [hf] at h ⊢
  rcases lt_or_gt_of_ne hq with hneg | hpos
  · -- a negative value rounds to a value that is not positive
    have hk : rne (q / 2 ^ (e - 23)) ≤ 0 :=
      (rne_mono_int _ 0).2 (by
        have : q / 2 ^ (e - 23) < 0 := div_neg_of_neg_of_pos hneg hu
        push_cast
        linarith)
    have hk' : (rne (q / 2 ^ (e - 23)) : ℚ) ≤ 0 := by exact_mod_cast hk
    have : (rne (q / 2 ^ (e - 23)) : ℚ) * 2 ^ (e - 23) ≤ 0 :=
      mul_nonpos_of_nonpos_of_nonneg hk' hu.le
    linarith
  · rw [abs_of_pos hpos] at hx1 hx2
    rcases lt_trichotomy e (-1) with he | he | he
    · -- below 1/2
      have h24 : (2 : ℚ) ^ (e + 1) = 2 ^ (24 : Int) * 2 ^ (e - 23) := by
        rw [← zpow_add₀ (by norm_num)]
        congr 1
        ring
      have hk : rne (q / 2 ^ (e - 23)) ≤ 16777216 :=
        (rne_mono_int _ 16777216).2 (by
          rw [div_le_iff₀ hu]
          have : ((16777216 : Int) : ℚ) = 2 ^ (24 : Int) := by norm_num
          rw [this, ← h24]
          exact hx1.le)
      have hk' : (rne (q / 2 ^ (e - 23)) : ℚ) ≤ 16777216 := by exact_mod_cast hk
      have hle : (2 : ℚ) ^ (e + 1) ≤ 2 ^ (-1 : Int) :=
        zpow_le_zpow_right₀ (by norm_num) (by omega)
      have h2 : (rne (q / 2 ^ (e - 23)) : ℚ) * 2 ^ (e - 23) ≤ 16777216 * 2 ^ (e - 23) :=
        mul_le_mul_of_nonneg_right hk' hu.le
      have h3 : (16777216 : ℚ) * 2 ^ (e - 23) = 2 ^ (e + 1) := by
        rw [h24]; norm_num
      have h4 : (2 : ℚ) ^ (-1 : Int) = 1 / 2 := by norm_num
      calc (rne (q / 2 ^ (e - 23)) : ℚ) * 2 ^ (e - 23) ≤ 16777216 * 2 ^ (e - 23) := h2
        _ = 2 ^ (e + 1) := h3
        _ ≤ 2 ^ (-1 : Int) := hle
        _ = 1 / 2 := h4
        _ ≤ 9 / 10 := by norm_num
    · -- between 1/2 and 1
      subst he
      have hu' : (2 : ℚ) ^ ((-1 : Int) - 23) = 1 / 16777216 := by norm_num
      rw [hu'] at h ⊢
      generalize rne (q / (1 / 16777216)) = k at h ⊢
      have hk : (k : ℚ) < 15099495 := by linarith
      have hk' : k < 15099495 := by exact_mod_cast hk
      have hk2 : (k : ℚ) ≤ 15099494 := by
        have : k ≤ 15099494 := by omega
        exact_mod_cast this
      linarith
    · -- at least 1
      exfalso
      have hx := hx2 (by omega)
      have h23 : (2 : ℚ) ^ e = 2 ^ (23 : Int) * 2 ^ (e - 23) := by
        rw [← zpow_add₀ (by norm_num)]
        congr 1
        ring
      have hk : (8388608 : Int) ≤ rne (q / 2 ^ (e - 23)) :=
        (rne_mono_int _ 8388608).1 (by
          rw [le_div_iff₀ hu]
          have : ((8388608 : Int) : ℚ) = 2 ^ (23 : Int) := by norm_num
          rw [this, ← h23]
          exact hx)
      have hk' : (8388608 : ℚ) ≤ (rne (q / 2 ^ (e - 23)) : ℚ) := by exact_mod_cast hk
      have h2 : (8388608 : ℚ) * 2 ^ (e - 23) ≤ (rne (q / 2 ^ (e - 23)) : ℚ) * 2 ^ (e - 23) :=
        mul_le_mul_of_nonneg_right hk' hu.le
      have h3 : (8388608 : ℚ) * 2 ^ (e - 23) = 2 ^ e := by
        rw [h23]; norm_num
      have h4 : (1 : ℚ) ≤ 2 ^ e := one_le_zpow₀ (by norm_num) (by omega)
      have h5 : (1 : ℚ) ≤ (rne (q / 2 ^ (e - 23)) : ℚ) * 2 ^ (e - 23) :=
        calc (1 : ℚ) ≤ 2 ^ e := h4
          _ = 8388608 * 2 ^ (e - 23) := h3.symm
          _ ≤ _ := h2
      have h6 : (8106479329266893 : ℚ) / 9007199254740992 < 1 := by norm_num
      exact absurd (lt_of_le_of_lt (h5.trans h) h6) (lt_irrefl _)

/-- No `float` lies at or above 1/10 and below the `double` constant `0.1`. -/
theorem tofloat_ge_tenth (q : ℚ) (h : 1 / 10 ≤ tofloat q) : todouble (1 / 10) ≤ tofloat q := by
  rw [todouble_tenth]
  by_cases hq : q = 0
  · have : tofloat q = 0 := by unfold tofloat fpround; rw [if_pos hq]
    rw [this] at h
    norm_num at h
  obtain ⟨hx1, hx2⟩ := fpround_exponent (-126) q hq
  have hf : tofloat q = (rne (q / 2 ^ (max (Int.log 2 (abs q)) (-126) - (((24 : Nat) : Int) - 1))) : ℚ)
      * 2 ^ (max (Int.log 2 (abs q)) (-126) - (((24 : Nat) : Int) - 1)) := by
    unfold tofloat fpround
    rw [if_neg hq]
  generalize max (Int.log 2 (abs q)) (-126) = e at hx1 hx2 hf
  have e24 : (((24 : Nat) : Int) - 1) = 23 := by norm_num
  rw [e24] at hf
  have hu : (0 : ℚ) < 2 ^ (e - 23) := zpow_pos (by norm_num) _
  rw [hf] at h ⊢
  rcases lt_or_gt_of_ne hq with hneg | hpos
  · exfalso
    have hk : rne (q / 2 ^ (e - 23)) ≤ 0 :=
      (rne_mono_int _ 0).2 (by
        have : q / 2 ^ (e - 23) < 0 := div_neg_of_neg_of_pos hneg hu
        push_cast
        linarith)
    have hk' : (rne (q / 2 ^ (e - 23)) : ℚ) ≤ 0 := by exact_mod_cast hk
    have : (rne (q / 2 ^ (e - 23)) : ℚ) * 2 ^ (e - 23) ≤ 0 :=
      mul_nonpos_of_nonpos_of_nonneg hk' hu.le
    linarith
  · rw [abs_of_pos hpos] at hx1 hx2
    rcases lt_trichotomy e (-4) with he | he | he
    · -- below 1/16
      exfalso
      have h24 : (2 : ℚ) ^ (e + 1) = 2 ^ (24 : Int) * 2 ^ (e - 23) := by
        rw [← zpow_add₀ (by norm_num)]
        congr 1
        ring
      have hk : rne (q / 2 ^ (e - 23)) ≤ 16777216 :=
        (rne_mono_int _ 16777216).2 (by
          rw [div_le_iff₀ hu]
          have : ((16777216 : Int) : ℚ) = 2 ^ (24 : Int) := by norm_num
          rw [this, ← h24]
          exact hx1.le)
      have hk' : (rne (q / 2 ^ (e - 23)) : ℚ) ≤ 16777216 := by exact_mod_cast hk
      have hle : (2 : ℚ) ^ (e + 1) ≤ 2 ^ (-4 : Int) :=
        zpow_le_zpow_right₀ (by norm_num) (by omega)
      have h2 : (rne (q / 2 ^ (e - 23)) : ℚ) * 2 ^ (e - 23) ≤ 16777216 * 2 ^ (e - 23) :=
        mul_le_mul_of_nonneg_right hk' hu.le
      have h3 : (16777216 : ℚ) * 2 ^ (e - 23) = 2 ^ (e + 1) := by
        rw [h24]; norm_num
      have h4 : (2 : ℚ) ^ (-4 : Int) = 1 / 16 := by norm_num
      have h5 : (rne (q / 2 ^ (e - 23)) : ℚ) * 2 ^ (e - 23) ≤ 1 / 16 :=
        calc (rne (q / 2 ^ (e - 23)) : ℚ) * 2 ^ (e - 23) ≤ 16777216 * 2 ^ (e - 23) := h2
          _ = 2 ^ (e + 1) := h3
          _ ≤ 2 ^ (-4 : Int) := hle
          _ = 1 / 16 := h4
      have h6 : (1 : ℚ) / 16 < 1 / 10 := by norm_num
      exact absurd (lt_of_le_of_lt (h.trans h5) h6) (lt_irrefl _)
    · -- between 1/16 and 1/8
      subst he
      have hu' : (2 : ℚ) ^ ((-4 : Int) - 23) = 1 / 134217728 := by norm_num
      rw [hu'] at h ⊢
      generalize rne (q / (1 / 134217728)) = k at h ⊢
      have hk : (13421772 : ℚ) < (k : ℚ) := by linarith
      have hk' : (13421772 : Int) < k := by exact_mod_cast hk
      have hk2 : (13421773 : ℚ) ≤ (k : ℚ) := by
        have : (13421773 : Int) ≤ k := by omega
        exact_mod_cast this
      linarith
    · -- at least 1/8
      have hx := hx2 (by omega)
      have h23 : (2 : ℚ) ^ e = 2 ^ (23 : Int) * 2 ^ (e - 23) := by
        rw [← zpow_add₀ (by norm_num)]
        congr 1
        ring
      have hk : (8388608 : Int) ≤ rne (q / 2 ^ (e - 23)) :=
        (rne_mono_int _ 8388608).1 (by
          rw [le_div_iff₀ hu]
          have : ((8388608 : Int) : ℚ) = 2 ^ (23 : Int) := by norm_num
          rw [this, ← h23]
          exact hx)
      have hk' : (8388608 : ℚ) ≤ (rne (q / 2 ^ (e - 23)) : ℚ) := by exact_mod_cast hk
      have h2 : (8388608 : ℚ) * 2 ^ (e - 23) ≤ (rne (q / 2 ^ (e - 23)) : ℚ) * 2 ^ (e - 23) :=
        mul_le_mul_of_nonneg_right hk' hu.le
      have h3 : (8388608 : ℚ) * 2 ^ (e - 23) = 2 ^ e := by
        rw [h23]; norm_num
      have h4 : (2 : ℚ) ^ (-3 : Int) ≤ 2 ^ e := zpow_le_zpow_right₀ (by norm_num) (by omega)
      have h5 : (2 : ℚ) ^ (-3 : Int) = 1 / 8 := by norm_num
      calc (3602879701896397 : ℚ) / 36028797018963968 ≤ 1 / 8 := by norm_num
        _ = 2 ^ (-3 : Int) := h5.symm
        _ ≤ 2 ^ e := h4
        _ = 8388608 * 2 ^ (e - 23) := h3.symm
        _ ≤ _ := h2

/-- The test of `setmfact` against the `double` constants, for a `float`, is the test
against 1/10 and 9/10. -/
theorem setmfact_test (q : ℚ) :
    (tofloat q < todouble (1 / 10) ∨ tofloat q > todouble (9 / 10))
      ↔ (tofloat q < 1 / 10 ∨ 9 / 10 < tofloat q) := by
  have a : (1 : ℚ) / 10 < todouble (1 / 10) := by rw [todouble_tenth]; norm_num
  have b : (9 : ℚ) / 10 < todouble (9 / 10) := by rw [todouble_ninetenths]; norm_num
  constructor
  · rintro (h | h)
    · left
      by_contra hc
      exact absurd (tofloat_ge_tenth q (not_lt.mp hc)) (not_le.mpr h)
    · right
      exact lt_trans b h
  · rintro (h | h)
    · left
      exact lt_trans h a
    · right
      by_contra hc
      exact absurd (tofloat_le_ninetenths q (not_lt.mp hc)) (not_le.mpr h)

theorem mfactOf_congr (s t : State) (e1 : t.selmon = s.selmon)
    (e2 : montotag (t.monitor s.selmon) = montotag (s.monitor s.selmon)) :
    mfactOf t = mfactOf s := by
  unfold mfactOf
  rw [e1, e2]

theorem setmfact_frame (s : State) (a : ℚ) : Frame s (setmfact s a) := by
  by_cases hr : mfactrounded s a < todouble (1 / 10) ∨ mfactrounded s a > todouble (9 / 10)
  · have e : setmfact s a = s := by
      simp only [setmfact]
      exact if_pos hr
    rw [e]
    exact Frame.refl s
  · have e : setmfact s a = arrange (s.setMon s.selmon ((s.monitor s.selmon).setTag
        { montotag (s.monitor s.selmon) with mfact := mfactrounded s a })) (some s.selmon) := by
      simp only [setmfact]
      exact if_neg hr
    rw [e]
    refine Frame.trans ?_ (arrange_frame _ _)
    exact setMon_frame _ _ _ (setTag_layoutless _ _ rfl)

/-- The fraction that `setmfact` leaves when it accepts the candidate. -/
theorem setmfact_stored (s : State) (a : ℚ)
    (h : ¬ (mfactrounded s a < 1 / 10 ∨ 9 / 10 < mfactrounded s a)) :
    mfactOf (setmfact s a)
      = if layoutOf s = 0 ∧ ntiled s = 0 then mfact else mfactrounded s a := by
  have hr : ¬ (mfactrounded s a < todouble (1 / 10) ∨ mfactrounded s a > todouble (9 / 10)) := by
    intro hc
    exact h ((setmfact_test _).mp hc)
  have e : setmfact s a = arrange (s.setMon s.selmon ((s.monitor s.selmon).setTag
      { montotag (s.monitor s.selmon) with mfact := mfactrounded s a })) (some s.selmon) := by
    simp only [setmfact]
    exact if_neg hr
  have hfr : Frame s (setmfact s a) := by
    rw [e]
    refine Frame.trans ?_ (arrange_frame _ _)
    exact setMon_frame _ _ _ (setTag_layoutless _ _ rfl)
  unfold mfactOf
  rw [hfr.2.2.2.2.1, e]
  have h3 := (arrange_some_montotag (s.setMon s.selmon ((s.monitor s.selmon).setTag
      { montotag (s.monitor s.selmon) with mfact := mfactrounded s a })) s.selmon).2.2
  rw [h3]
  simp only [setMon_monitor_self, montotag_setTag, setTag_clients]
  rw [counttiled_setmfact]
  rfl

theorem setmfact_rejects (s : State) (a : ℚ)
    (h : mfactrounded s a < 1 / 10 ∨ 9 / 10 < mfactrounded s a) : setmfact s a = s := by
  have hr : mfactrounded s a < todouble (1 / 10) ∨ mfactrounded s a > todouble (9 / 10) :=
    (setmfact_test _).mpr h
  simp only [setmfact]
  exact if_pos hr

/-- What `setmfact` does, for a fraction that starts in [1/10, 9/10]. -/
theorem setmfact_spec (s : State) (a : ℚ) (h : 1 / 10 ≤ mfactOf s ∧ mfactOf s ≤ 9 / 10) :
    MfactRounded s a := by
  by_cases hr : mfactrounded s a < 1 / 10 ∨ 9 / 10 < mfactrounded s a
  · have e := setmfact_rejects s a hr
    refine ⟨by rw [e]; exact h, fun _ => e, fun h1 h2 => ?_⟩
    rcases hr with hr | hr
    · exact absurd h1 (not_le.mpr hr)
    · exact absurd h2 (not_le.mpr hr)
  · have e := setmfact_stored s a hr
    push_neg at hr
    refine ⟨?_, fun hc => ?_, fun _ _ => e⟩
    · rw [e]
      split
      · unfold mfact; norm_num
      · exact hr
    · rcases hc with hc | hc
      · exact absurd hr.1 (not_le.mpr hc)
      · exact absurd hr.2 (not_le.mpr hc)

/-- The value of `tofloat` at a rational with binary exponent `e`. -/
theorem tofloat_eval (e k : Int) (q : ℚ) (hq : q ≠ 0)
    (h1 : (2 : ℚ) ^ e ≤ abs q) (h2 : abs q < (2 : ℚ) ^ (e + 1)) (he : -126 ≤ e)
    (hk : rne (q / 2 ^ (e - 23)) = k) : tofloat q = (k : ℚ) * 2 ^ (e - 23) := by
  unfold tofloat
  rw [fpround_eval 24 (-126) e q hq h1 h2 he]
  have e24 : (((24 : Nat) : Int) - 1) = 23 := by norm_num
  rw [e24, hk]

/-- The `float` constant `0.4f`. -/
theorem tofloat_two_fifths : tofloat (2 / 5) = 13421773 / 33554432 := by
  rw [tofloat_eval (-2) 13421773 _ (by norm_num) (by rw [abs_of_pos] <;> norm_num)
    (by rw [abs_of_pos] <;> norm_num) (by norm_num)
    (by
      apply rne_eq
      left
      norm_num)]
  norm_num

/-- The width 1280 is a `float`. -/
theorem tofloat_1280 : tofloat 1280 = 1280 := by
  rw [tofloat_eval 10 10485760 _ (by norm_num) (by rw [abs_of_pos] <;> norm_num)
    (by rw [abs_of_pos] <;> norm_num) (by norm_num)
    (by
      apply rne_eq
      left
      norm_num)]
  norm_num

theorem itof_1280 : itof 1280 = 1280 := by
  have e : ((1280 : Int) : ℚ) = 1280 := by norm_num
  unfold itof
  rw [e]
  exact tofloat_1280

/-- The `float` product of the width 1280 and the fraction `0.45f` is 576, where the exact
product, 575.99998..., would be cut down to 575. -/
theorem tofloat_product_rounds : tofloat (itof 1280 * (7549747 / 16777216)) = 576 := by
  rw [itof_1280]
  rw [tofloat_eval 9 9437184 _ (by norm_num) (by rw [abs_of_pos] <;> norm_num)
    (by rw [abs_of_pos] <;> norm_num) (by norm_num)
    (by
      apply rne_eq
      left
      norm_num)]
  norm_num

theorem tofloat_640 : tofloat 640 = 640 := by
  rw [tofloat_eval 9 10485760 _ (by norm_num) (by rw [abs_of_pos] <;> norm_num)
    (by rw [abs_of_pos] <;> norm_num) (by norm_num)
    (by
      apply rne_eq
      left
      norm_num)]
  norm_num

/-- The `float` nearest to 0.4, as a nudge on the fraction 1/2: the exact sum is above
9/10 and half-way between two `float` values; it is rounded to the even one, below 9/10. -/
theorem tofloat_nudge :
    tofloat (tofloat (13421773 / 33554432 + 1 / 2)) = 7549747 / 8388608 := by
  have e1 : tofloat (13421773 / 33554432 + 1 / 2) = 7549747 / 8388608 := by
    rw [tofloat_eval (-1) 15099494 _ (by norm_num) (by rw [abs_of_pos] <;> norm_num)
      (by rw [abs_of_pos] <;> norm_num) (by norm_num)
      (by
        apply rne_eq
        right
        exact ⟨by norm_num, Or.inl (by norm_num)⟩)]
    norm_num
  rw [e1]
  rw [tofloat_eval (-1) 15099494 _ (by norm_num) (by rw [abs_of_pos] <;> norm_num)
    (by rw [abs_of_pos] <;> norm_num) (by norm_num)
    (by
      apply rne_eq
      left
      norm_num)]
  norm_num

theorem scenarioA_mfact : mfactOf scenarioA = 1 / 2 := by
  simp [mfactOf, scenarioA, bareState, bareMonitor, createmon, montotag, Monitor.curtag,
    LENGTH_tags, createtag, mfact]

theorem scenarioA_tiled : ¬ (layoutOf scenarioA = 0 ∧ ntiled scenarioA = 0) := by
  have : ntiled scenarioA = 3 := by decide
  omega

/-- C4, counterexample: Scenario A with the fraction 1/2 and the argument 0.4f, the `float`
nearest to 0.4 (13421773/33554432).  The candidate is 0.9000000059..., outside
[1/10, 9/10] as an exact rational, but the sum is computed in `float`, where it is rounded
to 0.89999998 (7549747/8388608); `setmfact` accepts it and stores it, so the fraction is
not left unchanged. -/
theorem setmfact_accepts_rounded :
    9 / 10 < mfactexact scenarioA (13421773 / 33554432)
    ∧ mfactOf (setmfact scenarioA (13421773 / 33554432)) = 7549747 / 8388608
    ∧ ¬ MfactClaim scenarioA (13421773 / 33554432) := by
  have hm := scenarioA_mfact
  have hx : 9 / 10 < mfactexact scenarioA (13421773 / 33554432) := by
    unfold mfactexact
    rw [hm]
    norm_num
  have hr : mfactrounded scenarioA (13421773 / 33554432) = 7549747 / 8388608 := by
    unfold mfactrounded
    rw [hm, if_pos (by norm_num)]
    exact tofloat_nudge
  have hs : mfactOf (setmfact scenarioA (13421773 / 33554432)) = 7549747 / 8388608 := by
    rw [setmfact_stored scenarioA _ (by rw [hr]; norm_num), if_neg scenarioA_tiled, hr]
  refine ⟨hx, hs, ?_⟩
  intro hc
  have h3 := mfactOf_congr scenarioA _
    (setmfact_frame scenarioA (13421773 / 33554432)).2.2.2.2.1
    ((hc (by rw [hm]; norm_num)).2 (Or.inr hx))
  have h4 : (7549747 / 8388608 : ℚ) = 1 / 2 := hs.symm.trans (h3.trans hm)
  norm_num at h4

/-- C4, amended: when the master fraction of the active tag lies in [1/10, 9/10], it still
does after `setmfact` with any finite argument; when the candidate as the code computes it
(the sum, or `a - 1`, rounded to `float`) lies outside [1/10, 9/10] the state is left
unchanged; and a candidate inside is stored as the new fraction (unless the tiled layout
finds no tiled client and restores the default). -/
theorem setmfact_rounded_range (s : State) (a : ℚ)
    (h : 1 / 10 ≤ mfactOf s ∧ mfactOf s ≤ 9 / 10) : MfactRounded s a :=
  setmfact_spec s a h

/-- C4, witness: in Scenario A (fraction 1/2) a nudge of 1/4 is accepted and gives the
fraction 3/4, and a nudge of -1/2 is rejected and leaves the state as it was. -/
theorem setmfact_rounded_range_witness :
    mfactOf (setmfact scenarioA (1 / 4)) = 3 / 4
    ∧ setmfact scenarioA (-1 / 2) = scenarioA := by
  have hm := scenarioA_mfact
  have h1 : mfactrounded scenarioA (1 / 4) = 3 / 4 := by
    unfold mfactrounded
    rw [hm, if_pos (by norm_num)]
    have e1 : tofloat (1 / 4 + 1 / 2) = 3 / 4 := by
      rw [tofloat_eval (-1) 12582912 _ (by norm_num) (by rw [abs_of_pos] <;> norm_num)
        (by rw [abs_of_pos] <;> norm_num) (by norm_num)
        (by
          apply rne_eq
          left
          norm_num)]
      norm_num
    rw [e1]
    rw [tofloat_eval (-1) 12582912 _ (by norm_num) (by rw [abs_of_pos] <;> norm_num)
      (by rw [abs_of_pos] <;> norm_num) (by norm_num)
      (by
        apply rne_eq
        left
        norm_num)]
    norm_num
  have h2 : mfactrounded scenarioA (-1 / 2) = 0 := by
    unfold mfactrounded
    rw [hm, if_pos (by norm_num)]
    have e1 : tofloat (-1 / 2 + 1 / 2) = 0 := by
      unfold tofloat fpround
      rw [if_pos (by norm_num)]
    rw [e1]
    unfold tofloat fpround
    rw [if_pos rfl]
  have hs := setmfact_rounded_range scenarioA (1 / 4) (by rw [hm]; norm_num)
  have hr := setmfact_rounded_range scenarioA (-1 / 2) (by rw [hm]; norm_num)
  refine ⟨?_, hr.2.1 (by rw [h2]; norm_num)⟩
  rw [hs.2.2 (by rw [h1]; norm_num) (by rw [h1]; norm_num), if_neg scenarioA_tiled, h1]

/-- C3, counterexample: on a monitor in the tiled layout with no tiled client, `incnmaster`
with delta 1 leaves a master count of 1, above the tiled count 0: the re-arrange runs
`tile`, which resets the count to the default of config.h when nothing is tiled. -/
theorem incnmaster_above_tiled_count : ¬ ClampedAfter bareState 1 := by
  intro h
  have h3 := h.2.2
  rw [incnmaster_nmaster, (incnmaster_frame bareState 1).ntiled_eq] at h3
  revert h3
  decide

/-- C3, amended: when the selected monitor has at least one tiled client, or its active tag
is not in the tiled layout, every `incnmaster` call sets the master count of the active tag
to `clamp(nmaster + delta, 0, n)` with `n` the tiled count, and after every non-empty
sequence of calls the count lies between 0 and the tiled count. -/
theorem incnmaster_clamped (s : State) (h : 1 ≤ ntiled s ∨ layoutOf s ≠ 0) :
    (∀ i : Int, ClampedAfter s i)
    ∧ ∀ ds : List Int, ds ≠ [] →
        0 ≤ nmasterOf (ds.foldl incnmaster s)
        ∧ nmasterOf (ds.foldl incnmaster s) ≤ ntiled (ds.foldl incnmaster s) := by
  have hcond : ¬ (layoutOf s = 0 ∧ ntiled s = 0) := by
    rintro ⟨a, b⟩; rcases h with h | h
    · omega
    · exact h a
  constructor
  · intro i
    have hv := incnmaster_nmaster s i
    rw [if_neg hcond] at hv
    have hn := (incnmaster_frame s i).ntiled_eq
    unfold ClampedAfter
    rw [hn, hv]
    omega
  · intro ds hne
    have := incnmaster_seq s ds hne h
    rw [this.2.2]
    exact ⟨this.1, this.2.1⟩

/-- C3, witness: one tiled client and a delta of 5. -/
theorem incnmaster_clamped_witness : (1 ≤ ntiled oneClientState ∨ layoutOf oneClientState ≠ 0)
    ∧ ClampedAfter oneClientState 5 :=
  ⟨by decide, (incnmaster_clamped oneClientState (by decide)).1 5⟩

/-! ## Size hints of floating clients -/

theorem applysizehints_floating_noaspect (sw sh bh : Int) (m : Monitor) (c : Client)
    (x y w h : Int) (i : Bool) (hf : c.isfloating = true) (ha : ¬ (0 < c.mina ∧ 0 < c.maxa)) :
    (applysizehints sw sh bh m c x y w h i).w
        = hintDim c.basew c.incw c.minw c.maxw (max (max 1 w) bh)
    ∧ (applysizehints sw sh bh m c x y w h i).h
        = hintDim c.baseh c.inch c.minh c.maxh (max (max 1 h) bh) := by
  have e1 : (if max 1 w < bh then bh else max 1 w) = max (max 1 w) bh := by
    split_ifs <;> omega
  have e2 : (if max 1 h < bh then bh else max 1 h) = max (max 1 h) bh := by
    split_ifs <;> omega
  simp only [applysizehints, hf, ↓reduceIte, ha, false_and, hintDim, e1, e2]
  by_cases hb : c.basew = c.minw ∧ c.baseh = c.minh
  · simp only [hb, and_self, ↓reduceIte]
  · simp only [hb, ↓reduceIte, and_self]

theorem hintDim_trunc (b s lo hi v : Int) (hs : 0 < s) (hv : b ≤ v)
    (hlo : lo ≤ b + s * ((v - b) / s)) (hhi : hi = 0 ∨ b + s * ((v - b) / s) ≤ hi) :
    hintDim b s lo hi v = b + s * ((v - b) / s) := by
  have h1 : (v - b).tmod s = (v - b) % s := Int.tmod_eq_emod (by omega) (by omega)
  have h2 : (v - b) - (v - b) % s = s * ((v - b) / s) := by
    have := Int.emod_add_ediv (v - b) s
    omega
  unfold hintDim
  simp only []
  rw [if_pos hs.ne', h1, h2]
  rcases hhi with hhi | hhi
  · rw [if_neg (by simp [hhi])]
    omega
  · split_ifs <;> omega

/-- C7: for a floating client with no aspect bounds, base width `b >= 0` and width
increment `s > 0`, and a proposed width `w >= max(1, bh, b)` for which the minimum and
maximum do not bind, `applysizehints` returns the width `b + s * floor((w - b) / s)`; and
likewise for the height. -/
theorem applysizehints_increment_truncation (sw sh bh : Int) (m : Monitor) (c : Client) (x y w h : Int) (i : Bool)
    (hf : c.isfloating = true) (ha : ¬ (0 < c.mina ∧ 0 < c.maxa)) :
    (0 ≤ c.basew → 0 < c.incw → max 1 (max bh c.basew) ≤ w
      → c.minw ≤ c.basew + c.incw * ((w - c.basew) / c.incw)
      → (c.maxw = 0 ∨ c.basew + c.incw * ((w - c.basew) / c.incw) ≤ c.maxw)
      → (applysizehints sw sh bh m c x y w h i).w
          = c.basew + c.incw * ((w - c.basew) / c.incw))
    ∧ (0 ≤ c.baseh → 0 < c.inch → max 1 (max bh c.baseh) ≤ h
      → c.minh ≤ c.baseh + c.inch * ((h - c.baseh) / c.inch)
      → (c.maxh = 0 ∨ c.baseh + c.inch * ((h - c.baseh) / c.inch) ≤ c.maxh)
      → (applysizehints sw sh bh m c x y w h i).h
          = c.baseh + c.inch * ((h - c.baseh) / c.inch)) := by
  have e := applysizehints_floating_noaspect sw sh bh m c x y w h i hf ha
  constructor
  · intro hb hs hw hlo hhi
    rw [e.1, (by omega : max (max 1 w) bh = w)]
    exact hintDim_trunc _ _ _ _ _ hs (by omega) hlo hhi
  · intro hb hs hw hlo hhi
    rw [e.2, (by omega : max (max 1 h) bh = h)]
    exact hintDim_trunc _ _ _ _ _ hs (by omega) hlo hhi

/-- C7, witness: Scenario B, base 5 and increment 10; a proposed width of 508 resolves to
505. -/
theorem applysizehints_increment_truncation_witness : (applysizehints 1280 800 20 bareMonitor scenarioB 0 20 508 300 true).w = 505 :=
  (applysizehints_increment_truncation 1280 800 20 bareMonitor scenarioB 0 20 508 300 true rfl (by simp [scenarioB, zeroClient])).1
    (by decide) (by decide) (by decide) (by decide) (by decide)

/-! ## Minimum size and the on-screen rule -/

/-- C8, counterexample: a floating client whose hints set a maximum width of 10 receives
the width 10, below the bar height 20. -/
theorem applysizehints_below_bar_height : ¬ MinSizeAt 1280 800 20 bareMonitor narrowClient 0 20 100 100 false := by
  simp [MinSizeAt, applysizehints, narrowClient, zeroClient, bareMonitor, createmon, WIDTH, HEIGHT]

/-- The hint arithmetic along one axis stays at or above a floor `B` that the input
reaches, when the maximum does not undercut `B` and either the minimum is at least `B` or
the increment is not set or the base is at least `B`. -/
theorem hintDim_floor (base inc lo hi v B : Int) (hv : B ≤ v) (hhi : hi = 0 ∨ B ≤ hi)
    (hg : B ≤ lo ∨ inc = 0 ∨ B ≤ base) : B ≤ hintDim base inc lo hi v := by
  have t := tmod_between (v - base) inc
  have key : B ≤ max ((if inc ≠ 0 then (v - base) - (v - base).tmod inc else v - base) + base)
      lo := by
    rcases hg with hg | hg | hg
    · exact le_trans hg (le_max_right _ _)
    · rw [if_neg (by simp [hg])]
      exact le_trans (by omega) (le_max_left _ _)
    · refine le_trans ?_ (le_max_left _ _)
      split_ifs
      · rcases le_total 0 (v - base) with h0 | h0
        · have := t.1 h0; omega
        · have := t.2 h0; omega
      · omega
  unfold hintDim
  simp only []
  by_cases h0 : hi ≠ 0
  · rw [if_pos h0]
    rcases hhi with hhi | hhi
    · exact absurd hhi h0
    · exact le_min key hhi
  · rw [if_neg h0]
    exact key

/-- The size hints end with the minimum and the maximum size. -/
theorem hintsize_clamp (c : Client) (w h : Int) :
    (∃ X, (hintsize c w h).1
        = if c.maxw ≠ 0 then min (max (X + c.basew) c.minw) c.maxw else max (X + c.basew) c.minw)
    ∧ (∃ Y, (hintsize c w h).2
        = if c.maxh ≠ 0 then min (max (Y + c.baseh) c.minh) c.maxh
          else max (Y + c.baseh) c.minh) := by
  unfold hintsize
  exact ⟨⟨_, rfl⟩, ⟨_, rfl⟩⟩

/-- Without aspect limits the size hints treat the axes apart, by `hintDim`. -/
theorem hintsize_noaspect (c : Client) (w h : Int) (ha : ¬ (0 < c.mina ∧ 0 < c.maxa)) :
    hintsize c w h
      = (hintDim c.basew c.incw c.minw c.maxw w, hintDim c.baseh c.inch c.minh c.maxh h) := by
  simp only [hintsize, ha, false_and, hintDim]
  by_cases hb : c.basew = c.minw ∧ c.baseh = c.minh
  · simp only [hb, and_self, ↓reduceIte, sub_add_cancel]
  · simp only [hb, ↓reduceIte]

/-- A minimum at or above `B` with a maximum that does not undercut `B` keeps the result
of the final clamp at or above `B`. -/
theorem clamp_floor (X lo hi B : Int) (hhi : hi = 0 ∨ B ≤ hi) (hlo : B ≤ lo) :
    B ≤ (if hi ≠ 0 then min (max X lo) hi else max X lo) := by
  rcases hhi with hhi | hhi
  · rw [if_neg (by simp [hhi])]
    exact le_trans hlo (le_max_right _ _)
  · split_ifs
    · exact le_min (le_trans hlo (le_max_right _ _)) hhi
    · exact le_trans hlo (le_max_right _ _)

/-- Guarded hints keep both extents at or above `max 1 bh`. -/
theorem hintsize_guarded (bh : Int) (c : Client) (w h : Int) (hf : c.isfloating = true)
    (hg : HintsGuard bh c) (hw : max 1 bh ≤ w) (hh : max 1 bh ≤ h) :
    max 1 bh ≤ (hintsize c w h).1 ∧ max 1 bh ≤ (hintsize c w h).2 := by
  obtain ⟨g1, g2, g3, g4⟩ := hg hf
  obtain ⟨⟨X, eX⟩, ⟨Y, eY⟩⟩ := hintsize_clamp c w h
  constructor
  · rcases g3 with g3 | ⟨ha, g3⟩
    · rw [eX]; exact clamp_floor _ _ _ _ g1 g3
    · rw [hintsize_noaspect c w h ha]
      exact hintDim_floor _ _ _ _ _ _ hw g1 (Or.inr g3)
  · rcases g4 with g4 | ⟨ha, g4⟩
    · rw [eY]; exact clamp_floor _ _ _ _ g2 g4
    · rw [hintsize_noaspect c w h ha]
      exact hintDim_floor _ _ _ _ _ _ hh g2 (Or.inr g4)

/-- C8, amended: for a client whose size hints cannot undercut `max 1 bh` (on each axis
the maximum size is not set or is at least `max 1 bh`, and the minimum size is at least
`max 1 bh` or there are no aspect limits and the increment is not set or the base size is
at least `max 1 bh`; a client that is not floating has its hints ignored), every proposed
rect and either mode, the width and the height that `applysizehints` returns are at least 1
and at least the bar height. -/
theorem applysizehints_min_size_guarded (sw sh bh : Int) (m : Monitor) (c : Client) (x y w h : Int) (i : Bool)
    (hg : HintsGuard bh c) : MinSizeAt sw sh bh m c x y w h i := by
  have e := applysizehints_size sw sh bh m c x y w h i
  have rw1 := raised_ge bh w
  have rh1 := raised_ge bh h
  unfold MinSizeAt
  by_cases hf : c.isfloating = true
  · rw [if_pos hf] at e
    have e1 := congrArg Prod.fst e
    have e2 := congrArg Prod.snd e
    simp only [] at e1 e2
    have k := hintsize_guarded bh c (raised bh w) (raised bh h) hf hg (by omega) (by omega)
    rw [e1, e2]
    omega
  · rw [if_neg hf] at e
    have e1 := congrArg Prod.fst e
    have e2 := congrArg Prod.snd e
    simp only [] at e1 e2
    rw [e1, e2]
    omega

/-- C8, witness: a floating client whose hints set the minimum size 200 by 100 and the
increments 7 and 7, proposed with the size -5 by 7; it receives 200 by 100. -/
theorem applysizehints_min_size_guarded_witness :
    minClient.isfloating = true
    ∧ HintsGuard 20 minClient
    ∧ (applysizehints 1280 800 20 bareMonitor minClient 0 20 (-5) 7 true).w = 200
    ∧ (applysizehints 1280 800 20 bareMonitor minClient 0 20 (-5) 7 true).h = 100
    ∧ MinSizeAt 1280 800 20 bareMonitor minClient 0 20 (-5) 7 true :=
  ⟨rfl, fun _ => by decide, by decide, by decide,
    applysizehints_min_size_guarded 1280 800 20 bareMonitor minClient 0 20 (-5) 7 true
      (fun _ => by decide)⟩

/-- An increment larger than the proposed size brings the width to 0: the second way, next
to a small maximum size, in which hints undercut the floor. -/
theorem applysizehints_increment_below_one :
    (applysizehints 1280 800 20 bareMonitor { floatClient with incw := 100 } 0 20 50 50 false).w
      = 0 := by
  decide

/-- The interactive clamp is off by one: a tiled client proposed at `x = sw` stays there,
with no pixel on the display. -/
theorem interactive_edge_offscreen :
    ¬ OnScreenAt 1280 800 20 bareMonitor tiledClient 1280 20 100 100 true := by
  simp [OnScreenAt, overlapArea, applysizehints, tiledClient, zeroClient, bareMonitor, createmon,
    WIDTH, HEIGHT]

theorem clampPos_interactive (lo len W bw p d s : Int) (hbw : 0 ≤ bw) (hW : 0 < W)
    (hs : 0 < s) :
    clampPos true s lo len W bw p d ≤ s
      ∧ 0 ≤ clampPos true s lo len W bw p d + max 1 d + 2 * bw := by
  unfold clampPos
  simp only [↓reduceIte]
  split_ifs <;> omega

theorem toU_nonneg (a : Int) (h0 : 0 ≤ a) (h1 : a < 4294967296) : (toU a : Int) = a := by
  unfold toU; omega

theorem toI_uadd (a : Int) (b : Nat) (h1 : -2147483648 ≤ a + b) (h2 : a + b < 2147483648) :
    toI (uadd (toU a) b) = a + b := by
  unfold toI uadd toU; omega

theorem toI_usub (a : Nat) (b : Int) (h1 : -2147483648 ≤ a - b) (h2 : a - b < 2147483648) :
    toI (usub a (toU b)) = a - b := by
  unfold toI usub toU; omega

theorem usub_nat (a b : Nat) (h : b ≤ a) (ha : a < 4294967296) : usub a b = a - b := by
  unfold usub; omega

theorem uadd_nat (a b : Nat) (h : a + b < 4294967296) : uadd a b = a + b := by
  unfold uadd; omega

/-! ## Columns of the tiled layout -/

theorem clampPos_exact (s lo len W bw p d : Int) (h1 : p < lo + len) (h2 : lo < p + max 1 d + 2 * bw) :
    clampPos false s lo len W bw p d = p := by
  unfold clampPos
  simp only [Bool.false_eq_true, ↓reduceIte]
  split_ifs <;> omega

theorem resize_tiled_yh (s : State) (c : Nat) (x y w h : Int)
    (hf : (s.client c).isfloating = false)
    (hy0 : (s.monitor (s.client c).mon).wy ≤ y)
    (hy1 : y < (s.monitor (s.client c).mon).wy + (s.monitor (s.client c).mon).wh)
    (hbw : 0 ≤ (s.client c).bw) (hh : max 1 s.bh ≤ h) :
    ((resize s c x y w h false).client c).y = y ∧ ((resize s c x y w h false).client c).h = h := by
  obtain ⟨_, r2, _, r4⟩ := resize_client_self s c x y w h false
  rw [r2, r4, applysizehints_y, applysizehints_h_tiled _ _ _ _ _ _ _ _ _ _ hf]
  constructor
  · exact clampPos_exact _ _ _ _ _ _ _ hy1 (by omega)
  · omega

theorem resize_tiled_xw (s : State) (c : Nat) (x y w h : Int)
    (hf : (s.client c).isfloating = false)
    (hx0 : (s.monitor (s.client c).mon).wx ≤ x)
    (hx1 : x < (s.monitor (s.client c).mon).wx + (s.monitor (s.client c).mon).ww)
    (hbw : 0 ≤ (s.client c).bw) (hw : max 1 s.bh ≤ w) :
    ((resize s c x y w h false).client c).x = x ∧ ((resize s c x y w h false).client c).w = w := by
  obtain ⟨r1, _, r3, _⟩ := resize_client_self s c x y w h false
  rw [r1, r3, applysizehints_x, applysizehints_w_tiled _ _ _ _ _ _ _ _ _ _ hf]
  constructor
  · exact clampPos_exact _ _ _ _ _ _ _ hx1 (by omega)
  · omega

theorem resize_bw (s : State) (c c' : Nat) (x y w h : Int) (i : Bool) :
    ((resize s c x y w h i).client c').bw = (s.client c').bw :=
  (geomless_fields ((resize_frame s c x y w h i).2.2.2.2.2.2 c')).2.2.2.1

theorem tileloop_client_notin (m n mw : Nat) (l : List Nat) (i my ty : Nat) (s : State)
    (c : Nat) (hc : c ∉ l) : (tileloop m n mw l i my ty s).client c = s.client c := by
  induction l generalizing i my ty s with
  | nil => rfl
  | cons a as ih =>
    have hne : c ≠ a := fun e => hc (e ▸ List.mem_cons_self _ _)
    have hc' : c ∉ as := fun e => hc (List.mem_cons_of_mem _ e)
    simp only [tileloop]
    split
    · exact ih _ _ _ _ hc'
    · split
      · rw [ih _ _ _ _ hc', resize_client_ne _ _ _ _ _ _ _ _ hne]
      · rw [ih _ _ _ _ hc', resize_client_ne _ _ _ _ _ _ _ _ hne]

/-- The loop of `tile` passes over the clients that `nexttiled` skips. -/
theorem tileloop_filter (m n mw : Nat) (l : List Nat) (i my ty : Nat) (s : State) :
    tileloop m n mw l i my ty s = tileloop m n mw (tiledclients s l) i my ty s := by
  induction l generalizing i my ty s with
  | nil => rfl
  | cons a as ih =>
    by_cases hs : ((s.client a).isfloating || !ISVISIBLE s a) = true
    · have : tiledclients s (a :: as) = tiledclients s as := by
        simp only [tiledclients, List.filter_cons, hs, Bool.not_true, Bool.false_eq_true,
          ↓reduceIte]
      rw [this, ← ih]
      simp only [tileloop, hs, ↓reduceIte]
    · have hs' : ((s.client a).isfloating || !ISVISIBLE s a) = false := by
        simpa using hs
      have : tiledclients s (a :: as) = a :: tiledclients s as := by
        simp only [tiledclients, List.filter_cons, hs', Bool.not_false, ↓reduceIte]
      rw [this]
      have hfil : ∀ s' : State, Frame s s' → tiledclients s' as = tiledclients s as := by
        intro s' hfr
        simp only [tiledclients]
        congr 1
        funext c
        rw [hfr.skip c]
      simp only [tileloop, hs', Bool.false_eq_true, ↓reduceIte]
      split
      · rw [ih, hfil _ (resize_frame _ _ _ _ _ _ _)]
      · rw [ih, hfil _ (resize_frame _ _ _ _ _ _ _)]

theorem counttiled_eq_length (s : State) (l : List Nat) :
    counttiled s l = (tiledclients s l).length := by
  induction l with
  | nil => rfl
  | cons a as ih =>
    by_cases hs : ((s.client a).isfloating || !ISVISIBLE s a) = true
    · simp only [counttiled, tiledclients, List.filter_cons, hs, Bool.not_true,
        Bool.false_eq_true, ↓reduceIte]
      exact ih
    · have hs' : ((s.client a).isfloating || !ISVISIBLE s a) = false := by simpa using hs
      simp only [counttiled, tiledclients, List.filter_cons, hs', Bool.not_false,
        Bool.false_eq_true, ↓reduceIte, List.length_cons]
      rw [ih]; rfl

/-- One round of the loop of `tile` in the master column, for a tiled client `c` of
monitor `m` whose share `sh` leaves at least `max 1 bh` inside the border. -/
theorem tileloop_master_step (m n mw kn whn : Nat) (wy : Int) (T : List Nat) (c i my ty : Nat)
    (s : State) (D sh : Nat)
    (hkn : kn < 2147483648) (hwh : whn < 2147483648)
    (hwy0 : -2147483648 ≤ wy) (hwy1 : wy + whn < 2147483648) (hn : n < 4294967296)
    (hskip : ((s.client c).isfloating || !ISVISIBLE s c) = false)
    (hmon : (s.client c).mon = m) (hbw : 0 ≤ (s.client c).bw)
    (hwy : (s.monitor m).wy = wy) (hwhs : (s.monitor m).wh = (whn : Int))
    (hk : (montotag (s.monitor m)).nmaster = (kn : Int))
    (hi : i < min n kn) (hD : min n kn - i = D + 1) (hmy : my ≤ whn)
    (hsh : (whn - my) / (D + 1) = sh)
    (hfit : max 1 s.bh + 2 * (s.client c).bw ≤ (sh : Int)) :
    ∃ s1, tileloop m n mw (c :: T) i my ty s = tileloop m n mw T (i + 1) (my + sh) ty s1
      ∧ Frame s s1 ∧ s1.monitor = s.monitor ∧ vgeom s1 c = (wy + my, (sh : Int)) := by
  have hfl : (s.client c).isfloating = false := by
    cases hh : (s.client c).isfloating
    · rfl
    · rw [hh] at hskip; simp at hskip
  have htoUk : toU (montotag (s.monitor m)).nmaster = kn := by
    rw [hk]; unfold toU; omega
  have htoUwh : toU (s.monitor m).wh = whn := by
    rw [hwhs]; unfold toU; omega
  have hsle : sh ≤ whn - my := by rw [← hsh]; exact Nat.div_le_self _ _
  have hdiv : usub (toU (s.monitor m).wh) my
      / usub (if n < toU (montotag (s.monitor m)).nmaster then n
              else toU (montotag (s.monitor m)).nmaster) i = sh := by
    rw [htoUwh, htoUk, usub_nat _ _ hmy (by omega)]
    have : (if n < kn then n else kn) = min n kn := by
      split_ifs <;> omega
    rw [this, usub_nat _ _ (by omega) (by omega), hD, hsh]
  have hi' : i < toU (montotag (s.monitor m)).nmaster := by rw [htoUk]; omega
  have hyarg : toI (uadd (toU (s.monitor m).wy) my) = wy + my := by
    rw [hwy]; exact toI_uadd _ _ (by omega) (by omega)
  have hharg : toI (usub sh (toU (2 * (s.client c).bw))) = sh - 2 * (s.client c).bw :=
    toI_usub _ _ (by omega) (by omega)
  have hres := resize_tiled_yh s c (s.monitor m).wx (wy + my)
    (toI (usub mw (toU (2 * (s.client c).bw)))) (sh - 2 * (s.client c).bw) hfl
    (by rw [hmon, hwy]; omega) (by rw [hmon, hwy, hwhs]; omega) hbw (by omega)
  have hbw1 := resize_bw s c c (s.monitor m).wx (wy + my)
    (toI (usub mw (toU (2 * (s.client c).bw)))) (sh - 2 * (s.client c).bw) false
  have hH : HEIGHT ((resize s c (s.monitor m).wx (wy + my)
      (toI (usub mw (toU (2 * (s.client c).bw)))) (sh - 2 * (s.client c).bw) false).client c)
      = sh := by
    unfold HEIGHT; rw [hres.2, hbw1]; omega
  refine ⟨resize s c (s.monitor m).wx (wy + my)
    (toI (usub mw (toU (2 * (s.client c).bw)))) (sh - 2 * (s.client c).bw) false,
    ?_, resize_frame _ _ _ _ _ _ _, resize_monitor _ _ _ _ _ _ _, ?_⟩
  · simp only [tileloop, hskip, Bool.false_eq_true, ↓reduceIte, hi', hdiv, hyarg, hharg, hH]
    have e1 : toU (sh : Int) = sh := by unfold toU; omega
    rw [e1, uadd_nat _ _ (by omega), uadd_nat _ _ (by omega)]
  · unfold vgeom
    rw [hH, hres.1]

/-- One round of the loop of `tile` in the stack column. -/
theorem tileloop_stack_step (m n mw kn whn : Nat) (wy : Int) (T : List Nat) (c i my ty : Nat)
    (s : State) (D sh : Nat)
    (hkn : kn < 2147483648) (hwh : whn < 2147483648)
    (hwy0 : -2147483648 ≤ wy) (hwy1 : wy + whn < 2147483648) (hn : n < 4294967296)
    (hskip : ((s.client c).isfloating || !ISVISIBLE s c) = false)
    (hmon : (s.client c).mon = m) (hbw : 0 ≤ (s.client c).bw)
    (hwy : (s.monitor m).wy = wy) (hwhs : (s.monitor m).wh = (whn : Int))
    (hk : (montotag (s.monitor m)).nmaster = (kn : Int))
    (hi : ¬ i < min n kn) (hD : n - i = D + 1) (hty : ty ≤ whn)
    (hsh : (whn - ty) / (D + 1) = sh)
    (hfit : max 1 s.bh + 2 * (s.client c).bw ≤ (sh : Int)) :
    ∃ s1, tileloop m n mw (c :: T) i my ty s = tileloop m n mw T (i + 1) my (ty + sh) s1
      ∧ Frame s s1 ∧ s1.monitor = s.monitor ∧ vgeom s1 c = (wy + ty, (sh : Int)) := by
  have hfl : (s.client c).isfloating = false := by
    cases hh : (s.client c).isfloating
    · rfl
    · rw [hh] at hskip; simp at hskip
  have htoUk : toU (montotag (s.monitor m)).nmaster = kn := by
    rw [hk]; unfold toU; omega
  have htoUwh : toU (s.monitor m).wh = whn := by
    rw [hwhs]; unfold toU; omega
  have hsle : sh ≤ whn - ty := by rw [← hsh]; exact Nat.div_le_self _ _
  have hdiv : usub (toU (s.monitor m).wh) ty / usub n i = sh := by
    rw [htoUwh, usub_nat _ _ hty (by omega), usub_nat _ _ (by omega) (by omega), hD, hsh]
  have hi' : ¬ i < toU (montotag (s.monitor m)).nmaster := by rw [htoUk]; omega
  have hyarg : toI (uadd (toU (s.monitor m).wy) ty) = wy + ty := by
    rw [hwy]; exact toI_uadd _ _ (by omega) (by omega)
  have hharg : toI (usub sh (toU (2 * (s.client c).bw))) = sh - 2 * (s.client c).bw :=
    toI_usub _ _ (by omega) (by omega)
  have hres := resize_tiled_yh s c (toI (uadd (toU (s.monitor m).wx) mw)) (wy + ty)
    (toI (usub (usub (toU (s.monitor m).ww) mw) (toU (2 * (s.client c).bw))))
    (sh - 2 * (s.client c).bw) hfl
    (by rw [hmon, hwy]; omega) (by rw [hmon, hwy, hwhs]; omega) hbw (by omega)
  have hbw1 := resize_bw s c c (toI (uadd (toU (s.monitor m).wx) mw)) (wy + ty)
    (toI (usub (usub (toU (s.monitor m).ww) mw) (toU (2 * (s.client c).bw))))
    (sh - 2 * (s.client c).bw) false
  have hH : HEIGHT ((resize s c (toI (uadd (toU (s.monitor m).wx) mw)) (wy + ty)
      (toI (usub (usub (toU (s.monitor m).ww) mw) (toU (2 * (s.client c).bw))))
      (sh - 2 * (s.client c).bw) false).client c) = sh := by
    unfold HEIGHT; rw [hres.2, hbw1]; omega
  refine ⟨resize s c (toI (uadd (toU (s.monitor m).wx) mw)) (wy + ty)
    (toI (usub (usub (toU (s.monitor m).ww) mw) (toU (2 * (s.client c).bw))))
    (sh - 2 * (s.client c).bw) false,
    ?_, resize_frame _ _ _ _ _ _ _, resize_monitor _ _ _ _ _ _ _, ?_⟩
  · simp only [tileloop, hskip, Bool.false_eq_true, ↓reduceIte, hi', hdiv, hyarg, hharg, hH]
    have e1 : toU (sh : Int) = sh := by unfold toU; omega
    rw [e1, uadd_nat _ _ (by omega), uadd_nat _ _ (by omega)]
  · unfold vgeom
    rw [hH, hres.1]

/-- The remaining height still covers the floor shares after one member took its
share. -/
theorem share_invariant (R D q sh : Nat) (hq : q * (D + 1) ≤ R) (hsh : R / (D + 1) = sh) :
    q ≤ sh ∧ sh ≤ R ∧ q * D ≤ R - sh := by
  have h1 : sh * (D + 1) ≤ R := by rw [← hsh]; exact Nat.div_mul_le_self _ _
  have h2 : q ≤ sh := by
    rw [← hsh, Nat.le_div_iff_mul_le (by omega)]; exact hq
  have h3 : sh ≤ R := by rw [← hsh]; exact Nat.div_le_self _ _
  have h4 : sh * (D + 1) = D * sh + sh := by rw [Nat.mul_add, Nat.mul_one, Nat.mul_comm]
  have h5 : q * D ≤ sh * D := Nat.mul_le_mul_right D h2
  have h6 : sh * D = D * sh := Nat.mul_comm _ _
  exact ⟨h2, h3, by omega⟩

/-- The vertical part of the loop of `tile` from position `i` on, for a list `T` of tiled
clients of monitor `m`: when every share leaves at least `max 1 bh` inside the border,
the rest of the master column and the rest of the stack column come out as `column`
describes them. -/
theorem tileloop_columns (m n mw kn whn qm qs : Nat) (wy : Int)
    (hkn : kn < 2147483648) (hwh : whn < 2147483648)
    (hwy0 : -2147483648 ≤ wy) (hwy1 : wy + whn < 2147483648) (hn : n < 4294967296) :
    ∀ (T : List Nat) (i my ty : Nat) (s : State),
      i + T.length = n → T.Nodup →
      (∀ c ∈ T, ((s.client c).isfloating || !ISVISIBLE s c) = false ∧ (s.client c).mon = m
        ∧ 0 ≤ (s.client c).bw) →
      (s.monitor m).wy = wy → (s.monitor m).wh = (whn : Int) →
      (montotag (s.monitor m)).nmaster = (kn : Int) →
      (∀ c ∈ T.take (min n kn - i), max 1 s.bh + 2 * (s.client c).bw ≤ (qm : Int)) →
      (∀ c ∈ T.drop (min n kn - i), max 1 s.bh + 2 * (s.client c).bw ≤ (qs : Int)) →
      (i < min n kn → my ≤ whn ∧ qm * (min n kn - i) ≤ whn - my) →
      (i ≤ min n kn → ty = 0) →
      (ty ≤ whn ∧ qs * (n - max i (min n kn)) ≤ whn - ty) →
      (T.take (min n kn - i)).map (vgeom (tileloop m n mw T i my ty s))
          = column (wy + my) (whn - my) (min n kn - i)
      ∧ (T.drop (min n kn - i)).map (vgeom (tileloop m n mw T i my ty s))
          = column (wy + ty) (whn - ty) (n - max i (min n kn)) := by
  intro T
  induction T with
  | nil =>
    intro i my ty s hlen _ _ _ _ _ _ _ _ _ _
    simp only [List.length_nil, Nat.add_zero] at hlen
    have e1 : min n kn - i = 0 := by omega
    have e2 : n - max i (min n kn) = 0 := by omega
    simp [e1, e2, column]
  | cons c T ih =>
    intro i my ty s hlen hnd hall hwy hwhs hk hfm hfs hIm hty hIs
    simp only [List.length_cons] at hlen
    obtain ⟨hskip, hmon, hbw⟩ := hall c (List.mem_cons_self _ _)
    have hcT : c ∉ T := (List.nodup_cons.mp hnd).1
    have hndT : T.Nodup := (List.nodup_cons.mp hnd).2
    have hrest : ∀ (s1 : State), Frame s s1 →
        (∀ c' ∈ T, ((s1.client c').isfloating || !ISVISIBLE s1 c') = false
          ∧ (s1.client c').mon = m ∧ 0 ≤ (s1.client c').bw) := by
      intro s1 hfr c' hc'
      obtain ⟨a1, a2, a3⟩ := hall c' (List.mem_cons_of_mem _ hc')
      have g := geomless_fields (hfr.2.2.2.2.2.2 c')
      exact ⟨by rw [hfr.skip c']; exact a1, by rw [g.2.2.1]; exact a2, by rw [g.2.2.2.1]; exact a3⟩
    have hfitfr : ∀ (s1 : State), Frame s s1 → ∀ c' (q : Int),
        max 1 s.bh + 2 * (s.client c').bw ≤ q → max 1 s1.bh + 2 * (s1.client c').bw ≤ q := by
      intro s1 hfr c' q hq
      rw [hfr.2.2.1, (geomless_fields (hfr.2.2.2.2.2.2 c')).2.2.2.1]; exact hq
    by_cases hi : i < min n kn
    · -- master column
      obtain ⟨hmy, hq⟩ := hIm hi
      have hty0 := hty (by omega)
      obtain ⟨D, hD⟩ : ∃ D, min n kn - i = D + 1 := ⟨min n kn - i - 1, by omega⟩
      have hD' : min n kn - (i + 1) = D := by omega
      have hfitc : max 1 s.bh + 2 * (s.client c).bw ≤ (qm : Int) :=
        hfm c (by rw [hD]; exact List.mem_cons_self _ _)
      rw [hD] at hq
      obtain ⟨sh, hsh⟩ : ∃ sh, (whn - my) / (D + 1) = sh := ⟨_, rfl⟩
      obtain ⟨hq1, hq2, hq3⟩ := share_invariant _ _ _ _ hq hsh
      obtain ⟨s1, hstep, hfr, hmonr, hvg⟩ := tileloop_master_step m n mw kn whn wy T c i my ty s
        D sh hkn hwh hwy0 hwy1 hn hskip hmon hbw hwy hwhs hk hi hD hmy hsh (by omega)
      have e : max (i + 1) (min n kn) = max i (min n kn) := by omega
      have IH := ih (i + 1) (my + sh) ty s1 (by omega) hndT (hrest s1 hfr)
        (by rw [hmonr]; exact hwy) (by rw [hmonr]; exact hwhs) (by rw [hmonr]; exact hk)
        (by
          intro c' hc'
          rw [hD'] at hc'
          exact hfitfr s1 hfr c' _ (hfm c' (by rw [hD]; exact List.mem_cons_of_mem _ hc')))
        (by
          intro c' hc'
          rw [hD'] at hc'
          exact hfitfr s1 hfr c' _ (hfs c' (by rw [hD]; exact hc')))
        (by
          intro _
          rw [hD']
          exact ⟨by omega, by omega⟩)
        (by intro _; exact hty0)
        (by rw [e]; exact hIs)
      rw [hstep, hD]
      rw [hD', e] at IH
      have hvc : vgeom (tileloop m n mw T (i + 1) (my + sh) ty s1) c = (wy + my, (sh : Int)) := by
        unfold vgeom at hvg ⊢
        rw [tileloop_client_notin _ _ _ _ _ _ _ _ _ hcT]; exact hvg
      constructor
      · simp only [List.take_succ_cons, List.map_cons, column, hsh]
        rw [hvc, IH.1]
        have e1 : wy + ((my + sh : Nat) : Int) = wy + my + sh := by push_cast; omega
        have e2 : whn - (my + sh) = whn - my - sh := by omega
        rw [e1, e2]
      · simp only [List.drop_succ_cons]
        exact IH.2
    · -- stack column
      obtain ⟨htyle, hq⟩ := hIs
      have e0 : min n kn - i = 0 := by omega
      have e0' : min n kn - (i + 1) = 0 := by omega
      have emax : max i (min n kn) = i := by omega
      have emax' : max (i + 1) (min n kn) = i + 1 := by omega
      rw [emax] at hq
      obtain ⟨D, hD⟩ : ∃ D, n - i = D + 1 := ⟨n - i - 1, by omega⟩
      have hD' : n - (i + 1) = D := by omega
      have hfitc : max 1 s.bh + 2 * (s.client c).bw ≤ (qs : Int) :=
        hfs c (by rw [e0]; exact List.mem_cons_self _ _)
      rw [hD] at hq
      obtain ⟨sh, hsh⟩ : ∃ sh, (whn - ty) / (D + 1) = sh := ⟨_, rfl⟩
      obtain ⟨hq1, hq2, hq3⟩ := share_invariant _ _ _ _ hq hsh
      obtain ⟨s1, hstep, hfr, hmonr, hvg⟩ := tileloop_stack_step m n mw kn whn wy T c i my ty s
        D sh hkn hwh hwy0 hwy1 hn hskip hmon hbw hwy hwhs hk hi hD htyle hsh (by omega)
      have IH := ih (i + 1) my (ty + sh) s1 (by omega) hndT (hrest s1 hfr)
        (by rw [hmonr]; exact hwy) (by rw [hmonr]; exact hwhs) (by rw [hmonr]; exact hk)
        (by intro c' hc'; rw [e0'] at hc'; simp at hc')
        (by
          intro c' hc'
          rw [e0'] at hc'
          exact hfitfr s1 hfr c' _ (hfs c' (by rw [e0]; exact List.mem_cons_of_mem _ hc')))
        (by intro hlt; omega)
        (by intro hle; omega)
        (by
          rw [emax', hD']
          exact ⟨by omega, by omega⟩)
      rw [hstep, e0, emax, hD]
      rw [e0', emax', hD'] at IH
      have hvc : vgeom (tileloop m n mw T (i + 1) my (ty + sh) s1) c = (wy + ty, (sh : Int)) := by
        unfold vgeom at hvg ⊢
        rw [tileloop_client_notin _ _ _ _ _ _ _ _ _ hcT]; exact hvg
      constructor
      · simp [column]
      · simp only [List.drop_zero, List.map_cons, column, hsh] at IH ⊢
        rw [hvc, IH.2]
        have e1 : wy + ((ty + sh : Nat) : Int) = wy + ty + sh := by push_cast; omega
        have e2 : whn - (ty + sh) = whn - ty - sh := by omega
        rw [e1, e2]

theorem column_sum_of_map (l : List Nat) (f : Nat → Int × Int) :
    ∀ (y : Int) (R d : Nat), l.map f = column y R d → 0 < d →
      (l.map (fun c => (f c).2)).sum = (R : Int) := by
  induction l with
  | nil =>
    intro y R d h hd
    cases d with
    | zero => omega
    | succ d => simp [column] at h
  | cons a l ih =>
    intro y R d h hd
    cases d with
    | zero => omega
    | succ d =>
      simp only [column, List.map_cons, List.cons.injEq] at h
      obtain ⟨ha, hl⟩ := h
      simp only [List.map_cons, List.sum_cons, ha]
      have hle : R / (d + 1) ≤ R := Nat.div_le_self _ _
      by_cases hd0 : d = 0
      · subst hd0
        cases l with
        | nil => simp
        | cons b l => simp [column] at hl
      · rw [ih _ _ _ hl (by omega)]
        push_cast [Nat.cast_sub hle]
        omega

theorem column_contig_of_map (l : List Nat) (f : Nat → Int × Int) :
    ∀ (y : Int) (R d : Nat), l.map f = column y R d →
      ∀ (j : Nat) (hj : j < l.length),
        (f (l.get ⟨j, hj⟩)).1 = y + ((l.take j).map (fun c => (f c).2)).sum := by
  induction l with
  | nil => intro y R d _ j hj; simp at hj
  | cons a l ih =>
    intro y R d h j hj
    cases d with
    | zero => simp [column] at h
    | succ d =>
      simp only [column, List.map_cons, List.cons.injEq] at h
      obtain ⟨ha, hl⟩ := h
      cases j with
      | zero => simp [ha]
      | succ j =>
        have := ih _ _ _ hl j (by simpa using hj)
        simp only [List.get_eq_getElem, List.getElem_cons_succ, List.take_succ_cons,
          List.map_cons, List.sum_cons, ha] at this ⊢
        rw [this]; omega

theorem column_length (y : Int) (R d : Nat) : (column y R d).length = d := by
  induction d generalizing y R with
  | zero => rfl
  | succ d ih => simp [column, ih]

/-! ## Height conservation -/

set_option maxRecDepth 100000 in
/-- C5, counterexample: with forty tiled clients in the stack column of a work area 780
high, every share is below the bar height, `resize` enlarges each client to the bar
height, and the outer heights of the column do not sum to 780. -/
theorem tile_heights_not_conserved : ¬ HeightsConserved crowdedState 0 := by
  intro h
  have h2 := h.1.2 (by decide)
  revert h2
  decide

theorem tiledclients_frame {s s' : State} (h : Frame s s') (l : List Nat) :
    tiledclients s' l = tiledclients s l := by
  simp only [tiledclients]
  congr 1
  funext c
  rw [h.skip c]

theorem mem_tiledclients {s : State} {l : List Nat} {c : Nat} (h : c ∈ tiledclients s l) :
    ((s.client c).isfloating || !ISVISIBLE s c) = false := by
  simp only [tiledclients, List.mem_filter] at h
  simpa using h.2

theorem tile_columns (s : State) (m : Nat) (h : TileFits s m)
    (hne : tiledclients s (s.monitor m).clients ≠ []) :
    (masters s m).map (vgeom (tile s m))
        = column (s.monitor m).wy (s.monitor m).wh.toNat (masters s m).length
    ∧ (stackers s m).map (vgeom (tile s m))
        = column (s.monitor m).wy (s.monitor m).wh.toNat (stackers s m).length := by
  obtain ⟨hnd, hown, hk0, hk1, hwh0, hwh1, hwy0, hwy1, hfm, hfs⟩ := h
  obtain ⟨whn, hwhn⟩ : ∃ whn : Nat, (s.monitor m).wh = (whn : Int) :=
    ⟨(s.monitor m).wh.toNat, by omega⟩
  obtain ⟨kn, hkn⟩ : ∃ kn : Nat, (montotag (s.monitor m)).nmaster = (kn : Int) :=
    ⟨(montotag (s.monitor m)).nmaster.toNat, by omega⟩
  have hcnt := counttiled_eq_length s (s.monitor m).clients
  generalize hT : tiledclients s (s.monitor m).clients = T at *
  have hTpos : 0 < T.length := List.length_pos.mpr hne
  have hmc : mastercnt s m = min T.length kn := by
    unfold mastercnt; rw [hcnt, hkn]; simp
  have hml : (masters s m).length = min T.length kn := by
    unfold masters; rw [hT, hmc, List.length_take]; omega
  have hsl : (stackers s m).length = T.length - min T.length kn := by
    unfold stackers; rw [hT, hmc, List.length_drop]
  have hmeq : masters s m = T.take (min T.length kn) := by unfold masters; rw [hT, hmc]
  have hseq : stackers s m = T.drop (min T.length kn) := by unfold stackers; rw [hT, hmc]
  rw [hml] at hfm
  rw [hsl] at hfs
  rw [hml, hsl, hwhn, Int.toNat_ofNat, hmeq, hseq]
  rw [hmeq] at hfm
  rw [hseq] at hfs
  rw [hwhn] at hfm hfs hwh1 hwy1
  -- the state the loop starts from
  have htile : tile s m = tileloop m T.length
      (if T.length > toU (montotag (s.monitor m)).nmaster then
         (if (montotag (s.monitor m)).nmaster ≠ 0
          then toU (ftoi (tofloat
                 (itof (s.monitor m).ww * (montotag (s.monitor m)).mfact))) else 0)
       else toU (s.monitor m).ww)
      (s.monitor m).clients 0 0 0
      (s.setMon m ((s.monitor m).setTag
        { montotag (s.monitor m) with
            ltsymbol := tilesymbol T.length (montotag (s.monitor m)).nmaster })) := by
    simp only [tile, hcnt]
    rw [if_neg (by omega)]
  have hfr : Frame s (s.setMon m ((s.monitor m).setTag
        { montotag (s.monitor m) with
            ltsymbol := tilesymbol T.length (montotag (s.monitor m)).nmaster })) :=
    setMon_frame _ _ _ (setTag_layoutless _ _ rfl)
  rw [htile, tileloop_filter, tiledclients_frame hfr, hT]
  generalize hs1 : s.setMon m ((s.monitor m).setTag
        { montotag (s.monitor m) with
            ltsymbol := tilesymbol T.length (montotag (s.monitor m)).nmaster }) = s1 at hfr
  have hmon1 : s1.monitor m = (s.monitor m).setTag
        { montotag (s.monitor m) with
            ltsymbol := tilesymbol T.length (montotag (s.monitor m)).nmaster } := by
    rw [← hs1]; simp
  have hqm : ∀ c ∈ T.take (min T.length kn),
      max 1 s1.bh + 2 * (s1.client c).bw ≤ ((whn / min T.length kn : Nat) : Int) := by
    intro c hc
    rw [hfr.2.2.1, (geomless_fields (hfr.2.2.2.2.2.2 c)).2.2.2.1]
    have := hfm c hc
    rw [Int.natCast_div]; exact this
  have hqs : ∀ c ∈ T.drop (min T.length kn),
      max 1 s1.bh + 2 * (s1.client c).bw ≤ ((whn / (T.length - min T.length kn) : Nat) : Int) := by
    intro c hc
    rw [hfr.2.2.1, (geomless_fields (hfr.2.2.2.2.2.2 c)).2.2.2.1]
    have := hfs c hc
    rw [Int.natCast_div]; exact this
  have hle1 : min T.length kn ≤ whn := by
    by_cases h0 : min T.length kn = 0
    · omega
    · obtain ⟨c, hc⟩ := List.exists_mem_of_length_pos
        (show 0 < (T.take (min T.length kn)).length by rw [List.length_take]; omega)
      have h1 := hfm c hc
      have h2 := (hown c (List.mem_of_mem_take hc)).2
      have h3 : (1 : Int) ≤ ((whn / min T.length kn : Nat) : Int) := by
        rw [Int.natCast_div]; omega
      have h4 : 0 < whn / min T.length kn := by exact_mod_cast h3
      exact (Nat.div_pos_iff h0).mp h4
  have hle2 : T.length - min T.length kn ≤ whn := by
    by_cases h0 : T.length - min T.length kn = 0
    · omega
    · obtain ⟨c, hc⟩ := List.exists_mem_of_length_pos
        (show 0 < (T.drop (min T.length kn)).length by rw [List.length_drop]; omega)
      have h1 := hfs c hc
      have h2 := (hown c (List.mem_of_mem_drop hc)).2
      have h3 : (1 : Int) ≤ ((whn / (T.length - min T.length kn) : Nat) : Int) := by
        rw [Int.natCast_div]; omega
      have h4 : 0 < whn / (T.length - min T.length kn) := by exact_mod_cast h3
      exact (Nat.div_pos_iff h0).mp h4
  have key := tileloop_columns m T.length
      (if T.length > toU (montotag (s.monitor m)).nmaster then
         (if (montotag (s.monitor m)).nmaster ≠ 0
          then toU (ftoi (tofloat
                 (itof (s.monitor m).ww * (montotag (s.monitor m)).mfact))) else 0)
       else toU (s.monitor m).ww)
      kn whn (whn / min T.length kn) (whn / (T.length - min T.length kn)) (s.monitor m).wy
      (by omega) (by omega) hwy0 (by omega) (by omega)
      T 0 0 0 s1 (by omega) hnd
      (by
        intro c hc
        have g := geomless_fields (hfr.2.2.2.2.2.2 c)
        refine ⟨?_, ?_, ?_⟩
        · rw [hfr.skip c]; exact mem_tiledclients (by rw [hT]; exact hc)
        · rw [g.2.2.1]; exact (hown c hc).1
        · rw [g.2.2.2.1]; exact (hown c hc).2)
      (by rw [hmon1]; rfl) (by rw [hmon1]; exact hwhn)
      (by rw [hmon1, montotag_setTag]; exact hkn)
      (by simpa using hqm) (by simpa using hqs)
      (by intro _; exact ⟨Nat.zero_le _, by simpa using Nat.div_mul_le_self _ _⟩)
      (by intro _; rfl)
      (by
        refine ⟨Nat.zero_le _, ?_⟩
        have : max 0 (min T.length kn) = min T.length kn := by omega
        rw [this]
        simpa using Nat.div_mul_le_self _ _)
  simp only [Nat.sub_zero, Nat.cast_zero, Int.add_zero, Nat.zero_max] at key
  exact key

/-- C5, amended: when the floor share of each column leaves every member at least
`max 1 bh` inside its border (and the quantities are within `int` range), after `tile` the
outer heights of the master column sum to the work-area height, so do those of a non-empty
stack column, and within each column every member starts at `wy` plus the outer heights
before it. -/
theorem tile_heights_conserved (s : State) (m : Nat) (h : TileFits s m)
    (hne : tiledclients s (s.monitor m).clients ≠ []) : HeightsConserved s m := by
  obtain ⟨hA, hB⟩ := tile_columns s m h hne
  have hwh : ((s.monitor m).wh.toNat : Int) = (s.monitor m).wh :=
    Int.toNat_of_nonneg h.2.2.2.2.1
  refine ⟨⟨?_, ?_⟩, ?_, ?_⟩
  · intro hm
    have := column_sum_of_map _ _ _ _ _ hA (List.length_pos.mpr hm)
    rw [hwh] at this
    exact this
  · intro hm
    have := column_sum_of_map _ _ _ _ _ hB (List.length_pos.mpr hm)
    rw [hwh] at this
    exact this
  · intro j hj
    exact column_contig_of_map _ _ _ _ _ hA j hj
  · intro j hj
    exact column_contig_of_map _ _ _ _ _ hB j hj

/-- C5, witness: Scenario A, three tiled clients with master count 1. -/
theorem tile_heights_conserved_witness : HeightsConserved scenarioA 0 :=
  tile_heights_conserved scenarioA 0 (by unfold TileFits; decide) (by decide)

/-! ## Column widths -/

/-- The horizontal part of the loop of `tile` from position `i` on: when the column
widths leave at least `max 1 bh` inside the border, master members sit at `wx` with
outer width `mw` and stack members at `wx + mw` with outer width `ww - mw`. -/
theorem tileloop_widths (m n mw kn : Nat) (wx ww : Int)
    (hkn : kn < 2147483648) (hn : n < 4294967296)
    (hwx0 : -2147483648 ≤ wx) (hwx1 : wx + ww < 2147483648) (hww : 0 < ww) (hmw : (mw : Int) ≤ ww)
    (hww1 : ww < 2147483648) :
    ∀ (T : List Nat) (i my ty : Nat) (s : State),
      i + T.length = n → T.Nodup →
      (∀ c ∈ T, ((s.client c).isfloating || !ISVISIBLE s c) = false ∧ (s.client c).mon = m
        ∧ 0 ≤ (s.client c).bw) →
      (s.monitor m).wx = wx → (s.monitor m).ww = ww →
      (montotag (s.monitor m)).nmaster = (kn : Int) →
      (∀ c ∈ T.take (min n kn - i), max 1 s.bh + 2 * (s.client c).bw ≤ (mw : Int)) →
      (∀ c ∈ T.drop (min n kn - i), max 1 s.bh + 2 * (s.client c).bw ≤ ww - mw) →
      (∀ c ∈ T.take (min n kn - i),
          hgeom (tileloop m n mw T i my ty s) c = (wx, (mw : Int)))
      ∧ (∀ c ∈ T.drop (min n kn - i),
          hgeom (tileloop m n mw T i my ty s) c = (wx + mw, ww - mw)) := by
  intro T
  induction T with
  | nil => intro i my ty s _ _ _ _ _ _ _ _; simp
  | cons c T ih =>
    intro i my ty s hlen hnd hall hwx hwws hk hfm hfs
    simp only [List.length_cons] at hlen
    obtain ⟨hskip, hmon, hbw⟩ := hall c (List.mem_cons_self _ _)
    have hcT : c ∉ T := (List.nodup_cons.mp hnd).1
    have hndT : T.Nodup := (List.nodup_cons.mp hnd).2
    have hfl : (s.client c).isfloating = false := by
      cases hh : (s.client c).isfloating
      · rfl
      · rw [hh] at hskip; simp at hskip
    have htoUk : toU (montotag (s.monitor m)).nmaster = kn := by
      rw [hk]; unfold toU; omega
    have hrest : ∀ (s1 : State), Frame s s1 →
        (∀ c' ∈ T, ((s1.client c').isfloating || !ISVISIBLE s1 c') = false
          ∧ (s1.client c').mon = m ∧ 0 ≤ (s1.client c').bw) := by
      intro s1 hfr c' hc'
      obtain ⟨a1, a2, a3⟩ := hall c' (List.mem_cons_of_mem _ hc')
      have g := geomless_fields (hfr.2.2.2.2.2.2 c')
      exact ⟨by rw [hfr.skip c']; exact a1, by rw [g.2.2.1]; exact a2, by rw [g.2.2.2.1]; exact a3⟩
    by_cases hi : i < min n kn
    · obtain ⟨D, hD⟩ : ∃ D, min n kn - i = D + 1 := ⟨min n kn - i - 1, by omega⟩
      have hD' : min n kn - (i + 1) = D := by omega
      have hfitc : max 1 s.bh + 2 * (s.client c).bw ≤ (mw : Int) :=
        hfm c (by rw [hD]; exact List.mem_cons_self _ _)
      have hi' : i < toU (montotag (s.monitor m)).nmaster := by rw [htoUk]; omega
      have hwarg : toI (usub mw (toU (2 * (s.client c).bw))) = mw - 2 * (s.client c).bw :=
        toI_usub _ _ (by omega) (by omega)
      have hstep : ∃ y h my', tileloop m n mw (c :: T) i my ty s
          = tileloop m n mw T (uadd i 1) my' ty
              (resize s c wx y ((mw : Int) - 2 * (s.client c).bw) h false) := by
        simp only [tileloop, hskip, Bool.false_eq_true, ↓reduceIte, hi', hwarg, hwx]
        exact ⟨_, _, _, rfl⟩
      obtain ⟨y, h, my', hstep⟩ := hstep
      have hres := resize_tiled_xw s c wx y ((mw : Int) - 2 * (s.client c).bw) h hfl
        (by rw [hmon, hwx]) (by rw [hmon, hwx, hwws]; omega) hbw (by omega)
      have hbw1 := resize_bw s c c wx y ((mw : Int) - 2 * (s.client c).bw) h false
      have hfr := resize_frame s c wx y ((mw : Int) - 2 * (s.client c).bw) h false
      have hmonr := resize_monitor s c wx y ((mw : Int) - 2 * (s.client c).bw) h false
      generalize resize s c wx y ((mw : Int) - 2 * (s.client c).bw) h false = s1
        at hstep hres hbw1 hfr hmonr
      have hi1 : uadd i 1 = i + 1 := uadd_nat _ _ (by omega)
      rw [hi1] at hstep
      have hbh : s1.bh = s.bh := hfr.2.2.1
      have IH := ih (i + 1) my' ty s1 (by omega) hndT (hrest s1 hfr)
        (by rw [hmonr]; exact hwx) (by rw [hmonr]; exact hwws) (by rw [hmonr]; exact hk)
        (by
          intro c' hc'
          rw [hbh, (geomless_fields (hfr.2.2.2.2.2.2 c')).2.2.2.1]
          rw [hD'] at hc'
          exact hfm c' (by rw [hD]; exact List.mem_cons_of_mem _ hc'))
        (by
          intro c' hc'
          rw [hbh, (geomless_fields (hfr.2.2.2.2.2.2 c')).2.2.2.1]
          rw [hD'] at hc'
          exact hfs c' (by rw [hD]; exact hc'))
      rw [hstep, hD]
      rw [hD'] at IH
      constructor
      · intro c' hc'
        simp only [List.take_succ_cons, List.mem_cons] at hc'
        rcases hc' with rfl | hc'
        · unfold hgeom WIDTH
          rw [tileloop_client_notin _ _ _ _ _ _ _ _ _ hcT, hres.1, hres.2, hbw1]
          congr 1; omega
        · exact IH.1 c' hc'
      · intro c' hc'
        simp only [List.drop_succ_cons] at hc'
        exact IH.2 c' hc'
    · have e0 : min n kn - i = 0 := by omega
      have e0' : min n kn - (i + 1) = 0 := by omega
      have hfitc : max 1 s.bh + 2 * (s.client c).bw ≤ ww - mw :=
        hfs c (by rw [e0]; exact List.mem_cons_self _ _)
      have hi' : ¬ i < toU (montotag (s.monitor m)).nmaster := by rw [htoUk]; omega
      have hxarg : toI (uadd (toU (s.monitor m).wx) mw) = wx + mw := by
        rw [hwx]; exact toI_uadd _ _ (by omega) (by omega)
      have hwarg : toI (usub (usub (toU (s.monitor m).ww) mw) (toU (2 * (s.client c).bw)))
          = ww - mw - 2 * (s.client c).bw := by
        rw [hwws]
        have e1 : toU ww = ww.toNat := by unfold toU; omega
        have e2 : usub (toU ww) mw = ww.toNat - mw := by
          rw [e1]; exact usub_nat _ _ (by omega) (by omega)
        rw [e2, toI_usub _ _ (by omega) (by omega)]
        omega
      have hstep : ∃ y h ty', tileloop m n mw (c :: T) i my ty s
          = tileloop m n mw T (uadd i 1) my ty'
              (resize s c (wx + mw) y (ww - mw - 2 * (s.client c).bw) h false) := by
        simp only [tileloop, hskip, Bool.false_eq_true, ↓reduceIte, hi', hwarg, hxarg]
        exact ⟨_, _, _, rfl⟩
      obtain ⟨y, h, ty', hstep⟩ := hstep
      have hres := resize_tiled_xw s c (wx + mw) y (ww - mw - 2 * (s.client c).bw) h hfl
        (by rw [hmon, hwx]; omega) (by rw [hmon, hwx, hwws]; omega) hbw (by omega)
      have hbw1 := resize_bw s c c (wx + mw) y (ww - mw - 2 * (s.client c).bw) h false
      have hfr := resize_frame s c (wx + mw) y (ww - mw - 2 * (s.client c).bw) h false
      have hmonr := resize_monitor s c (wx + mw) y (ww - mw - 2 * (s.client c).bw) h false
      generalize resize s c (wx + mw) y (ww - mw - 2 * (s.client c).bw) h false = s1
        at hstep hres hbw1 hfr hmonr
      have hi1 : uadd i 1 = i + 1 := uadd_nat _ _ (by omega)
      rw [hi1] at hstep
      have hbh : s1.bh = s.bh := hfr.2.2.1
      have IH := ih (i + 1) my ty' s1 (by omega) hndT (hrest s1 hfr)
        (by rw [hmonr]; exact hwx) (by rw [hmonr]; exact hwws) (by rw [hmonr]; exact hk)
        (by intro c' hc'; rw [e0'] at hc'; simp at hc')
        (by
          intro c' hc'
          rw [hbh, (geomless_fields (hfr.2.2.2.2.2.2 c')).2.2.2.1]
          rw [e0'] at hc'
          exact hfs c' (by rw [e0]; exact List.mem_cons_of_mem _ hc'))
      rw [hstep, e0]
      rw [e0'] at IH
      constructor
      · intro c' hc'; simp at hc'
      · intro c' hc'
        simp only [List.drop_zero, List.mem_cons] at hc' IH
        rcases hc' with rfl | hc'
        · unfold hgeom WIDTH
          rw [tileloop_client_notin _ _ _ _ _ _ _ _ _ hcT, hres.1, hres.2, hbw1]
          congr 1; omega
        · exact IH.2 c' hc'

theorem tile_widths (s : State) (m : Nat) (h : TileWide s m)
    (hne : tiledclients s (s.monitor m).clients ≠ []) :
    (∀ c ∈ masters s m, hgeom (tile s m) c = ((s.monitor m).wx, (masterwidth s m : Int)))
    ∧ (∀ c ∈ stackers s m, hgeom (tile s m) c
        = ((s.monitor m).wx + (masterwidth s m : Int),
           (s.monitor m).ww - (masterwidth s m : Int))) := by
  obtain ⟨hnd, hown, hk0, hk1, hn, hwx0, hwx1, hww0, hww1, hmw, hfm, hfs⟩ := h
  obtain ⟨kn, hkn⟩ : ∃ kn : Nat, (montotag (s.monitor m)).nmaster = (kn : Int) :=
    ⟨(montotag (s.monitor m)).nmaster.toNat, by omega⟩
  have hcnt := counttiled_eq_length s (s.monitor m).clients
  have hmwdef : masterwidth s m
      = if (tiledclients s (s.monitor m).clients).length > toU (montotag (s.monitor m)).nmaster
        then (if (montotag (s.monitor m)).nmaster ≠ 0
          then toU (ftoi (tofloat
                 (itof (s.monitor m).ww * (montotag (s.monitor m)).mfact))) else 0)
        else toU (s.monitor m).ww := by
    unfold masterwidth; rw [hcnt]
  generalize masterwidth s m = mw at hmwdef hmw hfm hfs ⊢
  generalize hT : tiledclients s (s.monitor m).clients = T at *
  have hTpos : 0 < T.length := List.length_pos.mpr hne
  have hmc : mastercnt s m = min T.length kn := by
    unfold mastercnt; rw [hcnt, hkn]; simp
  have hmeq : masters s m = T.take (min T.length kn) := by unfold masters; rw [hT, hmc]
  have hseq : stackers s m = T.drop (min T.length kn) := by unfold stackers; rw [hT, hmc]
  rw [hmeq] at hfm ⊢
  rw [hseq] at hfs ⊢
  have htile : tile s m = tileloop m T.length mw (s.monitor m).clients 0 0 0
      (s.setMon m ((s.monitor m).setTag
        { montotag (s.monitor m) with
            ltsymbol := tilesymbol T.length (montotag (s.monitor m)).nmaster })) := by
    rw [hmwdef]
    simp only [tile, hcnt]
    rw [if_neg (by omega)]
  have hfr : Frame s (s.setMon m ((s.monitor m).setTag
        { montotag (s.monitor m) with
            ltsymbol := tilesymbol T.length (montotag (s.monitor m)).nmaster })) :=
    setMon_frame _ _ _ (setTag_layoutless _ _ rfl)
  rw [htile, tileloop_filter, tiledclients_frame hfr, hT]
  generalize hs1 : s.setMon m ((s.monitor m).setTag
        { montotag (s.monitor m) with
            ltsymbol := tilesymbol T.length (montotag (s.monitor m)).nmaster }) = s1 at hfr
  have hmon1 : s1.monitor m = (s.monitor m).setTag
        { montotag (s.monitor m) with
            ltsymbol := tilesymbol T.length (montotag (s.monitor m)).nmaster } := by
    rw [← hs1]; simp
  have key := tileloop_widths m T.length mw kn (s.monitor m).wx (s.monitor m).ww
      (by omega) hn hwx0 hwx1 hww0 hmw hww1 T 0 0 0 s1 (by omega) hnd
      (by
        intro c hc
        have g := geomless_fields (hfr.2.2.2.2.2.2 c)
        refine ⟨?_, ?_, ?_⟩
        · rw [hfr.skip c]; exact mem_tiledclients (by rw [hT]; exact hc)
        · rw [g.2.2.1]; exact (hown c hc).1
        · rw [g.2.2.2.1]; exact (hown c hc).2)
      (by rw [hmon1]; rfl) (by rw [hmon1]; rfl)
      (by rw [hmon1, montotag_setTag]; exact hkn)
      (by
        intro c hc
        rw [hfr.2.2.1, (geomless_fields (hfr.2.2.2.2.2.2 c)).2.2.2.1]
        exact hfm c (by simpa using hc))
      (by
        intro c hc
        rw [hfr.2.2.1, (geomless_fields (hfr.2.2.2.2.2.2 c)).2.2.2.1]
        exact hfs c (by simpa using hc))
  simpa using key

theorem scenarioA_rects (s : State) (m a b c : Nat) (h : IsScenarioA s m a b c) :
    outerRect (tile s m) a = (0, 20, 640, 780)
    ∧ outerRect (tile s m) b = (640, 20, 640, 390)
    ∧ outerRect (tile s m) c = (640, 410, 640, 390) := by
  obtain ⟨hwx, hwy, hww, hwh, hk, hmf, hT, hnd, hcl⟩ := h
  have hcnt : counttiled s (s.monitor m).clients = 3 := by
    rw [counttiled_eq_length, hT]; rfl
  have hmc : mastercnt s m = 1 := by
    unfold mastercnt; rw [hcnt, hk]; rfl
  have hms : masters s m = [a] := by unfold masters; rw [hT, hmc]; rfl
  have hss : stackers s m = [b, c] := by unfold stackers; rw [hT, hmc]; rfl
  have hmw : masterwidth s m = 640 := by
    unfold masterwidth
    rw [hcnt, hk, hmf, hww, itof_1280]
    have e : (1280 : ℚ) * (1 / 2) = 640 := by norm_num
    rw [e, tofloat_640]
    have e2 : ftoi 640 = 640 := by
      unfold ftoi
      rfl
    rw [e2]
    decide
  have hne : tiledclients s (s.monitor m).clients ≠ [] := by rw [hT]; simp
  have hfit : TileFits s m := by
    refine ⟨by rw [hT]; exact hnd, ?_, by rw [hk]; omega, by rw [hk]; omega, by omega, by omega,
      by omega, by omega, ?_, ?_⟩
    · intro c' hc'; rw [hT] at hc'; exact ⟨(hcl c' hc').1, (hcl c' hc').2.1⟩
    · intro c' hc'
      rw [hms] at hc' ⊢
      have := (hcl c' (by simp at hc'; simp [hc'])).2.2
      rw [hwh]; simp only [List.length_singleton, Nat.cast_one, Int.ediv_one]; omega
    · intro c' hc'
      rw [hss] at hc' ⊢
      have := (hcl c' (by simp at hc'; rcases hc' with h | h <;> simp [h])).2.2
      rw [hwh]
      simp only [List.length_cons, List.length_nil]
      have e : (780 : Int) / ((0 + 1 + 1 : Nat) : Int) = 390 := by decide
      rw [e]; exact this
  have hwide : TileWide s m := by
    refine ⟨by rw [hT]; exact hnd, ?_, by rw [hk]; omega, by rw [hk]; omega,
      by rw [hT]; simp, by omega, by omega, by omega, by omega, by rw [hmw, hww]; decide,
      ?_, ?_⟩
    · intro c' hc'; rw [hT] at hc'; exact ⟨(hcl c' hc').1, (hcl c' hc').2.1⟩
    · intro c' hc'
      rw [hms] at hc'
      have := (hcl c' (by simp at hc'; simp [hc'])).2.2
      rw [hmw]; push_cast; omega
    · intro c' hc'
      rw [hss] at hc'
      have := (hcl c' (by simp at hc'; rcases hc' with h | h <;> simp [h])).2.2
      rw [hmw, hww]; push_cast; omega
  obtain ⟨hA, hB⟩ := tile_columns s m hfit hne
  obtain ⟨hC, hD⟩ := tile_widths s m hwide hne
  rw [hms, hwy, hwh] at hA
  rw [hss, hwy, hwh] at hB
  rw [hms, hwx, hmw] at hC
  rw [hss, hwx, hmw, hww] at hD
  simp only [List.map_cons, List.map_nil, List.length_singleton, List.length_cons,
    List.length_nil] at hA hB
  have cA : column 20 (780 : Int).toNat 1 = [(20, 780)] := by decide
  have cB : column 20 (780 : Int).toNat (0 + 1 + 1) = [(20, 390), (410, 390)] := by decide
  rw [cA] at hA
  rw [cB] at hB
  simp only [List.cons.injEq, and_true] at hA hB
  have ha := hC a (by simp)
  have hb := hD b (by simp)
  have hc := hD c (by simp)
  simp only [vgeom, hgeom, Prod.mk.injEq] at hA hB ha hb hc
  simp only [outerRect, Prod.mk.injEq]
  refine ⟨⟨ha.1, hA.1, ?_, hA.2⟩, ⟨?_, hB.1.1, ?_, hB.1.2⟩, ⟨?_, hB.2.1, ?_, hB.2.2⟩⟩
  · rw [ha.2]; rfl
  · rw [hb.1]; rfl
  · rw [hb.2]; rfl
  · rw [hc.1]; rfl
  · rw [hc.2]; rfl

/-! ## Scenario A and unique geometries -/

theorem scenarioA_is : IsScenarioA scenarioA 0 1 2 3 := by
  refine ⟨by decide, by decide, by decide, by decide, by decide, rfl, by decide, by decide,
    by decide⟩

/-- C6, counterexample: in Scenario A the third client does not receive the outer rect
(640, 410, 640, 370) that the claim gives it. -/
theorem scenarioA_third_rect_differs : ¬ (IsScenarioA scenarioA 0 1 2 3 → ScenarioAClaim scenarioA 0 1 2 3) := by
  intro h
  have h1 := (h scenarioA_is).2.2
  have h2 := (scenarioA_rects scenarioA 0 1 2 3 scenarioA_is).2.2
  rw [h2] at h1
  revert h1
  decide

/-- C6, amended: in Scenario A `tile` gives the master client the outer rect
(0, 20, 640, 780) and the two stack clients (640, 20, 640, 390) and (640, 410, 640, 390),
in client-list order. -/
theorem scenarioA_tile_rects (s : State) (m a b c : Nat) (h : IsScenarioA s m a b c) :
    outerRect (tile s m) a = (0, 20, 640, 780)
    ∧ outerRect (tile s m) b = (640, 20, 640, 390)
    ∧ outerRect (tile s m) c = (640, 410, 640, 390) :=
  scenarioA_rects s m a b c h

/-- C6, witness: the state `scenarioA` is an instance of Scenario A. -/
theorem scenarioA_tile_rects_witness : IsScenarioA scenarioA 0 1 2 3
    ∧ outerRect (tile scenarioA 0) 3 = (640, 410, 640, 390) :=
  ⟨scenarioA_is, (scenarioA_tile_rects scenarioA 0 1 2 3 scenarioA_is).2.2⟩

theorem isuniquegeom_iff_aux (unique : List XineramaScreenInfo) (x : XineramaScreenInfo) :
    ∀ n, isuniquegeom unique n x = true
      ↔ ∀ i, i < n → ∀ u, unique[i]? = some u → u.geom ≠ x.geom := by
  intro n
  induction n with
  | zero => simp [isuniquegeom]
  | succ n ih =>
    simp only [isuniquegeom]
    cases hu : unique[n]? with
    | none =>
      simp only [ih]
      constructor
      · intro h i hi u hiu
        by_cases hin : i = n
        · subst hin; rw [hu] at hiu; cases hiu
        · exact h i (by omega) u hiu
      · intro h i hi u hiu
        exact h i (by omega) u hiu
    | some a =>
      simp only []
      by_cases hg : a.x_org = x.x_org ∧ a.y_org = x.y_org ∧ a.width = x.width
          ∧ a.height = x.height
      · rw [if_pos hg]
        simp only [Bool.false_eq_true, false_iff, not_forall]
        refine ⟨n, by omega, a, hu, ?_⟩
        simp [XineramaScreenInfo.geom, hg.1, hg.2.1, hg.2.2.1, hg.2.2.2]
      · rw [if_neg hg, ih]
        constructor
        · intro h i hi u hiu
          by_cases hin : i = n
          · subst hin; rw [hu] at hiu
            cases hiu
            simp only [XineramaScreenInfo.geom, ne_eq, Prod.mk.injEq]
            exact hg
          · exact h i (by omega) u hiu
        · intro h i hi u hiu
          exact h i (by omega) u hiu

theorem isuniquegeom_iff (unique : List XineramaScreenInfo) (x : XineramaScreenInfo) :
    isuniquegeom unique unique.length x = true ↔ x.geom ∉ unique.map XineramaScreenInfo.geom := by
  rw [isuniquegeom_iff_aux]
  simp only [List.mem_map, not_exists, not_and]
  constructor
  · intro h u hu
    obtain ⟨i, hi, rfl⟩ := List.getElem_of_mem hu
    exact h i hi _ (List.getElem?_eq_getElem hi)
  · intro h i _ u hiu
    exact h u (List.getElem?_mem hiu)

theorem uniquegeoms_eq (info : List XineramaScreenInfo) :
    uniquegeoms info = info.foldl uniquestep [] := rfl

/-- What the copying loop adds to the cells `acc` it starts with. -/
theorem uniquegeoms_foldl (info : List XineramaScreenInfo) :
    ∀ acc : List XineramaScreenInfo, (acc.map XineramaScreenInfo.geom).Nodup →
      ∃ l, info.foldl uniquestep acc = acc ++ l
        ∧ l.Sublist info
        ∧ ((acc ++ l).map XineramaScreenInfo.geom).Nodup
        ∧ (∀ x ∈ info, x.geom ∈ (acc ++ l).map XineramaScreenInfo.geom)
        ∧ (∀ u ∈ l, info.find? (fun x => decide (x.geom = u.geom)) = some u) := by
  induction info with
  | nil => intro acc h; exact ⟨[], by simp, by simp, by simpa using h, by simp, by simp⟩
  | cons x xs ih =>
    intro acc hacc
    by_cases hx : isuniquegeom acc acc.length x = true
    · have hnew : x.geom ∉ acc.map XineramaScreenInfo.geom := (isuniquegeom_iff acc x).mp hx
      have hacc1 : ((acc ++ [x]).map XineramaScreenInfo.geom).Nodup := by
        rw [List.map_append, List.map_singleton]
        exact List.Nodup.append hacc (List.nodup_singleton _) (by
          intro g hg hg'
          rw [List.mem_singleton] at hg'
          exact hnew (hg' ▸ hg))
      obtain ⟨l, h1, h2, h3, h4, h5⟩ := ih (acc ++ [x]) hacc1
      refine ⟨x :: l, ?_, h2.cons₂ x, ?_, ?_, ?_⟩
      · simp only [List.foldl_cons, uniquestep, hx, ↓reduceIte, h1, List.append_assoc,
          List.singleton_append]
      · simpa using h3
      · intro y hy
        rcases List.mem_cons.mp hy with rfl | hy
        · simp
        · simpa using h4 y hy
      · intro u hu
        rcases List.mem_cons.mp hu with rfl | hu
        · simp [List.find?_cons]
        · have hne : x.geom ≠ u.geom := by
            intro e
            have h3' := h3
            rw [List.map_append, List.map_append, List.map_singleton] at h3'
            have := (List.nodup_append.mp h3').2.2
            exact this (a := x.geom) (by simp) (List.mem_map.mpr ⟨u, hu, e.symm⟩)
          rw [List.find?_cons]
          simp only [hne, decide_False]
          exact h5 u hu
    · have hold : x.geom ∈ acc.map XineramaScreenInfo.geom := by
        by_contra hcon
        exact hx ((isuniquegeom_iff acc x).mpr hcon)
      obtain ⟨l, h1, h2, h3, h4, h5⟩ := ih acc hacc
      refine ⟨l, ?_, h2.cons x, h3, ?_, ?_⟩
      · simp only [List.foldl_cons, uniquestep, hx, Bool.false_eq_true, ↓reduceIte, h1]
      · intro y hy
        rcases List.mem_cons.mp hy with rfl | hy
        · rw [List.map_append]; exact List.mem_append_left _ hold
        · exact h4 y hy
      · intro u hu
        have hne : x.geom ≠ u.geom := by
          intro e
          rw [List.map_append] at h3
          have := (List.nodup_append.mp h3).2.2
          exact this (a := x.geom) hold (List.mem_map.mpr ⟨u, hu, e.symm⟩)
        rw [List.find?_cons]
        simp only [hne, decide_False]
        exact h5 u hu

theorem uniquegeoms_spec (info : List XineramaScreenInfo) :
    (uniquegeoms info).Sublist info
    ∧ ((uniquegeoms info).map XineramaScreenInfo.geom).Nodup
    ∧ (∀ x ∈ info, x.geom ∈ (uniquegeoms info).map XineramaScreenInfo.geom)
    ∧ (∀ u ∈ uniquegeoms info, info.find? (fun x => decide (x.geom = u.geom)) = some u) := by
  obtain ⟨l, h1, h2, h3, h4, h5⟩ := uniquegeoms_foldl info [] (by simp)
  rw [uniquegeoms_eq, h1]
  simp only [List.nil_append] at h3 h4 ⊢
  exact ⟨h2, h3, h4, h5⟩

theorem uniquegeoms_length (info : List XineramaScreenInfo) :
    (uniquegeoms info).length = ((info.map XineramaScreenInfo.geom).dedup).length := by
  obtain ⟨h1, h2, h3, _⟩ := uniquegeoms_spec info
  have hp : ((uniquegeoms info).map XineramaScreenInfo.geom).Perm
      ((info.map XineramaScreenInfo.geom).dedup) := by
    rw [List.perm_ext_iff_of_nodup h2 (List.nodup_dedup _)]
    intro g
    rw [List.mem_dedup]
    constructor
    · intro hg
      obtain ⟨u, hu, rfl⟩ := List.mem_map.mp hg
      exact List.mem_map.mpr ⟨u, h1.subset hu, rfl⟩
    · intro hg
      obtain ⟨x, hx, rfl⟩ := List.mem_map.mp hg
      exact h3 x hx
  have := hp.length_eq
  simpa using this

theorem addmons_mons_length (k : Nat) (s : State) :
    (addmons k s).mons.length = s.mons.length + k := by
  induction k generalizing s with
  | zero => rfl
  | succ k ih =>
    simp only [addmons]
    rw [ih]
    simp [State.setMon]
    omega

theorem setgeoms_mons (n : Nat) (ms : List Nat) (us : List XineramaScreenInfo) (i : Nat)
    (r : State × Bool) : (setgeoms n ms us i r).1.mons = r.1.mons := by
  induction ms generalizing us i r with
  | nil => cases us <;> simp [setgeoms]
  | cons m ms ih =>
    cases us with
    | nil => simp [setgeoms]
    | cons u us =>
      obtain ⟨s, d⟩ := r
      simp only [setgeoms]
      split
      · rw [ih]; rfl
      · rw [ih]

theorem updategeomend_mons (ptr : Option (Int × Int)) (sd : State × Bool) :
    (updategeomend ptr sd).1.mons = sd.1.mons := by
  unfold updategeomend
  split <;> rfl

theorem updategeom_grow_eq (s : State) (info : List XineramaScreenInfo)
    (ptr : Option (Int × Int)) (h : s.mons.length ≤ (uniquegeoms info).length) :
    updategeom s (some info) ptr
      = some (updategeomend ptr (setgeoms s.mons.length
          (addmons ((uniquegeoms info).length - s.mons.length) s).mons (uniquegeoms info) 0
          (addmons ((uniquegeoms info).length - s.mons.length) s, false))) := by
  simp only [updategeom, h, ↓reduceIte, Option.map_some']

/-- With no more monitors than unique geometries, `updategeom` returns, and the chain
then has one monitor per unique geometry. -/
theorem updategeom_grow_count (s : State) (info : List XineramaScreenInfo)
    (ptr : Option (Int × Int)) (h : s.mons.length ≤ (uniquegeoms info).length) :
    ∃ s' d, updategeom s (some info) ptr = some (s', d)
      ∧ s'.mons.length = (uniquegeoms info).length := by
  refine ⟨(updategeomend ptr (setgeoms s.mons.length
          (addmons ((uniquegeoms info).length - s.mons.length) s).mons (uniquegeoms info) 0
          (addmons ((uniquegeoms info).length - s.mons.length) s, false))).1,
    (updategeomend ptr (setgeoms s.mons.length
          (addmons ((uniquegeoms info).length - s.mons.length) s).mons (uniquegeoms info) 0
          (addmons ((uniquegeoms info).length - s.mons.length) s, false))).2,
    updategeom_grow_eq s info ptr h, ?_⟩
  rw [updategeomend_mons, setgeoms_mons, addmons_mons_length]
  omega

/-- C10: the list `updategeom` keeps of the reported screens is a sublist of the report,
holds every distinct geometry exactly once, each represented by its first occurrence; two
screens of identical geometry yield one entry; and from a chain of no more monitors than
distinct geometries `updategeom` returns with exactly that many monitors. -/
theorem updategeom_dedup (info : List XineramaScreenInfo) :
    DedupSpec info
    ∧ (∀ a b : XineramaScreenInfo, a.geom = b.geom → (uniquegeoms [a, b]).length = 1)
    ∧ (∀ (s : State) (ptr : Option (Int × Int)),
        s.mons.length ≤ ((info.map XineramaScreenInfo.geom).dedup).length →
        ∃ s' d, updategeom s (some info) ptr = some (s', d)
          ∧ s'.mons.length = ((info.map XineramaScreenInfo.geom).dedup).length) := by
  refine ⟨?_, ?_, ?_⟩
  · obtain ⟨h1, h2, h3, h4⟩ := uniquegeoms_spec info
    exact ⟨h1, h2, h3, h4, uniquegeoms_length info⟩
  · intro a b hab
    rw [uniquegeoms_length]
    simp [hab]
  · intro s ptr h
    rw [← uniquegeoms_length] at h ⊢
    exact updategeom_grow_count s info ptr h

/-! ## The client registry -/

theorem SameReg.inv {s s' : State} (h : SameReg s s') (hI : RegistryInv s) : RegistryInv s' := by
  obtain ⟨h1, h2, h3, h4⟩ := h
  obtain ⟨i1, i2, i3⟩ := hI
  refine ⟨h1 ▸ i1, by rw [h1, h2]; exact i2, ?_⟩
  intro m hm
  rw [h1] at hm
  rw [(h3 m).1, (h3 m).2]
  obtain ⟨a, b, c⟩ := i3 m hm
  exact ⟨a, b, fun c' hc' => by rw [h4]; exact c c' hc'⟩

theorem SameReg.absent {s s' : State} (h : SameReg s s') {c : Nat} (hI : AbsentInv s c) :
    AbsentInv s' c := by
  refine ⟨h.inv hI.1, ?_⟩
  intro m hm
  rw [h.1] at hm
  rw [(h.2.2.1 m).1]
  exact hI.2 m hm

theorem SameReg.same (s : State) : SameReg s s := ⟨rfl, rfl, fun _ => ⟨rfl, rfl⟩, fun _ => rfl⟩

theorem SameReg.chain {a b c : State} (h1 : SameReg a b) (h2 : SameReg b c) : SameReg a c := by
  obtain ⟨a1, a2, a3, a4⟩ := h1
  obtain ⟨b1, b2, b3, b4⟩ := h2
  exact ⟨b1.trans a1, b2.trans a2,
    fun m => ⟨(b3 m).1.trans (a3 m).1, (b3 m).2.trans (a3 m).2⟩, fun c => (b4 c).trans (a4 c)⟩

theorem Frame.sameReg {s s' : State} (h : Frame s s') : SameReg s s' := by
  obtain ⟨_, _, _, h4, h5, h6, h7⟩ := h
  refine ⟨h4, h5, fun m => ?_, fun c => (geomless_fields (h7 c)).2.2.1⟩
  have := layoutless_fields (h6 m)
  exact ⟨this.1, this.2.1⟩

theorem managed_iff (s : State) (c : Nat) :
    c ∈ managed s ↔ ∃ m ∈ s.mons, c ∈ (s.monitor m).clients := by
  simp [managed, List.mem_flatMap]

/-- Under the invariant a managed client sits in the lists of its own monitor. -/
theorem RegistryInv.of_managed {s : State} (h : RegistryInv s) {c : Nat} (hc : c ∈ managed s) :
    (s.client c).mon ∈ s.mons ∧ c ∈ (s.monitor (s.client c).mon).clients
      ∧ c ∈ (s.monitor (s.client c).mon).stack := by
  obtain ⟨m, hm, hcm⟩ := (managed_iff s c).mp hc
  obtain ⟨_, hp, hown⟩ := h.2.2 m hm
  have e := hown c hcm
  rw [e]
  exact ⟨hm, hcm, hp.mem_iff.mpr hcm⟩

/-- Taking a client out of both lists of its monitor. -/
theorem detach_detachstack_obs (s : State) (c : Nat) :
    (detachstack (detach s c) c).mons = s.mons
    ∧ (detachstack (detach s c) c).selmon = s.selmon
    ∧ (detachstack (detach s c) c).client = s.client
    ∧ ∀ m, ((detachstack (detach s c) c).monitor m).clients
          = (if m = (s.client c).mon then (s.monitor m).clients.erase c
             else (s.monitor m).clients)
        ∧ ((detachstack (detach s c) c).monitor m).stack
          = (if m = (s.client c).mon then (s.monitor m).stack.erase c
             else (s.monitor m).stack) := by
  refine ⟨?_, ?_, ?_, ?_⟩
  · simp only [detachstack, detach]; split <;> rfl
  · simp only [detachstack, detach]; split <;> rfl
  · simp only [detachstack, detach]; split <;> rfl
  · intro m
    by_cases hm : m = (s.client c).mon
    · subst hm
      simp only [detachstack, detach, ↓reduceIte]
      split <;> simp [State.setMon]
    · simp only [detachstack, detach, hm, ↓reduceIte]
      split <;> simp [State.setMon, Function.update_noteq hm]

theorem attach_attachstack_obs (s : State) (c : Nat) :
    (attachstack (attach s c) c).mons = s.mons
    ∧ (attachstack (attach s c) c).selmon = s.selmon
    ∧ (attachstack (attach s c) c).client = s.client
    ∧ ∀ m, ((attachstack (attach s c) c).monitor m).clients
          = (if m = (s.client c).mon then c :: (s.monitor m).clients
             else (s.monitor m).clients)
        ∧ ((attachstack (attach s c) c).monitor m).stack
          = (if m = (s.client c).mon then c :: (s.monitor m).stack
             else (s.monitor m).stack) := by
  refine ⟨rfl, rfl, rfl, ?_⟩
  intro m
  by_cases hm : m = (s.client c).mon
  · subst hm
    simp [attachstack, attach, State.setMon]
  · simp [attachstack, attach, State.setMon, Function.update_noteq hm, hm]

theorem detach_detachstack_absent (s : State) (c : Nat) (h : RegistryInv s) :
    AbsentInv (detachstack (detach s c) c) c := by
  obtain ⟨o1, o2, o3, o4⟩ := detach_detachstack_obs s c
  obtain ⟨i1, i2, i3⟩ := h
  refine ⟨⟨o1 ▸ i1, by rw [o1, o2]; exact i2, ?_⟩, ?_⟩
  · intro m hm
    rw [o1] at hm
    obtain ⟨a, b, d⟩ := i3 m hm
    rw [(o4 m).1, (o4 m).2, o3]
    by_cases hmc : m = (s.client c).mon
    · simp only [hmc, ↓reduceIte]
      rw [hmc] at a b d
      exact ⟨a.erase c, b.erase c, fun c' hc' => d c' (List.mem_of_mem_erase hc')⟩
    · simp only [hmc, ↓reduceIte]
      exact ⟨a, b, d⟩
  · intro m hm
    rw [o1] at hm
    obtain ⟨a, _, d⟩ := i3 m hm
    rw [(o4 m).1]
    by_cases hmc : m = (s.client c).mon
    · simp only [hmc, ↓reduceIte]
      rw [hmc] at a
      intro hc
      exact ((a.mem_erase_iff).mp hc).1 rfl
    · simp only [hmc, ↓reduceIte]
      intro hc
      exact hmc (d c hc).symm

theorem attach_attachstack_inv (s : State) (c : Nat) (h : AbsentInv s c)
    (hm : (s.client c).mon ∈ s.mons) : RegistryInv (attachstack (attach s c) c) := by
  obtain ⟨o1, o2, o3, o4⟩ := attach_attachstack_obs s c
  obtain ⟨⟨i1, i2, i3⟩, habs⟩ := h
  refine ⟨o1 ▸ i1, by rw [o1, o2]; exact i2, ?_⟩
  intro m hmm
  rw [o1] at hmm
  obtain ⟨a, b, d⟩ := i3 m hmm
  rw [(o4 m).1, (o4 m).2, o3]
  by_cases hmc : m = (s.client c).mon
  · simp only [hmc, ↓reduceIte]
    rw [hmc] at a b d
    refine ⟨List.nodup_cons.mpr ⟨habs _ hm, a⟩, b.cons c, ?_⟩
    intro c' hc'
    rcases List.mem_cons.mp hc' with rfl | hc'
    · rfl
    · exact d c' hc'
  · simp only [hmc, ↓reduceIte]
    exact ⟨a, b, d⟩

/-- A change of the record of a client that is in no list keeps the invariant. -/
theorem AbsentInv.setClient {s : State} {c : Nat} (h : AbsentInv s c) (v : Client) :
    AbsentInv (s.setClient c v) c := by
  obtain ⟨⟨i1, i2, i3⟩, habs⟩ := h
  refine ⟨⟨i1, i2, ?_⟩, habs⟩
  intro m hm
  obtain ⟨a, b, d⟩ := i3 m hm
  refine ⟨a, b, ?_⟩
  intro c' hc'
  have hne : c' ≠ c := fun e => habs m hm (e ▸ hc')
  rw [setClient_client_ne _ _ _ _ hne]
  exact d c' hc'

theorem firstvisible_mem (s : State) (l : List Nat) (t : Nat) (h : firstvisible s l = some t) :
    t ∈ l := by
  induction l with
  | nil => simp [firstvisible] at h
  | cons a as ih =>
    simp only [firstvisible] at h
    split at h
    · cases h; exact List.mem_cons_self _ _
    · exact List.mem_cons_of_mem _ (ih h)

theorem setMon_sel_sameReg (s : State) (m : Nat) (v : Option Nat) :
    SameReg s (s.setMon m { s.monitor m with sel := v }) := by
  refine ⟨rfl, rfl, fun m' => ?_, fun _ => rfl⟩
  by_cases h : m' = m
  · subst h; simp
  · rw [setMon_monitor_ne _ _ _ _ h]; exact ⟨rfl, rfl⟩

/-- Moving a client of a focus stack to its head keeps the invariant. -/
theorem restack_inv (s : State) (c : Nat) (h : RegistryInv s)
    (hc : c ∈ (s.monitor (s.client c).mon).stack) :
    RegistryInv (attachstack (detachstack s c) c) := by
  have hcl : (detachstack s c).client = s.client := by
    simp only [detachstack]; split <;> rfl
  have hmons : (attachstack (detachstack s c) c).mons = s.mons := by
    simp only [attachstack, detachstack]; split <;> rfl
  have hsel : (attachstack (detachstack s c) c).selmon = s.selmon := by
    simp only [attachstack, detachstack]; split <;> rfl
  have hclient : (attachstack (detachstack s c) c).client = s.client := by
    simp only [attachstack, detachstack]; split <;> rfl
  have hmon : ∀ m, ((attachstack (detachstack s c) c).monitor m).clients = (s.monitor m).clients
      ∧ ((attachstack (detachstack s c) c).monitor m).stack
          = (if m = (s.client c).mon then c :: (s.monitor m).stack.erase c
             else (s.monitor m).stack) := by
    intro m
    by_cases hm : m = (s.client c).mon
    · subst hm
      simp only [attachstack, hcl, ↓reduceIte]
      simp only [detachstack]
      split <;> simp [State.setMon]
    · simp only [attachstack, hcl, hm, ↓reduceIte]
      simp only [detachstack]
      split <;> simp [State.setMon, Function.update_noteq hm]
  obtain ⟨i1, i2, i3⟩ := h
  refine ⟨hmons ▸ i1, by rw [hmons, hsel]; exact i2, ?_⟩
  intro m hm
  rw [hmons] at hm
  obtain ⟨a, b, d⟩ := i3 m hm
  rw [(hmon m).1, (hmon m).2, hclient]
  by_cases hmc : m = (s.client c).mon
  · simp only [hmc, ↓reduceIte]
    rw [hmc] at a b d
    exact ⟨a, ((List.perm_cons_erase hc).symm).trans b, d⟩
  · simp only [hmc, ↓reduceIte]
    exact ⟨a, b, d⟩

theorem focuscandidate_managed (s : State) (c : Option Nat) (h : RegistryInv s)
    (hc : ∀ c', c = some c' → c' ∈ managed s) (t : Nat) (ht : focuscandidate s c = some t) :
    t ∈ managed s := by
  have hstack : ∀ t, firstvisible s (s.monitor s.selmon).stack = some t → t ∈ managed s := by
    intro t ht
    have := firstvisible_mem _ _ _ ht
    rw [managed_iff]
    exact ⟨s.selmon, h.2.1, ((h.2.2 _ h.2.1).2.1.mem_iff).mp this⟩
  cases c with
  | none => exact hstack t ht
  | some c' =>
    simp only [focuscandidate] at ht
    split at ht
    · cases ht; exact hc _ rfl
    · exact hstack t ht

theorem focus_inv (s : State) (c : Option Nat) (h : RegistryInv s)
    (hc : ∀ c', c = some c' → c' ∈ managed s) : RegistryInv (focus s c) := by
  unfold focus
  cases hcand : focuscandidate s c with
  | none => exact (setMon_sel_sameReg s s.selmon none).inv h
  | some t =>
    simp only []
    have htm := focuscandidate_managed s c h hc t hcand
    obtain ⟨k1, k2, k3⟩ := h.of_managed htm
    -- the monitor of `t` becomes the selected one
    have h1 : RegistryInv
        (if (s.client t).mon ≠ s.selmon then { s with selmon := (s.client t).mon } else s) := by
      split
      · exact ⟨h.1, k1, h.2.2⟩
      · exact h
    have k3' : t ∈ ((if (s.client t).mon ≠ s.selmon then { s with selmon := (s.client t).mon }
        else s).monitor ((if (s.client t).mon ≠ s.selmon
          then { s with selmon := (s.client t).mon } else s).client t).mon).stack := by
      split <;> exact k3
    generalize (if (s.client t).mon ≠ s.selmon then { s with selmon := (s.client t).mon }
        else s) = s1 at h1 k3'
    have h2 : RegistryInv (if (s1.client t).isurgent = true then clearurgent s1 t else s1)
        ∧ t ∈ ((if (s1.client t).isurgent = true then clearurgent s1 t else s1).monitor
            ((if (s1.client t).isurgent = true then clearurgent s1 t else s1).client t).mon).stack := by
      split
      · have hs : SameReg s1 (clearurgent s1 t) := by
          refine ⟨rfl, rfl, fun _ => ⟨rfl, rfl⟩, fun c' => ?_⟩
          by_cases e : c' = t
          · subst e; simp [clearurgent]
          · simp [clearurgent, setClient_client_ne _ _ _ _ e]
        refine ⟨hs.inv h1, ?_⟩
        simpa [clearurgent, State.setClient] using k3'
      · exact ⟨h1, k3'⟩
    generalize (if (s1.client t).isurgent = true then clearurgent s1 t else s1) = s2 at h2
    exact (setMon_sel_sameReg _ _ _).inv (restack_inv s2 t h2.1 h2.2)

theorem arrange_inv (s : State) (m : Option Nat) (h : RegistryInv s) :
    RegistryInv (arrange s m) := (arrange_frame s m).sameReg.inv h

theorem arrange_managed (s : State) (m : Option Nat) : managed (arrange s m) = managed s := by
  have h := (arrange_frame s m).sameReg
  unfold managed
  rw [h.1]
  congr 1
  funext m'
  exact (h.2.2.1 m').1

theorem unmanage_inv (s : State) (c : Nat) (h : RegistryInv s) : RegistryInv (unmanage s c) := by
  unfold unmanage
  apply arrange_inv
  apply focus_inv
  · exact (detach_detachstack_absent s c h).1
  · intro c' hc'; cases hc'

theorem sendmon_inv (s : State) (c m : Nat) (h : RegistryInv s) (hm : m ∈ s.mons) :
    RegistryInv (sendmon s c m) := by
  unfold sendmon
  split
  · exact h
  · simp only []
    apply arrange_inv
    apply focus_inv
    · have h1 := detach_detachstack_absent s c h
      have hm' : m ∈ (detachstack (detach s c) c).mons := by
        rw [(detach_detachstack_obs s c).1]; exact hm
      generalize detachstack (detach s c) c = s1 at h1 hm'
      apply attach_attachstack_inv
      · exact h1.setClient _
      · simpa using hm'
    · intro c' hc'; cases hc'

/-- Moving a client of a client list to its head keeps the invariant. -/
theorem detach_attach_inv (s : State) (c : Nat) (h : RegistryInv s) (hc : c ∈ managed s) :
    RegistryInv (attach (detach s c) c) := by
  obtain ⟨k1, k2, k3⟩ := h.of_managed hc
  have hmon : ∀ m, ((attach (detach s c) c).monitor m).stack = (s.monitor m).stack
      ∧ ((attach (detach s c) c).monitor m).clients
          = (if m = (s.client c).mon then c :: (s.monitor m).clients.erase c
             else (s.monitor m).clients) := by
    intro m
    by_cases hm : m = (s.client c).mon
    · subst hm
      simp [attach, detach, State.setMon]
    · simp [attach, detach, State.setMon, Function.update_noteq hm, hm]
  obtain ⟨i1, i2, i3⟩ := h
  refine ⟨i1, i2, ?_⟩
  intro m hm
  have hm' : m ∈ s.mons := hm
  obtain ⟨a, b, d⟩ := i3 m hm'
  rw [(hmon m).1, (hmon m).2]
  have hcl : (attach (detach s c) c).client = s.client := rfl
  rw [hcl]
  by_cases hmc : m = (s.client c).mon
  · simp only [hmc, ↓reduceIte]
    rw [hmc] at a b d
    refine ⟨List.nodup_cons.mpr ⟨fun hx => ((a.mem_erase_iff).mp hx).1 rfl, a.erase c⟩,
      b.trans (List.perm_cons_erase k2), ?_⟩
    intro c' hc'
    rcases List.mem_cons.mp hc' with rfl | hc'
    · rfl
    · exact d c' (List.mem_of_mem_erase hc')
  · simp only [hmc, ↓reduceIte]
    exact ⟨a, b, d⟩

theorem detach_attach_managed (s : State) (c : Nat) (h : RegistryInv s) (hc : c ∈ managed s) :
    c ∈ managed (attach (detach s c) c) := by
  obtain ⟨k1, _, _⟩ := h.of_managed hc
  rw [managed_iff]
  refine ⟨(s.client c).mon, k1, ?_⟩
  simp [attach, detach, State.setMon]

theorem pop_inv (s : State) (c : Nat) (h : RegistryInv s) (hc : c ∈ managed s) :
    RegistryInv (pop s c) := by
  unfold pop
  simp only []
  apply arrange_inv
  apply focus_inv
  · exact detach_attach_inv s c h hc
  · intro c' hc'
    cases hc'
    exact detach_attach_managed s c h hc

theorem Pending.store {s : State} {c : Nat} (h : Pending s c) (v : Client)
    (hv : v.mon = (s.client c).mon) : Pending (s.setClient c v) c := by
  refine ⟨h.1.setClient v, ?_⟩
  simp only [setClient_client_self, hv]
  exact h.2

theorem wintoclient_managed (s : State) (w t : Nat) (h : wintoclient s w = some t) :
    t ∈ managed s := List.mem_of_find?_eq_some h

theorem applyrules_pending (rules : List Rule) (s : State) (c : Nat) (a b : Option String)
    (h : Pending s c) : Pending (applyrules rules s c a b) c := by
  unfold applyrules
  simp only []
  have key : ∀ (rs : List Rule) (C : Client), C.mon ∈ s.mons →
      (rs.foldl (fun (C : Client) r =>
        if r.matches C.name (a.getD broken) (b.getD broken) then
          match s.mons.find? (fun m => decide ((s.monitor m).num = r.monitor)) with
          | some m => { { C with isfloating := r.isfloating, tag := r.tag } with mon := m }
          | none => { C with isfloating := r.isfloating, tag := r.tag }
        else C) C).mon ∈ s.mons := by
    intro rs
    induction rs with
    | nil => intro C hC; exact hC
    | cons r rs ih =>
      intro C hC
      simp only [List.foldl_cons]
      apply ih
      split
      · split
        · rename_i m hm
          exact List.mem_of_find?_eq_some hm
        · exact hC
      · exact hC
  have k := key rules { s.client c with isfloating := false, tag := 4294967295 } h.2
  refine ⟨h.1.setClient _, ?_⟩
  simp only [setClient_client_self]
  split
  · exact k
  · exact k

theorem resizeclient_pending (s : State) (c : Nat) (x y w h : Int) (hp : Pending s c) :
    Pending (resizeclient s c x y w h) c := hp.store _ rfl

theorem updatewindowtype_pending (s : State) (c : Nat) (f d : Bool) (h : Pending s c) :
    Pending (updatewindowtype s c f d) c := by
  unfold updatewindowtype
  have h1 : Pending (if f = true then setfullscreen s c true else s) c := by
    split
    · simp only [setfullscreen, ↓reduceIte]
      apply resizeclient_pending
      exact h.store _ rfl
    · exact h
  simp only []
  generalize (if f = true then setfullscreen s c true else s) = s1 at h1
  split
  · exact h1.store _ rfl
  · exact h1

theorem updatesizehints_mon (C : Client) (size : Option XSizeHints) :
    (updatesizehints C size).mon = C.mon := by
  unfold updatesizehints
  simp only []
  split_ifs <;> rfl

theorem updatewmhints_pending (s : State) (c : Nat) (wmh : Option XWMHints) (h : Pending s c) :
    Pending (updatewmhints s c wmh) c := by
  unfold updatewmhints
  cases wmh with
  | none => exact h
  | some hints =>
    simp only []
    apply h.store
    split <;> rfl

theorem managenew_pending (rules : List Rule) (s : State) (c w : Nat) (info : WindowInfo)
    (h : RegistryInv s) (hc : c ∉ managed s) : Pending (managenew rules s c w info) c := by
  have habs : AbsentInv s c := by
    refine ⟨h, fun m hm hcm => hc ((managed_iff s c).mpr ⟨m, hm, hcm⟩)⟩
  unfold managenew
  simp only []
  split
  · rename_i t ht
    have htm : t ∈ managed s := by
      cases hi : info.trans with
      | none => rw [hi] at ht; cases ht
      | some tw => rw [hi] at ht; exact wintoclient_managed s tw t ht
    refine ⟨habs.setClient _, ?_⟩
    simp only [setClient_client_self]
    exact (h.of_managed htm).1
  · apply applyrules_pending
    refine ⟨habs.setClient _, ?_⟩
    simp only [setClient_client_self]
    exact h.2.1

theorem managegeometry_pending (s : State) (c : Nat) (wa : XWindowAttributes)
    (h : Pending s c) : Pending (managegeometry s c wa) c := by
  unfold managegeometry
  simp only []
  apply h.store
  split_ifs <;> rfl

theorem manageprops_pending (s : State) (c : Nat) (info : WindowInfo)
    (h : Pending s c) : Pending (manageprops s c info) c := by
  unfold manageprops
  simp only []
  have h2 := updatewindowtype_pending s c info.fullscreen info.dialog h
  generalize updatewindowtype s c info.fullscreen info.dialog = s2 at h2
  have h3 : Pending (s2.setClient c (updatesizehints (s2.client c) info.size)) c :=
    h2.store _ (updatesizehints_mon _ _)
  generalize s2.setClient c (updatesizehints (s2.client c) info.size) = s3 at h3
  have h4 := updatewmhints_pending s3 c info.wmh h3
  generalize updatewmhints s3 c info.wmh = s4 at h4
  split
  · exact h4
  · exact h4.store _ rfl

theorem manage_inv (rules : List Rule) (s : State) (c w : Nat) (wa : XWindowAttributes)
    (info : WindowInfo) (h : RegistryInv s) (hc : c ∉ managed s) :
    RegistryInv (manage rules s c w wa info) := by
  have h5 := manageprops_pending _ c info
    (managegeometry_pending _ c wa (managenew_pending rules s c w info h hc))
  unfold manage
  simp only []
  generalize manageprops (managegeometry (managenew rules s c w info) c wa) c info = s5 at h5
  apply focus_inv
  · apply arrange_inv
    apply (setMon_sel_sameReg _ _ _).inv
    exact attach_attachstack_inv s5 c h5.1 h5.2
  · intro c' hc'; cases hc'

theorem freshmon_gt (s : State) : ∀ a ∈ s.mons, a < freshmon s := by
  unfold freshmon
  have key : ∀ (l : List Nat) (b : Nat),
      b ≤ l.foldl (fun b a => max b (a + 1)) b
      ∧ ∀ a ∈ l, a < l.foldl (fun b a => max b (a + 1)) b := by
    intro l
    induction l with
    | nil => intro b; simp
    | cons x xs ih =>
      intro b
      simp only [List.foldl_cons]
      obtain ⟨h1, h2⟩ := ih (max b (x + 1))
      refine ⟨by omega, ?_⟩
      intro a ha
      rcases List.mem_cons.mp ha with rfl | ha
      · omega
      · exact h2 a ha
  exact (key s.mons 1).2

theorem createmon_lists : createmon.clients = [] ∧ createmon.stack = [] := ⟨rfl, rfl⟩

theorem addmons_inv (k : Nat) (s : State) (h : RegistryInv s) : RegistryInv (addmons k s) := by
  induction k generalizing s with
  | zero => exact h
  | succ k ih =>
    simp only [addmons]
    apply ih
    have hf : freshmon s ∉ s.mons := fun hm => Nat.lt_irrefl _ (freshmon_gt s _ hm)
    obtain ⟨i1, i2, i3⟩ := h
    refine ⟨?_, ?_, ?_⟩
    · show (s.mons ++ [freshmon s]).Nodup
      exact List.Nodup.append i1 (List.nodup_singleton _) (by
        intro a ha ha'
        rw [List.mem_singleton] at ha'
        exact hf (ha' ▸ ha))
    · show s.selmon ∈ s.mons ++ [freshmon s]
      exact List.mem_append_left _ i2
    · intro m hm
      have hm' : m ∈ s.mons ++ [freshmon s] := hm
      rcases List.mem_append.mp hm' with hm' | hm'
      · have hne : m ≠ freshmon s := fun e => hf (e ▸ hm')
        have e : ({ s with mons := s.mons ++ [freshmon s] }.setMon (freshmon s) createmon).monitor m
            = s.monitor m := by
          simp [State.setMon, Function.update_noteq hne]
        rw [e]
        exact i3 m hm'
      · rw [List.mem_singleton] at hm'
        subst hm'
        have e : ({ s with mons := s.mons ++ [freshmon s] }.setMon (freshmon s) createmon).monitor
            (freshmon s) = createmon := by
          simp [State.setMon]
        rw [e]
        simp [createmon]

theorem updatebarpos_lists (bh : Int) (M : Monitor) :
    (updatebarpos bh M).clients = M.clients ∧ (updatebarpos bh M).stack = M.stack := by
  unfold updatebarpos
  simp only []
  split <;> exact ⟨rfl, rfl⟩

theorem setMon_lists_sameReg (s : State) (m : Nat) (v : Monitor)
    (h : v.clients = (s.monitor m).clients ∧ v.stack = (s.monitor m).stack) :
    SameReg s (s.setMon m v) := by
  refine ⟨rfl, rfl, fun m' => ?_, fun _ => rfl⟩
  by_cases hm : m' = m
  · subst hm; simpa using h
  · rw [setMon_monitor_ne _ _ _ _ hm]; exact ⟨rfl, rfl⟩

theorem setgeoms_sameReg (n : Nat) (ms : List Nat) (us : List XineramaScreenInfo) (i : Nat)
    (r : State × Bool) : SameReg r.1 (setgeoms n ms us i r).1 := by
  induction ms generalizing us i r with
  | nil => cases us <;> exact SameReg.same _
  | cons m ms ih =>
    cases us with
    | nil => exact SameReg.same _
    | cons u us =>
      obtain ⟨s, d⟩ := r
      simp only [setgeoms]
      split
      · refine SameReg.chain ?_ (ih _ _ _)
        apply setMon_lists_sameReg
        exact updatebarpos_lists _ _
      · exact ih _ _ _

theorem recttomon_mem (s : State) (x y w h : Int) :
    recttomon s x y w h ∈ s.mons ∨ recttomon s x y w h = s.selmon := by
  unfold recttomon
  have key : ∀ (l : List Nat) (ra : Nat × Int), (∀ a ∈ l, a ∈ s.mons) →
      (ra.1 ∈ s.mons ∨ ra.1 = s.selmon) →
      ((l.foldl (fun (ra : Nat × Int) m =>
        if INTERSECT x y w h (s.monitor m) > ra.2 then (m, INTERSECT x y w h (s.monitor m))
        else ra) ra).1 ∈ s.mons
      ∨ (l.foldl (fun (ra : Nat × Int) m =>
        if INTERSECT x y w h (s.monitor m) > ra.2 then (m, INTERSECT x y w h (s.monitor m))
        else ra) ra).1 = s.selmon) := by
    intro l
    induction l with
    | nil => intro ra _ h; exact h
    | cons a as ih =>
      intro ra hl h
      simp only [List.foldl_cons]
      apply ih _ (fun b hb => hl b (List.mem_cons_of_mem _ hb))
      split
      · exact Or.inl (hl a (List.mem_cons_self _ _))
      · exact h
  exact key s.mons (s.selmon, 0) (fun a ha => ha) (Or.inr rfl)

/-- The end of `updategeom` keeps the lists, and leaves a selected monitor of the chain
when the chain is not empty. -/
theorem updategeomend_inv (ptr : Option (Int × Int)) (s : State) (d : Bool)
    (h : RegistryInv s) : RegistryInv (updategeomend ptr (s, d)).1 := by
  unfold updategeomend
  split
  · obtain ⟨i1, i2, i3⟩ := h
    refine ⟨i1, ?_, i3⟩
    have hne : s.mons ≠ [] := List.ne_nil_of_mem i2
    have hhead : s.mons.headD 0 ∈ s.mons := by
      cases hl : s.mons with
      | nil => exact absurd hl hne
      | cons a as => simp
    show wintomonroot { s with selmon := s.mons.headD 0 } ptr ∈ s.mons
    unfold wintomonroot
    cases ptr with
    | none => exact hhead
    | some p =>
      obtain ⟨x, y⟩ := p
      simp only []
      rcases recttomon_mem { s with selmon := s.mons.headD 0 } x y 1 1 with hr | hr
      · exact hr
      · rw [hr]; exact hhead
  · exact h

theorem headD_mem (l : List Nat) (h : l ≠ []) : l.headD 0 ∈ l := by
  cases l with
  | nil => exact absurd rfl h
  | cons a as => simp

theorem migrate_inv (m : Nat) : ∀ (fuel : Nat) (s : State), RegistryInv s → m ∈ s.mons →
    RegistryInv (migrate m fuel s) ∧ (migrate m fuel s).mons = s.mons
      ∧ (migrate m fuel s).selmon = s.selmon := by
  intro fuel
  induction fuel with
  | zero => intro s h _; exact ⟨h, rfl, rfl⟩
  | succ fuel ih =>
    intro s h hm
    simp only [migrate]
    cases hcl : (s.monitor m).clients with
    | nil => exact ⟨h, rfl, rfl⟩
    | cons c rest =>
      simp only []
      have hcm : (s.client c).mon = m := (h.2.2 m hm).2.2 c (by rw [hcl]; simp)
      have hdet : s.setMon m { s.monitor m with clients := rest } = detach s c := by
        unfold detach
        simp only [hcm, hcl, List.erase_cons_head]
      rw [hdet]
      have h1 := detach_detachstack_absent s c h
      obtain ⟨o1, o2, _, _⟩ := detach_detachstack_obs s c
      generalize detachstack (detach s c) c = s1 at h1 o1 o2
      have hne : s1.mons ≠ [] := by rw [o1]; exact List.ne_nil_of_mem hm
      have h2 : AbsentInv (s1.setClient c { s1.client c with mon := s1.mons.headD 0 }) c :=
        h1.setClient _
      have h3 := attach_attachstack_inv _ c h2 (by
        simp only [setClient_client_self]
        exact headD_mem _ hne)
      obtain ⟨p1, p2, _, _⟩ := attach_attachstack_obs
        (s1.setClient c { s1.client c with mon := s1.mons.headD 0 }) c
      generalize attachstack (attach (s1.setClient c
        { s1.client c with mon := s1.mons.headD 0 }) c) c = s4 at h3 p1 p2
      have hm4 : m ∈ s4.mons := by rw [p1]; show m ∈ s1.mons; rw [o1]; exact hm
      obtain ⟨q1, q2, q3⟩ := ih s4 h3 hm4
      refine ⟨q1, ?_, ?_⟩
      · rw [q2, p1]; exact o1
      · rw [q3, p2]; exact o2

theorem removemons_inv : ∀ (k : Nat) (s : State) (d : Bool) (s' : State) (d' : Bool),
    RegistryInv s → k < s.mons.length → removemons k (s, d) = some (s', d') →
    RegistryInv s' := by
  intro k
  induction k with
  | zero =>
    intro s d s' d' h _ he
    simp only [removemons, Option.some.injEq, Prod.mk.injEq] at he
    rw [← he.1]; exact h
  | succ k ih =>
    intro s d s' d' h hk he
    simp only [removemons] at he
    cases hlast : s.mons.getLast? with
    | none => rw [hlast] at he; cases he
    | some m =>
      rw [hlast] at he
      simp only [] at he
      split at he
      · cases he
      · obtain ⟨ys, hys⟩ := List.getLast?_eq_some_iff.mp hlast
        have hm : m ∈ s.mons := by rw [hys]; simp
        have hylen : 1 ≤ ys.length := by
          have := congrArg List.length hys
          simp at this
          omega
        obtain ⟨q1, q2, q3⟩ := migrate_inv m (s.monitor m).clients.length s h hm
        generalize migrate m (s.monitor m).clients.length s = s1 at he q1 q2 q3
        have hnd : (ys ++ [m]).Nodup := hys ▸ h.1
        have hmys : m ∉ ys := by
          intro hin
          have := (List.nodup_append.mp hnd).2.2
          exact this (a := m) hin (by simp)
        have herase : s.mons.erase m = ys := by
          rw [hys, List.erase_append_right _ hmys]
          simp
        have hhead : s1.mons.headD 0 ∈ ys := by
          rw [q2, hys]
          cases ys with
          | nil => simp at hylen
          | cons a as => simp
        apply ih (cleanupmon (if m = s1.selmon then { s1 with selmon := s1.mons.headD 0 }
          else s1) m) _ s' d' _ _ he
        · obtain ⟨i1, i2, i3⟩ := q1
          have hmons : (cleanupmon (if m = s1.selmon then { s1 with selmon := s1.mons.headD 0 }
              else s1) m).mons = ys := by
            unfold cleanupmon
            split <;> (show s1.mons.erase m = ys; rw [q2]; exact herase)
          have hmonitor : (cleanupmon (if m = s1.selmon
              then { s1 with selmon := s1.mons.headD 0 } else s1) m).monitor = s1.monitor := by
            unfold cleanupmon; split <;> rfl
          have hclient : (cleanupmon (if m = s1.selmon
              then { s1 with selmon := s1.mons.headD 0 } else s1) m).client = s1.client := by
            unfold cleanupmon; split <;> rfl
          have hsub : ∀ a ∈ ys, a ∈ s1.mons := by
            intro a ha; rw [q2, hys]; exact List.mem_append_left _ ha
          refine ⟨?_, ?_, ?_⟩
          · rw [hmons]; exact (List.nodup_append.mp hnd).1
          · rw [hmons]
            unfold cleanupmon
            split
            · exact hhead
            · rename_i hne
              show s1.selmon ∈ ys
              have : s1.selmon ∈ ys ++ [m] := by rw [← hys, ← q2]; exact i2
              rcases List.mem_append.mp this with h1 | h1
              · exact h1
              · rw [List.mem_singleton] at h1; exact absurd h1.symm hne
          · intro a ha
            rw [hmons] at ha
            rw [hmonitor, hclient]
            exact i3 a (hsub a ha)
        · have hmons : (cleanupmon (if m = s1.selmon then { s1 with selmon := s1.mons.headD 0 }
              else s1) m).mons = ys := by
            unfold cleanupmon
            split <;> (show s1.mons.erase m = ys; rw [q2]; exact herase)
          rw [hmons]
          have := congrArg List.length hys
          simp at this
          omega

theorem uniquegeoms_ne_nil (info : List XineramaScreenInfo) (h : info ≠ []) :
    uniquegeoms info ≠ [] := by
  obtain ⟨x, hx⟩ := List.exists_mem_of_ne_nil info h
  have := (uniquegeoms_spec info).2.2.1 x hx
  intro e
  rw [e] at this
  simp at this

/-- The function `updategeom` keeps the registry invariant, provided Xinerama, when it is
active, reports at least one screen. -/
theorem updategeom_inv (s : State) (xin : Option (List XineramaScreenInfo))
    (ptr : Option (Int × Int)) (s' : State) (d : Bool) (h : RegistryInv s)
    (hx : xin ≠ some []) (he : updategeom s xin ptr = some (s', d)) : RegistryInv s' := by
  unfold updategeom at he
  cases xin with
  | some info =>
    have hinfo : info ≠ [] := fun e => hx (by rw [e])
    have hnn : 1 ≤ (uniquegeoms info).length :=
      List.length_pos.mpr (uniquegeoms_ne_nil info hinfo)
    simp only [] at he
    split at he
    · simp only [Option.map_some', Option.some.injEq] at he
      have h1 := addmons_inv ((uniquegeoms info).length - s.mons.length) s h
      have h2 := (setgeoms_sameReg s.mons.length
        (addmons ((uniquegeoms info).length - s.mons.length) s).mons (uniquegeoms info) 0
        (addmons ((uniquegeoms info).length - s.mons.length) s, false)).inv h1
      have h3 := updategeomend_inv ptr _ (setgeoms s.mons.length
        (addmons ((uniquegeoms info).length - s.mons.length) s).mons (uniquegeoms info) 0
        (addmons ((uniquegeoms info).length - s.mons.length) s, false)).2 h2
      rw [he] at h3
      exact h3
    · cases hr : removemons (s.mons.length - (uniquegeoms info).length) (s, false) with
      | none => rw [hr] at he; cases he
      | some r =>
        obtain ⟨s1, d1⟩ := r
        rw [hr] at he
        simp only [Option.map_some', Option.some.injEq] at he
        have h1 := removemons_inv _ s false s1 d1 h (by omega) hr
        have h3 := updategeomend_inv ptr s1 d1 h1
        rw [he] at h3
        exact h3
  | none =>
    simp only [] at he
    have hne : s.mons ≠ [] := List.ne_nil_of_mem h.2.1
    simp only [hne, ↓reduceIte] at he
    split at he
    · simp only [Option.map_some', Option.some.injEq] at he
      have h2 : RegistryInv (s.setMon (s.mons.headD 0) (updatebarpos s.bh
          { s.monitor (s.mons.headD 0) with mw := s.sw, ww := s.sw, mh := s.sh, wh := s.sh })) :=
        (setMon_lists_sameReg _ _ _ (updatebarpos_lists s.bh
          { s.monitor (s.mons.headD 0) with mw := s.sw, ww := s.sw, mh := s.sh,
                                            wh := s.sh })).inv h
      have h3 := updategeomend_inv ptr _ true h2
      rw [he] at h3
      exact h3
    · simp only [Option.map_some', Option.some.injEq] at he
      have h3 := updategeomend_inv ptr s false h
      rw [he] at h3
      exact h3

/-! ## Reachable states -/

theorem RegistryInv.holds {s : State} (h : RegistryInv s) : RegistryHolds s := by
  refine ⟨h.1, ?_, fun m hm => (h.2.2 m hm).2.1⟩
  intro c hc
  obtain ⟨hmon, hcl, hst⟩ := h.of_managed hc
  obtain ⟨hnd, hperm, _⟩ := h.2.2 _ hmon
  refine ⟨hmon, List.count_eq_one_of_mem hnd hcl, ?_, ?_⟩
  · exact List.count_eq_one_of_mem (hperm.nodup_iff.mpr hnd) hst
  · intro m hm hne
    obtain ⟨_, hp, hown⟩ := h.2.2 m hm
    have hnot : c ∉ (s.monitor m).clients := fun hin => hne (hown c hin).symm
    exact ⟨hnot, fun hin => hnot (hp.mem_iff.mp hin)⟩

theorem Reachable.registryInv {rules : List Rule} {s : State} (h : Reachable rules s) :
    RegistryInv s := by
  induction h with
  | start s h1 h2 h3 =>
    refine ⟨h1, h2, fun m hm => ?_⟩
    rw [(h3 m hm).1, (h3 m hm).2]
    exact ⟨List.nodup_nil, List.Perm.refl _, fun c hc => absurd hc (List.not_mem_nil c)⟩
  | manage s c w wa info _ hc ih => exact manage_inv rules s c w wa info ih hc
  | unmanage s c _ ih => exact unmanage_inv s c ih
  | sendmon s c m _ hm ih => exact sendmon_inv s c m ih hm
  | pop s c _ hc ih => exact pop_inv s c ih hc
  | focus s c _ hc ih => exact focus_inv s c ih hc
  | reattach s c _ hc ih => exact detach_attach_inv s c ih hc
  | reattachstack s c _ hc ih => exact restack_inv s c ih (ih.of_managed hc).2.2
  | updategeom s xin ptr t d _ hx he ih => exact updategeom_inv s xin ptr t d ih hx he

theorem bareState_reachable (rules : List Rule) : Reachable rules bareState :=
  Reachable.start bareState (by decide) (by decide) (by
    intro m _
    exact ⟨rfl, rfl⟩)

/-- C2: in every state reached from a chain of empty monitors through `manage`, `unmanage`,
`sendmon`, `pop`, `focus`, detach/attach pairs and `updategeom`, every managed client sits
exactly once in the client list and exactly once in the focus stack of the monitor its
`mon` names, and in no list of another monitor; each focus stack is a permutation of the
client list of its monitor. -/
theorem registry_invariant (rules : List Rule) (s : State) (h : Reachable rules s) :
    RegistryHolds s :=
  h.registryInv.holds

theorem setMon_clients (s : State) (m : Nat) (v : Monitor)
    (h : v.clients = (s.monitor m).clients) (a : Nat) :
    ((s.setMon m v).monitor a).clients = (s.monitor a).clients := by
  by_cases e : a = m
  · subst e; simpa using h
  · rw [setMon_monitor_ne _ _ _ _ e]

theorem attachstack_clients (s : State) (c a : Nat) :
    ((attachstack s c).monitor a).clients = (s.monitor a).clients :=
  setMon_clients _ _ _ (by rfl) a

theorem detachstack_clients (s : State) (c a : Nat) :
    ((detachstack s c).monitor a).clients = (s.monitor a).clients := by
  unfold detachstack
  simp only []
  split
  · exact (setMon_clients _ _ _ (by rfl) a).trans (setMon_clients _ _ _ (by rfl) a)
  · exact setMon_clients _ _ _ (by rfl) a

theorem focus_clients (s : State) (c : Option Nat) (a : Nat) :
    (focus s c).mons = s.mons ∧ ((focus s c).monitor a).clients = (s.monitor a).clients := by
  unfold focus
  cases focuscandidate s c with
  | none => exact ⟨rfl, setMon_clients _ _ _ (by rfl) a⟩
  | some t =>
    simp only []
    have h1 : (if (s.client t).mon ≠ s.selmon then { s with selmon := (s.client t).mon }
        else s).mons = s.mons
        ∧ ((if (s.client t).mon ≠ s.selmon then { s with selmon := (s.client t).mon }
        else s).monitor a).clients = (s.monitor a).clients := by
      split <;> exact ⟨rfl, rfl⟩
    generalize (if (s.client t).mon ≠ s.selmon then { s with selmon := (s.client t).mon }
        else s) = s1 at h1
    have h2 : (if (s1.client t).isurgent = true then clearurgent s1 t else s1).mons = s.mons
        ∧ ((if (s1.client t).isurgent = true then clearurgent s1 t else s1).monitor a).clients
          = (s.monitor a).clients := by
      split
      · exact h1
      · exact h1
    generalize (if (s1.client t).isurgent = true then clearurgent s1 t else s1) = s2 at h2
    refine ⟨?_, ?_⟩
    · show (attachstack (detachstack s2 t) t).mons = s.mons
      have : (detachstack s2 t).mons = s2.mons := by
        unfold detachstack; simp only []; split <;> rfl
      exact (this.trans h2.1)
    · refine (setMon_clients _ _ _ (by rfl) a).trans ?_
      rw [attachstack_clients, detachstack_clients]
      exact h2.2

theorem focus_managed (s : State) (c : Option Nat) : managed (focus s c) = managed s := by
  unfold managed
  rw [(focus_clients s c 0).1]
  congr 1
  funext m
  exact (focus_clients s c m).2

/-- After `manage` the new client is managed. -/
theorem manage_managed (rules : List Rule) (s : State) (c w : Nat) (wa : XWindowAttributes)
    (info : WindowInfo) (h : RegistryInv s) (hc : c ∉ managed s) :
    c ∈ managed (manage rules s c w wa info) := by
  have h5 := manageprops_pending _ c info
    (managegeometry_pending _ c wa (managenew_pending rules s c w info h hc))
  unfold manage
  simp only []
  generalize manageprops (managegeometry (managenew rules s c w info) c wa) c info = s5 at h5
  rw [focus_managed, arrange_managed, managed_iff]
  obtain ⟨p1, _, p3, p4⟩ := attach_attachstack_obs s5 c
  refine ⟨(s5.client c).mon, ?_, ?_⟩
  · show (s5.client c).mon ∈ (attachstack (attach s5 c) c).mons
    rw [p1]; exact h5.2
  · have key : ∀ (t : State) (m : Nat) (v : Monitor) (a : Nat),
        v.clients = (t.monitor m).clients → c ∈ (t.monitor a).clients →
        c ∈ ((t.setMon m v).monitor a).clients := by
      intro t m v a hv hin
      rw [setMon_clients t m v hv a]; exact hin
    apply key
    · rfl
    · rw [(p4 _).1]; simp

/-- C2, witness: the state after managing one window on a monitor without clients is
reachable, holds that client, and satisfies the registry property. -/
theorem registry_invariant_witness :
    Reachable [] (manage [] bareState 7 42 plainAttributes plainWindow)
    ∧ 7 ∈ managed (manage [] bareState 7 42 plainAttributes plainWindow)
    ∧ RegistryHolds (manage [] bareState 7 42 plainAttributes plainWindow) :=
  ⟨Reachable.manage bareState 7 42 _ _ (bareState_reachable []) (by decide),
   manage_managed [] bareState 7 42 _ _ (bareState_reachable []).registryInv (by decide),
   registry_invariant [] _
     (Reachable.manage bareState 7 42 _ _ (bareState_reachable []) (by decide))⟩

/-- C10, witness: two reports of the same screen, starting from one monitor. -/
theorem updategeom_dedup_witness : (uniquegeoms [plainScreen, plainScreen]).length = 1
    ∧ ∃ s d, updategeom bareState (some [plainScreen, plainScreen]) none = some (s, d)
      ∧ s.mons.length
          = ((List.map XineramaScreenInfo.geom [plainScreen, plainScreen]).dedup).length :=
  ⟨(updategeom_dedup [plainScreen, plainScreen]).2.1 plainScreen plainScreen rfl,
   (updategeom_dedup [plainScreen, plainScreen]).2.2 bareState none
    (by simp [bareState, plainScreen, XineramaScreenInfo.geom])⟩

/-! ## The focus stack and `detachstack` -/

theorem firstvisible_eq_find (s : State) (l : List Nat) :
    firstvisible s l = l.find? (fun t => ISVISIBLE s t) := by
  induction l with
  | nil => rfl
  | cons a as ih =>
    simp only [firstvisible, List.find?_cons]
    cases h : ISVISIBLE s a
    · simpa using ih
    · simp

theorem erase_eq_filter_of_nodup (l : List Nat) (c : Nat) (h : l.Nodup) :
    l.erase c = l.filter (fun t => t ≠ c) := by
  rw [List.Nodup.erase_eq_filter h]
  congr 1
  funext t
  by_cases e : t = c <;> simp [e]

theorem find_congr_mem {p q : Nat → Bool} (l : List Nat) (h : ∀ t ∈ l, p t = q t) :
    l.find? p = l.find? q := by
  induction l with
  | nil => rfl
  | cons a as ih =>
    simp only [List.find?_cons]
    rw [h a (List.mem_cons_self _ _), ih (fun t ht => h t (List.mem_cons_of_mem _ ht))]

theorem firstvisible_congr (s s1 : State) (l : List Nat) (h1 : s1.client = s.client)
    (h2 : ∀ a, (s1.monitor a).curtag = (s.monitor a).curtag) :
    firstvisible s1 l = firstvisible s l := by
  rw [firstvisible_eq_find, firstvisible_eq_find]
  apply find_congr_mem
  intro t _
  simp only [ISVISIBLE, h1, h2]

/-- The stack and the selection of `c->mon` after `detachstack(c)`. -/
theorem detachstack_monitor_self (s : State) (c : Nat) :
    ((detachstack s c).monitor (s.client c).mon).stack
        = (s.monitor (s.client c).mon).stack.erase c
    ∧ ((detachstack s c).monitor (s.client c).mon).sel
        = (if (s.monitor (s.client c).mon).sel = some c
           then firstvisible s ((s.monitor (s.client c).mon).stack.erase c)
           else (s.monitor (s.client c).mon).sel) := by
  have hv : ∀ l, firstvisible (s.setMon (s.client c).mon
      { s.monitor (s.client c).mon with stack := (s.monitor (s.client c).mon).stack.erase c }) l
      = firstvisible s l := by
    intro l
    refine firstvisible_congr s _ l rfl ?_
    intro a
    by_cases e : a = (s.client c).mon
    · subst e; simp [Monitor.curtag]
    · rw [setMon_monitor_ne _ _ _ _ e]
  unfold detachstack
  simp only [setMon_monitor_self]
  by_cases hsel : (s.monitor (s.client c).mon).sel = some c
  · rw [if_pos hsel, if_pos hsel, hv]
    simp only [setMon_monitor_self]
    exact ⟨trivial, trivial⟩
  · rw [if_neg hsel, if_neg hsel]
    simp only [setMon_monitor_self]
    exact ⟨trivial, trivial⟩

/-- C19: for a client `c` of the focus stack of its monitor (a chain without repetition,
whose members all name that monitor), `detachstack(c)` leaves the stack without `c` and
the others in their order; if `c` was the selection, the new selection is the first
remaining client on the active tag, or null when there is none; otherwise the selection is
unchanged; and the selection is never `c` afterwards. -/
theorem detachstack_selection (s : State) (c : Nat)
    (hc : c ∈ (s.monitor (s.client c).mon).stack)
    (hnd : (s.monitor (s.client c).mon).stack.Nodup)
    (hown : ∀ t ∈ (s.monitor (s.client c).mon).stack, (s.client t).mon = (s.client c).mon) :
    DetachstackSpec s c := by
  have _ := hc
  have hfilt := erase_eq_filter_of_nodup _ c hnd
  obtain ⟨h1, h2⟩ := detachstack_monitor_self s c
  have hvis : firstvisible s ((s.monitor (s.client c).mon).stack.filter (fun t => t ≠ c))
      = ((s.monitor (s.client c).mon).stack.filter (fun t => t ≠ c)).find?
          (fun t => (s.client t).tag == (s.monitor (s.client c).mon).curtag) := by
    rw [firstvisible_eq_find]
    apply find_congr_mem
    intro t ht
    have hmem := (List.mem_filter.mp ht).1
    simp only [ISVISIBLE, hown t hmem]
  rw [hfilt] at h1 h2
  rw [hvis] at h2
  refine ⟨h1, h2, ?_⟩
  rw [h2]
  by_cases hsel : (s.monitor (s.client c).mon).sel = some c
  · rw [if_pos hsel]
    intro e
    have := List.mem_of_find?_eq_some e
    simpa using (List.mem_filter.mp this).2
  · rw [if_neg hsel]
    exact hsel

/-- C19, witness: a stack of three clients of which the first is selected and removed. -/
theorem detachstack_selection_witness :
    ((detachstack stackedState 1).monitor 0).stack = [2, 3]
    ∧ ((detachstack stackedState 1).monitor 0).sel = some 3 := by
  have h := detachstack_selection stackedState 1 (by decide) (by decide) (by decide)
  refine ⟨?_, ?_⟩
  · have := h.1
    simpa [stackedState, zeroClient] using this
  · have := h.2.1
    simpa [stackedState, zeroClient, bareMonitor, createmon, Monitor.curtag] using this

/-! ## Tag slots and `view` -/

theorem sameTags_refl (s : State) : SameTags s s := ⟨fun _ => rfl, fun _ => ⟨rfl, rfl, rfl⟩⟩

theorem sameTags_trans {a b c : State} (h1 : SameTags a b) (h2 : SameTags b c) :
    SameTags a c :=
  ⟨fun x => (h2.1 x).trans (h1.1 x),
   fun m => ⟨(h2.2 m).1.trans (h1.2 m).1, (h2.2 m).2.1.trans (h1.2 m).2.1,
     (h2.2 m).2.2.trans (h1.2 m).2.2⟩⟩

theorem layoutless_slots {a b : Monitor} (h : a.layoutless = b.layoutless) :
    a.seltag = b.seltag ∧ a.tag0 = b.tag0 ∧ a.tag1 = b.tag1 := by
  have h1 := congrArg Monitor.seltag h
  have h2 := congrArg Monitor.tag0 h
  have h3 := congrArg Monitor.tag1 h
  exact ⟨h1, h2, h3⟩

theorem frame_sameTags {s s' : State} (h : Frame s s') : SameTags s s' :=
  ⟨fun c => (geomless_fields (h.2.2.2.2.2.2 c)).2.1, fun m => layoutless_slots (h.2.2.2.2.2.1 m)⟩

theorem setMon_sameTags (s : State) (m : Nat) (v : Monitor)
    (h : v.seltag = (s.monitor m).seltag ∧ v.tag0 = (s.monitor m).tag0
      ∧ v.tag1 = (s.monitor m).tag1) : SameTags s (s.setMon m v) := by
  refine ⟨fun _ => rfl, fun a => ?_⟩
  by_cases e : a = m
  · subst e; simpa using h
  · rw [setMon_monitor_ne _ _ _ _ e]; exact ⟨rfl, rfl, rfl⟩

theorem setClient_sameTags (s : State) (c : Nat) (v : Client) (h : v.tag = (s.client c).tag) :
    SameTags s (s.setClient c v) := by
  refine ⟨fun a => ?_, fun _ => ⟨rfl, rfl, rfl⟩⟩
  by_cases e : a = c
  · subst e; simpa using h
  · rw [setClient_client_ne _ _ _ _ e]

theorem attach_sameTags (s : State) (c : Nat) : SameTags s (attach s c) :=
  setMon_sameTags _ _ _ ⟨rfl, rfl, rfl⟩

theorem detach_sameTags (s : State) (c : Nat) : SameTags s (detach s c) :=
  setMon_sameTags _ _ _ ⟨rfl, rfl, rfl⟩

theorem attachstack_sameTags (s : State) (c : Nat) : SameTags s (attachstack s c) :=
  setMon_sameTags _ _ _ ⟨rfl, rfl, rfl⟩

theorem detachstack_sameTags (s : State) (c : Nat) : SameTags s (detachstack s c) := by
  unfold detachstack
  simp only []
  have h1 : SameTags s (s.setMon (s.client c).mon
      { s.monitor (s.client c).mon with stack := (s.monitor (s.client c).mon).stack.erase c }) :=
    setMon_sameTags _ _ _ ⟨rfl, rfl, rfl⟩
  split
  · exact sameTags_trans h1 (setMon_sameTags _ _ _ ⟨rfl, rfl, rfl⟩)
  · exact h1

theorem focus_sameTags (s : State) (c : Option Nat) : SameTags s (focus s c) := by
  unfold focus
  cases focuscandidate s c with
  | none => exact setMon_sameTags _ _ _ ⟨rfl, rfl, rfl⟩
  | some t =>
    simp only []
    have h1 : SameTags s
        (if (s.client t).mon ≠ s.selmon then { s with selmon := (s.client t).mon } else s) := by
      split
      · exact ⟨fun _ => rfl, fun _ => ⟨rfl, rfl, rfl⟩⟩
      · exact sameTags_refl s
    generalize (if (s.client t).mon ≠ s.selmon then { s with selmon := (s.client t).mon }
        else s) = s1 at h1
    have h2 : SameTags s (if (s1.client t).isurgent = true then clearurgent s1 t else s1) := by
      split
      · exact sameTags_trans h1 (setClient_sameTags _ _ _ rfl)
      · exact h1
    generalize (if (s1.client t).isurgent = true then clearurgent s1 t else s1) = s2 at h2
    refine sameTags_trans (sameTags_trans (sameTags_trans h2 (detachstack_sameTags s2 t))
      (attachstack_sameTags _ t)) ?_
    exact setMon_sameTags _ _ _ ⟨rfl, rfl, rfl⟩

theorem arrange_sameTags (s : State) (m : Option Nat) : SameTags s (arrange s m) :=
  frame_sameTags (arrange_frame s m)

theorem curtag_of_slots {a b : Monitor} (h : a.seltag = b.seltag ∧ a.tag0 = b.tag0
    ∧ a.tag1 = b.tag1) : a.curtag = b.curtag ∧ a.prevtag = b.prevtag := by
  simp only [Monitor.curtag, Monitor.prevtag, h.1, h.2.1, h.2.2, and_self]

/-- After `m->seltag ^= 1` and a write of `t` to the selected cell, the active tag is `t`
and the previous tag is the tag that was active. -/
theorem fliptag_setcurtag (m : Monitor) (t : Nat) (h : m.seltag < 2) :
    (m.fliptag.setcurtag t).curtag = t ∧ (m.fliptag.setcurtag t).prevtag = m.curtag
      ∧ (m.fliptag.setcurtag t).seltag < 2 := by
  have h01 : m.seltag = 0 ∨ m.seltag = 1 := by omega
  rcases h01 with e | e <;>
    simp [Monitor.fliptag, Monitor.setcurtag, Monitor.curtag, Monitor.prevtag, e]

theorem fliptag_slots (m : Monitor) (h : m.seltag < 2) :
    m.fliptag.curtag = m.prevtag ∧ m.fliptag.prevtag = m.curtag ∧ m.fliptag.seltag < 2 := by
  have h01 : m.seltag = 0 ∨ m.seltag = 1 := by omega
  rcases h01 with e | e <;> simp [Monitor.fliptag, Monitor.curtag, Monitor.prevtag, e]

/-- The slots of the monitor that was selected, after `focus(NULL); arrange(selmon)`. -/
theorem refocus_slots (s : State) (m : Nat) :
    ((arrange (focus s none) (some (focus s none).selmon)).monitor m).curtag
        = (s.monitor m).curtag
    ∧ ((arrange (focus s none) (some (focus s none).selmon)).monitor m).prevtag
        = (s.monitor m).prevtag := by
  have h := sameTags_trans (focus_sameTags s none)
    (arrange_sameTags (focus s none) (some (focus s none).selmon))
  exact curtag_of_slots (h.2 m)

/-- The active and the previous tag of the monitor that was selected, after `view`. -/
theorem view_slots (s : State) (ui : Nat) (hne : ui ≠ (s.monitor s.selmon).curtag) :
    ((view s ui).monitor s.selmon).curtag
        = (if ui < LENGTH_tags then ((s.monitor s.selmon).fliptag.setcurtag ui).curtag
           else (s.monitor s.selmon).fliptag.curtag)
    ∧ ((view s ui).monitor s.selmon).prevtag
        = (if ui < LENGTH_tags then ((s.monitor s.selmon).fliptag.setcurtag ui).prevtag
           else (s.monitor s.selmon).fliptag.prevtag) := by
  unfold view
  simp only []
  rw [if_neg hne]
  have h := refocus_slots (s.setMon s.selmon
    (if ui < LENGTH_tags then (s.monitor s.selmon).fliptag.setcurtag ui
     else (s.monitor s.selmon).fliptag)) s.selmon
  rw [setMon_monitor_self] at h
  rw [h.1, h.2]
  split <;> exact ⟨rfl, rfl⟩

/-- For a valid tag other than the active one, `view` makes it the active tag and keeps the
tag that was active in the previous-tag slot. -/
theorem view_switch (s : State) (t : Nat) (ht : t < LENGTH_tags)
    (hsel : (s.monitor s.selmon).seltag < 2) (hne : t ≠ (s.monitor s.selmon).curtag) :
    ((view s t).monitor s.selmon).curtag = t
    ∧ ((view s t).monitor s.selmon).prevtag = (s.monitor s.selmon).curtag := by
  obtain ⟨h1, h2⟩ := view_slots s t hne
  rw [if_pos ht] at h1 h2
  obtain ⟨k1, k2, _⟩ := fliptag_setcurtag (s.monitor s.selmon) t hsel
  exact ⟨h1.trans k1, h2.trans k2⟩

/-- C16: for a valid tag `t`, `view(t)` returns the state unchanged when `t` is the active
tag of the selected monitor; otherwise the active tag of that monitor becomes `t` and its
previous-tag slot holds the tag that was active. -/
theorem view_select (s : State) (t : Nat) (ht : t < LENGTH_tags)
    (hsel : (s.monitor s.selmon).seltag < 2) :
    (t = (s.monitor s.selmon).curtag → view s t = s)
    ∧ (t ≠ (s.monitor s.selmon).curtag →
        ((view s t).monitor s.selmon).curtag = t
        ∧ ((view s t).monitor s.selmon).prevtag = (s.monitor s.selmon).curtag) := by
  constructor
  · intro e
    unfold view
    simp only []
    rw [if_pos e]
  · exact view_switch s t ht hsel

/-- C16, witness: Scenario A, `view(3)` from the active tag 0. -/
theorem view_select_witness :
    ((view scenarioA 3).monitor 0).curtag = 3 ∧ ((view scenarioA 3).monitor 0).prevtag = 0 :=
  (view_select scenarioA 3 (by decide) (by decide)).2 (by decide)

theorem detachstack_selmon (s : State) (c : Nat) :
    (detachstack s c).selmon = s.selmon ∧ (detachstack s c).mons = s.mons
      ∧ (detachstack s c).client = s.client := by
  unfold detachstack
  simp only []
  split <;> exact ⟨rfl, rfl, rfl⟩

/-- Under the registry invariant `focus(NULL)` keeps the selected monitor. -/
theorem focus_none_selmon (s : State) (h : RegistryInv s) : (focus s none).selmon = s.selmon := by
  unfold focus
  cases hc : focuscandidate s none with
  | none => rfl
  | some t =>
    simp only []
    have ht : t ∈ (s.monitor s.selmon).stack := firstvisible_mem _ _ _ hc
    obtain ⟨_, hp, hown⟩ := h.2.2 s.selmon h.2.1
    have hmon : (s.client t).mon = s.selmon := hown t (hp.mem_iff.mp ht)
    have e1 : (if (s.client t).mon ≠ s.selmon then { s with selmon := (s.client t).mon }
        else s) = s := if_neg (by simp [hmon])
    rw [e1]
    have h2 : (if (s.client t).isurgent = true then clearurgent s t else s).selmon = s.selmon := by
      split <;> rfl
    generalize (if (s.client t).isurgent = true then clearurgent s t else s) = s2 at h2
    show (attachstack (detachstack s2 t) t).selmon = s.selmon
    exact ((detachstack_selmon s2 t).1).trans h2

/-- The state after `view` agrees, on tags and slots, with the state in which only the
slots of the selected monitor have been written. -/
theorem view_sameTags (s : State) (ui : Nat) (hne : ui ≠ (s.monitor s.selmon).curtag) :
    SameTags (s.setMon s.selmon
      (if ui < LENGTH_tags then (s.monitor s.selmon).fliptag.setcurtag ui
       else (s.monitor s.selmon).fliptag)) (view s ui) := by
  unfold view
  simp only []
  rw [if_neg hne]
  exact sameTags_trans (focus_sameTags _ none) (arrange_sameTags _ _)

theorem setMon_slots_sameReg (s : State) (m : Nat) (v : Monitor)
    (h : v.clients = (s.monitor m).clients ∧ v.stack = (s.monitor m).stack) :
    RegistryInv s → RegistryInv (s.setMon m v) :=
  (setMon_lists_sameReg s m v h).inv

theorem fliptag_lists (m : Monitor) (t : Nat) :
    (m.fliptag.clients = m.clients ∧ m.fliptag.stack = m.stack)
    ∧ ((m.fliptag.setcurtag t).clients = m.clients ∧ (m.fliptag.setcurtag t).stack = m.stack) := by
  refine ⟨⟨rfl, rfl⟩, ?_⟩
  unfold Monitor.setcurtag
  split <;> exact ⟨rfl, rfl⟩

/-- The function `view` keeps the registry invariant and the selected monitor. -/
theorem view_inv (s : State) (ui : Nat) (h : RegistryInv s) :
    RegistryInv (view s ui) ∧ (view s ui).selmon = s.selmon
      ∧ managed (view s ui) = managed s := by
  unfold view
  simp only []
  split
  · exact ⟨h, rfl, rfl⟩
  · have hl : (if ui < LENGTH_tags then (s.monitor s.selmon).fliptag.setcurtag ui
        else (s.monitor s.selmon).fliptag).clients = (s.monitor s.selmon).clients
        ∧ (if ui < LENGTH_tags then (s.monitor s.selmon).fliptag.setcurtag ui
        else (s.monitor s.selmon).fliptag).stack = (s.monitor s.selmon).stack := by
      split
      · exact (fliptag_lists _ _).2
      · exact (fliptag_lists _ ui).1
    have hs := setMon_lists_sameReg s s.selmon _ hl
    have h1 := hs.inv h
    generalize s.setMon s.selmon (if ui < LENGTH_tags
      then (s.monitor s.selmon).fliptag.setcurtag ui else (s.monitor s.selmon).fliptag) = s1
      at hs h1
    have hm1 : managed s1 = managed s := by
      unfold managed
      rw [hs.1]
      congr 1
      funext m
      exact (hs.2.2.1 m).1
    refine ⟨arrange_inv _ _ (focus_inv _ _ h1 (by intro c hc; cases hc)), ?_, ?_⟩
    · rw [(arrange_frame _ _).2.2.2.2.1, focus_none_selmon s1 h1]
      exact hs.2.1
    · rw [arrange_managed, focus_managed, hm1]

/-- C17: on a selected monitor whose slots hold valid tags, `view` with the all-bits
sentinel gives the same active and previous tag as `view` with the value of the
previous-tag slot: the previous tag becomes active and the active one previous; applying
it twice restores both. -/
theorem view_toggle (s : State) (hI : RegistryInv s) (hv : SlotsOk (s.monitor s.selmon)) :
    (((view s allbits).monitor s.selmon).curtag
        = ((view s (s.monitor s.selmon).prevtag).monitor s.selmon).curtag
      ∧ ((view s allbits).monitor s.selmon).prevtag
        = ((view s (s.monitor s.selmon).prevtag).monitor s.selmon).prevtag)
    ∧ (((view s allbits).monitor s.selmon).curtag = (s.monitor s.selmon).prevtag
      ∧ ((view s allbits).monitor s.selmon).prevtag = (s.monitor s.selmon).curtag)
    ∧ (((view (view s allbits) allbits).monitor s.selmon).curtag = (s.monitor s.selmon).curtag
      ∧ ((view (view s allbits) allbits).monitor s.selmon).prevtag
          = (s.monitor s.selmon).prevtag) := by
  obtain ⟨hs, h0, h1⟩ := hv
  have hcur : (s.monitor s.selmon).curtag < LENGTH_tags := by
    unfold Monitor.curtag; split <;> assumption
  have hprev : (s.monitor s.selmon).prevtag < LENGTH_tags := by
    unfold Monitor.prevtag; split <;> assumption
  have hbig : ¬ allbits < LENGTH_tags := by decide
  have hne : allbits ≠ (s.monitor s.selmon).curtag := by
    intro e; rw [← e] at hcur; exact hbig hcur
  obtain ⟨f1, f2, f3⟩ := fliptag_slots (s.monitor s.selmon) hs
  -- the sentinel
  have hT := view_sameTags s allbits hne
  rw [if_neg hbig] at hT
  have hA := hT.2 s.selmon
  rw [setMon_monitor_self] at hA
  obtain ⟨a1, a2⟩ := curtag_of_slots hA
  rw [f1] at a1
  rw [f2] at a2
  refine ⟨?_, ⟨a1, a2⟩, ?_⟩
  · -- the value of the previous-tag slot
    by_cases e : (s.monitor s.selmon).prevtag = (s.monitor s.selmon).curtag
    · have : view s (s.monitor s.selmon).prevtag = s := by
        unfold view; simp only []; rw [if_pos e]
      rw [this, a1, a2]
      exact ⟨e, e.symm⟩
    · have hP := view_sameTags s _ e
      rw [if_pos hprev] at hP
      have hB := hP.2 s.selmon
      rw [setMon_monitor_self] at hB
      obtain ⟨b1, b2⟩ := curtag_of_slots hB
      obtain ⟨k1, k2, _⟩ := fliptag_setcurtag (s.monitor s.selmon) (s.monitor s.selmon).prevtag hs
      rw [a1, a2, b1, b2, k1, k2]
      exact ⟨rfl, rfl⟩
  · -- twice
    obtain ⟨_, hsel, _⟩ := view_inv s allbits hI
    have hs1 : ((view s allbits).monitor s.selmon).seltag < 2 := by
      rw [hA.1]; exact f3
    have hne1 : allbits ≠ ((view s allbits).monitor (view s allbits).selmon).curtag := by
      rw [hsel, a1]
      intro e; rw [← e] at hprev; exact hbig hprev
    have hT1 := view_sameTags (view s allbits) allbits hne1
    rw [if_neg hbig, hsel] at hT1
    have hC := hT1.2 s.selmon
    rw [setMon_monitor_self] at hC
    obtain ⟨c1, c2⟩ := curtag_of_slots hC
    obtain ⟨g1, g2, _⟩ := fliptag_slots ((view s allbits).monitor s.selmon) hs1
    rw [c1, c2, g1, g2]
    exact ⟨a2, a1⟩

/-- C17, witness: in Scenario A after `view(3)`, the sentinel makes tag 0 active again and
tag 3 previous. -/
theorem view_toggle_witness :
    ((view (view scenarioA 3) allbits).monitor 0).curtag = 0
    ∧ ((view (view scenarioA 3) allbits).monitor 0).prevtag = 3 := by
  obtain ⟨hI, hsel, _⟩ := view_inv scenarioA 3 (by
    refine ⟨by decide, by decide, ?_⟩
    intro m hm
    have e : m = 0 := by simpa [scenarioA, bareState] using hm
    subst e
    exact ⟨by decide, List.Perm.refl _, fun c _ => rfl⟩)
  have h3 := view_switch scenarioA 3 (by decide) (by decide) (by decide)
  have hsel0 : (view scenarioA 3).selmon = 0 := hsel
  have hslots : SlotsOk ((view scenarioA 3).monitor (view scenarioA 3).selmon) := by
    have hT := view_sameTags scenarioA 3 (by decide)
    have hA := hT.2 0
    rw [hsel0]
    refine ⟨?_, ?_, ?_⟩
    · rw [hA.1]; decide
    · rw [hA.2.1]; decide
    · rw [hA.2.2]; decide
  have h := (view_toggle (view scenarioA 3) hI hslots).2.1
  rw [hsel0] at h
  exact ⟨h.1.trans h3.2, h.2.trans h3.1⟩

/-- The tag `cycleview` writes for the active tag `a` and the argument `i`. -/
theorem cycleview_newtag (a : Nat) (i : Int) (ha : a < LENGTH_tags) :
    toU (if (if toI a + i < 0 then (LENGTH_tags : Int) - 1 else toI a + i) ≥ (LENGTH_tags : Int)
         then 0 else (if toI a + i < 0 then (LENGTH_tags : Int) - 1 else toI a + i))
      < LENGTH_tags
    ∧ (i = 1 ∨ i = -1 →
        ((toU (if (if toI a + i < 0 then (LENGTH_tags : Int) - 1 else toI a + i)
                  ≥ (LENGTH_tags : Int)
               then 0 else (if toI a + i < 0 then (LENGTH_tags : Int) - 1 else toI a + i)) : Nat)
            : Int)
          = ((a : Int) + i) % (LENGTH_tags : Int)) := by
  have hL : LENGTH_tags = 14 := rfl
  rw [hL] at ha ⊢
  have hI : toI a = (a : Int) := by
    unfold toI
    have : a % 4294967296 = a := Nat.mod_eq_of_lt (by omega)
    rw [this, if_pos (by omega)]
  rw [hI]
  constructor
  · unfold toU
    split_ifs <;> omega
  · intro hi
    unfold toU
    rcases hi with e | e <;> subst e <;> split_ifs <;> omega

/-- The state after `cycleview` agrees, on tags and slots, with the state in which only
the slots of the selected monitor have been written. -/
theorem cycleview_sameTags (s : State) (i : Int) :
    SameTags (s.setMon s.selmon ((s.monitor s.selmon).fliptag.setcurtag
      (toU (if (if toI (s.monitor s.selmon).curtag + i < 0 then (LENGTH_tags : Int) - 1
                else toI (s.monitor s.selmon).curtag + i) ≥ (LENGTH_tags : Int)
            then 0 else (if toI (s.monitor s.selmon).curtag + i < 0 then (LENGTH_tags : Int) - 1
                else toI (s.monitor s.selmon).curtag + i))))) (cycleview s i) := by
  unfold cycleview
  simp only []
  exact sameTags_trans (focus_sameTags _ none) (arrange_sameTags _ _)

/-- C18: on a selected monitor whose slots hold valid tags, after `cycleview` with delta
+1 or -1 the active tag is the old active tag plus delta modulo the number of configured
tags, and the previous-tag slot holds the old active tag. -/
theorem cycleview_wraps (s : State) (d : Int) (hd : d = 1 ∨ d = -1)
    (hv : SlotsOk (s.monitor s.selmon)) :
    (((cycleview s d).monitor s.selmon).curtag : Int)
        = (((s.monitor s.selmon).curtag : Int) + d) % (LENGTH_tags : Int)
    ∧ ((cycleview s d).monitor s.selmon).prevtag = (s.monitor s.selmon).curtag := by
  obtain ⟨hs, h0, h1⟩ := hv
  have hcur : (s.monitor s.selmon).curtag < LENGTH_tags := by
    unfold Monitor.curtag; split <;> assumption
  have hT := (cycleview_sameTags s d).2 s.selmon
  rw [setMon_monitor_self] at hT
  obtain ⟨a1, a2⟩ := curtag_of_slots hT
  obtain ⟨k1, k2, _⟩ := fliptag_setcurtag (s.monitor s.selmon)
    (toU (if (if toI (s.monitor s.selmon).curtag + d < 0 then (LENGTH_tags : Int) - 1
                else toI (s.monitor s.selmon).curtag + d) ≥ (LENGTH_tags : Int)
            then 0 else (if toI (s.monitor s.selmon).curtag + d < 0 then (LENGTH_tags : Int) - 1
                else toI (s.monitor s.selmon).curtag + d))) hs
  rw [a1, a2, k1, k2]
  exact ⟨(cycleview_newtag _ d hcur).2 hd, rfl⟩

/-- C18, witness: in Scenario A, `cycleview(-1)` from tag 0 wraps to the last tag. -/
theorem cycleview_wraps_witness :
    (((cycleview scenarioA (-1)).monitor 0).curtag : Int) = 13
    ∧ ((cycleview scenarioA (-1)).monitor 0).prevtag = 0 :=
  cycleview_wraps scenarioA (-1) (Or.inr rfl) ⟨by decide, by decide, by decide⟩

/-! ## Rules -/

theorem applyrules_eq (rules : List Rule) (s : State) (c : Nat) (a b : Option String) :
    applyrules rules s c a b
      = s.setClient c
          (if (rules.foldl (rulestep s (a.getD broken) (b.getD broken))
                { s.client c with isfloating := false, tag := 4294967295 }).tag ≥ LENGTH_tags
           then { rules.foldl (rulestep s (a.getD broken) (b.getD broken))
                    { s.client c with isfloating := false, tag := 4294967295 } with
                  tag := (s.monitor (rules.foldl (rulestep s (a.getD broken) (b.getD broken))
                    { s.client c with isfloating := false, tag := 4294967295 }).mon).curtag }
           else rules.foldl (rulestep s (a.getD broken) (b.getD broken))
                  { s.client c with isfloating := false, tag := 4294967295 }) := rfl

theorem rulestep_name (s : State) (cls inst : String) (C : Client) (r : Rule) :
    (rulestep s cls inst C r).name = C.name := by
  unfold rulestep
  split
  · simp only []
    split <;> rfl
  · rfl

theorem rulefold_name (s : State) (cls inst : String) (rules : List Rule) (C : Client) :
    (rules.foldl (rulestep s cls inst) C).name = C.name := by
  induction rules generalizing C with
  | nil => rfl
  | cons r rs ih => rw [List.foldl_cons, ih, rulestep_name]

theorem rulefold_nomatch (s : State) (cls inst : String) (rules : List Rule) (C : Client)
    (h : ∀ r ∈ rules, r.matches C.name cls inst = false) :
    rules.foldl (rulestep s cls inst) C = C := by
  induction rules with
  | nil => rfl
  | cons r rs ih =>
    have hr := h r (List.mem_cons_self _ _)
    have e : rulestep s cls inst C r = C := by
      unfold rulestep; rw [hr]; rfl
    rw [List.foldl_cons, e]
    exact ih (fun r' hr' => h r' (List.mem_cons_of_mem _ hr'))

/-- The record after the loop of `applyrules` when `r2` is the last rule that matches. -/
theorem rulefold_last (s : State) (cls inst : String) (pre post : List Rule) (r2 : Rule)
    (C : Client) (hm : r2.matches C.name cls inst = true)
    (hpost : ∀ r ∈ post, r.matches C.name cls inst = false) :
    ((pre ++ r2 :: post).foldl (rulestep s cls inst) C).isfloating = r2.isfloating
    ∧ ((pre ++ r2 :: post).foldl (rulestep s cls inst) C).tag = r2.tag
    ∧ (∀ m, s.mons.find? (fun m => decide ((s.monitor m).num = r2.monitor)) = some m →
        ((pre ++ r2 :: post).foldl (rulestep s cls inst) C).mon = m)
    ∧ (s.mons.find? (fun m => decide ((s.monitor m).num = r2.monitor)) = none →
        ((pre ++ r2 :: post).foldl (rulestep s cls inst) C).mon
          = (pre.foldl (rulestep s cls inst) C).mon) := by
  rw [List.foldl_append, List.foldl_cons]
  have hn := rulefold_name s cls inst pre C
  generalize pre.foldl (rulestep s cls inst) C = D at hn
  have hm' : r2.matches D.name cls inst = true := by rw [hn]; exact hm
  rw [rulefold_nomatch s cls inst post _ (by
    intro r hr
    rw [rulestep_name, hn]
    exact hpost r hr)]
  unfold rulestep
  rw [if_pos hm']
  simp only []
  cases hf : s.mons.find? (fun m => decide ((s.monitor m).num = r2.monitor)) with
  | none =>
    refine ⟨rfl, rfl, ?_, fun _ => rfl⟩
    intro m hm
    cases hm
  | some m0 =>
    refine ⟨rfl, rfl, ?_, ?_⟩
    · intro m hm
      cases hm
      rfl
    · intro h
      cases h

/-- C14, counterexample: with the rules `ruleFooMon` then `ruleAny` and a window of class
`Foo`, both rules match and `ruleAny` is the last; it names no monitor of the chain, so
the client stays on monitor 2, which `ruleFooMon` assigned, and not on the monitor that
`ruleAny` alone would leave it on. -/
theorem applyrules_earlier_monitor_survives :
    ¬ LastRuleWins [ruleFooMon, ruleAny] ruleAny twoMonitors 7 (some "Foo") (some "foo") := by
  intro h
  have h3 := h.2.2
  revert h3
  simp [applyrules_eq, rulestep, Rule.matches, ruleFooMon, ruleAny, twoMonitors, bareState,
    bareMonitor, createmon, zeroClient, strstr, broken, LENGTH_tags]

/-- What `applyrules` leaves in the client when `r2` is the last rule that matches. -/
theorem applyrules_last_spec (s : State) (c : Nat) (a b : Option String)
    (pre post : List Rule) (r2 : Rule)
    (hm : r2.matches (s.client c).name (a.getD broken) (b.getD broken) = true)
    (hpost : ∀ r ∈ post, r.matches (s.client c).name (a.getD broken) (b.getD broken) = false) :
    ((applyrules (pre ++ r2 :: post) s c a b).client c).isfloating = r2.isfloating
    ∧ (r2.tag < LENGTH_tags → ((applyrules (pre ++ r2 :: post) s c a b).client c).tag = r2.tag)
    ∧ (¬ r2.tag < LENGTH_tags →
        ((applyrules (pre ++ r2 :: post) s c a b).client c).tag
          = (s.monitor ((applyrules (pre ++ r2 :: post) s c a b).client c).mon).curtag)
    ∧ (∀ m, s.mons.find? (fun m => decide ((s.monitor m).num = r2.monitor)) = some m →
        ((applyrules (pre ++ r2 :: post) s c a b).client c).mon = m)
    ∧ (s.mons.find? (fun m => decide ((s.monitor m).num = r2.monitor)) = none →
        ((applyrules (pre ++ r2 :: post) s c a b).client c).mon
          = ((applyrules pre s c a b).client c).mon) := by
  obtain ⟨h1, h2, h3, h4⟩ := rulefold_last s (a.getD broken) (b.getD broken) pre post r2
    { s.client c with isfloating := false, tag := 4294967295 } hm hpost
  rw [applyrules_eq, applyrules_eq]
  simp only [setClient_client_self]
  generalize (pre ++ r2 :: post).foldl (rulestep s (a.getD broken) (b.getD broken))
    { s.client c with isfloating := false, tag := 4294967295 } = D at h1 h2 h3 h4
  have hmonpre : ∀ (E : Client), (if E.tag ≥ LENGTH_tags
      then { E with tag := (s.monitor E.mon).curtag } else E).mon = E.mon := by
    intro E; split <;> rfl
  refine ⟨?_, ?_, ?_, ?_, ?_⟩
  · split <;> exact h1
  · intro ht
    rw [if_neg (by rw [h2]; omega)]
    exact h2
  · intro ht
    rw [if_pos (by rw [h2]; omega)]
  · intro m hfm
    rw [hmonpre]; exact h3 m hfm
  · intro hfn
    rw [hmonpre, hmonpre]; exact h4 hfn

/-- C14, amended: when `r2` is the last rule of the table that matches the window,
`applyrules` leaves the client with the floating flag of `r2`; with the tag of `r2` when
it is a configured tag and else with the active tag of the client's monitor; on the first
monitor of the chain whose number is the monitor of `r2` when there is one, and else on the
monitor that the rules before `r2` leave it on. -/
theorem applyrules_last_match (s : State) (c : Nat) (a b : Option String)
    (pre post : List Rule) (r2 : Rule)
    (hm : r2.matches (s.client c).name (a.getD broken) (b.getD broken) = true)
    (hpost : ∀ r ∈ post, r.matches (s.client c).name (a.getD broken) (b.getD broken) = false) :
    ((applyrules (pre ++ r2 :: post) s c a b).client c).isfloating = r2.isfloating
    ∧ (r2.tag < LENGTH_tags → ((applyrules (pre ++ r2 :: post) s c a b).client c).tag = r2.tag)
    ∧ (¬ r2.tag < LENGTH_tags →
        ((applyrules (pre ++ r2 :: post) s c a b).client c).tag
          = (s.monitor ((applyrules (pre ++ r2 :: post) s c a b).client c).mon).curtag)
    ∧ (∀ m, s.mons.find? (fun m => decide ((s.monitor m).num = r2.monitor)) = some m →
        ((applyrules (pre ++ r2 :: post) s c a b).client c).mon = m)
    ∧ (s.mons.find? (fun m => decide ((s.monitor m).num = r2.monitor)) = none →
        ((applyrules (pre ++ r2 :: post) s c a b).client c).mon
          = ((applyrules pre s c a b).client c).mon) :=
  applyrules_last_spec s c a b pre post r2 hm hpost

/-- C14, witness: the last matching rule names monitor 1, which is in the chain at
address 2. -/
theorem applyrules_last_match_witness :
    ((applyrules [ruleAny, ruleFooMon] twoMonitors 7 (some "Foo") (some "foo")).client 7).mon = 2 :=
  (applyrules_last_match twoMonitors 7 (some "Foo") (some "foo") [ruleAny] [] ruleFooMon
    (by decide) (by intro r hr; cases hr)).2.2.2.1 2 (by decide)

/-! ## The tiled subsequence -/

theorem tiledclients_eq_filter (s : State) (l : List Nat) :
    tiledclients s l = l.filter (fun c => !(s.client c).isfloating && ISVISIBLE s c) := by
  unfold tiledclients
  congr 1
  funext c
  cases (s.client c).isfloating <;> cases ISVISIBLE s c <;> rfl

theorem nexttiled_length (s : State) (l : List Nat) : (nexttiled s l).length ≤ l.length := by
  induction l with
  | nil => simp [nexttiled]
  | cons a as ih =>
    simp only [nexttiled]
    split
    · simp only [List.length_cons]; omega
    · exact Nat.le_refl _

theorem nexttiled_tiledclients (s : State) (l : List Nat) :
    (nexttiled s l = [] ∧ tiledclients s l = [])
    ∨ ∃ c cs, nexttiled s l = c :: cs ∧ tiledclients s l = c :: tiledclients s cs
        ∧ cs.length < l.length := by
  induction l with
  | nil => left; exact ⟨rfl, rfl⟩
  | cons a as ih =>
    by_cases h : ((s.client a).isfloating || !ISVISIBLE s a) = true
    · have e1 : nexttiled s (a :: as) = nexttiled s as := by
        simp only [nexttiled]; rw [if_pos h]
      have e2 : tiledclients s (a :: as) = tiledclients s as := by
        simp only [tiledclients, List.filter_cons, h, Bool.not_true, Bool.false_eq_true,
          ↓reduceIte]
      rw [e1, e2]
      rcases ih with ih | ⟨c, cs, k1, k2, k3⟩
      · left; exact ih
      · right; exact ⟨c, cs, k1, k2, by simp only [List.length_cons]; omega⟩
    · right
      have h' : ((s.client a).isfloating || !ISVISIBLE s a) = false := by simpa using h
      have e1 : nexttiled s (a :: as) = a :: as := by
        simp only [nexttiled]; rw [if_neg h]
      have e2 : tiledclients s (a :: as) = a :: tiledclients s as := by
        simp only [tiledclients, List.filter_cons, h', Bool.not_false, ↓reduceIte]
      exact ⟨a, as, e1, e2, by simp⟩

theorem tiledwalk_eq (s : State) : ∀ (fuel : Nat) (l : List Nat), l.length ≤ fuel →
    tiledwalk s fuel l = tiledclients s l := by
  intro fuel
  induction fuel with
  | zero =>
    intro l hl
    have : l = [] := List.eq_nil_of_length_eq_zero (by omega)
    subst this
    rfl
  | succ k ih =>
    intro l hl
    rcases nexttiled_tiledclients s l with ⟨e1, e2⟩ | ⟨c, cs, e1, e2, e3⟩
    · simp only [tiledwalk, e1, e2]
    · simp only [tiledwalk, e1, e2]
      rw [ih cs (by omega)]

theorem monocleloop_client_skip (m : Nat) (l : List Nat) (s : State) (c : Nat)
    (h : c ∉ tiledclients s l) : (monocleloop m l s).client c = s.client c := by
  induction l generalizing s with
  | nil => rfl
  | cons a as ih =>
    simp only [monocleloop]
    by_cases hs : ((s.client a).isfloating || !ISVISIBLE s a) = true
    · rw [if_pos hs]
      apply ih
      intro hin
      apply h
      have e2 : tiledclients s (a :: as) = tiledclients s as := by
        simp only [tiledclients, List.filter_cons, hs, Bool.not_true, Bool.false_eq_true,
          ↓reduceIte]
      rw [e2]
      exact hin
    · rw [if_neg hs]
      have hs' : ((s.client a).isfloating || !ISVISIBLE s a) = false := by simpa using hs
      have e2 : tiledclients s (a :: as) = a :: tiledclients s as := by
        simp only [tiledclients, List.filter_cons, hs', Bool.not_false, ↓reduceIte]
      rw [e2] at h
      have hca : c ≠ a := fun e => h (e ▸ List.mem_cons_self _ _)
      have hcas : c ∉ tiledclients s as := fun hin => h (List.mem_cons_of_mem _ hin)
      rw [ih _ (by rw [tiledclients_frame (resize_frame _ _ _ _ _ _ _)]; exact hcas)]
      exact resize_client_ne _ _ _ _ _ _ _ _ hca

theorem tileloop_client_skip (m n mw : Nat) (l : List Nat) (i my ty : Nat) (s : State)
    (c : Nat) (h : c ∉ tiledclients s l) :
    (tileloop m n mw l i my ty s).client c = s.client c := by
  rw [tileloop_filter]
  exact tileloop_client_notin _ _ _ _ _ _ _ _ _ h

theorem tile_client_skip (s : State) (m c : Nat)
    (h : c ∉ tiledclients s (s.monitor m).clients) : (tile s m).client c = s.client c := by
  unfold tile
  simp only []
  split
  · rfl
  · have hf : Frame s (s.setMon m ((s.monitor m).setTag
        { montotag (s.monitor m) with
            ltsymbol := tilesymbol (counttiled s (s.monitor m).clients)
              (montotag (s.monitor m)).nmaster })) :=
      setMon_frame _ _ _ (setTag_layoutless _ _ (by rfl) )
    rw [tileloop_client_skip _ _ _ _ _ _ _ _ c (by rw [tiledclients_frame hf]; exact h)]
    rfl

theorem monocle_client_skip (s : State) (m c : Nat)
    (h : c ∉ tiledclients s (s.monitor m).clients) : (monocle s m).client c = s.client c := by
  unfold monocle
  simp only []
  split
  · have hf : Frame s (s.setMon m ((s.monitor m).setTag
        { montotag (s.monitor m) with
            ltsymbol := ("[" ++ toString (countvisible s (s.monitor m).clients) ++ "]").take 15 })) :=
      setMon_frame _ _ _ (setTag_layoutless _ _ (by rfl))
    rw [monocleloop_client_skip _ _ _ c (by rw [tiledclients_frame hf]; exact h)]
    rfl
  · exact monocleloop_client_skip _ _ _ c h

/-- C15: on every monitor the clients that the walk with `nexttiled` visits are exactly
the clients of the client list that are not floating and on the active tag, in list order;
`tile` counts no other client, and `tile` and `monocle` change the record of no other
client. -/
theorem tiled_subsequence (s : State) (m : Nat) : TiledSubsequence s m := by
  refine ⟨?_, ?_, ?_, ?_⟩
  · intro fuel hf
    rw [tiledwalk_eq s fuel _ hf, tiledclients_eq_filter]
  · rw [counttiled_eq_length, tiledclients_eq_filter]
  · intro c hc
    simp only [ISVISIBLE, hc, beq_iff_eq]
  · intro c hc
    rw [← tiledclients_eq_filter] at hc
    exact ⟨tile_client_skip s m c hc, monocle_client_skip s m c hc⟩

/-- Scenario C: the client that the rule made floating with tag 3 is not among the three
clients `tile` counts and keeps its record across `tile`. -/
theorem tiled_subsequence_witness :
    (scenarioC.client 7).tag = 3 ∧ (scenarioC.client 7).isfloating = true
    ∧ counttiled scenarioC (scenarioC.monitor 0).clients = 3
    ∧ (tile scenarioC 0).client 7 = scenarioC.client 7 := by
  have h1 : (scenarioC.client 7).tag = 3 ∧ (scenarioC.client 7).isfloating = true := by
    have e : scenarioC.client 7 = (applyrules ([] ++ ruleFoo :: [])
        (scenarioA.setClient 7 { zeroClient with name := "foo", w := 300, h := 200 })
        7 (some "Foo") (some "foo")).client 7 := rfl
    have h := applyrules_last_spec
      (scenarioA.setClient 7 { zeroClient with name := "foo", w := 300, h := 200 })
      7 (some "Foo") (some "foo") [] [] ruleFoo (by decide) (by intro r hr; cases hr)
    rw [e]
    exact ⟨h.2.1 (by decide), h.1⟩
  have hT := tiled_subsequence scenarioC 0
  refine ⟨h1.1, h1.2, ?_, ?_⟩
  · rw [hT.2.1]
    have : (scenarioC.monitor 0).clients = [7, 1, 2, 3] := rfl
    rw [this]
    simp [List.filter_cons, h1.2]
    decide
  · apply (hT.2.2.2 7 _).1
    intro hin
    have := (List.mem_filter.mp hin).2
    rw [h1.2] at this
    simp at this

/-! ## Monitor growth in `updategeom` -/

theorem updatebarpos_workarea (bh : Int) (M : Monitor) (h : M.wx = M.mx ∧ M.ww = M.mw) :
    WorkAreaOk bh (updatebarpos bh M)
    ∧ (updatebarpos bh M).mx = M.mx ∧ (updatebarpos bh M).my = M.my
    ∧ (updatebarpos bh M).mw = M.mw ∧ (updatebarpos bh M).mh = M.mh
    ∧ SameOwner (updatebarpos bh M) M := by
  unfold updatebarpos WorkAreaOk SameOwner
  simp only []
  cases hb : M.showbar <;> simp [h.1, h.2, hb]

theorem geomupd_spec (bh : Int) (n i : Nat) (M : Monitor) (u : XineramaScreenInfo)
    (hwa : i < n → WorkAreaOk bh M) :
    ((geomupd bh n i M u).mx = u.x_org ∧ (geomupd bh n i M u).my = u.y_org
      ∧ (geomupd bh n i M u).mw = u.width ∧ (geomupd bh n i M u).mh = u.height)
    ∧ WorkAreaOk bh (geomupd bh n i M u) ∧ SameOwner (geomupd bh n i M u) M := by
  unfold geomupd
  split
  · obtain ⟨h1, h2, h3, h4, h5, h6⟩ := updatebarpos_workarea bh
      { M with num := i, mx := u.x_org, wx := u.x_org, my := u.y_org, wy := u.y_org,
               mw := u.width, ww := u.width, mh := u.height, wh := u.height } ⟨rfl, rfl⟩
    exact ⟨⟨h2, h3, h4, h5⟩, h1, h6⟩
  · rename_i hc
    push_neg at hc
    exact ⟨⟨hc.2.1.symm, hc.2.2.1.symm, hc.2.2.2.1.symm, hc.2.2.2.2.symm⟩, hwa hc.1,
      rfl, rfl, rfl, rfl, rfl, rfl, rfl, rfl⟩

/-- What `addmons` builds: `k` new monitors, none of them in the old chain, each as
`createmon` leaves it, linked behind the old chain; every other record is untouched. -/
theorem addmons_spec (k : Nat) (s : State) :
    ∃ new : List Nat, (addmons k s).mons = s.mons ++ new ∧ new.length = k
      ∧ (∀ a ∈ new, a ∉ s.mons) ∧ (s.mons.Nodup → (s.mons ++ new).Nodup)
      ∧ (∀ a ∈ new, (addmons k s).monitor a = createmon)
      ∧ (∀ a, a ∉ new → (addmons k s).monitor a = s.monitor a)
      ∧ (addmons k s).client = s.client ∧ (addmons k s).bh = s.bh
      ∧ (addmons k s).selmon = s.selmon := by
  induction k generalizing s with
  | zero => exact ⟨[], by simp [addmons], rfl, by simp, by simp, by simp, fun _ _ => rfl,
      rfl, rfl, rfl⟩
  | succ k ih =>
    have hf : freshmon s ∉ s.mons := fun hm => Nat.lt_irrefl _ (freshmon_gt s _ hm)
    obtain ⟨new, h1, h2, h3, h4, h5, h6, h7, h8, h9⟩ :=
      ih ({ s with mons := s.mons ++ [freshmon s] }.setMon (freshmon s) createmon)
    have hm0 : ({ s with mons := s.mons ++ [freshmon s] }.setMon (freshmon s) createmon).mons
        = s.mons ++ [freshmon s] := rfl
    rw [hm0] at h1 h3 h4
    have hfn : freshmon s ∉ new := fun hin => h3 _ hin (List.mem_append_right _ (by simp))
    refine ⟨freshmon s :: new, ?_, by simp [h2], ?_, ?_, ?_, ?_, ?_, ?_, ?_⟩
    · simp only [addmons]
      rw [h1]
      simp
    · intro a ha
      rcases List.mem_cons.mp ha with e | ha
      · rw [e]; exact hf
      · exact fun hin => h3 a ha (List.mem_append_left _ hin)
    · intro hnd
      have hnd1 : (s.mons ++ [freshmon s]).Nodup :=
        List.Nodup.append hnd (List.nodup_singleton _) (by
          intro a ha ha'
          rw [List.mem_singleton] at ha'
          exact hf (ha' ▸ ha))
      have := h4 hnd1
      simpa using this
    · intro a ha
      simp only [addmons]
      rcases List.mem_cons.mp ha with e | ha
      · rw [e, h6 _ hfn]
        simp [State.setMon]
      · exact h5 a ha
    · intro a ha
      simp only [addmons]
      have ha1 : a ≠ freshmon s := fun e => ha (e ▸ List.mem_cons_self _ _)
      have ha2 : a ∉ new := fun hin => ha (List.mem_cons_of_mem _ hin)
      rw [h6 a ha2]
      simp [State.setMon, Function.update_noteq ha1]
    · simp only [addmons]; rw [h7]; rfl
    · simp only [addmons]; rw [h8]; rfl
    · simp only [addmons]; rw [h9]; rfl

/-- What the geometry loop of `updategeom` leaves behind along a chain without
repetition. -/
theorem setgeoms_spec (n : Nat) : ∀ (ms : List Nat) (us : List XineramaScreenInfo) (i : Nat)
    (s : State) (d : Bool), ms.Nodup →
    (setgeoms n ms us i (s, d)).1.bh = s.bh
    ∧ (setgeoms n ms us i (s, d)).1.client = s.client
    ∧ (setgeoms n ms us i (s, d)).1.selmon = s.selmon
    ∧ (∀ a, a ∉ ms → (setgeoms n ms us i (s, d)).1.monitor a = s.monitor a)
    ∧ (∀ (j m : Nat) (u : XineramaScreenInfo), ms[j]? = some m → us[j]? = some u →
        (setgeoms n ms us i (s, d)).1.monitor m = geomupd s.bh n (i + j) (s.monitor m) u)
    ∧ (∀ (j m : Nat), ms[j]? = some m → us[j]? = none →
        (setgeoms n ms us i (s, d)).1.monitor m = s.monitor m)
    ∧ ((setgeoms n ms us i (s, d)).2 = true ↔
        d = true ∨ ∃ (j m : Nat) (u : XineramaScreenInfo), ms[j]? = some m ∧ us[j]? = some u
          ∧ (i + j ≥ n ∨ geomdiffers (s.monitor m) u)) := by
  intro ms
  induction ms with
  | nil =>
    intro us i s d _
    have e : setgeoms n [] us i (s, d) = (s, d) := by cases us <;> simp [setgeoms]
    rw [e]
    refine ⟨rfl, rfl, rfl, fun _ _ => rfl, ?_, ?_, ?_⟩
    · intro j m u h; simp at h
    · intro j m h; simp at h
    · simp
  | cons m ms ih =>
    intro us i s d hnd
    have hm : m ∉ ms := (List.nodup_cons.mp hnd).1
    have hnd' : ms.Nodup := (List.nodup_cons.mp hnd).2
    cases us with
    | nil =>
      have e : setgeoms n (m :: ms) [] i (s, d) = (s, d) := by simp [setgeoms]
      rw [e]
      refine ⟨rfl, rfl, rfl, fun _ _ => rfl, ?_, fun _ _ _ _ => rfl, ?_⟩
      · intro j m' u _ h; simp at h
      · simp
    | cons u us =>
      have key : ∃ d', setgeoms n (m :: ms) (u :: us) i (s, d)
          = setgeoms n ms us (i + 1) (s.setMon m (geomupd s.bh n i (s.monitor m) u), d')
          ∧ (d' = true ↔ d = true ∨ (i ≥ n ∨ geomdiffers (s.monitor m) u)) := by
        by_cases hc : i ≥ n ∨ u.x_org ≠ (s.monitor m).mx ∨ u.y_org ≠ (s.monitor m).my
            ∨ u.width ≠ (s.monitor m).mw ∨ u.height ≠ (s.monitor m).mh
        · refine ⟨true, ?_, ?_⟩
          · simp only [setgeoms, geomupd]
            rw [if_pos hc, if_pos hc]
          · simp only [true_iff]
            right
            exact hc
        · refine ⟨d, ?_, ?_⟩
          · simp only [setgeoms, geomupd]
            rw [if_neg hc, if_neg hc]
            have : s.setMon m (s.monitor m) = s := by
              simp [State.setMon]
            rw [this]
          · constructor
            · intro h; left; exact h
            · rintro (h | h)
              · exact h
              · exact absurd h hc
      obtain ⟨d', e, hd'⟩ := key
      rw [e]
      obtain ⟨h1, h2, h3, h4, h5, h6, h7⟩ := ih us (i + 1)
        (s.setMon m (geomupd s.bh n i (s.monitor m) u)) d' hnd'
      have hother : ∀ a, a ≠ m →
          (s.setMon m (geomupd s.bh n i (s.monitor m) u)).monitor a = s.monitor a :=
        fun a ha => setMon_monitor_ne _ _ _ _ ha
      have hbh : (s.setMon m (geomupd s.bh n i (s.monitor m) u)).bh = s.bh := rfl
      rw [hbh] at h1 h5
      refine ⟨h1, h2, h3, ?_, ?_, ?_, ?_⟩
      · intro a ha
        have ha1 : a ≠ m := fun e => ha (e ▸ List.mem_cons_self _ _)
        have ha2 : a ∉ ms := fun hin => ha (List.mem_cons_of_mem _ hin)
        rw [h4 a ha2, hother a ha1]
      · intro j m' u' hj hu
        cases j with
        | zero =>
          simp only [List.getElem?_cons_zero, Option.some.injEq] at hj hu
          subst hj; subst hu
          rw [h4 m hm, setMon_monitor_self]
          rfl
        | succ j =>
          simp only [List.getElem?_cons_succ] at hj hu
          have hm' : m' ≠ m := fun e => hm (e ▸ List.getElem?_mem hj)
          rw [h5 j m' u' hj hu, hother m' hm']
          have : i + 1 + j = i + (j + 1) := by omega
          rw [this]
      · intro j m' hj hu
        cases j with
        | zero => simp at hu
        | succ j =>
          simp only [List.getElem?_cons_succ] at hj hu
          have hm' : m' ≠ m := fun e => hm (e ▸ List.getElem?_mem hj)
          rw [h6 j m' hj hu, hother m' hm']
      · rw [h7, hd']
        constructor
        · rintro ((h | h) | ⟨j, m', u', hj, hu, hc⟩)
          · left; exact h
          · right; exact ⟨0, m, u, by simp, by simp, by simpa using h⟩
          · right
            have hm' : m' ≠ m := fun e => hm (e ▸ List.getElem?_mem hj)
            rw [hother m' hm'] at hc
            refine ⟨j + 1, m', u', by simpa using hj, by simpa using hu, ?_⟩
            have : i + 1 + j = i + (j + 1) := by omega
            rw [← this]
            exact hc
        · rintro (h | ⟨j, m', u', hj, hu, hc⟩)
          · left; left; exact h
          · cases j with
            | zero =>
              simp only [List.getElem?_cons_zero, Option.some.injEq] at hj hu
              subst hj; subst hu
              left; right
              simpa using hc
            | succ j =>
              simp only [List.getElem?_cons_succ] at hj hu
              right
              have hm' : m' ≠ m := fun e => hm (e ▸ List.getElem?_mem hj)
              refine ⟨j, m', u', hj, hu, ?_⟩
              rw [hother m' hm']
              have : i + 1 + j = i + (j + 1) := by omega
              rw [this]
              exact hc

theorem updategeomend_fields (ptr : Option (Int × Int)) (sd : State × Bool) :
    (updategeomend ptr sd).1.monitor = sd.1.monitor ∧ (updategeomend ptr sd).1.client = sd.1.client
      ∧ (updategeomend ptr sd).1.mons = sd.1.mons ∧ (updategeomend ptr sd).1.bh = sd.1.bh
      ∧ (updategeomend ptr sd).2 = sd.2 := by
  unfold updategeomend
  split
  · rename_i h
    exact ⟨rfl, rfl, rfl, rfl, h.symm⟩
  · exact ⟨rfl, rfl, rfl, rfl, rfl⟩

/-- The growth branch of `updategeom`, for a chain without repetition whose monitors have
a work area that fits their rectangle. -/
theorem updategeom_growth_spec (s : State) (info : List XineramaScreenInfo)
    (ptr : Option (Int × Int)) (hnd : s.mons.Nodup)
    (hle : s.mons.length ≤ (uniquegeoms info).length)
    (hwa : ∀ m ∈ s.mons, WorkAreaOk s.bh (s.monitor m)) :
    ∃ s' d, updategeom s (some info) ptr = some (s', d) ∧ GrowthSpec s info s' d := by
  refine ⟨(updategeomend ptr (setgeoms s.mons.length
          (addmons ((uniquegeoms info).length - s.mons.length) s).mons (uniquegeoms info) 0
          (addmons ((uniquegeoms info).length - s.mons.length) s, false))).1,
    (updategeomend ptr (setgeoms s.mons.length
          (addmons ((uniquegeoms info).length - s.mons.length) s).mons (uniquegeoms info) 0
          (addmons ((uniquegeoms info).length - s.mons.length) s, false))).2,
    updategeom_grow_eq s info ptr hle, ?_⟩
  obtain ⟨new, a1, a2, a3, a4, a5, a6, a7, a8, _⟩ :=
    addmons_spec ((uniquegeoms info).length - s.mons.length) s
  generalize addmons ((uniquegeoms info).length - s.mons.length) s = s1 at a1 a5 a6 a7 a8
  have hnd1 : s1.mons.Nodup := by rw [a1]; exact a4 hnd
  obtain ⟨g1, g2, _, g4, g5, g6, g7⟩ :=
    setgeoms_spec s.mons.length s1.mons (uniquegeoms info) 0 s1 false hnd1
  have gm := setgeoms_mons s.mons.length s1.mons (uniquegeoms info) 0 (s1, false)
  obtain ⟨e1, e2, e3, e4, e5⟩ := updategeomend_fields ptr
    (setgeoms s.mons.length s1.mons (uniquegeoms info) 0 (s1, false))
  generalize updategeomend ptr (setgeoms s.mons.length s1.mons (uniquegeoms info) 0 (s1, false))
    = r at e1 e2 e3 e4 e5
  generalize setgeoms s.mons.length s1.mons (uniquegeoms info) 0 (s1, false) = q
    at g1 g2 g4 g5 g6 g7 gm e1 e2 e3 e4 e5
  have hmons : r.1.mons = s.mons ++ new := by rw [e3, gm, a1]
  have hlen : r.1.mons.length = (uniquegeoms info).length := by
    rw [hmons, List.length_append, a2]; omega
  have hold : ∀ m ∈ s.mons, s1.monitor m = s.monitor m :=
    fun m hm => a6 m (fun hin => a3 m hin hm)
  have hidx : ∀ (i m : Nat), s.mons[i]? = some m → (s.mons ++ new)[i]? = some m := by
    intro i m h
    have hi : i < s.mons.length := by
      by_contra hc
      rw [List.getElem?_eq_none (by omega)] at h
      cases h
    rw [List.getElem?_append_left hi]; exact h
  have hidx2 : ∀ (i m : Nat), i < s.mons.length → (s.mons ++ new)[i]? = some m →
      s.mons[i]? = some m := by
    intro i m hi h
    rw [List.getElem?_append_left hi] at h; exact h
  have hmon : ∀ (i m : Nat) (u : XineramaScreenInfo), (s.mons ++ new)[i]? = some m →
      (uniquegeoms info)[i]? = some u →
      r.1.monitor m = geomupd s.bh s.mons.length i (s1.monitor m) u := by
    intro i m u hm hu
    rw [e1, g5 i m u (by rw [a1]; exact hm) hu, a8, Nat.zero_add]
  refine ⟨hlen, ?_, ?_, ?_, ?_, ?_, ?_⟩
  · rw [hmons, List.take_left]
  · intro m hm
    obtain ⟨i, hi, hget⟩ := List.getElem_of_mem hm
    have hsome : s.mons[i]? = some m := by rw [List.getElem?_eq_getElem hi, hget]
    have hu : ∃ u, (uniquegeoms info)[i]? = some u :=
      ⟨(uniquegeoms info)[i], List.getElem?_eq_getElem (by omega)⟩
    obtain ⟨u, hu⟩ := hu
    rw [hmon i m u (hidx i m hsome) hu, hold m hm]
    obtain ⟨_, _, k⟩ := geomupd_spec s.bh s.mons.length i (s.monitor m) u
      (fun _ => hwa m hm)
    exact ⟨k.1, k.2.1, k.2.2.1, k.2.2.2.1, k.2.2.2.2.1, k.2.2.2.2.2.1, k.2.2.2.2.2.2.1⟩
  · intro m hm hnot
    rw [hmons] at hm
    obtain ⟨i, hi, hget⟩ := List.getElem_of_mem hm
    have hsome : (s.mons ++ new)[i]? = some m := by rw [List.getElem?_eq_getElem hi, hget]
    have hin : s.mons.length ≤ i := by
      by_contra hc
      exact hnot (List.getElem?_mem (hidx2 i m (by omega) hsome))
    have hmnew : m ∈ new := by
      rcases List.mem_append.mp hm with h | h
      · exact absurd h hnot
      · exact h
    have hiu : i < (uniquegeoms info).length := by rw [← hlen, hmons]; exact hi
    obtain ⟨u, hu⟩ : ∃ u, (uniquegeoms info)[i]? = some u :=
      ⟨(uniquegeoms info)[i], List.getElem?_eq_getElem hiu⟩
    rw [hmon i m u hsome hu, a5 m hmnew]
    obtain ⟨_, _, k⟩ := geomupd_spec s.bh s.mons.length i createmon u
      (fun h => absurd h (by omega))
    exact ⟨k.1, k.2.1, k.2.2.1, k.2.2.2.1, k.2.2.2.2.1, k.2.2.2.2.2.1, k.2.2.2.2.2.2.1⟩
  · rw [e2, g2, a7]
  · intro i m u hm hu
    rw [hmons] at hm
    rw [hmon i m u hm hu]
    obtain ⟨k1, k2, _⟩ := geomupd_spec s.bh s.mons.length i (s1.monitor m) u (by
      intro hi
      have hsm := hidx2 i m hi hm
      have hmem : m ∈ s.mons := List.getElem?_mem hsm
      rw [hold m hmem]
      exact hwa m hmem)
    exact ⟨k1, k2⟩
  · rw [e5, g7]
    simp only [Bool.false_eq_true, false_or, Nat.zero_add]
    constructor
    · rintro ⟨j, m, u, hj, hu, hc⟩
      rw [a1] at hj
      by_cases hjn : j < s.mons.length
      · right
        have hsm := hidx2 j m hjn hj
        have hmem : m ∈ s.mons := List.getElem?_mem hsm
        rcases hc with hc | hc
        · omega
        · rw [hold m hmem] at hc
          exact ⟨j, m, u, hsm, hu, hc⟩
      · left
        have : j < (uniquegeoms info).length := by
          by_contra hc'
          rw [List.getElem?_eq_none (by omega)] at hu
          cases hu
        omega
    · rintro (h | ⟨i, m, u, hi, hu, hc⟩)
      · have h1 : s.mons.length < (s.mons ++ new).length := by
          rw [List.length_append, a2]; omega
        refine ⟨s.mons.length, (s.mons ++ new)[s.mons.length], (uniquegeoms info)[s.mons.length],
          ?_, List.getElem?_eq_getElem h, Or.inl (Nat.le_refl _)⟩
        rw [a1]
        exact List.getElem?_eq_getElem h1
      · have hmem : m ∈ s.mons := List.getElem?_mem hi
        refine ⟨i, m, u, ?_, hu, Or.inr ?_⟩
        · rw [a1]; exact hidx i m hi
        · rw [hold m hmem]; exact hc

/-- C13: when `updategeom` is called with at least as many distinct screens as there are
monitors (a chain without repetition, each work area fitting its rectangle), it returns;
afterwards there is one monitor per distinct screen, the first ones are the previous
monitors in their order with clients, stack, selection and tags untouched, the new ones
are as `createmon` builds them, monitor `i` has the rectangle of screen `i` and the work
area that leaves the bar off the top when the bar is shown, and the flag returned is true
exactly when a monitor was added or a stored rectangle differed from its screen. -/
theorem updategeom_growth (s : State) (info : List XineramaScreenInfo)
    (ptr : Option (Int × Int)) (hnd : s.mons.Nodup)
    (hle : s.mons.length ≤ (uniquegeoms info).length)
    (hwa : ∀ m ∈ s.mons, WorkAreaOk s.bh (s.monitor m)) :
    ∃ s' d, updategeom s (some info) ptr = some (s', d) ∧ GrowthSpec s info s' d :=
  updategeom_growth_spec s info ptr hnd hle hwa

/-- C13, witness: one monitor and two reported screens side by side. -/
theorem updategeom_growth_witness :
    ∃ s' d, updategeom bareState (some [plainScreen, rightScreen]) none = some (s', d)
      ∧ GrowthSpec bareState [plainScreen, rightScreen] s' d :=
  updategeom_growth bareState [plainScreen, rightScreen] none (by decide) (by decide) (by
    intro m _
    show WorkAreaOk 20 bareMonitor
    unfold WorkAreaOk
    decide)

/-! ## Monitor removal in `updategeom` -/

theorem migrate_spec (m : Nat) : ∀ (fuel : Nat) (s : State), RegistryInv s → m ∈ s.mons →
    m ≠ s.mons.headD 0 → (s.monitor m).clients.length ≤ fuel →
    RegistryInv (migrate m fuel s) ∧ (migrate m fuel s).mons = s.mons
    ∧ (migrate m fuel s).selmon = s.selmon
    ∧ ((migrate m fuel s).monitor m).clients = []
    ∧ (∀ a, a ≠ m → a ≠ s.mons.headD 0 →
        ((migrate m fuel s).monitor a).clients = (s.monitor a).clients
        ∧ ((migrate m fuel s).monitor a).stack = (s.monitor a).stack)
    ∧ (∀ c, c ∈ ((migrate m fuel s).monitor (s.mons.headD 0)).clients
        ↔ c ∈ (s.monitor (s.mons.headD 0)).clients ∨ c ∈ (s.monitor m).clients)
    ∧ (∀ c, c ∈ ((migrate m fuel s).monitor (s.mons.headD 0)).stack
        ↔ c ∈ (s.monitor (s.mons.headD 0)).stack ∨ c ∈ (s.monitor m).clients)
    ∧ (∀ c ∈ (s.monitor m).clients, ((migrate m fuel s).client c).mon = s.mons.headD 0)
    ∧ (∀ c, c ∉ (s.monitor m).clients → ((migrate m fuel s).client c).mon = (s.client c).mon)
    ∧ SameTags s (migrate m fuel s) := by
  intro fuel
  induction fuel with
  | zero =>
    intro s h _ _ hlen
    have hnil : (s.monitor m).clients = [] := List.eq_nil_of_length_eq_zero (by omega)
    have e0 : migrate m 0 s = s := rfl
    rw [e0]
    refine ⟨h, rfl, rfl, hnil, fun _ _ _ => ⟨rfl, rfl⟩, ?_, ?_, ?_, fun _ _ => rfl,
      sameTags_refl s⟩
    · intro c; rw [hnil]; simp
    · intro c; rw [hnil]; simp
    · intro c hc; rw [hnil] at hc; cases hc
  | succ fuel ih =>
    intro s h hm hne hlen
    cases hcl : (s.monitor m).clients with
    | nil =>
      have e0 : migrate m (fuel + 1) s = s := by simp only [migrate, hcl]
      rw [e0]
      refine ⟨h, rfl, rfl, hcl, fun _ _ _ => ⟨rfl, rfl⟩, ?_, ?_, ?_, fun _ _ => rfl,
        sameTags_refl s⟩
      · intro c; simp
      · intro c; simp
      · intro c hc; cases hc
    | cons c rest =>
      have e0 : migrate m (fuel + 1) s
          = migrate m fuel (attachstack (attach
              ((detachstack (s.setMon m { s.monitor m with clients := rest }) c).setClient c
                { (detachstack (s.setMon m { s.monitor m with clients := rest }) c).client c with
                  mon := (detachstack (s.setMon m { s.monitor m with clients := rest }) c).mons.headD 0 })
              c) c) := by
        simp only [migrate, hcl]
      rw [e0]
      have hndm : (c :: rest).Nodup := hcl ▸ (h.2.2 m hm).1
      have hcrest : c ∉ rest := (List.nodup_cons.mp hndm).1
      have hcm : (s.client c).mon = m := (h.2.2 m hm).2.2 c (by rw [hcl]; simp)
      have hdet : s.setMon m { s.monitor m with clients := rest } = detach s c := by
        unfold detach
        simp only [hcm, hcl, List.erase_cons_head]
      rw [hdet]
      have h1 := detach_detachstack_absent s c h
      obtain ⟨o1, o2, o3, o4⟩ := detach_detachstack_obs s c
      have t1 : SameTags s (detachstack (detach s c) c) :=
        sameTags_trans (detach_sameTags s c) (detachstack_sameTags _ c)
      generalize detachstack (detach s c) c = s1 at h1 o1 o2 o3 o4 t1
      have hne1 : s1.mons ≠ [] := by rw [o1]; exact List.ne_nil_of_mem hm
      have h2 : AbsentInv (s1.setClient c { s1.client c with mon := s1.mons.headD 0 }) c :=
        h1.setClient _
      have h3 := attach_attachstack_inv _ c h2 (by
        simp only [setClient_client_self]
        exact headD_mem _ hne1)
      obtain ⟨p1, p2, p3, p4⟩ := attach_attachstack_obs
        (s1.setClient c { s1.client c with mon := s1.mons.headD 0 }) c
      have ta : SameTags s1 (s1.setClient c { s1.client c with mon := s1.mons.headD 0 }) :=
        setClient_sameTags s1 c { s1.client c with mon := s1.mons.headD 0 } rfl
      have t2 : SameTags s (attachstack (attach (s1.setClient c
          { s1.client c with mon := s1.mons.headD 0 }) c) c) :=
        sameTags_trans (sameTags_trans (sameTags_trans t1 ta)
          (attach_sameTags _ c)) (attachstack_sameTags _ c)
      generalize attachstack (attach (s1.setClient c
        { s1.client c with mon := s1.mons.headD 0 }) c) c = s4 at h3 p1 p2 p3 p4 t2
      have hmons4 : s4.mons = s.mons := by rw [p1]; exact o1
      have hsel4 : s4.selmon = s.selmon := by rw [p2]; exact o2
      -- the records of the clients
      have hcl4 : ∀ x, (s4.client x).mon = if x = c then s.mons.headD 0 else (s.client x).mon := by
        intro x
        rw [p3]
        by_cases e : x = c
        · subst e; rw [if_pos rfl]; simp [o1]
        · rw [if_neg e, setClient_client_ne _ _ _ _ e, o3]
      -- the lists of the monitors
      have hmonc : ((s1.setClient c { s1.client c with mon := s1.mons.headD 0 }).client c).mon
          = s.mons.headD 0 := by simp [o1]
      have hlist : ∀ a, (s4.monitor a).clients
            = (if a = s.mons.headD 0 then c :: (s.monitor a).clients
               else if a = m then rest else (s.monitor a).clients)
          ∧ (s4.monitor a).stack
            = (if a = s.mons.headD 0 then c :: (s.monitor a).stack
               else if a = m then (s.monitor a).stack.erase c else (s.monitor a).stack) := by
        intro a
        obtain ⟨q1, q2⟩ := p4 a
        obtain ⟨r1, r2⟩ := o4 a
        rw [hmonc] at q1 q2
        rw [hcm] at r1 r2
        have em : ((s1.setClient c { s1.client c with mon := s1.mons.headD 0 }).monitor a)
            = s1.monitor a := rfl
        rw [em] at q1 q2
        rw [q1, q2, r1, r2]
        by_cases e1 : a = s.mons.headD 0
        · have e2 : a ≠ m := fun e => hne (e ▸ e1)
          simp only [if_pos e1, if_neg e2, and_self]
        · by_cases e2 : a = m
          · simp only [if_neg e1, if_pos e2, and_self, true_and]
            rw [e2, hcl, List.erase_cons_head]
            exact ⟨rfl, trivial⟩
          · simp only [if_neg e1, if_neg e2, and_self]
      have hm4 : m ∈ s4.mons := by rw [hmons4]; exact hm
      have hne4 : m ≠ s4.mons.headD 0 := by rw [hmons4]; exact hne
      have hlen4 : (s4.monitor m).clients.length ≤ fuel := by
        rw [(hlist m).1, if_neg hne, if_pos rfl]
        rw [hcl] at hlen
        simpa using hlen
      obtain ⟨i1, i2, i3, i4, i5, i6, i7, i8, i9, i10⟩ := ih s4 h3 hm4 hne4 hlen4
      rw [hmons4] at i5 i6 i7 i8
      have hm4cl : (s4.monitor m).clients = rest := by
        rw [(hlist m).1, if_neg hne, if_pos rfl]
      have hh4cl : (s4.monitor (s.mons.headD 0)).clients
          = c :: (s.monitor (s.mons.headD 0)).clients := by
        rw [(hlist _).1, if_pos rfl]
      have hh4st : (s4.monitor (s.mons.headD 0)).stack
          = c :: (s.monitor (s.mons.headD 0)).stack := by
        rw [(hlist _).2, if_pos rfl]
      refine ⟨i1, i2.trans hmons4, i3.trans hsel4, i4, ?_, ?_, ?_, ?_, ?_, sameTags_trans t2 i10⟩
      · intro a ha1 ha2
        obtain ⟨k1, k2⟩ := i5 a ha1 ha2
        rw [k1, k2, (hlist a).1, (hlist a).2, if_neg ha2, if_neg ha1, if_neg ha2, if_neg ha1]
        exact ⟨rfl, rfl⟩
      · intro x
        rw [i6 x, hh4cl, hm4cl]
        simp only [List.mem_cons]
        tauto
      · intro x
        rw [i7 x, hh4st, hm4cl]
        simp only [List.mem_cons]
        tauto
      · intro x hx
        rcases List.mem_cons.mp hx with e | hx
        · subst e
          rw [i9 x (by rw [hm4cl]; exact hcrest), hcl4, if_pos rfl]
        · exact i8 x (by rw [hm4cl]; exact hx)
      · intro x hx
        have hx1 : x ≠ c := fun e => hx (e ▸ List.mem_cons_self _ _)
        have hx2 : x ∉ rest := fun hin => hx (List.mem_cons_of_mem _ hin)
        rw [i9 x (by rw [hm4cl]; exact hx2), hcl4, if_neg hx1]

theorem onmons_singleton (s : State) (m c : Nat) :
    onmons s [m] c ↔ c ∈ (s.monitor m).clients := by
  unfold onmons
  simp

theorem onmons_append (s : State) (l1 l2 : List Nat) (c : Nat) :
    onmons s (l1 ++ l2) c ↔ onmons s l1 c ∨ onmons s l2 c := by
  unfold onmons
  constructor
  · rintro ⟨m, hm, hc⟩
    rcases List.mem_append.mp hm with h | h
    · left; exact ⟨m, h, hc⟩
    · right; exact ⟨m, h, hc⟩
  · rintro (⟨m, hm, hc⟩ | ⟨m, hm, hc⟩)
    · exact ⟨m, List.mem_append_left _ hm, hc⟩
    · exact ⟨m, List.mem_append_right _ hm, hc⟩

theorem headD_append (ys : List Nat) (m : Nat) (h : ys ≠ []) :
    (ys ++ [m]).headD 0 = ys.headD 0 := by
  cases ys with
  | nil => exact absurd rfl h
  | cons a as => rfl

/-- One round of the removal loop: what it leaves of the chain `ys ++ [m]`. -/
theorem shrinkround_spec (s : State) (ys : List Nat) (m : Nat) (h : RegistryInv s)
    (hys : s.mons = ys ++ [m]) (hne : ys ≠ []) :
    RegistryInv (shrinkround s m) ∧ (shrinkround s m).mons = ys
    ∧ MovedTo s (shrinkround s m) (ys.headD 0) ys [m]
    ∧ (shrinkround s m).selmon = (if s.selmon = m then ys.headD 0 else s.selmon) := by
  have hnd : (ys ++ [m]).Nodup := hys ▸ h.1
  have hmys : m ∉ ys := by
    intro hin
    have hdis := (List.nodup_append.mp hnd).2.2
    exact hdis hin (List.mem_singleton_self m)
  have hm : m ∈ s.mons := by rw [hys]; simp
  have hhead : s.mons.headD 0 = ys.headD 0 := by rw [hys]; exact headD_append ys m hne
  have hheadin : ys.headD 0 ∈ ys := headD_mem ys hne
  have hmh : m ≠ s.mons.headD 0 := by
    rw [hhead]; intro e; exact hmys (e ▸ hheadin)
  obtain ⟨i1, i2, i3, i4, i5, i6, i7, i8, i9, i10⟩ :=
    migrate_spec m (s.monitor m).clients.length s h hm hmh (Nat.le_refl _)
  rw [hhead] at i5 i6 i7 i8
  have herase : s.mons.erase m = ys := by
    rw [hys, List.erase_append_right _ hmys]
    simp
  unfold shrinkround
  simp only []
  generalize migrate m (s.monitor m).clients.length s = s1 at i1 i2 i3 i4 i5 i6 i7 i8 i9 i10
  have hmons : (cleanupmon (if m = s1.selmon then { s1 with selmon := s1.mons.headD 0 }
      else s1) m).mons = ys := by
    unfold cleanupmon
    split <;> (show s1.mons.erase m = ys; rw [i2]; exact herase)
  have hmonitor : (cleanupmon (if m = s1.selmon
      then { s1 with selmon := s1.mons.headD 0 } else s1) m).monitor = s1.monitor := by
    unfold cleanupmon; split <;> rfl
  have hclient : (cleanupmon (if m = s1.selmon
      then { s1 with selmon := s1.mons.headD 0 } else s1) m).client = s1.client := by
    unfold cleanupmon; split <;> rfl
  have hselmon : (cleanupmon (if m = s1.selmon
      then { s1 with selmon := s1.mons.headD 0 } else s1) m).selmon
      = (if s.selmon = m then ys.headD 0 else s.selmon) := by
    unfold cleanupmon
    by_cases e : m = s1.selmon
    · rw [if_pos e, if_pos (by rw [← i3]; exact e.symm)]
      show s1.mons.headD 0 = ys.headD 0
      rw [i2]; exact hhead
    · rw [if_neg e, if_neg (by rw [← i3]; exact fun e' => e e'.symm)]
      exact i3
  have hsub : ∀ a ∈ ys, a ∈ s.mons := by
    intro a ha; rw [hys]; exact List.mem_append_left _ ha
  refine ⟨⟨?_, ?_, ?_⟩, hmons, ⟨?_, ?_, ?_, ?_, ?_, ?_⟩, hselmon⟩
  · rw [hmons]; exact (List.nodup_append.mp hnd).1
  · rw [hmons, hselmon]
    split
    · exact hheadin
    · rename_i hsm
      have : s.selmon ∈ ys ++ [m] := hys ▸ h.2.1
      rcases List.mem_append.mp this with h1 | h1
      · exact h1
      · rw [List.mem_singleton] at h1; exact absurd h1 hsm
  · intro a ha
    rw [hmons] at ha
    rw [hmonitor, hclient]
    exact i1.2.2 a (i2 ▸ hsub a ha)
  · intro a ha hah
    rw [hmonitor]
    exact i5 a (fun e => hmys (e ▸ ha)) hah
  · intro c
    rw [hmonitor, i6 c, onmons_singleton]
  · intro c
    rw [hmonitor, i7 c, onmons_singleton]
  · intro c hc
    rw [hclient]
    exact i8 c ((onmons_singleton s m c).mp hc)
  · intro c hc
    rw [hclient]
    exact i9 c (fun hin => hc ((onmons_singleton s m c).mpr hin))
  · exact ⟨fun c => by rw [hclient]; exact i10.1 c, fun a => by rw [hmonitor]; exact i10.2 a⟩

theorem removemons_succ (k : Nat) (s : State) (d : Bool) (ys : List Nat) (m : Nat)
    (hys : s.mons = ys ++ [m]) (hne : ys ≠ []) (hmys : m ∉ ys) :
    removemons (k + 1) (s, d)
      = removemons k (shrinkround s m, d || !(s.monitor m).clients.isEmpty) := by
  have hlast : s.mons.getLast? = some m := by rw [hys]; simp
  have hhd : ¬ (s.mons.head? = some m ∧ (s.monitor m).clients ≠ []) := by
    rintro ⟨e, _⟩
    rw [hys] at e
    cases ys with
    | nil => exact hne rfl
    | cons a as =>
      simp only [List.cons_append, List.head?_cons, Option.some.injEq] at e
      exact hmys (e ▸ List.mem_cons_self _ _)
  simp only [removemons, hlast]
  rw [if_neg hhd]
  rfl

theorem movedTo_step (s t s' : State) (head m : Nat) (ys kept gone : List Nat)
    (h1 : MovedTo s t head ys [m]) (h2 : MovedTo t s' head kept gone)
    (hk : ∀ a ∈ kept, a ∈ ys) (hg : ∀ a ∈ gone, a ∈ ys ∧ a ≠ head) :
    MovedTo s s' head kept (gone ++ [m]) := by
  obtain ⟨a1, a2, a3, a4, a5, a6⟩ := h1
  obtain ⟨b1, b2, b3, b4, b5, b6⟩ := h2
  have hon : ∀ c, onmons t gone c ↔ onmons s gone c := by
    intro c
    unfold onmons
    constructor
    · rintro ⟨a, ha, hc⟩
      exact ⟨a, ha, (a1 a (hg a ha).1 (hg a ha).2).1 ▸ hc⟩
    · rintro ⟨a, ha, hc⟩
      exact ⟨a, ha, (a1 a (hg a ha).1 (hg a ha).2).1.symm ▸ hc⟩
  refine ⟨?_, ?_, ?_, ?_, ?_, sameTags_trans a6 b6⟩
  · intro a ha hah
    obtain ⟨k1, k2⟩ := b1 a ha hah
    obtain ⟨k3, k4⟩ := a1 a (hk a ha) hah
    exact ⟨k1.trans k3, k2.trans k4⟩
  · intro c
    rw [b2 c, a2 c, hon c, onmons_append]
    tauto
  · intro c
    rw [b3 c, a3 c, hon c, onmons_append]
    tauto
  · intro c hc
    rcases (onmons_append s gone [m] c).mp hc with h | h
    · exact b4 c ((hon c).mpr h)
    · by_cases hg' : onmons t gone c
      · exact b4 c hg'
      · rw [b5 c hg']; exact a4 c h
  · intro c hc
    have hc1 : ¬ onmons s gone c := fun h => hc ((onmons_append s gone [m] c).mpr (Or.inl h))
    have hc2 : ¬ onmons s [m] c := fun h => hc ((onmons_append s gone [m] c).mpr (Or.inr h))
    rw [b5 c (fun h => hc1 ((hon c).mp h)), a5 c hc2]

theorem head_not_mem_drop (ys : List Nat) (k : Nat) (hnd : ys.Nodup) (hk : 1 ≤ k) :
    ys.headD 0 ∉ ys.drop k := by
  cases ys with
  | nil => simp
  | cons a as =>
    obtain ⟨j, rfl⟩ : ∃ j, k = j + 1 := ⟨k - 1, by omega⟩
    simp only [List.headD_cons, List.drop_succ_cons]
    intro hin
    exact (List.nodup_cons.mp hnd).1 (List.mem_of_mem_drop hin)

theorem head_mem_take (ys : List Nat) (k : Nat) (hne : ys ≠ []) (hk : 1 ≤ k) :
    ys.headD 0 ∈ ys.take k := by
  cases ys with
  | nil => exact absurd rfl hne
  | cons a as =>
    obtain ⟨j, rfl⟩ : ∃ j, k = j + 1 := ⟨k - 1, by omega⟩
    simp

/-- What `k` rounds of the removal loop of `updategeom` leave of a chain of more than `k`
monitors. -/
theorem removemons_spec : ∀ (k : Nat) (s : State) (d : Bool), RegistryInv s →
    k < s.mons.length →
    ∃ s' d', removemons k (s, d) = some (s', d') ∧ RegistryInv s'
      ∧ s'.mons = s.mons.take (s.mons.length - k)
      ∧ MovedTo s s' (s.mons.headD 0) (s.mons.take (s.mons.length - k))
          (s.mons.drop (s.mons.length - k))
      ∧ s'.selmon = (if s.selmon ∈ s.mons.take (s.mons.length - k) then s.selmon
                     else s.mons.headD 0)
      ∧ (d' = true ↔ d = true ∨ ∃ m ∈ s.mons.drop (s.mons.length - k),
            (s.monitor m).clients ≠ []) := by
  intro k
  induction k with
  | zero =>
    intro s d h _
    refine ⟨s, d, rfl, h, by simp, ?_, ?_, ?_⟩
    · simp only [Nat.sub_zero, List.take_length, List.drop_length]
      refine ⟨fun _ _ _ => ⟨rfl, rfl⟩, ?_, ?_, ?_, fun _ _ => rfl, sameTags_refl s⟩
      · intro c; simp [onmons]
      · intro c; simp [onmons]
      · rintro c ⟨m, hm, _⟩; cases hm
    · simp only [Nat.sub_zero, List.take_length]
      rw [if_pos h.2.1]
    · simp
  | succ k ih =>
    intro s d h hk
    have hne0 : s.mons ≠ [] := List.ne_nil_of_mem h.2.1
    have hys : s.mons = s.mons.dropLast ++ [s.mons.getLast hne0] :=
      (List.dropLast_append_getLast hne0).symm
    generalize s.mons.dropLast = ys at hys
    generalize s.mons.getLast hne0 = m at hys
    have hlen : s.mons.length = ys.length + 1 := by rw [hys]; simp
    have hne : ys ≠ [] := by
      intro e; rw [e] at hlen; simp at hlen; omega
    have hnd : (ys ++ [m]).Nodup := hys ▸ h.1
    have hndys : ys.Nodup := (List.nodup_append.mp hnd).1
    have hmys : m ∉ ys := by
      intro hin
      have hdis := (List.nodup_append.mp hnd).2.2
      exact hdis hin (List.mem_singleton_self m)
    obtain ⟨r1, r2, r3, r4⟩ := shrinkround_spec s ys m h hys hne
    rw [removemons_succ k s d ys m hys hne hmys]
    have hk' : k < (shrinkround s m).mons.length := by rw [r2]; omega
    obtain ⟨s', d', e1, e2, e3, e4, e5, e6⟩ :=
      ih (shrinkround s m) (d || !(s.monitor m).clients.isEmpty) r1 hk'
    rw [r2] at e3 e4 e5 e6
    have hkeep : s.mons.length - (k + 1) = ys.length - k := by omega
    have hk1 : 1 ≤ ys.length - k := by omega
    have htake : s.mons.take (ys.length - k) = ys.take (ys.length - k) := by
      rw [hys, List.take_append_of_le_length (by omega)]
    have hdrop : s.mons.drop (ys.length - k) = ys.drop (ys.length - k) ++ [m] := by
      rw [hys, List.drop_append_of_le_length (by omega)]
    have hhead : s.mons.headD 0 = ys.headD 0 := by rw [hys]; exact headD_append ys m hne
    have hgone : ∀ a ∈ ys.drop (ys.length - k), a ∈ ys ∧ a ≠ ys.headD 0 := by
      intro a ha
      refine ⟨List.mem_of_mem_drop ha, fun e => ?_⟩
      exact head_not_mem_drop ys _ hndys hk1 (e ▸ ha)
    refine ⟨s', d', e1, e2, ?_, ?_, ?_, ?_⟩
    · rw [hkeep, htake]; exact e3
    · rw [hkeep, htake, hdrop, hhead]
      exact movedTo_step s (shrinkround s m) s' (ys.headD 0) m ys _ _ r3 e4
        (fun a ha => List.mem_of_mem_take ha) hgone
    · rw [hkeep, htake, hhead, e5, r4]
      by_cases hs : s.selmon ∈ ys.take (ys.length - k)
      · have hsm : s.selmon ≠ m := fun e => hmys (e ▸ List.mem_of_mem_take hs)
        simp only [if_neg hsm, if_pos hs]
      · by_cases hsm : s.selmon = m
        · simp only [if_pos hsm, if_pos (head_mem_take ys _ hne hk1), if_neg hs]
        · simp only [if_neg hsm, if_neg hs]
    · rw [e6, hkeep, hdrop]
      have hcl : ∀ a ∈ ys.drop (ys.length - k),
          ((shrinkround s m).monitor a).clients = (s.monitor a).clients :=
        fun a ha => (r3.1 a (hgone a ha).1 (hgone a ha).2).1
      constructor
      · rintro (hd | ⟨a, ha, hc⟩)
        · rcases Bool.or_eq_true_iff.mp hd with hd | hd
          · left; exact hd
          · right
            refine ⟨m, List.mem_append_right _ (List.mem_singleton_self m), ?_⟩
            intro e
            rw [e] at hd
            simp at hd
        · right
          exact ⟨a, List.mem_append_left _ ha, by rw [← hcl a ha]; exact hc⟩
      · rintro (hd | ⟨a, ha, hc⟩)
        · left; rw [hd]; rfl
        · rcases List.mem_append.mp ha with ha | ha
          · right
            exact ⟨a, ha, by rw [hcl a ha]; exact hc⟩
          · left
            rw [List.mem_singleton] at ha
            subst ha
            cases hcc : (s.monitor a).clients with
            | nil => exact absurd hcc hc
            | cons x xs => simp

theorem managed_nodup (s : State) (h : RegistryInv s) : (managed s).Nodup := by
  unfold managed
  rw [List.nodup_flatMap]
  refine ⟨fun m hm => (h.2.2 m hm).1, ?_⟩
  have hp : s.mons.Pairwise (fun a b => a ≠ b) := h.1
  refine List.Pairwise.imp_of_mem ?_ hp
  intro a b ha hb hab
  show List.Disjoint (s.monitor a).clients (s.monitor b).clients
  intro c hca hcb
  exact hab (((h.2.2 a ha).2.2 c hca).symm.trans ((h.2.2 b hb).2.2 c hcb))

theorem updategeom_shrink_eq (s : State) (info : List XineramaScreenInfo)
    (ptr : Option (Int × Int)) (h : (uniquegeoms info).length < s.mons.length) :
    updategeom s (some info) ptr
      = (removemons (s.mons.length - (uniquegeoms info).length) (s, false)).map
          (updategeomend ptr) := by
  unfold updategeom
  simp only []
  rw [if_neg (by omega)]

/-- The shrink branch of `updategeom` under the registry invariant, with at least one
screen reported. -/
theorem updategeom_shrink_spec (s : State) (info : List XineramaScreenInfo)
    (ptr : Option (Int × Int)) (h : RegistryInv s) (h1 : 1 ≤ (uniquegeoms info).length)
    (h2 : (uniquegeoms info).length < s.mons.length) :
    ∃ s' d, updategeom s (some info) ptr = some (s', d) ∧ RegistryInv s'
      ∧ s'.mons = s.mons.take (uniquegeoms info).length
      ∧ MovedTo s s' (s.mons.headD 0) (s.mons.take (uniquegeoms info).length)
          (s.mons.drop (uniquegeoms info).length)
      ∧ (d = true ↔ ∃ m ∈ s.mons.drop (uniquegeoms info).length, (s.monitor m).clients ≠ []) := by
  obtain ⟨s1, d1, e1, e2, e3, e4, _, e6⟩ :=
    removemons_spec (s.mons.length - (uniquegeoms info).length) s false h (by omega)
  have hk : s.mons.length - (s.mons.length - (uniquegeoms info).length)
      = (uniquegeoms info).length := by omega
  rw [hk] at e3 e4 e6
  obtain ⟨f1, f2, f3, _, f5⟩ := updategeomend_fields ptr (s1, d1)
  refine ⟨(updategeomend ptr (s1, d1)).1, (updategeomend ptr (s1, d1)).2, ?_,
    updategeomend_inv ptr s1 d1 e2, ?_, ?_, ?_⟩
  · rw [updategeom_shrink_eq s info ptr h2, e1]
    rfl
  · rw [f3]; exact e3
  · obtain ⟨a1, a2, a3, a4, a5, a6⟩ := e4
    refine ⟨?_, ?_, ?_, ?_, ?_, ?_⟩
    · intro a ha hah; rw [f1]; exact a1 a ha hah
    · intro c; rw [f1]; exact a2 c
    · intro c; rw [f1]; exact a3 c
    · intro c hc; rw [f2]; exact a4 c hc
    · intro c hc; rw [f2]; exact a5 c hc
    · exact ⟨fun c => by rw [f2]; exact a6.1 c, fun a => by rw [f1]; exact a6.2 a⟩
  · rw [f5]
    simpa using e6

theorem movedTo_managed (s s' : State) (nn : Nat) (h : RegistryInv s) (h1 : 1 ≤ nn)
    (hm : s'.mons = s.mons.take nn)
    (hmv : MovedTo s s' (s.mons.headD 0) (s.mons.take nn) (s.mons.drop nn)) (c : Nat) :
    c ∈ managed s' ↔ c ∈ managed s := by
  have hne : s.mons ≠ [] := List.ne_nil_of_mem h.2.1
  have hhead : s.mons.headD 0 ∈ s.mons.take nn := head_mem_take _ _ hne h1
  obtain ⟨a1, a2, _, _, _, _⟩ := hmv
  rw [managed_iff, managed_iff, hm]
  constructor
  · rintro ⟨a, ha, hc⟩
    by_cases e : a = s.mons.headD 0
    · rw [e, a2 c] at hc
      rcases hc with hc | ⟨b, hb, hc⟩
      · exact ⟨_, List.mem_of_mem_take hhead, hc⟩
      · exact ⟨b, List.mem_of_mem_drop hb, hc⟩
    · exact ⟨a, List.mem_of_mem_take ha, (a1 a ha e).1 ▸ hc⟩
  · rintro ⟨a, ha, hc⟩
    have hsplit : a ∈ s.mons.take nn ++ s.mons.drop nn := by
      rw [List.take_append_drop]; exact ha
    rcases List.mem_append.mp hsplit with ha' | ha'
    · by_cases e : a = s.mons.headD 0
      · exact ⟨_, hhead, (a2 c).mpr (Or.inl (e ▸ hc))⟩
      · exact ⟨a, ha', (a1 a ha' e).1.symm ▸ hc⟩
    · exact ⟨_, hhead, (a2 c).mpr (Or.inr ⟨a, ha', hc⟩)⟩

/-- C11: when `updategeom` is called under the registry invariant with `nn >= 1` distinct
screens and more than `nn` monitors, it returns; afterwards exactly the first `nn`
monitors remain, every client of a removed monitor is in the client list and in the focus
stack of the first monitor with `mon` set to it and its tag unchanged, the managed clients
are the same as before and each is registered once, and the selected monitor is one of the
monitors that remain. -/
theorem updategeom_unplug (s : State) (info : List XineramaScreenInfo)
    (ptr : Option (Int × Int)) (h : RegistryInv s) (h1 : 1 ≤ (uniquegeoms info).length)
    (h2 : (uniquegeoms info).length < s.mons.length) :
    ∃ s' d, updategeom s (some info) ptr = some (s', d)
      ∧ UnplugSpec s (uniquegeoms info).length s' := by
  obtain ⟨s', d, e, hI, hm, hmv, _⟩ := updategeom_shrink_spec s info ptr h h1 h2
  refine ⟨s', d, e, hm, ?_, ?_, hI.holds, hI.2.1⟩
  · intro m hmd c hc
    have hon : onmons s (s.mons.drop (uniquegeoms info).length) c := ⟨m, hmd, hc⟩
    exact ⟨(hmv.2.1 c).mpr (Or.inr hon), (hmv.2.2.1 c).mpr (Or.inr hon), hmv.2.2.2.1 c hon,
      hmv.2.2.2.2.2.1 c⟩
  · exact (List.perm_ext_iff_of_nodup (managed_nodup s' hI) (managed_nodup s h)).mpr
      (fun c => movedTo_managed s s' _ h h1 hm hmv c)

/-- C12, amended: when `updategeom` is called under the registry invariant with
`nn >= 1` distinct screens and more than `nn` monitors, it returns true exactly when one
of the removed monitors owns a client. -/
theorem updategeom_unplug_dirty (s : State) (info : List XineramaScreenInfo)
    (ptr : Option (Int × Int)) (h : RegistryInv s) (h1 : 1 ≤ (uniquegeoms info).length)
    (h2 : (uniquegeoms info).length < s.mons.length) :
    ∃ s' d, updategeom s (some info) ptr = some (s', d)
      ∧ (d = true ↔ ∃ m ∈ s.mons.drop (uniquegeoms info).length, (s.monitor m).clients ≠ []) := by
  obtain ⟨s', d, e, _, _, _, hd⟩ := updategeom_shrink_spec s info ptr h h1 h2
  exact ⟨s', d, e, hd⟩

theorem twoMonitors_inv : RegistryInv twoMonitors := by
  refine ⟨by decide, by decide, ?_⟩
  intro m _
  exact ⟨List.nodup_nil, List.Perm.refl _, fun c hc => by cases hc⟩

theorem dockedState_inv : RegistryInv dockedState := by
  refine ⟨by decide, by decide, ?_⟩
  intro m hm
  have hm' : m = 1 ∨ m = 2 := by simpa [dockedState, twoMonitors] using hm
  rcases hm' with e | e <;> subst e
  · refine ⟨by decide, List.Perm.refl _, ?_⟩
    intro c hc
    have : c = 4 := by simpa [dockedState] using hc
    subst this; rfl
  · refine ⟨by decide, by decide, ?_⟩
    intro c hc
    have : c = 5 ∨ c = 6 := by simpa [dockedState] using hc
    rcases this with e | e <;> subst e <;> rfl

/-- C12, counterexample: two monitors without clients and one reported screen; the second
monitor is removed and `updategeom` returns false. -/
theorem updategeom_unplug_not_dirty : ¬ RemovalDirty twoMonitors [plainScreen] none := by
  intro hc
  obtain ⟨s1, e1⟩ := hc (by decide)
  obtain ⟨s', d, e, _, _, _, hd⟩ :=
    updategeom_shrink_spec twoMonitors [plainScreen] none twoMonitors_inv (by decide) (by decide)
  rw [e1] at e
  have hd1 : d = true := by
    have := congrArg (Option.map Prod.snd) e
    simpa using this.symm
  obtain ⟨m, _, hm⟩ := hd.mp hd1
  exact hm rfl

/-- C11, witness: two monitors, the second of which is selected and owns one client, and
one reported screen. -/
theorem updategeom_unplug_witness :
    ∃ s' d, updategeom dockedState (some [plainScreen]) none = some (s', d)
      ∧ UnplugSpec dockedState 1 s' :=
  updategeom_unplug dockedState [plainScreen] none dockedState_inv (by decide) (by decide)

/-- C12, witness: two monitors, the second of which owns one client, and one reported
screen: the flag is set. -/
theorem updategeom_unplug_dirty_witness :
    ∃ s' d, updategeom dockedState (some [plainScreen]) none = some (s', d) ∧ d = true := by
  obtain ⟨s', d, e, hd⟩ :=
    updategeom_unplug_dirty dockedState [plainScreen] none dockedState_inv (by decide) (by decide)
  refine ⟨s', d, e, hd.mpr ⟨2, by decide, ?_⟩⟩
  simp [dockedState]

/-! ## Validity of tags -/

theorem createmon_slotsOk : SlotsOk createmon := ⟨by decide, by decide, by decide⟩

theorem slotsOk_of_slots {a b : Monitor}
    (h : a.seltag = b.seltag ∧ a.tag0 = b.tag0 ∧ a.tag1 = b.tag1) (hb : SlotsOk b) :
    SlotsOk a := by
  unfold SlotsOk
  rw [h.1, h.2.1, h.2.2]
  exact hb

theorem curtag_lt (M : Monitor) (h : SlotsOk M) : M.curtag < LENGTH_tags := by
  unfold Monitor.curtag
  split
  · exact h.2.1
  · exact h.2.2

theorem slotsOk_fliptag (M : Monitor) (h : SlotsOk M) : SlotsOk M.fliptag := by
  obtain ⟨h1, h2, h3⟩ := h
  have h01 : M.seltag = 0 ∨ M.seltag = 1 := by omega
  refine ⟨?_, h2, h3⟩
  rcases h01 with e | e <;> simp [Monitor.fliptag, e]

theorem slotsOk_setcurtag (M : Monitor) (t : Nat) (h : SlotsOk M) (ht : t < LENGTH_tags) :
    SlotsOk (M.setcurtag t) := by
  obtain ⟨h1, h2, h3⟩ := h
  unfold Monitor.setcurtag
  split
  · exact ⟨h1, ht, h3⟩
  · exact ⟨h1, h2, ht⟩

/-- Tag validity of `s'` follows from the validity of the slots and of the tags of the
managed clients in a state that agrees with `s'` on tags and slots. -/
theorem tagsValid_transfer (sA s' : State) (hA : SameTags sA s')
    (hmon : ∀ m ∈ s'.mons, SlotsOk (sA.monitor m))
    (hcl : ∀ x ∈ managed s', (sA.client x).tag < LENGTH_tags) : TagsValid s' :=
  ⟨fun m hm => slotsOk_of_slots (hA.2 m) (hmon m hm),
   fun x hx => by rw [hA.1 x]; exact hcl x hx⟩

theorem tagsValid_same (s s' : State) (h : TagsValid s) (hA : SameTags s s')
    (hmons : ∀ m ∈ s'.mons, m ∈ s.mons) (hman : ∀ x ∈ managed s', x ∈ managed s) :
    TagsValid s' :=
  tagsValid_transfer s s' hA (fun m hm => h.1 m (hmons m hm)) (fun x hx => h.2 x (hman x hx))

theorem focus_tagsValid (s : State) (c : Option Nat) (h : TagsValid s) :
    TagsValid (focus s c) :=
  tagsValid_same s _ h (focus_sameTags s c)
    (fun m hm => by rw [(focus_clients s c 0).1] at hm; exact hm)
    (fun x hx => by rw [focus_managed] at hx; exact hx)

theorem arrange_tagsValid (s : State) (m : Option Nat) (h : TagsValid s) :
    TagsValid (arrange s m) :=
  tagsValid_same s _ h (arrange_sameTags s m)
    (fun a ha => by rw [(arrange_frame s m).2.2.2.1] at ha; exact ha)
    (fun x hx => by rw [arrange_managed] at hx; exact hx)

theorem refocus_tagsValid (s : State) (h : TagsValid s) :
    TagsValid (arrange (focus s none) (some (focus s none).selmon)) :=
  arrange_tagsValid _ _ (focus_tagsValid s none h)

theorem refocus_inv (s : State) (h : RegistryInv s) :
    RegistryInv (arrange (focus s none) (some (focus s none).selmon)) :=
  arrange_inv _ _ (focus_inv s none h (by intro c hc; cases hc))

theorem setMon_managed (s : State) (m : Nat) (v : Monitor)
    (h : v.clients = (s.monitor m).clients) : managed (s.setMon m v) = managed s := by
  unfold managed
  show s.mons.flatMap _ = _
  congr 1
  funext a
  exact setMon_clients s m v h a

theorem setClient_sameReg (s : State) (c : Nat) (v : Client) (h : v.mon = (s.client c).mon) :
    SameReg s (s.setClient c v) := by
  refine ⟨rfl, rfl, fun _ => ⟨rfl, rfl⟩, fun x => ?_⟩
  by_cases e : x = c
  · subst e; simpa using h
  · rw [setClient_client_ne _ _ _ _ e]

theorem sameReg_managed {s s' : State} (h : SameReg s s') : managed s' = managed s := by
  unfold managed
  rw [h.1]
  congr 1
  funext m
  exact (h.2.2.1 m).1

/-- Taking a client out of both lists leaves no new managed client. -/
theorem detach_detachstack_managed (s : State) (c x : Nat)
    (hx : x ∈ managed (detachstack (detach s c) c)) : x ∈ managed s := by
  obtain ⟨o1, _, _, o4⟩ := detach_detachstack_obs s c
  rw [managed_iff] at hx ⊢
  obtain ⟨a, ha, hxa⟩ := hx
  rw [o1] at ha
  refine ⟨a, ha, ?_⟩
  rw [(o4 a).1] at hxa
  split at hxa
  · exact List.mem_of_mem_erase hxa
  · exact hxa

/-- Putting a client into both lists of its monitor adds at most that client. -/
theorem attach_attachstack_managed (s : State) (c x : Nat)
    (hx : x ∈ managed (attachstack (attach s c) c)) : x = c ∨ x ∈ managed s := by
  obtain ⟨p1, _, _, p4⟩ := attach_attachstack_obs s c
  rw [managed_iff] at hx
  obtain ⟨a, ha, hxa⟩ := hx
  rw [p1] at ha
  rw [(p4 a).1] at hxa
  split at hxa
  · rcases List.mem_cons.mp hxa with e | h
    · left; exact e
    · right; exact (managed_iff s x).mpr ⟨a, ha, h⟩
  · right; exact (managed_iff s x).mpr ⟨a, ha, hxa⟩

theorem unmanage_tagsValid (s : State) (c : Nat) (h : TagsValid s) :
    TagsValid (unmanage s c) := by
  unfold unmanage
  simp only []
  apply arrange_tagsValid
  apply focus_tagsValid
  refine tagsValid_same s _ h
    (sameTags_trans (detach_sameTags s c) (detachstack_sameTags _ c)) ?_ ?_
  · intro m hm
    rw [(detach_detachstack_obs s c).1] at hm
    exact hm
  · intro x hx
    exact detach_detachstack_managed s c x hx

theorem pop_tagsValid (s : State) (c : Nat) (h : TagsValid s) (hc : c ∈ managed s) :
    TagsValid (pop s c) := by
  unfold pop
  simp only []
  apply arrange_tagsValid
  apply focus_tagsValid
  refine tagsValid_same s _ h
    (sameTags_trans (detach_sameTags s c) (attach_sameTags _ c)) ?_ ?_
  · intro m hm; exact hm
  · intro x hx
    rw [managed_iff] at hx
    obtain ⟨a, ha, hxa⟩ := hx
    have ha' : a ∈ s.mons := ha
    by_cases e : a = (s.client c).mon
    · have hcl : ((attach (detach s c) c).monitor a).clients
          = c :: (s.monitor a).clients.erase c := by
        subst e
        simp [attach, detach, State.setMon]
      rw [hcl] at hxa
      rcases List.mem_cons.mp hxa with e1 | h1
      · rw [e1]; exact hc
      · exact (managed_iff s x).mpr ⟨a, ha', List.mem_of_mem_erase h1⟩
    · have hcl : ((attach (detach s c) c).monitor a).clients = (s.monitor a).clients := by
        simp [attach, detach, State.setMon, Function.update_noteq e]
      rw [hcl] at hxa
      exact (managed_iff s x).mpr ⟨a, ha', hxa⟩

theorem sendmon_tagsValid (s : State) (c m : Nat) (h : TagsValid s) (hm : m ∈ s.mons) :
    TagsValid (sendmon s c m) := by
  unfold sendmon
  split
  · exact h
  · simp only []
    apply arrange_tagsValid
    apply focus_tagsValid
    have t1 : SameTags s (detachstack (detach s c) c) :=
      sameTags_trans (detach_sameTags s c) (detachstack_sameTags _ c)
    obtain ⟨o1, _, o3, _⟩ := detach_detachstack_obs s c
    have hsub := detach_detachstack_managed s c
    generalize detachstack (detach s c) c = s1 at t1 o1 o3 hsub
    refine tagsValid_transfer
      (s1.setClient c { s1.client c with mon := m, tag := (s1.monitor m).curtag }) _
      (sameTags_trans (attach_sameTags _ c) (attachstack_sameTags _ c)) ?_ ?_
    · intro a ha
      rw [(attach_attachstack_obs _ c).1] at ha
      have ha' : a ∈ s.mons := o1 ▸ ha
      exact slotsOk_of_slots (t1.2 a) (h.1 a ha')
    · intro x hx
      rcases attach_attachstack_managed _ c x hx with e | hx'
      · subst e
        simp only [setClient_client_self]
        exact curtag_lt _ (slotsOk_of_slots (t1.2 m) (h.1 m hm))
      · have hx'' : x ∈ managed s1 := by
          rw [managed_iff] at hx' ⊢
          exact hx'
        by_cases e : x = c
        · subst e
          simp only [setClient_client_self]
          exact curtag_lt _ (slotsOk_of_slots (t1.2 m) (h.1 m hm))
        · rw [setClient_client_ne _ _ _ _ e, t1.1 x]
          exact h.2 x (hsub x hx'')

theorem tag_inv (s : State) (ui : Nat) (h : RegistryInv s) : RegistryInv (tag s ui) := by
  unfold tag
  cases (s.monitor s.selmon).sel with
  | none => exact h
  | some c =>
    simp only []
    split
    · exact refocus_inv _ ((setClient_sameReg s c _ (by rfl)).inv h)
    · exact h

theorem tag_tagsValid (s : State) (ui : Nat) (h : TagsValid s) : TagsValid (tag s ui) := by
  unfold tag
  cases (s.monitor s.selmon).sel with
  | none => exact h
  | some c =>
    simp only []
    split
    · rename_i hui
      apply refocus_tagsValid
      refine tagsValid_transfer (s.setClient c { s.client c with tag := ui }) _
        (sameTags_refl _) (fun m hm => h.1 m hm) ?_
      intro x hx
      have hx' : x ∈ managed s := hx
      by_cases e : x = c
      · subst e; simpa using hui
      · rw [setClient_client_ne _ _ _ _ e]; exact h.2 x hx'
    · exact h

theorem view_tagsValid (s : State) (ui : Nat) (hI : RegistryInv s) (h : TagsValid s) :
    TagsValid (view s ui) := by
  by_cases hne : ui = (s.monitor s.selmon).curtag
  · have : view s ui = s := by unfold view; simp only []; rw [if_pos hne]
    rw [this]; exact h
  · obtain ⟨_, _, hman⟩ := view_inv s ui hI
    have hmons : (view s ui).mons = s.mons := by
      unfold view
      simp only []
      rw [if_neg hne, (arrange_frame _ _).2.2.2.1, (focus_clients _ none 0).1]
      rfl
    refine tagsValid_transfer _ _ (view_sameTags s ui hne) ?_ ?_
    · intro m hm
      rw [hmons] at hm
      by_cases e : m = s.selmon
      · subst e
        rw [setMon_monitor_self]
        split
        · rename_i hui
          exact slotsOk_setcurtag _ _ (slotsOk_fliptag _ (h.1 _ hm)) hui
        · exact slotsOk_fliptag _ (h.1 _ hm)
      · rw [setMon_monitor_ne _ _ _ _ e]; exact h.1 m hm
    · intro x hx
      rw [hman] at hx
      exact h.2 x hx

theorem cycleview_inv (s : State) (i : Int) (h : RegistryInv s) :
    RegistryInv (cycleview s i) ∧ (cycleview s i).mons = s.mons
      ∧ managed (cycleview s i) = managed s := by
  unfold cycleview
  simp only []
  have hs := setMon_lists_sameReg s s.selmon ((s.monitor s.selmon).fliptag.setcurtag
    (toU (if (if toI (s.monitor s.selmon).curtag + i < 0 then (LENGTH_tags : Int) - 1
                else toI (s.monitor s.selmon).curtag + i) ≥ (LENGTH_tags : Int)
            then 0 else (if toI (s.monitor s.selmon).curtag + i < 0 then (LENGTH_tags : Int) - 1
                else toI (s.monitor s.selmon).curtag + i)))) (fliptag_lists _ _).2
  refine ⟨refocus_inv _ (hs.inv h), ?_, ?_⟩
  · rw [(arrange_frame _ _).2.2.2.1, (focus_clients _ none 0).1]
    rfl
  · rw [arrange_managed, focus_managed]
    exact sameReg_managed hs

theorem cycleview_tagsValid (s : State) (i : Int) (hI : RegistryInv s) (h : TagsValid s) :
    TagsValid (cycleview s i) := by
  obtain ⟨_, hmons, hman⟩ := cycleview_inv s i hI
  refine tagsValid_transfer _ _ (cycleview_sameTags s i) ?_ ?_
  · intro m hm
    rw [hmons] at hm
    by_cases e : m = s.selmon
    · subst e
      rw [setMon_monitor_self]
      exact slotsOk_setcurtag _ _ (slotsOk_fliptag _ (h.1 _ hm))
        (cycleview_newtag _ i (curtag_lt _ (h.1 _ hm))).1
    · rw [setMon_monitor_ne _ _ _ _ e]; exact h.1 m hm
  · intro x hx
    rw [hman] at hx
    exact h.2 x hx

theorem sameReg_chain3 {a b c d : State} (h1 : SameReg a b) (h2 : SameReg b c)
    (h3 : SameReg c d) : SameReg a d := (h1.chain h2).chain h3

theorem resizeclient_sameReg (s : State) (c : Nat) (x y w h : Int) :
    SameReg s (resizeclient s c x y w h) :=
  setClient_sameReg s c _ (by rfl)

theorem resizeclient_sameTags (s : State) (c : Nat) (x y w h : Int) :
    SameTags s (resizeclient s c x y w h) :=
  setClient_sameTags s c _ (by rfl)

theorem setfullscreen_sameReg (s : State) (c : Nat) (b : Bool) :
    SameReg s (setfullscreen s c b) ∧ SameTags s (setfullscreen s c b) := by
  unfold setfullscreen
  simp only []
  cases b with
  | true =>
    simp only [↓reduceIte]
    exact ⟨(setClient_sameReg s c _ (by rfl)).chain (resizeclient_sameReg _ c _ _ _ _),
      sameTags_trans (setClient_sameTags s c _ (by rfl)) (resizeclient_sameTags _ c _ _ _ _)⟩
  | false =>
    simp only [Bool.false_eq_true, ↓reduceIte]
    exact ⟨sameReg_chain3 (setClient_sameReg s c _ (by rfl)) (resizeclient_sameReg _ c _ _ _ _)
        (arrange_frame _ _).sameReg,
      sameTags_trans (sameTags_trans (setClient_sameTags s c _ (by rfl))
        (resizeclient_sameTags _ c _ _ _ _)) (arrange_sameTags _ _)⟩

theorem sameReg_tagsValid {s s' : State} (h : SameReg s s') (ht : SameTags s s')
    (hv : TagsValid s) : TagsValid s' :=
  tagsValid_same s s' hv ht (fun m hm => by rw [h.1] at hm; exact hm)
    (fun x hx => by rw [sameReg_managed h] at hx; exact hx)

/-- The function `clientmessage` keeps the registry invariant and tag validity. -/
theorem clientmessage_inv (s : State) (cme : XClientMessageEvent) (h : RegistryInv s)
    (hv : TagsValid s) :
    RegistryInv (clientmessage s cme) ∧ TagsValid (clientmessage s cme) := by
  unfold clientmessage
  cases hw : wintoclient s cme.window with
  | none => exact ⟨h, hv⟩
  | some c =>
    have hc : c ∈ managed s := wintoclient_managed s _ c hw
    simp only []
    cases cme.message_type with
    | other => exact ⟨h, hv⟩
    | NetWMState =>
      simp only []
      split
      · obtain ⟨r1, r2⟩ := setfullscreen_sameReg s c
          (decide (cme.l0 = 1) || (decide (cme.l0 = 2) && !(s.client c).isfullscreen))
        exact ⟨r1.inv h, sameReg_tagsValid r1 r2 hv⟩
      · exact ⟨h, hv⟩
    | NetActiveWindow =>
      simp only []
      have hmon : (s.client c).mon ∈ s.mons := (h.of_managed hc).1
      have h1 : RegistryInv (if (!ISVISIBLE s c) = true then
            s.setMon (s.client c).mon
              ((s.monitor (s.client c).mon).fliptag.setcurtag (s.client c).tag)
          else s)
          ∧ TagsValid (if (!ISVISIBLE s c) = true then
            s.setMon (s.client c).mon
              ((s.monitor (s.client c).mon).fliptag.setcurtag (s.client c).tag)
          else s)
          ∧ c ∈ managed (if (!ISVISIBLE s c) = true then
            s.setMon (s.client c).mon
              ((s.monitor (s.client c).mon).fliptag.setcurtag (s.client c).tag)
          else s) := by
        split
        · have hs := setMon_lists_sameReg s (s.client c).mon
            ((s.monitor (s.client c).mon).fliptag.setcurtag (s.client c).tag)
            (fliptag_lists _ _).2
          refine ⟨hs.inv h, ?_, by rw [sameReg_managed hs]; exact hc⟩
          refine tagsValid_transfer _ _ (sameTags_refl _) ?_ ?_
          · intro m hm
            have hm' : m ∈ s.mons := hm
            by_cases e : m = (s.client c).mon
            · rw [e, setMon_monitor_self]
              exact slotsOk_setcurtag _ _ (slotsOk_fliptag _ (hv.1 _ hmon)) (hv.2 c hc)
            · rw [setMon_monitor_ne _ _ _ _ e]; exact hv.1 m hm'
          · intro x hx
            rw [sameReg_managed hs] at hx
            exact hv.2 x hx
        · exact ⟨h, hv, hc⟩
      generalize (if (!ISVISIBLE s c) = true then
            s.setMon (s.client c).mon
              ((s.monitor (s.client c).mon).fliptag.setcurtag (s.client c).tag)
          else s) = s1 at h1
      exact ⟨pop_inv s1 c h1.1 h1.2.2, pop_tagsValid s1 c h1.2.1 h1.2.2⟩

theorem clientsOnly_refl (s : State) : ClientsOnly s s := ⟨rfl, rfl⟩

theorem clientsOnly_trans {a b c : State} (h1 : ClientsOnly a b) (h2 : ClientsOnly b c) :
    ClientsOnly a c := ⟨h2.1.trans h1.1, h2.2.trans h1.2⟩

theorem setClient_clientsOnly (s : State) (c : Nat) (v : Client) :
    ClientsOnly s (s.setClient c v) := ⟨rfl, rfl⟩

theorem clientsOnly_managed {s s' : State} (h : ClientsOnly s s') : managed s' = managed s := by
  unfold managed
  rw [h.1, h.2]

theorem rulestep_mon_mem (s : State) (cls inst : String) (C : Client) (r : Rule)
    (h : C.mon ∈ s.mons) : (rulestep s cls inst C r).mon ∈ s.mons := by
  unfold rulestep
  split
  · simp only []
    cases hf : s.mons.find? (fun m => decide ((s.monitor m).num = r.monitor)) with
    | none => exact h
    | some m => exact List.mem_of_find?_eq_some hf
  · exact h

theorem rulefold_mon_mem (s : State) (cls inst : String) (rules : List Rule) (C : Client)
    (h : C.mon ∈ s.mons) : (rules.foldl (rulestep s cls inst) C).mon ∈ s.mons := by
  induction rules generalizing C with
  | nil => exact h
  | cons r rs ih =>
    rw [List.foldl_cons]
    exact ih _ (rulestep_mon_mem s cls inst C r h)

/-- The tag `applyrules` leaves is a configured tag when the slots of the monitors are
valid and the client names a monitor of the chain. -/
theorem applyrules_tag_valid (rules : List Rule) (s : State) (c : Nat) (a b : Option String)
    (hs : ∀ m ∈ s.mons, SlotsOk (s.monitor m)) (hm : (s.client c).mon ∈ s.mons) :
    ((applyrules rules s c a b).client c).tag < LENGTH_tags := by
  rw [applyrules_eq]
  simp only [setClient_client_self]
  have hD := rulefold_mon_mem s (a.getD broken) (b.getD broken) rules
    { s.client c with isfloating := false, tag := 4294967295 } hm
  generalize rules.foldl (rulestep s (a.getD broken) (b.getD broken))
    { s.client c with isfloating := false, tag := 4294967295 } = D at hD
  split
  · exact curtag_lt _ (hs _ hD)
  · rename_i hlt
    simpa using hlt

theorem applyrules_clientsOnly (rules : List Rule) (s : State) (c : Nat) (a b : Option String) :
    ClientsOnly s (applyrules rules s c a b)
    ∧ ∀ x, x ≠ c → (applyrules rules s c a b).client x = s.client x := by
  rw [applyrules_eq]
  exact ⟨setClient_clientsOnly _ _ _, fun x hx => setClient_client_ne _ _ _ _ hx⟩

theorem managenew_spec (rules : List Rule) (s : State) (c w : Nat) (info : WindowInfo)
    (h : RegistryInv s) (hv : TagsValid s) :
    ClientsOnly s (managenew rules s c w info)
    ∧ (∀ x, x ≠ c → (managenew rules s c w info).client x = s.client x)
    ∧ ((managenew rules s c w info).client c).tag < LENGTH_tags := by
  unfold managenew
  simp only []
  split
  · rename_i t ht
    have htm : t ∈ managed s := by
      cases hi : info.trans with
      | none => rw [hi] at ht; cases ht
      | some tw => rw [hi] at ht; exact wintoclient_managed s tw t ht
    refine ⟨setClient_clientsOnly _ _ _, fun x hx => setClient_client_ne _ _ _ _ hx, ?_⟩
    simp only [setClient_client_self]
    exact hv.2 t htm
  · refine ⟨clientsOnly_trans (setClient_clientsOnly s c _)
        (applyrules_clientsOnly rules _ c info.res_class info.res_name).1, ?_, ?_⟩
    · intro x hx
      rw [(applyrules_clientsOnly rules _ c info.res_class info.res_name).2 x hx,
        setClient_client_ne _ _ _ _ hx]
    · apply applyrules_tag_valid
      · intro m hm; exact hv.1 m hm
      · simp only [setClient_client_self]
        exact h.2.1

theorem managegeometry_spec (s : State) (c : Nat) (wa : XWindowAttributes) :
    ClientsOnly s (managegeometry s c wa) ∧ SameTags s (managegeometry s c wa)
    ∧ ∀ x, x ≠ c → (managegeometry s c wa).client x = s.client x := by
  unfold managegeometry
  simp only []
  refine ⟨setClient_clientsOnly _ _ _, setClient_sameTags _ _ _ ?_,
    fun _ hx => setClient_client_ne _ _ _ _ hx⟩
  split_ifs <;> rfl

theorem updatesizehints_tag (C : Client) (size : Option XSizeHints) :
    (updatesizehints C size).tag = C.tag := by
  unfold updatesizehints
  simp only []
  split_ifs <;> rfl

theorem setClient_spec (s : State) (c : Nat) (v : Client) (h : v.tag = (s.client c).tag) :
    ClientsOnly s (s.setClient c v) ∧ SameTags s (s.setClient c v)
    ∧ ∀ x, x ≠ c → (s.setClient c v).client x = s.client x :=
  ⟨setClient_clientsOnly _ _ _, setClient_sameTags _ _ _ h,
    fun _ hx => setClient_client_ne _ _ _ _ hx⟩

theorem spec_trans {a b d : State} {c : Nat}
    (h1 : ClientsOnly a b ∧ SameTags a b ∧ ∀ x, x ≠ c → b.client x = a.client x)
    (h2 : ClientsOnly b d ∧ SameTags b d ∧ ∀ x, x ≠ c → d.client x = b.client x) :
    ClientsOnly a d ∧ SameTags a d ∧ ∀ x, x ≠ c → d.client x = a.client x :=
  ⟨clientsOnly_trans h1.1 h2.1, sameTags_trans h1.2.1 h2.2.1,
    fun x hx => (h2.2.2 x hx).trans (h1.2.2 x hx)⟩

theorem spec_refl (s : State) (c : Nat) :
    ClientsOnly s s ∧ SameTags s s ∧ ∀ x, x ≠ c → s.client x = s.client x :=
  ⟨clientsOnly_refl s, sameTags_refl s, fun _ _ => rfl⟩

theorem manageprops_spec (s : State) (c : Nat) (info : WindowInfo) :
    ClientsOnly s (manageprops s c info) ∧ SameTags s (manageprops s c info)
    ∧ ∀ x, x ≠ c → (manageprops s c info).client x = s.client x := by
  unfold manageprops
  simp only []
  have h2 : ClientsOnly s (updatewindowtype s c info.fullscreen info.dialog)
      ∧ SameTags s (updatewindowtype s c info.fullscreen info.dialog)
      ∧ ∀ x, x ≠ c → (updatewindowtype s c info.fullscreen info.dialog).client x
          = s.client x := by
    unfold updatewindowtype
    simp only []
    have h1 : ClientsOnly s (if info.fullscreen = true then setfullscreen s c true else s)
        ∧ SameTags s (if info.fullscreen = true then setfullscreen s c true else s)
        ∧ ∀ x, x ≠ c → (if info.fullscreen = true then setfullscreen s c true else s).client x
            = s.client x := by
      split
      · unfold setfullscreen
        simp only [↓reduceIte]
        exact spec_trans (setClient_spec s c _ (by rfl)) (setClient_spec _ c _ (by rfl))
      · exact spec_refl s c
    generalize (if info.fullscreen = true then setfullscreen s c true else s) = s1 at h1
    split
    · exact spec_trans h1 (setClient_spec s1 c _ (by rfl))
    · exact h1
  generalize updatewindowtype s c info.fullscreen info.dialog = s2 at h2
  have h3 := spec_trans h2 (setClient_spec s2 c (updatesizehints (s2.client c) info.size)
    (updatesizehints_tag _ _))
  generalize s2.setClient c (updatesizehints (s2.client c) info.size) = s3 at h3
  have h4 : ClientsOnly s (updatewmhints s3 c info.wmh) ∧ SameTags s (updatewmhints s3 c info.wmh)
      ∧ ∀ x, x ≠ c → (updatewmhints s3 c info.wmh).client x = s.client x := by
    unfold updatewmhints
    cases info.wmh with
    | none => exact h3
    | some hints =>
      simp only []
      refine spec_trans h3 (setClient_spec s3 c _ ?_)
      split <;> rfl
  generalize updatewmhints s3 c info.wmh = s4 at h4
  split
  · exact h4
  · exact spec_trans h4 (setClient_spec s4 c _ (by rfl))

/-- The function `manage` keeps tag validity. -/
theorem manage_tagsValid (rules : List Rule) (s : State) (c w : Nat) (wa : XWindowAttributes)
    (info : WindowInfo) (h : RegistryInv s) (hv : TagsValid s) :
    TagsValid (manage rules s c w wa info) := by
  obtain ⟨n1, n2, n3⟩ := managenew_spec rules s c w info h hv
  have g := spec_trans (managegeometry_spec (managenew rules s c w info) c wa)
    (manageprops_spec (managegeometry (managenew rules s c w info) c wa) c info)
  unfold manage
  simp only []
  generalize manageprops (managegeometry (managenew rules s c w info) c wa) c info = s5 at g
  have k5 : ClientsOnly s s5 := clientsOnly_trans n1 g.1
  apply focus_tagsValid
  apply arrange_tagsValid
  obtain ⟨p1, _, p3, _⟩ := attach_attachstack_obs s5 c
  refine tagsValid_transfer s5 _ (sameTags_trans (sameTags_trans (attach_sameTags s5 c)
    (attachstack_sameTags _ c)) (setMon_sameTags _ _ _ ⟨rfl, rfl, rfl⟩)) ?_ ?_
  · intro m hm
    have hm1 : m ∈ (attachstack (attach s5 c) c).mons := hm
    rw [p1, k5.1] at hm1
    rw [k5.2]
    exact hv.1 m hm1
  · intro x hx
    rw [setMon_managed _ _ _ (by rfl)] at hx
    rcases attach_attachstack_managed s5 c x hx with e | hx'
    · rw [e, g.2.1.1 c]
      exact n3
    · rw [clientsOnly_managed k5] at hx'
      by_cases e : x = c
      · rw [e, g.2.1.1 c]
        exact n3
      · rw [g.2.2 x e, n2 x e]
        exact hv.2 x hx'

theorem addmons_tagsValid (k : Nat) (s : State) (h : TagsValid s) : TagsValid (addmons k s) := by
  obtain ⟨new, a1, _, a3, _, a5, a6, a7, _, _⟩ := addmons_spec k s
  constructor
  · intro m hm
    rw [a1] at hm
    by_cases hn : m ∈ new
    · rw [a5 m hn]; exact createmon_slotsOk
    · rw [a6 m hn]
      rcases List.mem_append.mp hm with h1 | h1
      · exact h.1 m h1
      · exact absurd h1 hn
  · intro x hx
    rw [managed_iff] at hx
    obtain ⟨m, hm, hxm⟩ := hx
    rw [a1] at hm
    rw [a7]
    by_cases hn : m ∈ new
    · rw [a5 m hn] at hxm
      cases hxm
    · rw [a6 m hn] at hxm
      rcases List.mem_append.mp hm with h1 | h1
      · exact h.2 x ((managed_iff s x).mpr ⟨m, h1, hxm⟩)
      · exact absurd h1 hn

theorem updatebarpos_slots (bh : Int) (M : Monitor) :
    (updatebarpos bh M).seltag = M.seltag ∧ (updatebarpos bh M).tag0 = M.tag0
      ∧ (updatebarpos bh M).tag1 = M.tag1 := by
  unfold updatebarpos
  simp only []
  split <;> exact ⟨rfl, rfl, rfl⟩

theorem setgeoms_sameTags (n : Nat) (ms : List Nat) (us : List XineramaScreenInfo) (i : Nat)
    (r : State × Bool) : SameTags r.1 (setgeoms n ms us i r).1 := by
  induction ms generalizing us i r with
  | nil =>
    have e : setgeoms n [] us i r = r := by cases us <;> simp [setgeoms]
    rw [e]; exact sameTags_refl _
  | cons m ms ih =>
    cases us with
    | nil =>
      have e : setgeoms n (m :: ms) [] i r = r := by simp [setgeoms]
      rw [e]; exact sameTags_refl _
    | cons u us =>
      obtain ⟨s, d⟩ := r
      simp only [setgeoms]
      split
      · refine sameTags_trans ?_ (ih us (i + 1) _)
        exact setMon_sameTags s m _ (updatebarpos_slots _ _)
      · exact ih us (i + 1) (s, d)

theorem updategeomend_tagsValid (ptr : Option (Int × Int)) (sd : State × Bool)
    (h : TagsValid sd.1) : TagsValid (updategeomend ptr sd).1 := by
  obtain ⟨f1, f2, f3, _, _⟩ := updategeomend_fields ptr sd
  refine tagsValid_same sd.1 _ h ⟨fun c => by rw [f2], fun m => by rw [f1]; exact ⟨rfl, rfl, rfl⟩⟩
    (fun m hm => by rw [f3] at hm; exact hm) ?_
  intro x hx
  unfold managed at hx ⊢
  rw [f3, f1] at hx
  exact hx

/-- The function `updategeom` keeps tag validity, provided Xinerama, when it is active,
reports at least one screen. -/
theorem updategeom_tagsValid (s : State) (xin : Option (List XineramaScreenInfo))
    (ptr : Option (Int × Int)) (s' : State) (d : Bool) (h : RegistryInv s) (hv : TagsValid s)
    (hx : xin ≠ some []) (he : updategeom s xin ptr = some (s', d)) : TagsValid s' := by
  cases xin with
  | some info =>
    have hinfo : info ≠ [] := fun e => hx (by rw [e])
    have hnn : 1 ≤ (uniquegeoms info).length :=
      List.length_pos.mpr (uniquegeoms_ne_nil info hinfo)
    by_cases hle : s.mons.length ≤ (uniquegeoms info).length
    · rw [updategeom_grow_eq s info ptr hle] at he
      simp only [Option.some.injEq] at he
      have h1 := addmons_tagsValid ((uniquegeoms info).length - s.mons.length) s hv
      have h2 : TagsValid (setgeoms s.mons.length
          (addmons ((uniquegeoms info).length - s.mons.length) s).mons (uniquegeoms info) 0
          (addmons ((uniquegeoms info).length - s.mons.length) s, false)).1 :=
        sameReg_tagsValid (setgeoms_sameReg _ _ _ _ _) (setgeoms_sameTags _ _ _ _ _) h1
      have h3 := updategeomend_tagsValid ptr _ h2
      rw [he] at h3
      exact h3
    · obtain ⟨t, dt, e, _, hm, hmv, _⟩ := updategeom_shrink_spec s info ptr h hnn (by omega)
      rw [e] at he
      simp only [Option.some.injEq, Prod.mk.injEq] at he
      rw [← he.1]
      refine tagsValid_same s t hv hmv.2.2.2.2.2 ?_ ?_
      · intro m hm'
        rw [hm] at hm'
        exact List.mem_of_mem_take hm'
      · intro x hx'
        exact (movedTo_managed s t _ h hnn hm hmv x).mp hx'
  | none =>
    unfold updategeom at he
    simp only [] at he
    have hne : s.mons ≠ [] := List.ne_nil_of_mem h.2.1
    simp only [hne, ↓reduceIte] at he
    split at he
    · simp only [Option.map_some', Option.some.injEq] at he
      have h2 : TagsValid (s.setMon (s.mons.headD 0) (updatebarpos s.bh
          { s.monitor (s.mons.headD 0) with mw := s.sw, ww := s.sw, mh := s.sh,
                                            wh := s.sh })) :=
        sameReg_tagsValid (setMon_lists_sameReg _ _ _ (updatebarpos_lists s.bh
          { s.monitor (s.mons.headD 0) with mw := s.sw, ww := s.sw, mh := s.sh,
                                            wh := s.sh }))
          (setMon_sameTags _ _ _ (updatebarpos_slots s.bh
          { s.monitor (s.mons.headD 0) with mw := s.sw, ww := s.sw, mh := s.sh,
                                            wh := s.sh })) hv
      rw [show s' = (s', d).1 from rfl, ← he]
      exact updategeomend_tagsValid ptr (_, true) h2
    · simp only [Option.map_some', Option.some.injEq] at he
      rw [show s' = (s', d).1 from rfl, ← he]
      exact updategeomend_tagsValid ptr (s, false) hv

theorem Runs.invariants {rules : List Rule} {s : State} (h : Runs rules s) :
    RegistryInv s ∧ TagsValid s := by
  induction h with
  | start s h1 h2 h3 =>
    refine ⟨⟨h1, h2, fun m hm => ?_⟩, ⟨fun m hm => ?_, fun c hc => ?_⟩⟩
    · rw [(h3 m hm).1, (h3 m hm).2.1]
      exact ⟨List.nodup_nil, List.Perm.refl _, fun c hc => absurd hc (List.not_mem_nil c)⟩
    · exact slotsOk_of_slots (h3 m hm).2.2 createmon_slotsOk
    · obtain ⟨m, hm, hcm⟩ := (managed_iff s c).mp hc
      rw [(h3 m hm).1] at hcm
      cases hcm
  | manage s c w wa info _ hc ih =>
    exact ⟨manage_inv rules s c w wa info ih.1 hc, manage_tagsValid rules s c w wa info ih.1 ih.2⟩
  | unmanage s c _ ih => exact ⟨unmanage_inv s c ih.1, unmanage_tagsValid s c ih.2⟩
  | sendmon s c m _ hm ih => exact ⟨sendmon_inv s c m ih.1 hm, sendmon_tagsValid s c m ih.2 hm⟩
  | pop s c _ hc ih => exact ⟨pop_inv s c ih.1 hc, pop_tagsValid s c ih.2 hc⟩
  | focus s c _ hc ih => exact ⟨focus_inv s c ih.1 hc, focus_tagsValid s c ih.2⟩
  | tag s ui _ ih => exact ⟨tag_inv s ui ih.1, tag_tagsValid s ui ih.2⟩
  | view s ui _ ih => exact ⟨(view_inv s ui ih.1).1, view_tagsValid s ui ih.1 ih.2⟩
  | cycleview s i _ ih => exact ⟨(cycleview_inv s i ih.1).1, cycleview_tagsValid s i ih.1 ih.2⟩
  | clientmessage s cme _ ih => exact clientmessage_inv s cme ih.1 ih.2
  | updategeom s xin ptr t d _ hx he ih =>
    exact ⟨updategeom_inv s xin ptr t d ih.1 hx he, updategeom_tagsValid s xin ptr t d ih.1 ih.2 hx he⟩

theorem bareState_runs (rules : List Rule) : Runs rules bareState :=
  Runs.start bareState (by decide) (by decide) (by
    intro m _
    exact ⟨rfl, rfl, rfl, rfl, rfl⟩)

/-- C20: in every state reached from a chain of monitors as `createmon` builds them
through `manage`, `unmanage`, `tag`, `sendmon`, `view`, `cycleview`, client messages,
`pop`, `focus` and `updategeom`, the tag of every managed client and both tag slots of
every monitor of the chain are below the number of configured tags. -/
theorem tags_valid (rules : List Rule) (s : State) (h : Runs rules s) : TagsValid s :=
  h.invariants.2

/-- C20, witness: a window managed under the rule of Scenario C, followed by `view` with
the sentinel and `cycleview(-5)`. -/
theorem tags_valid_witness :
    Runs [ruleFoo] (cycleview (view (manage [ruleFoo] bareState 7 42 plainAttributes plainWindow)
      allbits) (-5))
    ∧ TagsValid (cycleview (view (manage [ruleFoo] bareState 7 42 plainAttributes plainWindow)
      allbits) (-5)) :=
  ⟨Runs.cycleview _ _ (Runs.view _ _
      (Runs.manage bareState 7 42 _ _ (bareState_runs _) (by decide))),
   tags_valid [ruleFoo] _ (Runs.cycleview _ _ (Runs.view _ _
      (Runs.manage bareState 7 42 _ _ (bareState_runs _) (by decide))))⟩

/-! ## The function `focus` -/

theorem focustarget_eq (s : State) (c : Option Nat) : focustarget s c = focuscandidate s c := by
  unfold focustarget focuscandidate
  cases c with
  | none => simp only [firstvisible_eq_find]
  | some t => simp only [firstvisible_eq_find]

theorem filter_ne_erase (l : List Nat) (t : Nat) :
    (l.erase t).filter (fun a => a ≠ t) = l.filter (fun a => a ≠ t) := by
  induction l with
  | nil => rfl
  | cons b l ih =>
    by_cases e : b = t
    · subst e
      simp
    · have e' : (b == t) = false := by simpa using e
      rw [List.erase_cons, e']
      simp only [Bool.false_eq_true, ↓reduceIte, List.filter_cons, ih]

/-- The function `detachstack` as one write to the monitor record. -/
theorem detachstack_eq (s : State) (c : Nat) :
    detachstack s c = s.setMon (s.client c).mon
      { s.monitor (s.client c).mon with
          stack := (s.monitor (s.client c).mon).stack.erase c,
          sel := if (s.monitor (s.client c).mon).sel = some c
                 then firstvisible s ((s.monitor (s.client c).mon).stack.erase c)
                 else (s.monitor (s.client c).mon).sel } := by
  have hv : ∀ l, firstvisible (s.setMon (s.client c).mon
      { s.monitor (s.client c).mon with stack := (s.monitor (s.client c).mon).stack.erase c }) l
      = firstvisible s l := by
    intro l
    refine firstvisible_congr s _ l rfl ?_
    intro a
    by_cases e : a = (s.client c).mon
    · subst e; simp [Monitor.curtag]
    · rw [setMon_monitor_ne _ _ _ _ e]
  unfold detachstack
  simp only [setMon_monitor_self]
  by_cases hsel : (s.monitor (s.client c).mon).sel = some c
  · rw [if_pos hsel, if_pos hsel, hv]
    simp only [State.setMon, Function.update_idem]
  · rw [if_neg hsel, if_neg hsel]

/-- The statements `detachstack(t); attachstack(t); t->mon->sel = t` as one write. -/
theorem restack_head (s : State) (t : Nat) :
    (attachstack (detachstack s t) t).setMon (s.client t).mon
        { (attachstack (detachstack s t) t).monitor (s.client t).mon with sel := some t }
      = s.setMon (s.client t).mon
          { s.monitor (s.client t).mon with
              stack := t :: (s.monitor (s.client t).mon).stack.erase t, sel := some t } := by
  have hc : (detachstack s t).client = s.client := (detachstack_selmon s t).2.2
  unfold attachstack
  simp only [hc]
  rw [detachstack_eq]
  simp only [State.setMon, Function.update_idem, Function.update_same]

/-- What `focus` leaves when its candidate is the client `t`: the monitor of `t` is
selected, selects `t` and has `t` at the head of its focus stack; the urgent flag of `t` is
down; nothing else changes. -/
theorem focus_some_eq (s : State) (c : Option Nat) (t : Nat) (h : focuscandidate s c = some t) :
    focus s c =
      { s with
          selmon := (s.client t).mon,
          monitor := Function.update s.monitor (s.client t).mon
            { s.monitor (s.client t).mon with
                stack := t :: (s.monitor (s.client t).mon).stack.erase t, sel := some t },
          client := Function.update s.client t { s.client t with isurgent := false } } := by
  have hcl : ∀ (C : Client), C.isurgent = false → { C with isurgent := false } = C := by
    intro C hC
    cases C
    simp only [Client.mk.injEq, true_and, and_true] at *
    simp_all
  -- the state after the first two statements
  have key : ∀ (s2 : State), (s2.client t).mon = s2.selmon →
      (attachstack (detachstack s2 t) t).setMon (attachstack (detachstack s2 t) t).selmon
        { (attachstack (detachstack s2 t) t).monitor (attachstack (detachstack s2 t) t).selmon
            with sel := some t }
      = s2.setMon (s2.client t).mon
          { s2.monitor (s2.client t).mon with
              stack := t :: (s2.monitor (s2.client t).mon).stack.erase t, sel := some t } := by
    intro s2 h2
    have e : (attachstack (detachstack s2 t) t).selmon = (s2.client t).mon := by
      rw [h2]
      exact (detachstack_selmon s2 t).1
    rw [e]
    exact restack_head s2 t
  have e1 : (if (s.client t).mon ≠ s.selmon then { s with selmon := (s.client t).mon } else s)
      = { s with selmon := (s.client t).mon } := by
    split
    · rfl
    · rename_i hne
      have hm : (s.client t).mon = s.selmon := not_not.mp hne
      rw [hm]
  have e2 : ∀ (s1 : State), (if (s1.client t).isurgent = true then clearurgent s1 t else s1)
      = s1.setClient t { s1.client t with isurgent := false } := by
    intro s1
    split
    · rfl
    · rename_i hu
      have hu' : (s1.client t).isurgent = false := by simpa using hu
      unfold State.setClient
      rw [hcl _ hu', Function.update_eq_self]
  unfold focus
  rw [h]
  simp only []
  rw [e1, e2, key _ (by simp [State.setClient])]
  simp [State.setMon, State.setClient]

/-- What `focus` leaves when it has no candidate. -/
theorem focus_none_eq (s : State) (c : Option Nat) (h : focuscandidate s c = none) :
    focus s c = s.setMon s.selmon { s.monitor s.selmon with sel := none } := by
  unfold focus
  rw [h]

/-- C21: for every state and every argument `c`, with `c'` the argument when it is
non-null and visible and else the first visible client of the focus stack of the selected
monitor: after `focus(c)` the selected monitor is the monitor of `c'` and selects `c'`
(it is the old selected monitor and selects nothing when there is no `c'`); `c'` is the
head of the focus stack of its monitor, the other clients of that stack keep their order,
the urgent flag of `c'` is down, and the client list of every monitor is as before. -/
theorem focus_selects (s : State) (c : Option Nat) : FocusSpec s c := by
  refine ⟨?_, ?_, fun m => (focus_clients s c m).2⟩
  · intro hn
    rw [focustarget_eq] at hn
    rw [focus_none_eq s c hn]
    exact ⟨rfl, by simp [State.setMon]⟩
  · intro t ht
    rw [focustarget_eq] at ht
    rw [focus_some_eq s c t ht]
    refine ⟨?_, rfl, ?_, ?_, ?_, ?_⟩
    · simp
    · simp
    · simp
    · simp only [Function.update_same]
      rw [List.filter_cons]
      simp only [ne_eq, not_true_eq_false, decide_False, Bool.false_eq_true, ↓reduceIte]
      exact filter_ne_erase _ t
    · simp

/-- C21, instance: `focus(1)` on `urgentState`, where client 1 is not visible, selects
client 2, the first visible client of the stack, moves it to the head and clears its
urgent flag. -/
theorem focus_selects_witness :
    ((focus urgentState (some 1)).monitor 0).sel = some 2
    ∧ ((focus urgentState (some 1)).monitor 0).stack = [2, 1, 3]
    ∧ ((focus urgentState (some 1)).client 2).isurgent = false := by
  have h := (focus_selects urgentState (some 1)).2.1 2 (by decide)
  refine ⟨h.2.2.1, ?_, h.2.2.2.2.2⟩
  rw [focus_some_eq urgentState (some 1) 2 (by decide)]
  decide

/-- What a frame keeps of the monitor records. -/
theorem Frame.lists {s s' : State} (h : Frame s s') (m : Nat) :
    (s'.monitor m).clients = (s.monitor m).clients ∧ (s'.monitor m).stack = (s.monitor m).stack
      ∧ (s'.monitor m).sel = (s.monitor m).sel
      ∧ (s'.monitor m).curtag = (s.monitor m).curtag := by
  have := layoutless_fields (h.2.2.2.2.2.1 m)
  exact ⟨this.1, this.2.1, this.2.2.1, this.2.2.2.1⟩

/-- What a frame keeps of the client records. -/
theorem Frame.owner {s s' : State} (h : Frame s s') (c : Nat) :
    (s'.client c).mon = (s.client c).mon ∧ (s'.client c).tag = (s.client c).tag := by
  have := geomless_fields (h.2.2.2.2.2.2 c)
  exact ⟨this.2.2.1, this.2.1⟩

/-- The monitor records after `focus`: the client lists stay, and only the selected
monitor changes its stack and its selection. -/
theorem focus_monitors (s : State) (c : Option Nat) :
    (focus s c).mons = s.mons
    ∧ (∀ x, ((focus s c).client x).mon = (s.client x).mon
        ∧ ((focus s c).client x).tag = (s.client x).tag)
    ∧ (∀ a, ((focus s c).monitor a).clients = (s.monitor a).clients
        ∧ ((focus s c).monitor a).curtag = (s.monitor a).curtag)
    ∧ (∀ a, a ≠ (focus s c).selmon → (focus s c).monitor a = s.monitor a)
    ∧ (focuscandidate s c = none →
        (focus s c).selmon = s.selmon
        ∧ ((focus s c).monitor s.selmon).stack = (s.monitor s.selmon).stack
        ∧ ((focus s c).monitor s.selmon).sel = none)
    ∧ (∀ t, focuscandidate s c = some t →
        (focus s c).selmon = (s.client t).mon
        ∧ ((focus s c).monitor (s.client t).mon).stack
            = t :: (s.monitor (s.client t).mon).stack.erase t
        ∧ ((focus s c).monitor (s.client t).mon).sel = some t) := by
  cases hc : focuscandidate s c with
  | none =>
    rw [focus_none_eq s c hc]
    refine ⟨rfl, fun _ => ⟨rfl, rfl⟩, fun a => ?_, fun a ha => ?_, fun _ => ?_, fun t ht => ?_⟩
    · by_cases e : a = s.selmon
      · subst e; simp [Monitor.curtag]
      · rw [setMon_monitor_ne _ _ _ _ e]; exact ⟨rfl, rfl⟩
    · exact setMon_monitor_ne _ _ _ _ ha
    · exact ⟨rfl, by simp, by simp⟩
    · cases ht
  | some t =>
    rw [focus_some_eq s c t hc]
    refine ⟨rfl, fun x => ?_, fun a => ?_, fun a ha => ?_, fun h => ?_, fun t' ht' => ?_⟩
    · by_cases e : x = t
      · subst e; simp
      · simp [Function.update_noteq e]
    · by_cases e : a = (s.client t).mon
      · subst e; simp [Monitor.curtag]
      · simp [Function.update_noteq e]
    · simp only [] at ha
      simp [Function.update_noteq ha]
    · cases h
    · cases ht'
      exact ⟨rfl, by simp, by simp⟩

/-! ## Snapping in `mousemove` -/

theorem snaprule_x (s : State) (c : Nat) (nx ny : Int) :
    SnapRule (s.monitor s.selmon).wx (s.monitor s.selmon).ww (WIDTH (s.client c)) nx
      (mousemovesnap s c nx ny).1 := by
  unfold SnapRule mousemovesnap
  simp only []
  refine ⟨fun h => ?_, fun h1 h2 => ?_, fun h1 h2 => ?_⟩
  · rw [if_pos h]
  · rw [if_neg h1, if_pos h2]; omega
  · rw [if_neg h1, if_neg h2]

theorem snaprule_y (s : State) (c : Nat) (nx ny : Int) :
    SnapRule (s.monitor s.selmon).wy (s.monitor s.selmon).wh (HEIGHT (s.client c)) ny
      (mousemovesnap s c nx ny).2 := by
  unfold SnapRule mousemovesnap
  simp only []
  refine ⟨fun h => ?_, fun h1 h2 => ?_, fun h1 h2 => ?_⟩
  · rw [if_pos h]
  · rw [if_neg h1, if_pos h2]; omega
  · rw [if_neg h1, if_neg h2]

/-- Inside the work area the snapped candidate stays between the near edge and the far
edge of the work area, or it has the far edge of the client on the far edge of the work
area. -/
theorem snap_range (lo len W p q : Int) (h : SnapRule lo len W p q) (h1 : lo ≤ p)
    (h2 : p ≤ lo + len) : (lo ≤ q ∧ q ≤ lo + len) ∨ q + W = lo + len := by
  obtain ⟨a, b, c⟩ := h
  by_cases e1 : iabs (lo - p) < snap
  · left; rw [a e1]; omega
  · by_cases e2 : iabs (lo + len - (p + W)) < snap
    · right; exact b e1 e2
    · left; rw [c e1 e2]; omega

/-- In interactive mode the resolver keeps a position on the display. -/
theorem clampPos_keep (s lo len W bw p d : Int) (h1 : p ≤ s) (h2 : 0 ≤ p + max 1 d + 2 * bw) :
    clampPos true s lo len W bw p d = p := by
  unfold clampPos
  simp only [↓reduceIte]
  split_ifs <;> omega

/-- The size hints read only the hint cells of the record. -/
theorem hintsize_congr {a b : Client} (h : a.geomless = b.geomless) (w v : Int) :
    hintsize a w v = hintsize b w v := by
  have ea : hintsize a w v = hintsize a.geomless w v := rfl
  have eb : hintsize b w v = hintsize b.geomless w v := rfl
  rw [ea, eb, h]

/-- The resolver returns a settled size of a floating client as it is. -/
theorem applysizehints_settled (sw sh bh : Int) (m : Monitor) (C : Client) (x y : Int)
    (i : Bool) (hs : SizeSettled bh C) :
    (applysizehints sw sh bh m C x y C.w C.h i).w = C.w
    ∧ (applysizehints sw sh bh m C x y C.w C.h i).h = C.h := by
  obtain ⟨h1, h2, h3⟩ := hs
  have e := applysizehints_size sw sh bh m C x y C.w C.h i
  rw [h1, h2, h3] at e
  simp only [ite_self] at e
  exact ⟨congrArg Prod.fst e, congrArg Prod.snd e⟩

/-- A resize of any client at its stored size leaves a client of settled size with its
size, and settled. -/
theorem resize_settled (t : State) (c k : Nat) (x y : Int) (i : Bool)
    (hs : SizeSettled t.bh (t.client c)) :
    SizeSettled (resize t k x y (t.client k).w (t.client k).h i).bh
        ((resize t k x y (t.client k).w (t.client k).h i).client c)
    ∧ ((resize t k x y (t.client k).w (t.client k).h i).client c).w = (t.client c).w
    ∧ ((resize t k x y (t.client k).w (t.client k).h i).client c).h = (t.client c).h := by
  have hfr := resize_frame t k x y (t.client k).w (t.client k).h i
  have hbh : (resize t k x y (t.client k).w (t.client k).h i).bh = t.bh := hfr.2.2.1
  by_cases hk : c = k
  · subst hk
    obtain ⟨_, _, r3, r4⟩ := resize_client_self t c x y (t.client c).w (t.client c).h i
    obtain ⟨a1, a2⟩ := applysizehints_settled t.sw t.sh t.bh (t.monitor (t.client c).mon)
      (t.client c) x y i hs
    have ew := r3.trans a1
    have eh := r4.trans a2
    refine ⟨?_, ew, eh⟩
    obtain ⟨h1, h2, h3⟩ := hs
    unfold SizeSettled
    rw [hbh, ew, eh, hintsize_congr (hfr.2.2.2.2.2.2 c)]
    exact ⟨h1, h2, h3⟩
  · rw [resize_client_ne _ _ _ _ _ _ _ _ hk, hbh]
    exact ⟨hs, rfl, rfl⟩

theorem showhide_settled (l : List Nat) (t : State) (c : Nat)
    (hs : SizeSettled t.bh (t.client c)) :
    SizeSettled (showhide l t).bh ((showhide l t).client c)
    ∧ ((showhide l t).client c).w = (t.client c).w
    ∧ ((showhide l t).client c).h = (t.client c).h := by
  induction l generalizing t with
  | nil => exact ⟨hs, rfl, rfl⟩
  | cons k ks ih =>
    simp only [showhide]
    split
    · split
      · obtain ⟨a1, a2, a3⟩ :=
          resize_settled t c k (t.client k).x (t.client k).y false hs
        obtain ⟨b1, b2, b3⟩ := ih _ a1
        exact ⟨b1, b2.trans a2, b3.trans a3⟩
      · exact ih _ hs
    · exact ih _ hs

/-- The layouts leave the record of a floating client alone. -/
theorem arrangemon_client_floating (s : State) (m c : Nat)
    (hf : (s.client c).isfloating = true) : (arrangemon s m).client c = s.client c := by
  have hnot : ∀ (t : State), Frame s t → ∀ l, c ∉ tiledclients t l := by
    intro t ht l hin
    rw [tiledclients_frame ht] at hin
    have := mem_tiledclients hin
    rw [hf] at this
    simp at this
  simp only [arrangemon]
  split
  · have hfr : Frame s (s.setMon m ((s.monitor m).setTag
        { montotag (s.monitor m) with ltsymbol := "[0-0]" })) :=
      setMon_frame _ _ _ (setTag_layoutless _ _ rfl)
    exact (tile_client_skip _ m c (hnot _ hfr _)).trans rfl
  · split
    · have hfr : Frame s (s.setMon m ((s.monitor m).setTag
          { montotag (s.monitor m) with ltsymbol := "[0]" })) :=
        setMon_frame _ _ _ (setTag_layoutless _ _ rfl)
      exact (monocle_client_skip _ m c (hnot _ hfr _)).trans rfl
    · rfl

/-- The function `togglefloating` on a tiled selected client of settled size: the client
is floating afterwards, with its size and its border. -/
theorem togglefloating_promote (s : State) (c : Nat)
    (hsel : (s.monitor s.selmon).sel = some c) (hf : (s.client c).isfloating = false)
    (hs : SizeSettled s.bh (s.client c)) :
    ((togglefloating s).client c).isfloating = true
    ∧ ((togglefloating s).client c).w = (s.client c).w
    ∧ ((togglefloating s).client c).h = (s.client c).h
    ∧ ((togglefloating s).client c).bw = (s.client c).bw
    ∧ (togglefloating s).sw = s.sw ∧ (togglefloating s).sh = s.sh
    ∧ SizeSettled (togglefloating s).bh ((togglefloating s).client c) := by
  have e : togglefloating s
      = arrange
          (resize (s.setClient c { s.client c with isfloating := true }) c
            (s.client c).x (s.client c).y (s.client c).w (s.client c).h false)
          (some s.selmon) := by
    unfold togglefloating
    simp only [hsel, hf, Bool.not_false, Bool.true_or, setClient_client_self, ↓reduceIte]
    have hfr := resize_frame (s.setClient c { s.client c with isfloating := true }) c
      (s.client c).x (s.client c).y (s.client c).w (s.client c).h false
    rw [hfr.2.2.2.2.1]
    rfl
  have hs1 : SizeSettled (s.setClient c { s.client c with isfloating := true }).bh
      ((s.setClient c { s.client c with isfloating := true }).client c) := by
    rw [setClient_client_self]
    exact hs
  have k := resize_settled (s.setClient c { s.client c with isfloating := true }) c c
    (s.client c).x (s.client c).y false
  rw [setClient_client_self] at k
  obtain ⟨a1, a2, a3⟩ := k hs
  have hfr := resize_frame (s.setClient c { s.client c with isfloating := true }) c
    (s.client c).x (s.client c).y (s.client c).w (s.client c).h false
  generalize resize (s.setClient c { s.client c with isfloating := true }) c
    (s.client c).x (s.client c).y (s.client c).w (s.client c).h false = s2 at *
  have g := geomless_fields (hfr.2.2.2.2.2.2 c)
  rw [setClient_client_self] at g
  obtain ⟨b1, b2, b3⟩ := showhide_settled (s2.monitor s.selmon).stack s2 c a1
  have hfr2 := showhide_frame (s2.monitor s.selmon).stack s2
  have g2 := geomless_fields (hfr2.2.2.2.2.2.2 c)
  have hfl : ((showhide (s2.monitor s.selmon).stack s2).client c).isfloating = true := by
    rw [g2.1, g.1]
  have hfr3 := arrangemon_frame (showhide (s2.monitor s.selmon).stack s2) s.selmon
  rw [e]
  simp only [arrange]
  rw [arrangemon_client_floating _ _ _ hfl]
  refine ⟨hfl, b2.trans a2, b3.trans a3, ?_, ?_, ?_, ?_⟩
  · rw [g2.2.2.2.1, g.2.2.2.1]
  · rw [hfr3.1, hfr2.1, hfr.1]; rfl
  · rw [hfr3.2.1, hfr2.2.1, hfr.2.1]; rfl
  · rw [hfr3.2.2.1]
    exact b1

/-- The snap rule determines the position. -/
theorem snaprule_unique (lo len W p q r : Int) (h1 : SnapRule lo len W p q)
    (h2 : SnapRule lo len W p r) : q = r := by
  obtain ⟨a1, a2, a3⟩ := h1
  obtain ⟨b1, b2, b3⟩ := h2
  by_cases e1 : iabs (lo - p) < snap
  · rw [a1 e1, b1 e1]
  · by_cases e2 : iabs (lo + len - (p + W)) < snap
    · have := a2 e1 e2
      have := b2 e1 e2
      omega
    · rw [a3 e1 e2, b3 e1 e2]

/-- The test of `mousemove` for the promotion of a tiled client is the displacement of the
snapped candidate. -/
theorem displaced_iff (s : State) (c : Nat) (nx ny : Int) :
    Displaced s c nx ny ↔
      (iabs ((mousemovesnap s c nx ny).1 - (s.client c).x) > snap
        ∨ iabs ((mousemovesnap s c nx ny).2 - (s.client c).y) > snap) := by
  have hx := snaprule_x s c nx ny
  have hy := snaprule_y s c nx ny
  constructor
  · rintro ⟨qx, qy, h1, h2, h3⟩
    rw [snaprule_unique _ _ _ _ _ _ hx h1, snaprule_unique _ _ _ _ _ _ hy h2]
    exact h3
  · intro h
    exact ⟨_, _, hx, hy, h⟩

/-- An interactive resize of a floating client of settled size, at its size and at a
position on the display, places the client there and keeps its size. -/
theorem resize_place (t : State) (c : Nat) (px py : Int)
    (hs : SizeSettled t.bh (t.client c))
    (hx1 : px ≤ t.sw) (hx2 : 0 ≤ px + (t.client c).w + 2 * (t.client c).bw)
    (hy1 : py ≤ t.sh) (hy2 : 0 ≤ py + (t.client c).h + 2 * (t.client c).bw) :
    ((resize t c px py (t.client c).w (t.client c).h true).client c).x = px
    ∧ ((resize t c px py (t.client c).w (t.client c).h true).client c).y = py
    ∧ ((resize t c px py (t.client c).w (t.client c).h true).client c).w = (t.client c).w
    ∧ ((resize t c px py (t.client c).w (t.client c).h true).client c).h = (t.client c).h
    ∧ ((resize t c px py (t.client c).w (t.client c).h true).client c).bw = (t.client c).bw
    ∧ ((resize t c px py (t.client c).w (t.client c).h true).client c).isfloating
        = (t.client c).isfloating := by
  obtain ⟨r1, r2, r3, r4⟩ := resize_client_self t c px py (t.client c).w (t.client c).h true
  obtain ⟨a1, a2⟩ := applysizehints_settled t.sw t.sh t.bh (t.monitor (t.client c).mon)
    (t.client c) px py true hs
  have g := geomless_fields
    ((resize_frame t c px py (t.client c).w (t.client c).h true).2.2.2.2.2.2 c)
  have w1 := raised_ge t.bh (t.client c).w
  have h1 := raised_ge t.bh (t.client c).h
  rw [hs.1] at w1
  rw [hs.2.1] at h1
  refine ⟨?_, ?_, r3.trans a1, r4.trans a2, g.2.2.2.1, g.1⟩
  · rw [r1, applysizehints_x]
    exact clampPos_keep _ _ _ _ _ _ _ hx1 (by omega)
  · rw [r2, applysizehints_y]
    exact clampPos_keep _ _ _ _ _ _ _ hy1 (by omega)

/-- The snapped candidate of a client of positive outer extent lies on the display when
the work area does. -/
theorem snap_on_display (lo len W p q s : Int) (h : SnapRule lo len W p q) (h1 : lo ≤ p)
    (h2 : p ≤ lo + len) (h3 : 0 ≤ lo) (h4 : lo + len ≤ s) (hW : 0 < W) :
    q ≤ s ∧ 0 ≤ q + W := by
  rcases snap_range lo len W p q h h1 h2 with g | g <;> omega

/-- C22, amended: for a motion event of a move drag of the selected client of the selected
monitor, a client with a non-negative border whose stored size is at least 1 and the bar
height and conforms to its size hints, on a work area inside the display, and a candidate
top-left `(nx, ny)` in the work area: if the client is floating, or is tiled and the
snapped candidate is more than `snap` pixels from its stored position along some axis,
the client is floating after the event, keeps its outer size, and along each axis, the
one independently of the other, a candidate less than `snap` pixels from the left (top)
edge gives the applied position `wx` (`wy`), else an outer right (bottom) edge less than
`snap` pixels from the far edge of the work area gives an applied outer far edge on that
edge, else the applied position is the candidate; and if the client is tiled and not
displaced by more than `snap` pixels the event changes nothing. -/
theorem mousemove_snap_applied (s : State) (c : Nat) (ocx ocy x y evx evy : Int)
    (hsel : (s.monitor s.selmon).sel = some c)
    (hin : ocx + (evx - x) ≥ (s.monitor s.selmon).wx
      ∧ ocx + (evx - x) ≤ (s.monitor s.selmon).wx + (s.monitor s.selmon).ww
      ∧ ocy + (evy - y) ≥ (s.monitor s.selmon).wy
      ∧ ocy + (evy - y) ≤ (s.monitor s.selmon).wy + (s.monitor s.selmon).wh)
    (hbw : 0 ≤ (s.client c).bw) (hs : SizeSettled s.bh (s.client c))
    (hwa : 0 ≤ (s.monitor s.selmon).wx
      ∧ (s.monitor s.selmon).wx + (s.monitor s.selmon).ww ≤ s.sw
      ∧ 0 ≤ (s.monitor s.selmon).wy
      ∧ (s.monitor s.selmon).wy + (s.monitor s.selmon).wh ≤ s.sh) :
    MoveSpec s c (ocx + (evx - x)) (ocy + (evy - y)) (mousemovemotion s c ocx ocy x y evx evy) := by
  have hx := snaprule_x s c (ocx + (evx - x)) (ocy + (evy - y))
  have hy := snaprule_y s c (ocx + (evx - x)) (ocy + (evy - y))
  have hd := displaced_iff s c (ocx + (evx - x)) (ocy + (evy - y))
  have w1 := raised_ge s.bh (s.client c).w
  have h1 := raised_ge s.bh (s.client c).h
  rw [hs.1] at w1
  rw [hs.2.1] at h1
  have hW : 0 < WIDTH (s.client c) := by unfold WIDTH; omega
  have hH : 0 < HEIGHT (s.client c) := by unfold HEIGHT; omega
  have gx := snap_on_display _ _ _ _ _ s.sw hx (by omega) hin.2.1 hwa.1 hwa.2.1 hW
  have gy := snap_on_display _ _ _ _ _ s.sh hy (by omega) hin.2.2.2 hwa.2.2.1 hwa.2.2.2 hH
  -- the last step of the event, from a state `t` in which the client is floating
  have place : ∀ t : State, SizeSettled t.bh (t.client c) → t.sw = s.sw → t.sh = s.sh →
      (t.client c).w = (s.client c).w → (t.client c).h = (s.client c).h →
      (t.client c).bw = (s.client c).bw → (t.client c).isfloating = true →
      mousemovemotion s c ocx ocy x y evx evy
        = resize t c (mousemovesnap s c (ocx + (evx - x)) (ocy + (evy - y))).1
            (mousemovesnap s c (ocx + (evx - x)) (ocy + (evy - y))).2
            (t.client c).w (t.client c).h true →
      SnapRule (s.monitor s.selmon).wx (s.monitor s.selmon).ww
          (WIDTH ((mousemovemotion s c ocx ocy x y evx evy).client c)) (ocx + (evx - x))
          ((mousemovemotion s c ocx ocy x y evx evy).client c).x
      ∧ SnapRule (s.monitor s.selmon).wy (s.monitor s.selmon).wh
          (HEIGHT ((mousemovemotion s c ocx ocy x y evx evy).client c)) (ocy + (evy - y))
          ((mousemovemotion s c ocx ocy x y evx evy).client c).y
      ∧ WIDTH ((mousemovemotion s c ocx ocy x y evx evy).client c) = WIDTH (s.client c)
      ∧ HEIGHT ((mousemovemotion s c ocx ocy x y evx evy).client c) = HEIGHT (s.client c)
      ∧ ((mousemovemotion s c ocx ocy x y evx evy).client c).isfloating = true := by
    intro t ts tsw tsh tw th tbw tf e
    unfold WIDTH at gx
    unfold HEIGHT at gy
    obtain ⟨p1, p2, p3, p4, p5, p6⟩ := resize_place t c
      (mousemovesnap s c (ocx + (evx - x)) (ocy + (evy - y))).1
      (mousemovesnap s c (ocx + (evx - x)) (ocy + (evy - y))).2 ts (by omega)
      (by omega) (by omega) (by omega)
    rw [← e] at p1 p2 p3 p4 p5 p6
    have eW : WIDTH ((mousemovemotion s c ocx ocy x y evx evy).client c) = WIDTH (s.client c) := by
      unfold WIDTH; rw [p3, p5, tw, tbw]
    have eH : HEIGHT ((mousemovemotion s c ocx ocy x y evx evy).client c)
        = HEIGHT (s.client c) := by
      unfold HEIGHT; rw [p4, p5, th, tbw]
    rw [eW, eH, p1, p2]
    exact ⟨hx, hy, rfl, rfl, p6.trans tf⟩
  constructor
  · intro hmv
    by_cases hf : (s.client c).isfloating = true
    · apply place s hs rfl rfl rfl rfl rfl hf
      unfold mousemovemotion
      simp only []
      rw [if_pos hin]
      simp only [hf, Bool.true_eq_false, false_and, ↓reduceIte]
    · have hf' : (s.client c).isfloating = false := by simpa using hf
      have hD := hd.1 (hmv.resolve_left hf)
      obtain ⟨t1, t2, t3, t4, t5, t6, t7⟩ := togglefloating_promote s c hsel hf' hs
      apply place (togglefloating s) t7 t5 t6 t2 t3 t4 t1
      unfold mousemovemotion
      simp only []
      have hc : (s.client c).isfloating = false
          ∧ (iabs ((mousemovesnap s c (ocx + (evx - x)) (ocy + (evy - y))).1 - (s.client c).x)
              > snap
            ∨ iabs ((mousemovesnap s c (ocx + (evx - x)) (ocy + (evy - y))).2 - (s.client c).y)
              > snap) := ⟨hf', hD⟩
      rw [if_pos hin, if_pos hc, if_pos t1]
  · intro hf hnd
    have hD := fun h => hnd (hd.2 h)
    unfold mousemovemotion
    simp only []
    have hc : ¬ ((s.client c).isfloating = false
          ∧ (iabs ((mousemovesnap s c (ocx + (evx - x)) (ocy + (evy - y))).1 - (s.client c).x)
              > snap
            ∨ iabs ((mousemovesnap s c (ocx + (evx - x)) (ocy + (evy - y))).2 - (s.client c).y)
              > snap)) := fun h => hD h.2
    rw [if_pos hin, if_neg hc]
    simp only [hf, Bool.false_eq_true, ↓reduceIte]

/-- C22, counterexample: the middle stack client of `stackState`, tiled at (640, 280),
dragged by ten pixels downward.  The candidate (640, 290) lies in the work area; along the
y axis it is 270 pixels from the top edge and its outer bottom edge is 250 pixels from the
bottom edge, so the claim has y = 290 applied; the client is not displaced by more than
`snap` pixels, stays tiled and keeps y = 280. -/
theorem mousemove_tiled_stays :
    (stackState.client 3).isfloating = false
    ∧ (stackState.monitor stackState.selmon).wy ≤ 290
    ∧ 290 ≤ (stackState.monitor stackState.selmon).wy + (stackState.monitor stackState.selmon).wh
    ∧ iabs ((stackState.monitor stackState.selmon).wy - 290) = 270
    ∧ iabs ((stackState.monitor stackState.selmon).wy + (stackState.monitor stackState.selmon).wh
        - (290 + HEIGHT (stackState.client 3))) = 250
    ∧ ((mousemovemotion stackState 3 640 280 700 400 700 410).client 3).y = 280
    ∧ ¬ SnapRule (stackState.monitor stackState.selmon).wy
          (stackState.monitor stackState.selmon).wh
          (HEIGHT ((mousemovemotion stackState 3 640 280 700 400 700 410).client 3)) 290
          ((mousemovemotion stackState 3 640 280 700 400 700 410).client 3).y := by
  unfold SnapRule
  decide

/-- A floating client whose size hints shrink it misses the edge it snaps to: the client
of `cappedState`, stored 100 wide with a maximum width of 10, dragged to 20 pixels from
the right edge, is placed for its stored width and then made 10 wide. -/
theorem mousemove_snap_resized :
    ¬ SizeSettled cappedState.bh (cappedState.client 1)
    ∧ ((mousemovemotion cappedState 1 500 300 600 400 1258 400).client 1).x
        + WIDTH ((mousemovemotion cappedState 1 500 300 600 400 1258 400).client 1) = 1190 := by
  constructor
  · unfold SizeSettled; decide
  · decide

/-- A candidate exactly `snap` pixels from the left edge is not snapped. -/
theorem mousemove_snap_strict :
    ((mousemovemotion floatingState 1 500 300 600 400 132 400).client 1).x = 32 := by
  decide

/-- C22, witness: the middle stack client of `stackState`, tiled at (640, 280), dragged 50
pixels downward.  It is promoted to floating; its outer right edge, 0 pixels from the right
edge of the work area, is applied at 1280, and the candidate y = 330 is applied as it
is. -/
theorem mousemove_snap_applied_witness :
    (stackState.client 3).isfloating = false
    ∧ ((mousemovemotion stackState 3 640 280 700 400 700 450).client 3).isfloating = true
    ∧ ((mousemovemotion stackState 3 640 280 700 400 700 450).client 3).x
        + WIDTH ((mousemovemotion stackState 3 640 280 700 400 700 450).client 3) = 1280
    ∧ ((mousemovemotion stackState 3 640 280 700 400 700 450).client 3).y = 330 := by
  obtain ⟨h1, h2, h3, h4, h5⟩ :=
    (mousemove_snap_applied stackState 3 640 280 700 400 700 450 rfl (by decide) (by decide)
      (by unfold SizeSettled; decide) (by decide)).1
      (Or.inr ⟨640, 330, by unfold SnapRule; decide, by unfold SnapRule; decide,
        Or.inr (by decide)⟩)
  refine ⟨rfl, h5, ?_, ?_⟩
  · exact h1.2.1 (by decide) (by rw [h3]; decide)
  · exact h2.2.2 (by decide) (by rw [h4]; decide)

/-! ## The remainder of the shares in `tile` -/

/-- Every member of a column is at least as high as any `q` that fits `d` times into the
height to share. -/
theorem column_lower (q : Nat) : ∀ (d R : Nat) (y : Int), q * d ≤ R →
    ∀ p ∈ column y R d, (q : Int) ≤ p.2 := by
  intro d
  induction d with
  | zero =>
    intro R y _ p hp
    simp [column] at hp
  | succ d ih =>
    intro R y hq p hp
    obtain ⟨h1, _, h3⟩ := share_invariant R d q (R / (d + 1)) hq rfl
    simp only [column, List.mem_cons] at hp
    rcases hp with hp | hp
    · rw [hp]
      show (q : Int) ≤ ((R / (d + 1) : Nat) : Int)
      exact_mod_cast h1
    · exact ih _ _ h3 p hp

/-- No member of a column is higher than any `Q` that `d` times covers the height to
share. -/
theorem column_upper (Q : Nat) : ∀ (d R : Nat) (y : Int), R ≤ Q * d →
    ∀ p ∈ column y R d, p.2 ≤ (Q : Int) := by
  intro d
  induction d with
  | zero =>
    intro R y _ p hp
    simp [column] at hp
  | succ d ih =>
    intro R y hQ p hp
    have hd : R / (d + 1) ≤ Q := by
      apply Nat.div_le_of_le_mul
      rw [Nat.mul_comm]
      exact hQ
    have hlt : R < (R / (d + 1) + 1) * (d + 1) := by
      rw [Nat.mul_comm]
      exact Nat.lt_mul_div_succ R (Nat.succ_pos d)
    simp only [column, List.mem_cons] at hp
    rcases hp with hp | hp
    · rw [hp]
      show ((R / (d + 1) : Nat) : Int) ≤ (Q : Int)
      exact_mod_cast hd
    · refine ih _ _ ?_ p hp
      by_contra hc
      push_neg at hc
      have h1 : R / (d + 1) + 1 ≤ Q := by
        by_contra h2
        have h3 : Q = R / (d + 1) := by omega
        rw [h3] at hQ hc
        have : R / (d + 1) * (d + 1) = R / (d + 1) * d + R / (d + 1) := by
          rw [Nat.mul_add, Nat.mul_one]
        omega
      have h4 : (R / (d + 1) + 1) * d ≤ Q * d := Nat.mul_le_mul_right d h1
      have h5 : (R / (d + 1) + 1) * (d + 1) = (R / (d + 1) + 1) * d + (R / (d + 1) + 1) := by
        rw [Nat.mul_add, Nat.mul_one]
      omega

/-- The heights of a column never decrease from one member to the next. -/
theorem column_sorted : ∀ (d R : Nat) (y : Int),
    ((column y R d).map Prod.snd).Pairwise (fun a b => a ≤ b) := by
  intro d
  induction d with
  | zero =>
    intro R y
    simp [column]
  | succ d ih =>
    intro R y
    simp only [column, List.map_cons, List.pairwise_cons]
    refine ⟨?_, ih _ _⟩
    intro b hb
    obtain ⟨p, hp, rfl⟩ := List.mem_map.mp hb
    exact column_lower (R / (d + 1)) d _ _
      (share_invariant R d (R / (d + 1)) (R / (d + 1)) (Nat.div_mul_le_self _ _) rfl).2.2 p hp

/-- Two heights of a column differ by at most one, and the later one is not the smaller. -/
theorem column_order (d R : Nat) (y : Int) (i j : Nat) (x z : Int) (hij : i < j)
    (hi : ((column y R d).map Prod.snd)[i]? = some x)
    (hj : ((column y R d).map Prod.snd)[j]? = some z) : x ≤ z ∧ z ≤ x + 1 := by
  obtain ⟨hi1, hi2⟩ := List.getElem?_eq_some.mp hi
  obtain ⟨hj1, hj2⟩ := List.getElem?_eq_some.mp hj
  have hs := List.pairwise_iff_getElem.mp (column_sorted d R y) i j hi1 hj1 hij
  rw [hi2, hj2] at hs
  refine ⟨hs, ?_⟩
  have hd : 0 < d := by
    rw [List.length_map, column_length] at hi1
    omega
  have hx : x ∈ (column y R d).map Prod.snd := hi2 ▸ List.getElem_mem _
  have hz : z ∈ (column y R d).map Prod.snd := hj2 ▸ List.getElem_mem _
  obtain ⟨p, hp, rfl⟩ := List.mem_map.mp hx
  obtain ⟨p', hp', rfl⟩ := List.mem_map.mp hz
  have h1 := column_lower (R / d) d R y (Nat.div_mul_le_self _ _) p hp
  have h2 := column_upper (R / d + 1) d R y (by
    rw [Nat.mul_comm]
    exact (Nat.lt_mul_div_succ R hd).le) p' hp'
  push_cast at h2
  omega

/-- The heights `tile` leaves in a column that comes out as `column` describes it. -/
theorem heights_of_column (s : State) (m : Nat) (col : List Nat) (y : Int) (R : Nat)
    (h : col.map (vgeom (tile s m)) = column y R col.length) (i j a b : Nat) (hij : i < j)
    (hi : col[i]? = some a) (hj : col[j]? = some b) :
    HEIGHT ((tile s m).client a) ≤ HEIGHT ((tile s m).client b)
    ∧ HEIGHT ((tile s m).client b) ≤ HEIGHT ((tile s m).client a) + 1 := by
  have e : col.map (fun c => HEIGHT ((tile s m).client c))
      = (column y R col.length).map Prod.snd := by
    rw [← h, List.map_map]
    rfl
  refine column_order col.length R y i j _ _ hij ?_ ?_
  · rw [← e, List.getElem?_map, hi]; rfl
  · rw [← e, List.getElem?_map, hj]; rfl

/-- C23, counterexample: in Scenario A with a work area 781 pixels high, the stack column
shares 781 pixels between two clients; the first gets 390 and the second 391, so the earlier
member is shorter than the later one. -/
theorem tile_earlier_member_shorter : ¬ EarlierNotShorter oddState 0 := by
  intro h
  have hB := (tile_columns oddState 0 (by unfold TileFits; decide) (by decide)).2
  have e1 : stackers oddState 0 = [2, 3] := by decide
  have hc := (h (stackers oddState 0) (by simp) 0 1 2 3 (by decide) (by rw [e1]; rfl)
    (by rw [e1]; rfl)).1
  rw [e1] at hB
  have e2 : column (oddState.monitor 0).wy (oddState.monitor 0).wh.toNat [2, 3].length
      = [(20, 390), (410, 391)] := by
    norm_num [column, oddState, bareMonitor, createmon]
  rw [e2] at hB
  simp only [List.map_cons, List.map_nil, List.cons.injEq, and_true] at hB
  have h2 := congrArg Prod.snd hB.1
  have h3 := congrArg Prod.snd hB.2
  simp only [vgeom] at h2 h3
  rw [h2, h3] at hc
  omega

/-- C23, amended: when the floor share of each column leaves every member at least
`max 1 bh` inside its border, the rounding remainder goes to the latest members: of two
members of the same column the later one is at least as high as the earlier one, and by
at most one pixel. -/
theorem tile_later_member_taller (s : State) (m : Nat) (h : TileFits s m) :
    LaterNotShorter s m := by
  intro col hcol i j a b hij hi hj
  have hne : tiledclients s (s.monitor m).clients ≠ [] := by
    intro e
    have hm : masters s m = [] := by unfold masters; rw [e]; simp
    have hs : stackers s m = [] := by unfold stackers; rw [e]; simp
    simp only [List.mem_cons, List.mem_singleton, List.not_mem_nil, or_false] at hcol
    rcases hcol with rfl | rfl
    · rw [hm] at hi; simp at hi
    · rw [hs] at hi; simp at hi
  obtain ⟨hA, hB⟩ := tile_columns s m h hne
  simp only [List.mem_cons, List.mem_singleton, List.not_mem_nil, or_false] at hcol
  rcases hcol with rfl | rfl
  · exact heights_of_column s m _ _ _ hA i j a b hij hi hj
  · exact heights_of_column s m _ _ _ hB i j a b hij hi hj

/-- C23, witness: the state `oddState`, where the two members of the stack column get
390 and 391 pixels. -/
theorem tile_later_member_taller_witness : LaterNotShorter oddState 0 :=
  tile_later_member_taller oddState 0 (by unfold TileFits; decide)

/-! ## The geometry that `manage` stores -/

theorem rulestep_bw (s : State) (cls inst : String) (C : Client) (r : Rule) :
    (rulestep s cls inst C r).bw = C.bw := by
  unfold rulestep
  split
  · simp only []
    split <;> rfl
  · rfl

theorem rulefold_bw (s : State) (cls inst : String) (rules : List Rule) (C : Client) :
    (rules.foldl (rulestep s cls inst) C).bw = C.bw := by
  induction rules generalizing C with
  | nil => rfl
  | cons r rs ih => rw [List.foldl_cons, ih, rulestep_bw]

/-- The record `managenew` creates has no border yet, and `managenew` leaves the monitor
records alone. -/
theorem managenew_bw (rules : List Rule) (s : State) (c w : Nat) (info : WindowInfo) :
    ((managenew rules s c w info).client c).bw = 0
    ∧ (managenew rules s c w info).monitor = s.monitor
    ∧ (managenew rules s c w info).bh = s.bh := by
  unfold managenew
  simp only []
  split
  · exact ⟨by simp [zeroClient], rfl, rfl⟩
  · rw [applyrules_eq]
    refine ⟨?_, rfl, rfl⟩
    have hif : ∀ (D : Client) (t : Nat),
        (if D.tag ≥ LENGTH_tags then { D with tag := t } else D).bw = D.bw := by
      intro D t
      split <;> rfl
    rw [setClient_client_self, hif, rulefold_bw, setClient_client_self]
    rfl

/-- The position and size the geometry part of `manage` stores in a record without
border. -/
theorem managegeometry_client (s : State) (c : Nat) (wa : XWindowAttributes)
    (hbw : (s.client c).bw = 0) :
    ((managegeometry s c wa).client c).w = wa.width
    ∧ ((managegeometry s c wa).client c).h = wa.height
    ∧ ((managegeometry s c wa).client c).x
        = max (if wa.x + wa.width > (s.monitor (s.client c).mon).mx + (s.monitor (s.client c).mon).mw
               then (s.monitor (s.client c).mon).mx + (s.monitor (s.client c).mon).mw - wa.width
               else wa.x) (s.monitor (s.client c).mon).mx
    ∧ ((managegeometry s c wa).client c).y
        = max (if wa.y + wa.height > (s.monitor (s.client c).mon).my + (s.monitor (s.client c).mon).mh
               then (s.monitor (s.client c).mon).my + (s.monitor (s.client c).mon).mh - wa.height
               else wa.y)
            (if (s.monitor (s.client c).mon).bary = (s.monitor (s.client c).mon).my
                ∧ ((managegeometry s c wa).client c).x + wa.width.tdiv 2
                    ≥ (s.monitor (s.client c).mon).wx
                ∧ ((managegeometry s c wa).client c).x + wa.width.tdiv 2
                    < (s.monitor (s.client c).mon).wx + (s.monitor (s.client c).mon).ww
             then s.bh else (s.monitor (s.client c).mon).my) := by
  unfold managegeometry
  simp only [setClient_client_self, WIDTH, HEIGHT, hbw, mul_zero, add_zero]
  by_cases h1 : wa.x + wa.width
      > (s.monitor (s.client c).mon).mx + (s.monitor (s.client c).mon).mw <;>
    by_cases h2 : wa.y + wa.height
      > (s.monitor (s.client c).mon).my + (s.monitor (s.client c).mon).mh <;>
    simp [h1, h2]

/-- The geometry part of `manage` on a record without border. -/
theorem managegeometry_clamped (s : State) (c : Nat) (wa : XWindowAttributes)
    (hbw : (s.client c).bw = 0) :
    ManageClamped s.bh ((managegeometry s c wa).client c) (s.monitor (s.client c).mon) := by
  obtain ⟨hw, hh, hx, hy⟩ := managegeometry_client s c wa hbw
  unfold ManageClamped coversbar
  rw [hw, hh]
  generalize ((managegeometry s c wa).client c).x = X at hx hy
  generalize ((managegeometry s c wa).client c).y = Y at hy
  generalize wa.width.tdiv 2 = half at hy
  refine ⟨?_, ?_, ?_, ?_⟩
  · rw [hx]; exact le_max_right _ _
  · intro h1
    rw [hx]
    split_ifs <;> omega
  · intro hnb
    have e : (if (s.monitor (s.client c).mon).bary = (s.monitor (s.client c).mon).my
        ∧ X + half ≥ (s.monitor (s.client c).mon).wx
        ∧ X + half < (s.monitor (s.client c).mon).wx + (s.monitor (s.client c).mon).ww
        then s.bh else (s.monitor (s.client c).mon).my) = (s.monitor (s.client c).mon).my :=
      if_neg (fun hc => hnb ⟨hc.1, hc.2.1, hc.2.2⟩)
    rw [e] at hy
    rw [hy]
    refine ⟨le_max_right _ _, ?_⟩
    intro h1
    split_ifs <;> omega
  · intro hb h0
    have e : (if (s.monitor (s.client c).mon).bary = (s.monitor (s.client c).mon).my
        ∧ X + half ≥ (s.monitor (s.client c).mon).wx
        ∧ X + half < (s.monitor (s.client c).mon).wx + (s.monitor (s.client c).mon).ww
        then s.bh else (s.monitor (s.client c).mon).my) = s.bh :=
      if_pos ⟨hb.1, hb.2.1, hb.2.2⟩
    rw [e] at hy
    rw [hy]
    refine ⟨by omega, ?_⟩
    intro h1
    split_ifs <;> omega

/-- C24, counterexample: a dialog window of 1280 by 800 at the origin, managed on the
1280x800 monitor whose bar is at the top, is stored at y = 20 with height 800, and is
still there when `manage` returns: it is no larger than the monitor and ends 20 pixels below
it.  And on a monitor whose top edge is at y = 800, a window of 300 by 200 at (10, 40) is
stored at y = 40, above the monitor. -/
theorem manage_not_inside_monitor :
    ¬ ManageInside [] bareState 7 42 bigAttributes dialogWindow
    ∧ ¬ InsideMonitor ((manage [] bareState 7 42 bigAttributes dialogWindow).client 7)
        (bareState.monitor 0)
    ∧ ¬ ManageInside [] lowerState 7 42 plainAttributes plainWindow := by
  unfold ManageInside InsideMonitor
  decide

/-- C24, amended: the record that the geometry part of `manage` stores starts at or right
of the left edge of its monitor and ends inside the monitor when it is no wider; when the
client cannot cover the bar (the bar is not at the top edge of the monitor, or the
horizontal centre of the client is outside the work area) it starts at or below the top
edge and ends inside the monitor when it is no higher; when it can cover the bar of a
monitor at the top of the display (`my = 0`) it starts at or below the bar and ends inside
the monitor when it fits under the bar. -/
theorem manage_geometry_clamped (rules : List Rule) (s : State) (c w : Nat)
    (wa : XWindowAttributes) (info : WindowInfo) :
    ManageClamped s.bh ((managegeometry (managenew rules s c w info) c wa).client c)
      (s.monitor ((managenew rules s c w info).client c).mon) := by
  obtain ⟨h1, h2, h3⟩ := managenew_bw rules s c w info
  have h := managegeometry_clamped (managenew rules s c w info) c wa h1
  rw [h2, h3] at h
  exact h

/-- C24, instance: the dialog window of 1280 by 800 starts below the bar. -/
theorem manage_geometry_clamped_witness :
    20 ≤ ((managegeometry (managenew [] bareState 7 42 dialogWindow) 7 bigAttributes).client 7).y :=
  (manage_geometry_clamped [] bareState 7 42 bigAttributes dialogWindow).2.2.2
    (by unfold coversbar; decide) rfl |>.1

/-! ## The function `recttomon` -/

/-- The loop of `recttomon` over a list of monitors, from the pair `(r0, a0)`: it keeps
the pair when no monitor exceeds `a0`, and else ends on the first monitor of the largest
value. -/
theorem recttomon_fold (f : Nat → Int) (l : List Nat) : ∀ (r0 : Nat) (a0 : Int),
    ((∀ m ∈ l, f m ≤ a0) →
      l.foldl (fun (ra : Nat × Int) m => if f m > ra.2 then (m, f m) else ra) (r0, a0)
        = (r0, a0))
    ∧ ((∃ m ∈ l, a0 < f m) →
      ∃ pre post r,
        l.foldl (fun (ra : Nat × Int) m => if f m > ra.2 then (m, f m) else ra) (r0, a0)
          = (r, f r)
        ∧ l = pre ++ r :: post ∧ a0 < f r ∧ (∀ m ∈ pre, f m < f r)
        ∧ ∀ m ∈ post, f m ≤ f r) := by
  induction l with
  | nil =>
    intro r0 a0
    exact ⟨fun _ => rfl, fun ⟨m, hm, _⟩ => absurd hm (List.not_mem_nil m)⟩
  | cons a l ih =>
    intro r0 a0
    constructor
    · intro hall
      have ha : ¬ f a > a0 := not_lt.mpr (hall a (List.mem_cons_self _ _))
      simp only [List.foldl_cons, if_neg ha]
      exact (ih r0 a0).1 (fun m hm => hall m (List.mem_cons_of_mem _ hm))
    · intro hex
      by_cases ha : f a > a0
      · simp only [List.foldl_cons, if_pos ha]
        by_cases hrest : ∃ m ∈ l, f a < f m
        · obtain ⟨pre, post, r, e, hl, hr, hpre, hpost⟩ := (ih a (f a)).2 hrest
          refine ⟨a :: pre, post, r, e, by rw [hl]; rfl, lt_trans ha hr, ?_, hpost⟩
          intro m hm
          rcases List.mem_cons.mp hm with h1 | h1
          · rw [h1]; exact hr
          · exact hpre m h1
        · have hall : ∀ m ∈ l, f m ≤ f a := by
            intro m hm
            by_contra hc
            exact hrest ⟨m, hm, not_le.mp hc⟩
          refine ⟨[], l, a, (ih a (f a)).1 hall, rfl, ha, ?_, hall⟩
          intro m hm
          cases hm
      · simp only [List.foldl_cons, if_neg ha]
        have hrest : ∃ m ∈ l, a0 < f m := by
          obtain ⟨m, hm, hlt⟩ := hex
          rcases List.mem_cons.mp hm with h1 | h1
          · rw [h1] at hlt; exact absurd hlt ha
          · exact ⟨m, h1, hlt⟩
        obtain ⟨pre, post, r, e, hl, hr, hpre, hpost⟩ := (ih r0 a0).2 hrest
        refine ⟨a :: pre, post, r, e, by rw [hl]; rfl, hr, ?_, hpost⟩
        intro m hm
        rcases List.mem_cons.mp hm with h1 | h1
        · rw [h1]; exact lt_of_le_of_lt (not_lt.mp ha) hr
        · exact hpre m h1

/-- C25: for every rect and every monitor chain, when some monitor overlaps the rect
`recttomon` returns a monitor of the chain whose overlap area (the macro `INTERSECT`, taken
with the work area) is at least that of every monitor of the chain, and the first such
monitor in chain order; when no monitor overlaps the rect it returns the selected
monitor. -/
theorem recttomon_max_overlap (s : State) (x y w h : Int) : RecttomonSpec s x y w h := by
  have key := recttomon_fold (fun m => INTERSECT x y w h (s.monitor m)) s.mons s.selmon 0
  constructor
  · intro hex
    obtain ⟨pre, post, r, e, hl, hr, hpre, hpost⟩ := key.2 hex
    have er : recttomon s x y w h = r := by
      unfold recttomon
      rw [e]
    rw [er]
    refine ⟨hr, ?_, pre, post, hl, hpre⟩
    intro m hm
    rw [hl] at hm
    rcases List.mem_append.mp hm with h1 | h1
    · exact le_of_lt (hpre m h1)
    · rcases List.mem_cons.mp h1 with h2 | h2
      · rw [h2]
      · exact hpost m h2
  · intro hall
    unfold recttomon
    rw [key.1 (fun m hm => le_of_eq (hall m hm))]

/-- C25, instance: a rect that straddles the two monitors of `sideBySide` with 80 of its
200 columns on the first goes to the second monitor; a rect beyond both goes to the
selected monitor. -/
theorem recttomon_max_overlap_witness :
    recttomon sideBySide 1200 100 200 100 = 2 ∧ recttomon sideBySide 5000 100 200 100 = 1 := by
  have h := recttomon_max_overlap sideBySide 5000 100 200 100
  exact ⟨by decide, h.2 (by decide)⟩

/-! ## The function `sendmon` -/

theorem sendmon_eq (s : State) (c m : Nat) (h : (s.client c).mon ≠ m) :
    sendmon s c m = arrange (focus (sendmonmove s c m) none) none := by
  unfold sendmon sendmonmove
  rw [if_neg h]

/-- The state after the statements of `sendmon` before `focus(NULL)`. -/
theorem sendmonmove_spec (s : State) (c m : Nat) (h : RegistryInv s) (hm : m ∈ s.mons)
    (hne : (s.client c).mon ≠ m) :
    RegistryInv (sendmonmove s c m)
    ∧ (sendmonmove s c m).mons = s.mons ∧ (sendmonmove s c m).selmon = s.selmon
    ∧ ((sendmonmove s c m).client c).mon = m
    ∧ ((sendmonmove s c m).client c).tag = (s.monitor m).curtag
    ∧ (∀ x, x ≠ c → (sendmonmove s c m).client x = s.client x)
    ∧ (∀ a, ((sendmonmove s c m).monitor a).curtag = (s.monitor a).curtag)
    ∧ ((sendmonmove s c m).monitor (s.client c).mon).clients
        = (s.monitor (s.client c).mon).clients.erase c
    ∧ ((sendmonmove s c m).monitor (s.client c).mon).stack
        = (s.monitor (s.client c).mon).stack.erase c
    ∧ ((sendmonmove s c m).monitor m).clients = c :: (s.monitor m).clients
    ∧ ((sendmonmove s c m).monitor m).stack = c :: (s.monitor m).stack
    ∧ (∀ a, a ≠ (s.client c).mon → a ≠ m →
        ((sendmonmove s c m).monitor a).clients = (s.monitor a).clients
        ∧ ((sendmonmove s c m).monitor a).stack = (s.monitor a).stack) := by
  obtain ⟨o1, o2, o3, o4⟩ := detach_detachstack_obs s c
  have habs := detach_detachstack_absent s c h
  have ht1 : SameTags s (detachstack (detach s c) c) :=
    sameTags_trans (detach_sameTags s c) (detachstack_sameTags _ c)
  unfold sendmonmove
  simp only []
  generalize detachstack (detach s c) c = s1 at o1 o2 o3 o4 habs ht1
  have habs2 := habs.setClient { s1.client c with mon := m, tag := (s1.monitor m).curtag }
  have hcm : ((s1.setClient c { s1.client c with mon := m, tag := (s1.monitor m).curtag }).client
      c).mon = m := by simp
  obtain ⟨a1, a2, a3, a4⟩ := attach_attachstack_obs
    (s1.setClient c { s1.client c with mon := m, tag := (s1.monitor m).curtag }) c
  have hinv := attach_attachstack_inv _ c habs2 (by rw [hcm]; show m ∈ s1.mons; rw [o1]; exact hm)
  have ht2 : SameTags (s1.setClient c { s1.client c with mon := m, tag := (s1.monitor m).curtag })
      (attachstack (attach (s1.setClient c
        { s1.client c with mon := m, tag := (s1.monitor m).curtag }) c) c) :=
    sameTags_trans (attach_sameTags _ c) (attachstack_sameTags _ c)
  rw [hcm] at a4
  generalize attachstack (attach (s1.setClient c
    { s1.client c with mon := m, tag := (s1.monitor m).curtag }) c) c = s3 at a1 a2 a3 a4 hinv ht2
  have hmon2 : ∀ a, (s1.setClient c
      { s1.client c with mon := m, tag := (s1.monitor m).curtag }).monitor a = s1.monitor a :=
    fun _ => rfl
  have hcur : ∀ a, (s3.monitor a).curtag = (s.monitor a).curtag := by
    intro a
    have e1 := (curtag_of_slots (ht2.2 a)).1
    have e2 := (curtag_of_slots (ht1.2 a)).1
    rw [e1, hmon2, e2]
  refine ⟨hinv, a1.trans o1, a2.trans o2, ?_, ?_, ?_, hcur, ?_, ?_, ?_, ?_, ?_⟩
  · rw [a3]; simp
  · rw [a3]
    simp only [setClient_client_self]
    exact (curtag_of_slots (ht1.2 m)).1
  · intro x hx
    rw [a3, setClient_client_ne _ _ _ _ hx, o3]
  · rw [(a4 _).1, if_neg hne, hmon2, (o4 _).1, if_pos rfl]
  · rw [(a4 _).2, if_neg hne, hmon2, (o4 _).2, if_pos rfl]
  · rw [(a4 _).1, if_pos rfl, hmon2, (o4 _).1, if_neg (Ne.symm hne)]
  · rw [(a4 _).2, if_pos rfl, hmon2, (o4 _).2, if_neg (Ne.symm hne)]
  · intro a h1 h2
    rw [(a4 _).1, (a4 _).2, if_neg h2, if_neg h2, hmon2, (o4 _).1, (o4 _).2, if_neg h1, if_neg h1]
    exact ⟨rfl, rfl⟩

/-- Visibility of the clients of a list is the same in two states that agree on their
records and on the active tags. -/
theorem firstvisible_congr_on (s s1 : State) (l : List Nat)
    (h1 : ∀ x ∈ l, s1.client x = s.client x)
    (h2 : ∀ a, (s1.monitor a).curtag = (s.monitor a).curtag) :
    firstvisible s1 l = firstvisible s l := by
  rw [firstvisible_eq_find, firstvisible_eq_find]
  apply find_congr_mem
  intro t ht
  simp only [ISVISIBLE, h1 t ht, h2]

/-- The focus stacks after `focus(NULL)`: the first visible client of the stack of the
selected monitor moves to its head. -/
theorem focus_none_stack (s : State) (h : RegistryInv s) (a : Nat) :
    ((focus s none).monitor a).stack
      = if a = s.selmon then
          (match firstvisible s (s.monitor a).stack with
           | some t => t :: (s.monitor a).stack.erase t
           | none => (s.monitor a).stack)
        else (s.monitor a).stack := by
  obtain ⟨_, _, _, f4, f5, f6⟩ := focus_monitors s none
  have hsel := focus_none_selmon s h
  by_cases e : a = s.selmon
  · rw [if_pos e, e]
    cases hc : firstvisible s (s.monitor s.selmon).stack with
    | none => exact (f5 hc).2.1
    | some t =>
      have hcand : focuscandidate s none = some t := hc
      have hmon : (s.client t).mon = s.selmon := by
        rw [← hsel]
        exact (f6 t hcand).1.symm
      have := (f6 t hcand).2.1
      rw [hmon] at this
      exact this
  · rw [if_neg e, f4 a (by rw [hsel]; exact e)]

/-- What `sendmon` does with a managed client of another monitor. -/
theorem sendmon_spec (s : State) (c m : Nat) (h : RegistryInv s) (hm : m ∈ s.mons)
    (hc : c ∈ managed s) (hne : (s.client c).mon ≠ m) : SendmonSpec s c m := by
  obtain ⟨hinv, m1, m2, m3, m4, m5, m6, m7, m8, m9, m10, _⟩ := sendmonmove_spec s c m h hm hne
  obtain ⟨hm0, hcl, hst⟩ := h.of_managed hc
  obtain ⟨hnd, hperm, hown⟩ := h.2.2 _ hm0
  have hnds : (s.monitor (s.client c).mon).stack.Nodup := hperm.nodup_iff.mpr hnd
  have ec := erase_eq_filter_of_nodup _ c hnd
  have es := erase_eq_filter_of_nodup _ c hnds
  have F := arrange_frame (focus (sendmonmove s c m) none) none
  obtain ⟨_, f2, f3, _, _, _⟩ := focus_monitors (sendmonmove s c m) none
  have hstack := focus_none_stack (sendmonmove s c m) hinv
  unfold SendmonSpec
  rw [sendmon_eq s c m hne]
  generalize sendmonmove s c m = s3 at *
  generalize focus s3 none = s4 at *
  generalize arrange s4 none = s5 at *
  have hcl5 : ∀ a, (s5.monitor a).clients = (s3.monitor a).clients :=
    fun a => (F.lists a).1.trans (f3 a).1
  have hst5 : ∀ a, (s5.monitor a).stack = (s4.monitor a).stack := fun a => (F.lists a).2.1
  -- the focus stack of the destination
  have hvis : ISVISIBLE s3 c = true := by
    simp only [ISVISIBLE, m3, m4, m6, beq_self_eq_true]
  have hdest : (s4.monitor m).stack = c :: (s.monitor m).stack := by
    rw [hstack m, m10]
    split
    · simp only [firstvisible, hvis, ↓reduceIte, List.erase_cons_head]
    · rfl
  -- the focus stack of the old monitor
  have hvis0 : firstvisible s3 ((s.monitor (s.client c).mon).stack.erase c)
      = ((s.monitor (s.client c).mon).stack.filter (fun a => a ≠ c)).find?
          (fun t => (s.client t).tag == (s.monitor (s.client c).mon).curtag) := by
    rw [firstvisible_congr_on s s3 _ (fun x hx => m5 x ((List.Nodup.mem_erase_iff hnds).mp hx).1) m6,
      firstvisible_eq_find, es]
    apply find_congr_mem
    intro t ht
    have ht' : t ∈ (s.monitor (s.client c).mon).clients :=
      hperm.mem_iff.mp (List.mem_filter.mp ht).1
    simp only [ISVISIBLE, hown t ht']
  refine ⟨?_, ?_, ?_, ?_, ?_, ?_, ?_, ?_, ?_⟩
  · rw [hcl5, m7]
    exact fun hin => ((List.Nodup.mem_erase_iff hnd).mp hin).1 rfl
  · rw [hst5, hstack, m8]
    have hc0 : c ∉ (s.monitor (s.client c).mon).stack.erase c :=
      fun hin => ((List.Nodup.mem_erase_iff hnds).mp hin).1 rfl
    split
    · cases hfv : firstvisible s3 ((s.monitor (s.client c).mon).stack.erase c) with
      | none => exact hc0
      | some t =>
        simp only []
        have htin := firstvisible_mem _ _ _ hfv
        intro hin
        rcases List.mem_cons.mp hin with e | e
        · rw [← e] at htin; exact hc0 htin
        · exact hc0 (List.mem_of_mem_erase e)
    · exact hc0
  · rw [hcl5, m9]
  · rw [hst5, hdest]
  · rw [(F.owner c).1, (f2 c).1, m3]
  · rw [(F.owner c).2, (f2 c).2, m4]
  · rw [hcl5, m7, ec]
  · intro hsel
    rw [hst5, hstack, m8, if_neg (by rw [m2]; exact Ne.symm hsel), es]
  · intro hsel
    rw [hst5, hstack, m8, if_pos (by rw [m2]; exact hsel.symm), hvis0]
    cases hf : ((s.monitor (s.client c).mon).stack.filter (fun a => a ≠ c)).find?
        (fun t => (s.client t).tag == (s.monitor (s.client c).mon).curtag) with
    | none => simp only [es]
    | some t =>
      simp only []
      rw [es, erase_eq_filter_of_nodup _ t (hnds.filter _)]

theorem crossState_inv : RegistryInv crossState := by
  refine ⟨by decide, by decide, ?_⟩
  intro m hm
  have e : m = 1 ∨ m = 2 := by simpa [crossState, twoMonitors, bareState] using hm
  rcases e with rfl | rfl
  · exact ⟨by decide, List.Perm.refl _, fun c _ => rfl⟩
  · exact ⟨List.nodup_nil, List.Perm.refl _, fun c hc => by cases hc⟩

/-- The focus stack of the first monitor of `crossState` after `sendmon(1, 2)`. -/
theorem crossState_stack : ((sendmon crossState 1 2).monitor 1).stack = [3, 2] := by
  have h := (sendmon_spec crossState 1 2 crossState_inv (by decide) (by decide)
    (by decide)).2.2.2.2.2.2.2.2 rfl
  have e : (crossState.client 1).mon = 1 := rfl
  rw [e] at h
  rw [h]
  decide

/-- C28, counterexample: on `crossState` the selected monitor stacks the clients 1, 2, 3
with client 2 on another tag; after `sendmon(1, 2)` its focus stack is 3, 2: the closing
`focus(NULL)` has moved client 3 in front of client 2. -/
theorem sendmon_reorders_stack : ¬ SendmonClaim crossState 1 2 := by
  intro h
  have h8 := h.2.2.2.2.2.2.2.1
  have e : (crossState.client 1).mon = 1 := rfl
  rw [e, crossState_stack] at h8
  revert h8
  decide

/-- C28, amended: for a managed client `c` and a monitor `m` of the chain other than its
own, after `sendmon(c, m)` the client is in neither list of its old monitor, it is the head
of the client list and of the focus stack of `m` with the rest of both as before, it names
`m` and has the active tag of `m`; the client list of the old monitor keeps the order of
the others, and so does its focus stack unless the old monitor is the selected one, where
the first remaining client on the active tag is moved to the head and the others keep
their order.  And `sendmon(c, c->mon)` returns the state unchanged. -/
theorem sendmon_moves (s : State) (c m : Nat) (h : RegistryInv s) (hm : m ∈ s.mons)
    (hc : c ∈ managed s) :
    ((s.client c).mon ≠ m → SendmonSpec s c m)
    ∧ sendmon s c (s.client c).mon = s := by
  refine ⟨fun hne => sendmon_spec s c m h hm hc hne, ?_⟩
  unfold sendmon
  rw [if_pos rfl]

/-- C28, witness: `sendmon(1, 2)` on `crossState` puts client 1 at the head of both lists
of the second monitor. -/
theorem sendmon_moves_witness :
    ((sendmon crossState 1 2).monitor 2).clients = [1]
    ∧ ((sendmon crossState 1 2).monitor 2).stack = [1] := by
  have h := (sendmon_moves crossState 1 2 crossState_inv (by decide) (by decide)).1 (by decide)
  exact ⟨h.2.2.1, h.2.2.2.1⟩

/-! ## The selection invariant -/

/-- A monitor keeps `SelOk` when its selection and its active tag stay, its focus stack
loses no client and the clients of the stack keep their tags. -/
theorem selOk_transfer {s s' : State} {m : Nat} (h : SelOk s m)
    (hsel : (s'.monitor m).sel = (s.monitor m).sel)
    (hst : ∀ c ∈ (s.monitor m).stack, c ∈ (s'.monitor m).stack)
    (hcur : (s'.monitor m).curtag = (s.monitor m).curtag)
    (htag : ∀ c ∈ (s.monitor m).stack, (s'.client c).tag = (s.client c).tag) : SelOk s' m := by
  intro c hc
  rw [hsel] at hc
  obtain ⟨h1, h2⟩ := h c hc
  exact ⟨hst c h1, by rw [htag c h1, hcur]; exact h2⟩

theorem frame_selOk {s s' : State} (hf : Frame s s') {m : Nat} (h : SelOk s m) : SelOk s' m := by
  obtain ⟨_, f2, f3, f4⟩ := hf.lists m
  exact selOk_transfer h f3 (fun c hc => by rw [f2]; exact hc) f4 (fun c _ => (hf.owner c).2)

theorem frame_selInv {s s' : State} (hf : Frame s s') (h : SelInv s) : SelInv s' := by
  intro m hm
  rw [hf.2.2.2.1] at hm
  exact frame_selOk hf (h m hm)

theorem firstvisible_visible (s : State) (l : List Nat) (t : Nat)
    (h : firstvisible s l = some t) : ISVISIBLE s t = true := by
  rw [firstvisible_eq_find] at h
  exact List.find?_some h

theorem focuscandidate_visible (s : State) (c : Option Nat) (t : Nat)
    (h : focuscandidate s c = some t) : ISVISIBLE s t = true := by
  unfold focuscandidate at h
  cases c with
  | none => exact firstvisible_visible _ _ _ h
  | some a =>
    simp only [] at h
    split at h
    · cases h; assumption
    · exact firstvisible_visible _ _ _ h

/-- After `focus` the selected monitor satisfies `SelOk`, and so does every monitor that
did before. -/
theorem focus_selInv (s : State) (c : Option Nat)
    (h : ∀ m ∈ s.mons, m ≠ (focus s c).selmon → SelOk s m) : SelInv (focus s c) := by
  obtain ⟨f1, f2, f3, f4, f5, f6⟩ := focus_monitors s c
  intro m hm
  rw [f1] at hm
  by_cases e : m = (focus s c).selmon
  · cases hc : focuscandidate s c with
    | none =>
      obtain ⟨g1, _, g3⟩ := f5 hc
      rw [e, g1]
      intro x hx
      rw [g3] at hx
      cases hx
    | some t =>
      obtain ⟨g1, g2, g3⟩ := f6 t hc
      rw [e, g1]
      intro x hx
      rw [g3] at hx
      cases hx
      refine ⟨by rw [g2]; exact List.mem_cons_self _ _, ?_⟩
      rw [(f2 t).2, (f3 _).2]
      have := focuscandidate_visible s c t hc
      simpa [ISVISIBLE] using this
  · have hmon := f4 m e
    exact selOk_transfer (h m hm e) (by rw [hmon]) (fun x hx => by rw [hmon]; exact hx)
      (by rw [hmon]) (fun x _ => (f2 x).2)

/-- Taking a client out of both lists keeps the selection invariant. -/
theorem detach_detachstack_selInv (s : State) (c : Nat) (h : RegistryInv s) (hs : SelInv s) :
    SelInv (detachstack (detach s c) c) := by
  have hcl : (detach s c).client = s.client := rfl
  have hmons : (detach s c).mons = s.mons := rfl
  have hmon : (detach s c).monitor (s.client c).mon
      = { s.monitor (s.client c).mon with
            clients := (s.monitor (s.client c).mon).clients.erase c } := by
    simp [detach]
  have hother : ∀ a, a ≠ (s.client c).mon → (detach s c).monitor a = s.monitor a := by
    intro a ha
    simp only [detach]
    exact setMon_monitor_ne _ _ _ _ ha
  have hcur : ∀ a, ((detach s c).monitor a).curtag = (s.monitor a).curtag := by
    intro a
    exact (curtag_of_slots ((detach_sameTags s c).2 a)).1
  rw [detachstack_eq]
  simp only [hcl]
  intro m hm
  have hm' : m ∈ s.mons := hm
  by_cases e : m = (s.client c).mon
  · subst e
    obtain ⟨hnd, hperm, hown⟩ := h.2.2 _ hm'
    intro x hx
    simp only [setMon_monitor_self, hmon] at hx ⊢
    by_cases hsel : (s.monitor (s.client c).mon).sel = some c
    · rw [if_pos hsel] at hx
      have hin := firstvisible_mem _ _ _ hx
      have hv := firstvisible_visible _ _ _ hx
      refine ⟨hin, ?_⟩
      have hxm : (s.client x).mon = (s.client c).mon :=
        hown x (hperm.mem_iff.mp (List.mem_of_mem_erase hin))
      simp only [ISVISIBLE, hcl, hxm, hcur, beq_iff_eq] at hv
      simpa [Monitor.curtag] using hv
    · rw [if_neg hsel] at hx
      obtain ⟨h1, h2⟩ := hs _ hm' x hx
      have hne : x ≠ c := fun e => hsel (e ▸ hx)
      exact ⟨(List.mem_erase_of_ne hne).mpr h1, by simpa [Monitor.curtag] using h2⟩
  · have e1 : ((detach s c).setMon (s.client c).mon
        { (detach s c).monitor (s.client c).mon with
            stack := ((detach s c).monitor (s.client c).mon).stack.erase c,
            sel := if ((detach s c).monitor (s.client c).mon).sel = some c
                   then firstvisible (detach s c)
                     (((detach s c).monitor (s.client c).mon).stack.erase c)
                   else ((detach s c).monitor (s.client c).mon).sel }).monitor m
        = s.monitor m := by
      rw [setMon_monitor_ne _ _ _ _ e, hother m e]
    exact selOk_transfer (hs m hm') (by rw [e1]) (fun x hx => by rw [e1]; exact hx)
      (by rw [e1]) (fun _ _ => rfl)

/-- Putting a client at the head of both lists of its monitor keeps the selection
invariant. -/
theorem attach_attachstack_selInv (s : State) (c : Nat) (hs : SelInv s) :
    SelInv (attachstack (attach s c) c) := by
  obtain ⟨a1, _, a3, a4⟩ := attach_attachstack_obs s c
  have hsel : ∀ a, ((attachstack (attach s c) c).monitor a).sel = (s.monitor a).sel
      ∧ ((attachstack (attach s c) c).monitor a).curtag = (s.monitor a).curtag := by
    intro a
    by_cases e : a = (s.client c).mon
    · subst e; simp [attachstack, attach, State.setMon, Monitor.curtag]
    · simp [attachstack, attach, State.setMon, Function.update_noteq e]
  intro m hm
  rw [a1] at hm
  refine selOk_transfer (hs m hm) (hsel m).1 ?_ (hsel m).2 (fun x _ => by rw [a3])
  intro x hx
  rw [(a4 m).2]
  split
  · exact List.mem_cons_of_mem _ hx
  · exact hx

/-- A write to the record of a client that is in no focus stack keeps the selection
invariant. -/
theorem setClient_selInv (s : State) (c : Nat) (v : Client)
    (hc : ∀ m ∈ s.mons, c ∉ (s.monitor m).stack) (hs : SelInv s) : SelInv (s.setClient c v) := by
  intro m hm
  refine selOk_transfer (hs m hm) rfl (fun x hx => hx) rfl ?_
  intro x hx
  have hne : x ≠ c := fun e => hc m hm (e ▸ hx)
  rw [setClient_client_ne _ _ _ _ hne]

/-- A write that keeps the tag of the client keeps the selection invariant. -/
theorem setClient_tag_selInv (s : State) (c : Nat) (v : Client)
    (hv : v.tag = (s.client c).tag) (hs : SelInv s) : SelInv (s.setClient c v) := by
  intro m hm
  refine selOk_transfer (hs m hm) rfl (fun x hx => hx) rfl ?_
  intro x _
  by_cases e : x = c
  · subst e; simpa using hv
  · rw [setClient_client_ne _ _ _ _ e]

/-- Under the registry invariant a client of no client list is in no focus stack. -/
theorem absent_stack {s : State} {c : Nat} (h : AbsentInv s c) :
    ∀ m ∈ s.mons, c ∉ (s.monitor m).stack := by
  intro m hm hin
  exact h.2 m hm ((h.1.2.2 m hm).2.1.mem_iff.mp hin)

/-- `focus(NULL)` followed by `arrange` restores the selection invariant when only the
selected monitor may violate it. -/
theorem refocus_selInv (s : State) (a : Option Nat) (h : RegistryInv s)
    (hs : ∀ m ∈ s.mons, m ≠ s.selmon → SelOk s m) :
    SelInv (arrange (focus s none) a) := by
  apply frame_selInv (arrange_frame _ _)
  apply focus_selInv
  intro m hm hne
  rw [focus_none_selmon s h] at hne
  exact hs m hm hne

theorem unmanage_selInv (s : State) (c : Nat) (h : RegistryInv s) (hs : SelInv s) :
    SelInv (unmanage s c) := by
  unfold unmanage
  simp only []
  have h1 := (detach_detachstack_absent s c h).1
  have h2 := detach_detachstack_selInv s c h hs
  exact refocus_selInv _ _ h1 (fun m hm _ => h2 m hm)

theorem sendmon_selInv (s : State) (c m : Nat) (h : RegistryInv s) (hm : m ∈ s.mons)
    (hs : SelInv s) : SelInv (sendmon s c m) := by
  by_cases e : (s.client c).mon = m
  · unfold sendmon
    rw [if_pos e]
    exact hs
  · rw [sendmon_eq s c m e]
    have hinv := (sendmonmove_spec s c m h hm e).1
    have habs := detach_detachstack_absent s c h
    have h2 := detach_detachstack_selInv s c h hs
    have h3 : SelInv (sendmonmove s c m) := by
      unfold sendmonmove
      simp only []
      apply attach_attachstack_selInv
      exact setClient_selInv _ c _ (absent_stack habs) h2
    exact refocus_selInv _ _ hinv (fun a ha _ => h3 a ha)

/-- A write to the record of the selected monitor that keeps its lists leaves `SelOk` to
the other monitors. -/
theorem setMon_selOk_other (s : State) (v : Monitor) (hs : SelInv s) :
    ∀ m ∈ (s.setMon s.selmon v).mons, m ≠ (s.setMon s.selmon v).selmon →
      SelOk (s.setMon s.selmon v) m := by
  intro m hm hne
  have e : (s.setMon s.selmon v).monitor m = s.monitor m := setMon_monitor_ne _ _ _ _ hne
  exact selOk_transfer (hs m hm) (by rw [e]) (fun x hx => by rw [e]; exact hx) (by rw [e])
    (fun _ _ => rfl)

theorem view_selInv (s : State) (ui : Nat) (h : RegistryInv s) (hs : SelInv s) :
    SelInv (view s ui) := by
  unfold view
  simp only []
  split
  · exact hs
  · have hl : (if ui < LENGTH_tags then (s.monitor s.selmon).fliptag.setcurtag ui
        else (s.monitor s.selmon).fliptag).clients = (s.monitor s.selmon).clients
        ∧ (if ui < LENGTH_tags then (s.monitor s.selmon).fliptag.setcurtag ui
        else (s.monitor s.selmon).fliptag).stack = (s.monitor s.selmon).stack := by
      split
      · exact (fliptag_lists _ _).2
      · exact (fliptag_lists _ ui).1
    have h1 := (setMon_lists_sameReg s s.selmon _ hl).inv h
    exact refocus_selInv _ _ h1 (setMon_selOk_other s _ hs)

theorem cycleview_selInv (s : State) (i : Int) (h : RegistryInv s) (hs : SelInv s) :
    SelInv (cycleview s i) := by
  unfold cycleview
  simp only []
  have h1 := (setMon_lists_sameReg s s.selmon ((s.monitor s.selmon).fliptag.setcurtag
    (toU (if (if toI (s.monitor s.selmon).curtag + i < 0 then (LENGTH_tags : Int) - 1
                else toI (s.monitor s.selmon).curtag + i) ≥ (LENGTH_tags : Int)
            then 0 else (if toI (s.monitor s.selmon).curtag + i < 0 then (LENGTH_tags : Int) - 1
                else toI (s.monitor s.selmon).curtag + i)))) (fliptag_lists _ _).2).inv h
  exact refocus_selInv _ _ h1 (setMon_selOk_other s _ hs)

theorem tag_selInv (s : State) (ui : Nat) (h : RegistryInv s) (hs : SelInv s) :
    SelInv (tag s ui) := by
  unfold tag
  cases hsel : (s.monitor s.selmon).sel with
  | none => exact hs
  | some c =>
    simp only []
    split
    · have hc := (hs s.selmon h.2.1 c hsel).1
      have hcmon : (s.client c).mon = s.selmon :=
        (h.2.2 _ h.2.1).2.2 c ((h.2.2 _ h.2.1).2.1.mem_iff.mp hc)
      have h1 := (setClient_sameReg s c { s.client c with tag := ui } (by rfl)).inv h
      refine refocus_selInv _ _ h1 ?_
      intro m hm hne
      have hm' : m ∈ s.mons := hm
      refine selOk_transfer (hs m hm') rfl (fun x hx => hx) rfl ?_
      intro x hx
      have hxm : (s.client x).mon = m := (h.2.2 _ hm').2.2 x ((h.2.2 _ hm').2.1.mem_iff.mp hx)
      have hxc : x ≠ c := by
        intro e
        rw [e, hcmon] at hxm
        exact hne hxm.symm
      rw [setClient_client_ne _ _ _ _ hxc]
    · exact hs

theorem applyrules_selmon (rules : List Rule) (s : State) (c : Nat) (a b : Option String) :
    (applyrules rules s c a b).selmon = s.selmon := by
  rw [applyrules_eq]
  rfl

/-- The first part of `manage` writes only the record of the new client. -/
theorem managenew_writes (rules : List Rule) (s : State) (c w : Nat) (info : WindowInfo) :
    ClientsOnly s (managenew rules s c w info)
    ∧ (managenew rules s c w info).selmon = s.selmon
    ∧ ∀ x, x ≠ c → (managenew rules s c w info).client x = s.client x := by
  unfold managenew
  simp only []
  split
  · exact ⟨setClient_clientsOnly _ _ _, rfl, fun x hx => setClient_client_ne _ _ _ _ hx⟩
  · refine ⟨clientsOnly_trans (setClient_clientsOnly s c _)
        (applyrules_clientsOnly rules _ c info.res_class info.res_name).1, ?_, ?_⟩
    · rw [applyrules_selmon]
      rfl
    · intro x hx
      rw [(applyrules_clientsOnly rules _ c info.res_class info.res_name).2 x hx,
        setClient_client_ne _ _ _ _ hx]

theorem managegeometry_sameReg (s : State) (c : Nat) (wa : XWindowAttributes) :
    SameReg s (managegeometry s c wa) := by
  unfold managegeometry
  simp only []
  apply setClient_sameReg
  split_ifs <;> rfl

theorem manageprops_sameReg (s : State) (c : Nat) (info : WindowInfo) :
    SameReg s (manageprops s c info) := by
  unfold manageprops
  simp only []
  have h2 : SameReg s (updatewindowtype s c info.fullscreen info.dialog) := by
    unfold updatewindowtype
    simp only []
    have h1 : SameReg s (if info.fullscreen = true then setfullscreen s c true else s) := by
      split
      · exact (setfullscreen_sameReg s c true).1
      · exact SameReg.same s
    generalize (if info.fullscreen = true then setfullscreen s c true else s) = s1 at h1
    split
    · exact h1.chain (setClient_sameReg s1 c _ (by rfl))
    · exact h1
  generalize updatewindowtype s c info.fullscreen info.dialog = s2 at h2
  have h3 := h2.chain (setClient_sameReg s2 c (updatesizehints (s2.client c) info.size)
    (updatesizehints_mon _ _))
  generalize s2.setClient c (updatesizehints (s2.client c) info.size) = s3 at h3
  have h4 : SameReg s (updatewmhints s3 c info.wmh) := by
    unfold updatewmhints
    cases info.wmh with
    | none => exact h3
    | some hints =>
      simp only []
      refine h3.chain (setClient_sameReg s3 c _ ?_)
      split <;> rfl
  generalize updatewmhints s3 c info.wmh = s4 at h4
  split
  · exact h4
  · exact h4.chain (setClient_sameReg s4 c _ (by rfl))

/-- The function `manage` keeps the selection invariant when the new client lands on the
selected monitor or on the active tag of its monitor. -/
theorem manage_selInv (rules : List Rule) (s : State) (c w : Nat) (wa : XWindowAttributes)
    (info : WindowInfo) (h : RegistryInv s) (hs : SelInv s) (hc : c ∉ managed s)
    (hl : ((managenew rules s c w info).client c).mon = s.selmon
      ∨ ((managenew rules s c w info).client c).tag
          = (s.monitor ((managenew rules s c w info).client c).mon).curtag) :
    SelInv (manage rules s c w wa info) := by
  obtain ⟨n1, n2, n3⟩ := managenew_writes rules s c w info
  have g := spec_trans (managegeometry_spec (managenew rules s c w info) c wa)
    (manageprops_spec (managegeometry (managenew rules s c w info) c wa) c info)
  have r := (managegeometry_sameReg (managenew rules s c w info) c wa).chain
    (manageprops_sameReg (managegeometry (managenew rules s c w info) c wa) c info)
  have h5 := manageprops_pending _ c info
    (managegeometry_pending _ c wa (managenew_pending rules s c w info h hc))
  unfold manage
  simp only []
  generalize manageprops (managegeometry (managenew rules s c w info) c wa) c info = s5
    at g r h5
  have hmon5 : (s5.client c).mon = ((managenew rules s c w info).client c).mon := r.2.2.2 c
  have htag5 : (s5.client c).tag = ((managenew rules s c w info).client c).tag := g.2.1.1 c
  rw [← hmon5, ← htag5] at hl
  have k5 : ClientsOnly s s5 := clientsOnly_trans n1 g.1
  have hsel5 : s5.selmon = s.selmon := r.2.1.trans n2
  have hcst : ∀ m ∈ s.mons, c ∉ (s.monitor m).stack := by
    intro m hm hin
    exact hc ((managed_iff s c).mpr ⟨m, hm, (h.2.2 m hm).2.1.mem_iff.mp hin⟩)
  have hs5 : SelInv s5 := by
    intro m hm
    rw [k5.1] at hm
    refine selOk_transfer (hs m hm) (by rw [k5.2]) (fun x hx => by rw [k5.2]; exact hx)
      (by rw [k5.2]) ?_
    intro x hx
    have hne : x ≠ c := fun e => hcst m hm (e ▸ hx)
    rw [g.2.2 x hne, n3 x hne]
  have hs6 := attach_attachstack_selInv s5 c hs5
  have h6 := attach_attachstack_inv s5 c h5.1 h5.2
  obtain ⟨a1, a2, a3, a4⟩ := attach_attachstack_obs s5 c
  have hcur6 : ((attachstack (attach s5 c) c).monitor (s5.client c).mon).curtag
      = (s.monitor (s5.client c).mon).curtag := by
    rw [← k5.2]
    simp [attachstack, attach, State.setMon, Monitor.curtag]
  have hst6 : c ∈ ((attachstack (attach s5 c) c).monitor (s5.client c).mon).stack := by
    rw [(a4 _).2, if_pos rfl]
    exact List.mem_cons_self _ _
  have hm6 : ((attachstack (attach s5 c) c).client c).mon = (s5.client c).mon := by rw [a3]
  have hc6 : ((attachstack (attach s5 c) c).client c).tag = (s5.client c).tag := by rw [a3]
  rw [hm6]
  generalize attachstack (attach s5 c) c = s6 at hs6 h6 a1 a2 hcur6 hst6 hc6
  have h7 : RegistryInv (s6.setMon (s5.client c).mon
      { s6.monitor (s5.client c).mon with sel := some c }) :=
    (setMon_sel_sameReg s6 _ _).inv h6
  have hsel7 : (focus (arrange (s6.setMon (s5.client c).mon
      { s6.monitor (s5.client c).mon with sel := some c }) (some (s5.client c).mon)) none).selmon
      = s.selmon := by
    rw [focus_none_selmon _ (arrange_inv _ _ h7), (arrange_frame _ _).2.2.2.2.1]
    show s6.selmon = s.selmon
    rw [a2, hsel5]
  apply focus_selInv
  intro m hm hne
  rw [hsel7] at hne
  apply frame_selOk (arrange_frame _ _)
  have hm6' : m ∈ s6.mons := by
    rw [(arrange_frame _ _).2.2.2.1] at hm
    exact hm
  by_cases e : m = (s5.client c).mon
  · intro x hx
    rw [e, setMon_monitor_self] at hx
    cases hx
    rw [e, setMon_monitor_self]
    refine ⟨hst6, ?_⟩
    show (s6.client c).tag = (s6.monitor (s5.client c).mon).curtag
    rw [hc6, hcur6]
    rcases hl with hl | hl
    · exact absurd (e.trans hl) hne
    · exact hl
  · have em := setMon_monitor_ne s6 (s5.client c).mon m
      { s6.monitor (s5.client c).mon with sel := some c } e
    exact selOk_transfer (hs6 m hm6') (by rw [em]) (fun x hx => by rw [em]; exact hx)
      (by rw [em]) (fun _ _ => rfl)

theorem addmons_selInv (k : Nat) (s : State) (hs : SelInv s) : SelInv (addmons k s) := by
  obtain ⟨new, a1, _, _, _, a5, a6, a7, _, _⟩ := addmons_spec k s
  intro m hm
  rw [a1] at hm
  by_cases hn : m ∈ new
  · intro x hx
    rw [a5 m hn] at hx
    cases hx
  · rcases List.mem_append.mp hm with h1 | h1
    · have e := a6 m hn
      exact selOk_transfer (hs m h1) (by rw [e]) (fun x hx => by rw [e]; exact hx) (by rw [e])
        (fun x _ => by rw [a7])
    · exact absurd h1 hn

/-- A write to a monitor record that keeps its selection, its focus stack and its tag
slots keeps the selection invariant. -/
theorem setMon_selInv (s : State) (m : Nat) (v : Monitor) (hsel : v.sel = (s.monitor m).sel)
    (hst : v.stack = (s.monitor m).stack)
    (hslots : v.seltag = (s.monitor m).seltag ∧ v.tag0 = (s.monitor m).tag0
      ∧ v.tag1 = (s.monitor m).tag1) (hs : SelInv s) : SelInv (s.setMon m v) := by
  intro a ha
  by_cases e : a = m
  · subst e
    refine selOk_transfer (hs a ha) (by simpa using hsel) (fun x hx => by simpa [hst] using hx)
      ?_ (fun _ _ => rfl)
    rw [setMon_monitor_self]
    exact (curtag_of_slots hslots).1
  · have em := setMon_monitor_ne s m a v e
    exact selOk_transfer (hs a ha) (by rw [em]) (fun x hx => by rw [em]; exact hx)
      (by rw [em]) (fun _ _ => rfl)

theorem updatebarpos_sel (bh : Int) (M : Monitor) : (updatebarpos bh M).sel = M.sel := by
  unfold updatebarpos
  simp only []
  split <;> rfl

theorem setgeoms_selInv (n : Nat) (ms : List Nat) (us : List XineramaScreenInfo) (i : Nat)
    (r : State × Bool) (hs : SelInv r.1) : SelInv (setgeoms n ms us i r).1 := by
  induction ms generalizing us i r with
  | nil =>
    have e : setgeoms n [] us i r = r := by cases us <;> simp [setgeoms]
    rw [e]; exact hs
  | cons m ms ih =>
    cases us with
    | nil =>
      have e : setgeoms n (m :: ms) [] i r = r := by simp [setgeoms]
      rw [e]; exact hs
    | cons u us =>
      obtain ⟨s, d⟩ := r
      simp only [setgeoms]
      split
      · apply ih us (i + 1) _
        exact setMon_selInv s m _ (updatebarpos_sel _ _) (updatebarpos_lists _ _).2
          (updatebarpos_slots _ _) hs
      · exact ih us (i + 1) (s, d) hs

theorem updategeomend_selInv (ptr : Option (Int × Int)) (sd : State × Bool)
    (hs : SelInv sd.1) : SelInv (updategeomend ptr sd).1 := by
  obtain ⟨f1, f2, f3, _, _⟩ := updategeomend_fields ptr sd
  intro m hm
  rw [f3] at hm
  exact selOk_transfer (hs m hm) (by rw [f1]) (fun x hx => by rw [f1]; exact hx) (by rw [f1])
    (fun x _ => by rw [f2])

/-- The loop that hands the clients of a monitor to the first monitor keeps the selection
invariant. -/
theorem migrate_selInv (m : Nat) : ∀ (fuel : Nat) (s : State), RegistryInv s → m ∈ s.mons →
    SelInv s → SelInv (migrate m fuel s) := by
  intro fuel
  induction fuel with
  | zero => intro s _ _ hs; exact hs
  | succ fuel ih =>
    intro s h hm hs
    simp only [migrate]
    cases hcl : (s.monitor m).clients with
    | nil => exact hs
    | cons c rest =>
      simp only []
      have hcm : (s.client c).mon = m := (h.2.2 m hm).2.2 c (by rw [hcl]; simp)
      have hdet : s.setMon m { s.monitor m with clients := rest } = detach s c := by
        unfold detach
        simp only [hcm, hcl, List.erase_cons_head]
      rw [hdet]
      have h1 := detach_detachstack_absent s c h
      have hs1 := detach_detachstack_selInv s c h hs
      obtain ⟨o1, o2, _, _⟩ := detach_detachstack_obs s c
      generalize detachstack (detach s c) c = s1 at h1 o1 o2 hs1
      have hne : s1.mons ≠ [] := by rw [o1]; exact List.ne_nil_of_mem hm
      have h2 : AbsentInv (s1.setClient c { s1.client c with mon := s1.mons.headD 0 }) c :=
        h1.setClient _
      have hs2 : SelInv (s1.setClient c { s1.client c with mon := s1.mons.headD 0 }) :=
        setClient_tag_selInv s1 c _ rfl hs1
      have h3 := attach_attachstack_inv _ c h2 (by
        simp only [setClient_client_self]
        exact headD_mem _ hne)
      have hs3 := attach_attachstack_selInv _ c hs2
      obtain ⟨p1, p2, _, _⟩ := attach_attachstack_obs
        (s1.setClient c { s1.client c with mon := s1.mons.headD 0 }) c
      generalize attachstack (attach (s1.setClient c
        { s1.client c with mon := s1.mons.headD 0 }) c) c = s4 at h3 p1 p2 hs3
      have hm4 : m ∈ s4.mons := by rw [p1]; show m ∈ s1.mons; rw [o1]; exact hm
      exact ih s4 h3 hm4 hs3

theorem shrinkround_selInv (s : State) (m : Nat) (h : RegistryInv s) (hm : m ∈ s.mons)
    (hs : SelInv s) : SelInv (shrinkround s m) := by
  have h1 := migrate_selInv m (s.monitor m).clients.length s h hm hs
  unfold shrinkround
  simp only []
  generalize migrate m (s.monitor m).clients.length s = s1 at h1
  intro a ha
  have ha1 : a ∈ s1.mons := by
    have : a ∈ s1.mons.erase m := by
      unfold cleanupmon at ha
      split at ha <;> exact ha
    exact List.mem_of_mem_erase this
  have em : (cleanupmon (if m = s1.selmon then { s1 with selmon := s1.mons.headD 0 }
      else s1) m).monitor = s1.monitor := by
    unfold cleanupmon; split <;> rfl
  have ec : (cleanupmon (if m = s1.selmon then { s1 with selmon := s1.mons.headD 0 }
      else s1) m).client = s1.client := by
    unfold cleanupmon; split <;> rfl
  exact selOk_transfer (h1 a ha1) (by rw [em]) (fun x hx => by rw [em]; exact hx) (by rw [em])
    (fun x _ => by rw [ec])

theorem removemons_selInv : ∀ (k : Nat) (s : State) (d : Bool) (s' : State) (d' : Bool),
    RegistryInv s → SelInv s → k < s.mons.length → removemons k (s, d) = some (s', d') →
    SelInv s' := by
  intro k
  induction k with
  | zero =>
    intro s d s' d' _ hs _ he
    simp only [removemons, Option.some.injEq, Prod.mk.injEq] at he
    rw [← he.1]; exact hs
  | succ k ih =>
    intro s d s' d' h hs hk he
    cases hlast : s.mons.getLast? with
    | none =>
      simp only [removemons, hlast] at he
      cases he
    | some m =>
      obtain ⟨ys, hys⟩ := List.getLast?_eq_some_iff.mp hlast
      have hlen : s.mons.length = ys.length + 1 := by rw [hys]; simp
      have hne : ys ≠ [] := by
        intro e
        rw [e] at hlen
        simp at hlen
        omega
      have hnd : (ys ++ [m]).Nodup := hys ▸ h.1
      have hmys : m ∉ ys := by
        intro hin
        have := (List.nodup_append.mp hnd).2.2
        exact this (a := m) hin (by simp)
      have hm : m ∈ s.mons := by rw [hys]; simp
      rw [removemons_succ k s d ys m hys hne hmys] at he
      obtain ⟨r1, r2, _, _⟩ := shrinkround_spec s ys m h hys hne
      exact ih _ _ s' d' r1 (shrinkround_selInv s m h hm hs) (by rw [r2]; omega) he

/-- The function `updategeom` keeps the selection invariant, provided Xinerama, when it is
active, reports at least one screen. -/
theorem updategeom_selInv (s : State) (xin : Option (List XineramaScreenInfo))
    (ptr : Option (Int × Int)) (s' : State) (d : Bool) (h : RegistryInv s) (hs : SelInv s)
    (hx : xin ≠ some []) (he : updategeom s xin ptr = some (s', d)) : SelInv s' := by
  unfold updategeom at he
  cases xin with
  | some info =>
    have hinfo : info ≠ [] := fun e => hx (by rw [e])
    have hnn : 1 ≤ (uniquegeoms info).length :=
      List.length_pos.mpr (uniquegeoms_ne_nil info hinfo)
    simp only [] at he
    split at he
    · simp only [Option.map_some', Option.some.injEq] at he
      have h1 := addmons_selInv ((uniquegeoms info).length - s.mons.length) s hs
      have h2 := setgeoms_selInv s.mons.length
        (addmons ((uniquegeoms info).length - s.mons.length) s).mons (uniquegeoms info) 0
        (addmons ((uniquegeoms info).length - s.mons.length) s, false) h1
      have h3 := updategeomend_selInv ptr _ h2
      rw [he] at h3
      exact h3
    · cases hr : removemons (s.mons.length - (uniquegeoms info).length) (s, false) with
      | none => rw [hr] at he; cases he
      | some r =>
        obtain ⟨s1, d1⟩ := r
        rw [hr] at he
        simp only [Option.map_some', Option.some.injEq] at he
        have h1 := removemons_selInv _ s false s1 d1 h hs (by omega) hr
        have h3 := updategeomend_selInv ptr (s1, d1) h1
        rw [he] at h3
        exact h3
  | none =>
    simp only [] at he
    have hne : s.mons ≠ [] := List.ne_nil_of_mem h.2.1
    simp only [hne, ↓reduceIte] at he
    split at he
    · simp only [Option.map_some', Option.some.injEq] at he
      have h2 : SelInv (s.setMon (s.mons.headD 0) (updatebarpos s.bh
          { s.monitor (s.mons.headD 0) with mw := s.sw, ww := s.sw, mh := s.sh, wh := s.sh })) :=
        setMon_selInv s _ _ (updatebarpos_sel _ _) (updatebarpos_lists _ _).2
          (updatebarpos_slots _ _) hs
      rw [show s' = (s', d).1 from rfl, ← he]
      exact updategeomend_selInv ptr (_, true) h2
    · simp only [Option.map_some', Option.some.injEq] at he
      rw [show s' = (s', d).1 from rfl, ← he]
      exact updategeomend_selInv ptr (s, false) hs

/-- Both invariants hold in every state reached with windows that land on the selected
monitor or on an active tag. -/
theorem reaches_invariants {rules : List Rule} {s : State}
    (h : Reaches rules (LandsVisible rules) s) : RegistryInv s ∧ SelInv s := by
  induction h with
  | start s h1 h2 h3 =>
    refine ⟨⟨h1, h2, fun m hm => ?_⟩, fun m hm c hc => ?_⟩
    · rw [(h3 m hm).1, (h3 m hm).2.1]
      exact ⟨List.nodup_nil, List.Perm.refl _, fun c hc => absurd hc (List.not_mem_nil c)⟩
    · rw [(h3 m hm).2.2] at hc
      cases hc
  | manage s c w wa info _ hc hl ih =>
    exact ⟨manage_inv rules s c w wa info ih.1 hc, manage_selInv rules s c w wa info ih.1 ih.2 hc hl⟩
  | unmanage s c _ ih => exact ⟨unmanage_inv s c ih.1, unmanage_selInv s c ih.1 ih.2⟩
  | focus s c _ hc ih =>
    exact ⟨focus_inv s c ih.1 hc, focus_selInv s c (fun m hm _ => ih.2 m hm)⟩
  | view s ui _ ih => exact ⟨(view_inv s ui ih.1).1, view_selInv s ui ih.1 ih.2⟩
  | cycleview s i _ ih => exact ⟨(cycleview_inv s i ih.1).1, cycleview_selInv s i ih.1 ih.2⟩
  | tag s ui _ ih => exact ⟨tag_inv s ui ih.1, tag_selInv s ui ih.1 ih.2⟩
  | sendmon s c m _ hm ih => exact ⟨sendmon_inv s c m ih.1 hm, sendmon_selInv s c m ih.1 hm ih.2⟩
  | updategeom s xin ptr t d _ hx he ih =>
    exact ⟨updategeom_inv s xin ptr t d ih.1 hx he, updategeom_selInv s xin ptr t d ih.1 ih.2 hx he⟩

/-- Under the registry invariant the selection invariant gives the property of claim
C26. -/
theorem selInv_claim {s : State} (h : RegistryInv s) (hs : SelInv s) : SelectionClaim s := by
  intro m hm c hc
  obtain ⟨h1, h2⟩ := hs m hm c hc
  have hcm : (s.client c).mon = m := (h.2.2 m hm).2.2 c ((h.2.2 m hm).2.1.mem_iff.mp h1)
  refine ⟨h1, h2, ?_⟩
  simp only [ISVISIBLE, hcm, h2, beq_self_eq_true]

theorem twoMonitors_reaches (rules : List Rule)
    (land : State → Nat → Nat → WindowInfo → Prop) : Reaches rules land twoMonitors :=
  Reaches.start twoMonitors (by decide) (by decide) (by
    intro m _
    exact ⟨rfl, rfl, rfl⟩)

theorem bareState_reaches (rules : List Rule)
    (land : State → Nat → Nat → WindowInfo → Prop) : Reaches rules land bareState :=
  Reaches.start bareState (by decide) (by decide) (by
    intro m _
    exact ⟨rfl, rfl, rfl⟩)

/-- C26, counterexample: two monitors, the first one selected, and the rule `ruleFooMon`
(class `Foo`: tag 2, monitor number 1).  `manage` for a window of class `Foo` puts the
client on the second monitor with tag 2, while the active tag of that monitor is 0, and
selects it there; the closing `focus(NULL)` visits only the selected monitor.  The state
is reached by one call of `manage`, and its second monitor selects a client that is not
visible. -/
theorem manage_selects_invisible :
    Reaches [ruleFooMon] AnyWindow (manage [ruleFooMon] twoMonitors 7 42 plainAttributes fooWindow)
    ∧ ((manage [ruleFooMon] twoMonitors 7 42 plainAttributes fooWindow).monitor 2).sel = some 7
    ∧ ((manage [ruleFooMon] twoMonitors 7 42 plainAttributes fooWindow).client 7).tag = 2
    ∧ ((manage [ruleFooMon] twoMonitors 7 42 plainAttributes fooWindow).monitor 2).curtag = 0
    ∧ ISVISIBLE (manage [ruleFooMon] twoMonitors 7 42 plainAttributes fooWindow) 7 = false
    ∧ ¬ SelectionClaim (manage [ruleFooMon] twoMonitors 7 42 plainAttributes fooWindow) := by
  have h1 : ((manage [ruleFooMon] twoMonitors 7 42 plainAttributes fooWindow).monitor 2).sel
      = some 7 := by decide
  have h2 : ISVISIBLE (manage [ruleFooMon] twoMonitors 7 42 plainAttributes fooWindow) 7
      = false := by decide
  refine ⟨Reaches.manage twoMonitors 7 42 _ _ (twoMonitors_reaches _ _) (by decide) trivial,
    h1, by decide, by decide, h2, ?_⟩
  intro h
  have h3 := (h 2 (by decide) 7 h1).2.2
  rw [h2] at h3
  cases h3

/-- C26, amended: in every state reached from a chain of monitors without clients through
`manage`, `unmanage`, `focus`, `view`, `cycleview`, `tag`, `sendmon` and `updategeom`,
where every managed window lands on the selected monitor or on the active tag of its
monitor, the selection of each monitor is null or a client of the focus stack of that
monitor that is visible on the active tag of the monitor. -/
theorem selection_invariant (rules : List Rule) (s : State)
    (h : Reaches rules (LandsVisible rules) s) : SelectionClaim s :=
  selInv_claim (reaches_invariants h).1 (reaches_invariants h).2

/-- C26, instance: a window of class `Foo` managed under the rule of Scenario C lands on
tag 3 of the selected monitor, which shows tag 0, so that the monitor selects no client;
the property holds there and after `view` of tag 3. -/
theorem selection_invariant_witness :
    Reaches [ruleFoo] (LandsVisible [ruleFoo])
      (view (manage [ruleFoo] bareState 7 42 plainAttributes fooWindow) 3)
    ∧ SelectionClaim (view (manage [ruleFoo] bareState 7 42 plainAttributes fooWindow) 3)
    ∧ ((manage [ruleFoo] bareState 7 42 plainAttributes fooWindow).monitor 0).sel = none :=
  ⟨Reaches.view _ _ (Reaches.manage bareState 7 42 _ _ (bareState_reaches _ _) (by decide)
      (Or.inl (by decide))),
   selection_invariant [ruleFoo] _
     (Reaches.view _ _ (Reaches.manage bareState 7 42 _ _ (bareState_reaches _ _) (by decide)
        (Or.inl (by decide)))),
   by decide⟩

/-! ## The divisions of `tile` -/

/-- The divisors of the loop of `tile`: the counter stays below the number of tiled
clients, and in the master column below the master count. -/
theorem tiledivs_divisor (m n mw kn : Nat) (hkn : kn < 2147483648) (hn : n < 4294967296) :
    ∀ (l : List Nat) (i my ty : Nat) (s : State),
      (montotag (s.monitor m)).nmaster = (kn : Int) → i + counttiled s l = n →
      ∀ d ∈ tiledivs m n mw l i my ty s, d.i < d.lim ∧ 1 ≤ usub d.lim d.i := by
  intro l
  induction l with
  | nil =>
    intro i my ty s _ _ d hd
    simp [tiledivs] at hd
  | cons c l ih =>
    intro i my ty s hk hcnt d hd
    have htoUk : toU (montotag (s.monitor m)).nmaster = kn := by
      rw [hk]; unfold toU; omega
    by_cases hs : ((s.client c).isfloating || !ISVISIBLE s c) = true
    · simp only [tiledivs, hs, ↓reduceIte] at hd
      simp only [counttiled, hs, ↓reduceIte] at hcnt
      exact ih i my ty s hk hcnt d hd
    · have hs' : ((s.client c).isfloating || !ISVISIBLE s c) = false := by simpa using hs
      simp only [counttiled, hs', Bool.false_eq_true, ↓reduceIte] at hcnt
      have hrest : ∀ (x y w h : Int),
          (montotag ((resize s c x y w h false).monitor m)).nmaster = (kn : Int)
          ∧ uadd i 1 + counttiled (resize s c x y w h false) l = n := by
        intro x y w h
        rw [resize_monitor, (resize_frame s c x y w h false).counttiled_eq, uadd_nat _ _ (by omega)]
        exact ⟨hk, by omega⟩
      by_cases hi : i < kn
      · simp only [tiledivs, hs', Bool.false_eq_true, ↓reduceIte, htoUk, hi,
          List.mem_cons] at hd
        rcases hd with hd | hd
        · rw [hd]
          simp only []
          have hlim : i < (if n < kn then n else kn) := by split <;> omega
          refine ⟨hlim, ?_⟩
          rw [usub_nat _ _ (by omega) (by split <;> omega)]
          omega
        · exact ih _ _ _ _ (hrest _ _ _ _).1 (hrest _ _ _ _).2 d hd
      · simp only [tiledivs, hs', Bool.false_eq_true, ↓reduceIte, htoUk, hi,
          List.mem_cons] at hd
        rcases hd with hd | hd
        · rw [hd]
          simp only []
          refine ⟨by omega, ?_⟩
          rw [usub_nat _ _ (by omega) (by omega)]
          omega
        · exact ih _ _ _ _ (hrest _ _ _ _).1 (hrest _ _ _ _).2 d hd

/-- The record of divisions passes over the clients that `nexttiled` skips. -/
theorem tiledivs_filter (m n mw : Nat) (l : List Nat) (i my ty : Nat) (s : State) :
    tiledivs m n mw l i my ty s = tiledivs m n mw (tiledclients s l) i my ty s := by
  induction l generalizing i my ty s with
  | nil => rfl
  | cons a as ih =>
    by_cases hs : ((s.client a).isfloating || !ISVISIBLE s a) = true
    · have : tiledclients s (a :: as) = tiledclients s as := by
        simp only [tiledclients, List.filter_cons, hs, Bool.not_true, Bool.false_eq_true,
          ↓reduceIte]
      rw [this, ← ih]
      simp only [tiledivs, hs, ↓reduceIte]
    · have hs' : ((s.client a).isfloating || !ISVISIBLE s a) = false := by
        simpa using hs
      have : tiledclients s (a :: as) = a :: tiledclients s as := by
        simp only [tiledclients, List.filter_cons, hs', Bool.not_false, ↓reduceIte]
      rw [this]
      simp only [tiledivs, hs', Bool.false_eq_true, ↓reduceIte]
      split
      · rw [ih, tiledclients_frame (resize_frame _ _ _ _ _ _ _)]
      · rw [ih, tiledclients_frame (resize_frame _ _ _ _ _ _ _)]

/-- One round of the loop of `tile` in the master column with its division, for a tiled
client `c` of monitor `m` whose share `sh` leaves at least `max 1 bh` inside the border. -/
theorem tilestep_master (m n mw kn whn : Nat) (wy : Int) (T : List Nat) (c i my ty : Nat)
    (s : State) (D sh : Nat)
    (hkn : kn < 2147483648) (hwh : whn < 2147483648)
    (hwy0 : -2147483648 ≤ wy) (hwy1 : wy + whn < 2147483648) (hn : n < 4294967296)
    (hskip : ((s.client c).isfloating || !ISVISIBLE s c) = false)
    (hmon : (s.client c).mon = m) (hbw : 0 ≤ (s.client c).bw)
    (hwy : (s.monitor m).wy = wy) (hwhs : (s.monitor m).wh = (whn : Int))
    (hk : (montotag (s.monitor m)).nmaster = (kn : Int))
    (hi : i < min n kn) (hD : min n kn - i = D + 1) (hmy : my ≤ whn)
    (hsh : (whn - my) / (D + 1) = sh) :
    (∃ rest, tiledivs m n mw (c :: T) i my ty s
        = { client := c, i := i, lim := min n kn, off := my, wh := whn, h := sh,
            bw := (s.client c).bw } :: rest)
    ∧ (max 1 s.bh + 2 * (s.client c).bw ≤ (sh : Int) →
        ∃ s1, tileloop m n mw (c :: T) i my ty s = tileloop m n mw T (i + 1) (my + sh) ty s1
          ∧ tiledivs m n mw (c :: T) i my ty s
              = { client := c, i := i, lim := min n kn, off := my, wh := whn, h := sh,
                  bw := (s.client c).bw } :: tiledivs m n mw T (i + 1) (my + sh) ty s1
          ∧ Frame s s1 ∧ s1.monitor = s.monitor ∧ vgeom s1 c = (wy + my, (sh : Int))) := by
  have hfl : (s.client c).isfloating = false := by
    cases hh : (s.client c).isfloating
    · rfl
    · rw [hh] at hskip; simp at hskip
  have htoUk : toU (montotag (s.monitor m)).nmaster = kn := by
    rw [hk]; unfold toU; omega
  have htoUwh : toU (s.monitor m).wh = whn := by
    rw [hwhs]; unfold toU; omega
  have hsle : sh ≤ whn - my := by rw [← hsh]; exact Nat.div_le_self _ _
  have hlim : (if n < kn then n else kn) = min n kn := by
    split_ifs <;> omega
  have hdiv : usub (toU (s.monitor m).wh) my
      / usub (if n < toU (montotag (s.monitor m)).nmaster then n
              else toU (montotag (s.monitor m)).nmaster) i = sh := by
    rw [htoUwh, htoUk, usub_nat _ _ hmy (by omega), hlim, usub_nat _ _ (by omega) (by omega),
      hD, hsh]
  have hi' : i < toU (montotag (s.monitor m)).nmaster := by rw [htoUk]; omega
  constructor
  · simp only [tiledivs, hskip, Bool.false_eq_true, ↓reduceIte, hi', hdiv]
    simp only [htoUk, hlim, htoUwh]
    exact ⟨_, rfl⟩
  · intro hfit
    have hyarg : toI (uadd (toU (s.monitor m).wy) my) = wy + my := by
      rw [hwy]; exact toI_uadd _ _ (by omega) (by omega)
    have hharg : toI (usub sh (toU (2 * (s.client c).bw))) = sh - 2 * (s.client c).bw :=
      toI_usub _ _ (by omega) (by omega)
    have hres := resize_tiled_yh s c (s.monitor m).wx (wy + my)
      (toI (usub mw (toU (2 * (s.client c).bw)))) (sh - 2 * (s.client c).bw) hfl
      (by rw [hmon, hwy]; omega) (by rw [hmon, hwy, hwhs]; omega) hbw (by omega)
    have hbw1 := resize_bw s c c (s.monitor m).wx (wy + my)
      (toI (usub mw (toU (2 * (s.client c).bw)))) (sh - 2 * (s.client c).bw) false
    have hH : HEIGHT ((resize s c (s.monitor m).wx (wy + my)
        (toI (usub mw (toU (2 * (s.client c).bw)))) (sh - 2 * (s.client c).bw) false).client c)
        = sh := by
      unfold HEIGHT; rw [hres.2, hbw1]; omega
    have e1 : toU (sh : Int) = sh := by unfold toU; omega
    refine ⟨resize s c (s.monitor m).wx (wy + my)
      (toI (usub mw (toU (2 * (s.client c).bw)))) (sh - 2 * (s.client c).bw) false,
      ?_, ?_, resize_frame _ _ _ _ _ _ _, resize_monitor _ _ _ _ _ _ _, ?_⟩
    · simp only [tileloop, hskip, Bool.false_eq_true, ↓reduceIte, hi', hdiv, hyarg, hharg, hH]
      rw [e1, uadd_nat _ _ (by omega), uadd_nat _ _ (by omega)]
    · simp only [tiledivs, hskip, Bool.false_eq_true, ↓reduceIte, hi', hdiv, hyarg, hharg, hH]
      rw [e1, uadd_nat _ _ (by omega), uadd_nat _ _ (by omega), htoUk, hlim, htoUwh]
    · unfold vgeom
      rw [hH, hres.1]

/-- One round of the loop of `tile` in the stack column with its division. -/
theorem tilestep_stack (m n mw kn whn : Nat) (wy : Int) (T : List Nat) (c i my ty : Nat)
    (s : State) (D sh : Nat)
    (hkn : kn < 2147483648) (hwh : whn < 2147483648)
    (hwy0 : -2147483648 ≤ wy) (hwy1 : wy + whn < 2147483648) (hn : n < 4294967296)
    (hskip : ((s.client c).isfloating || !ISVISIBLE s c) = false)
    (hmon : (s.client c).mon = m) (hbw : 0 ≤ (s.client c).bw)
    (hwy : (s.monitor m).wy = wy) (hwhs : (s.monitor m).wh = (whn : Int))
    (hk : (montotag (s.monitor m)).nmaster = (kn : Int))
    (hi : ¬ i < min n kn) (hD : n - i = D + 1) (hty : ty ≤ whn)
    (hsh : (whn - ty) / (D + 1) = sh) :
    (∃ rest, tiledivs m n mw (c :: T) i my ty s
        = { client := c, i := i, lim := n, off := ty, wh := whn, h := sh,
            bw := (s.client c).bw } :: rest)
    ∧ (max 1 s.bh + 2 * (s.client c).bw ≤ (sh : Int) →
        ∃ s1, tileloop m n mw (c :: T) i my ty s = tileloop m n mw T (i + 1) my (ty + sh) s1
          ∧ tiledivs m n mw (c :: T) i my ty s
              = { client := c, i := i, lim := n, off := ty, wh := whn, h := sh,
                  bw := (s.client c).bw } :: tiledivs m n mw T (i + 1) my (ty + sh) s1
          ∧ Frame s s1 ∧ s1.monitor = s.monitor ∧ vgeom s1 c = (wy + ty, (sh : Int))) := by
  have hfl : (s.client c).isfloating = false := by
    cases hh : (s.client c).isfloating
    · rfl
    · rw [hh] at hskip; simp at hskip
  have htoUk : toU (montotag (s.monitor m)).nmaster = kn := by
    rw [hk]; unfold toU; omega
  have htoUwh : toU (s.monitor m).wh = whn := by
    rw [hwhs]; unfold toU; omega
  have hsle : sh ≤ whn - ty := by rw [← hsh]; exact Nat.div_le_self _ _
  have hdiv : usub (toU (s.monitor m).wh) ty / usub n i = sh := by
    rw [htoUwh, usub_nat _ _ hty (by omega), usub_nat _ _ (by omega) (by omega), hD, hsh]
  have hi' : ¬ i < toU (montotag (s.monitor m)).nmaster := by rw [htoUk]; omega
  constructor
  · simp only [tiledivs, hskip, Bool.false_eq_true, ↓reduceIte, hi', hdiv]
    simp only [htoUwh]
    exact ⟨_, rfl⟩
  · intro hfit
    have hyarg : toI (uadd (toU (s.monitor m).wy) ty) = wy + ty := by
      rw [hwy]; exact toI_uadd _ _ (by omega) (by omega)
    have hharg : toI (usub sh (toU (2 * (s.client c).bw))) = sh - 2 * (s.client c).bw :=
      toI_usub _ _ (by omega) (by omega)
    have hres := resize_tiled_yh s c (toI (uadd (toU (s.monitor m).wx) mw)) (wy + ty)
      (toI (usub (usub (toU (s.monitor m).ww) mw) (toU (2 * (s.client c).bw))))
      (sh - 2 * (s.client c).bw) hfl
      (by rw [hmon, hwy]; omega) (by rw [hmon, hwy, hwhs]; omega) hbw (by omega)
    have hbw1 := resize_bw s c c (toI (uadd (toU (s.monitor m).wx) mw)) (wy + ty)
      (toI (usub (usub (toU (s.monitor m).ww) mw) (toU (2 * (s.client c).bw))))
      (sh - 2 * (s.client c).bw) false
    have hH : HEIGHT ((resize s c (toI (uadd (toU (s.monitor m).wx) mw)) (wy + ty)
        (toI (usub (usub (toU (s.monitor m).ww) mw) (toU (2 * (s.client c).bw))))
        (sh - 2 * (s.client c).bw) false).client c) = sh := by
      unfold HEIGHT; rw [hres.2, hbw1]; omega
    have e1 : toU (sh : Int) = sh := by unfold toU; omega
    refine ⟨resize s c (toI (uadd (toU (s.monitor m).wx) mw)) (wy + ty)
      (toI (usub (usub (toU (s.monitor m).ww) mw) (toU (2 * (s.client c).bw))))
      (sh - 2 * (s.client c).bw) false,
      ?_, ?_, resize_frame _ _ _ _ _ _ _, resize_monitor _ _ _ _ _ _ _, ?_⟩
    · simp only [tileloop, hskip, Bool.false_eq_true, ↓reduceIte, hi', hdiv, hyarg, hharg, hH]
      rw [e1, uadd_nat _ _ (by omega), uadd_nat _ _ (by omega)]
    · simp only [tiledivs, hskip, Bool.false_eq_true, ↓reduceIte, hi', hdiv, hyarg, hharg, hH]
      rw [e1, uadd_nat _ _ (by omega), uadd_nat _ _ (by omega), htoUwh]
    · unfold vgeom
      rw [hH, hres.1]

/-- The loop of `tile` from position `i` on, for a list `T` of tiled clients of monitor
`m`: when every quotient leaves at least `max 1 bh` inside the border of its client, no
offset exceeds the height to share, and the rest of the master column and the rest of the
stack column come out as `column` describes them. -/
theorem tileloop_traced (m n mw kn whn : Nat) (wy : Int)
    (hkn : kn < 2147483648) (hwh : whn < 2147483648)
    (hwy0 : -2147483648 ≤ wy) (hwy1 : wy + whn < 2147483648) (hn : n < 4294967296) :
    ∀ (T : List Nat) (i my ty : Nat) (s : State),
      i + T.length = n → T.Nodup →
      (∀ c ∈ T, ((s.client c).isfloating || !ISVISIBLE s c) = false ∧ (s.client c).mon = m
        ∧ 0 ≤ (s.client c).bw) →
      (s.monitor m).wy = wy → (s.monitor m).wh = (whn : Int) →
      (montotag (s.monitor m)).nmaster = (kn : Int) →
      (∀ d ∈ tiledivs m n mw T i my ty s, max 1 s.bh ≤ (d.h : Int) - 2 * d.bw) →
      (i < min n kn → my ≤ whn) →
      (i ≤ min n kn → ty = 0) →
      ty ≤ whn →
      (∀ d ∈ tiledivs m n mw T i my ty s, d.wh = whn ∧ d.off ≤ d.wh)
      ∧ (T.take (min n kn - i)).map (vgeom (tileloop m n mw T i my ty s))
          = column (wy + my) (whn - my) (min n kn - i)
      ∧ (T.drop (min n kn - i)).map (vgeom (tileloop m n mw T i my ty s))
          = column (wy + ty) (whn - ty) (n - max i (min n kn)) := by
  intro T
  induction T with
  | nil =>
    intro i my ty s hlen _ _ _ _ _ _ _ _ _
    simp only [List.length_nil, Nat.add_zero] at hlen
    have e1 : min n kn - i = 0 := by omega
    have e2 : n - max i (min n kn) = 0 := by omega
    simp [e1, e2, column, tiledivs]
  | cons c T ih =>
    intro i my ty s hlen hnd hall hwy hwhs hk hP hIm hty hIs
    simp only [List.length_cons] at hlen
    obtain ⟨hskip, hmon, hbw⟩ := hall c (List.mem_cons_self _ _)
    have hcT : c ∉ T := (List.nodup_cons.mp hnd).1
    have hndT : T.Nodup := (List.nodup_cons.mp hnd).2
    have hrest : ∀ (s1 : State), Frame s s1 →
        (∀ c' ∈ T, ((s1.client c').isfloating || !ISVISIBLE s1 c') = false
          ∧ (s1.client c').mon = m ∧ 0 ≤ (s1.client c').bw) := by
      intro s1 hfr c' hc'
      obtain ⟨a1, a2, a3⟩ := hall c' (List.mem_cons_of_mem _ hc')
      have g := geomless_fields (hfr.2.2.2.2.2.2 c')
      exact ⟨by rw [hfr.skip c']; exact a1, by rw [g.2.2.1]; exact a2, by rw [g.2.2.2.1]; exact a3⟩
    by_cases hi : i < min n kn
    · -- master column
      have hmy := hIm hi
      have hty0 := hty (by omega)
      obtain ⟨D, hD⟩ : ∃ D, min n kn - i = D + 1 := ⟨min n kn - i - 1, by omega⟩
      have hD' : min n kn - (i + 1) = D := by omega
      obtain ⟨sh, hsh⟩ : ∃ sh, (whn - my) / (D + 1) = sh := ⟨_, rfl⟩
      have hsle : sh ≤ whn - my := by rw [← hsh]; exact Nat.div_le_self _ _
      obtain ⟨⟨rest, hhead⟩, hstep⟩ := tilestep_master m n mw kn whn wy T c i my ty s
        D sh hkn hwh hwy0 hwy1 hn hskip hmon hbw hwy hwhs hk hi hD hmy hsh
      have hfit : max 1 s.bh + 2 * (s.client c).bw ≤ (sh : Int) := by
        have := hP _ (by rw [hhead]; exact List.mem_cons_self _ _)
        simp only [] at this
        omega
      obtain ⟨s1, hloop, htr, hfr, hmonr, hvg⟩ := hstep hfit
      have e : max (i + 1) (min n kn) = max i (min n kn) := by omega
      have IH := ih (i + 1) (my + sh) ty s1 (by omega) hndT (hrest s1 hfr)
        (by rw [hmonr]; exact hwy) (by rw [hmonr]; exact hwhs) (by rw [hmonr]; exact hk)
        (by
          intro d hd
          rw [hfr.2.2.1]
          exact hP d (by rw [htr]; exact List.mem_cons_of_mem _ hd))
        (by intro _; omega)
        (by intro _; exact hty0)
        hIs
      rw [hloop, htr, hD]
      rw [hD', e] at IH
      have hvc : vgeom (tileloop m n mw T (i + 1) (my + sh) ty s1) c = (wy + my, (sh : Int)) := by
        unfold vgeom at hvg ⊢
        rw [tileloop_client_notin _ _ _ _ _ _ _ _ _ hcT]; exact hvg
      refine ⟨?_, ?_, ?_⟩
      · intro d hd
        rcases List.mem_cons.mp hd with hd | hd
        · rw [hd]; exact ⟨rfl, hmy⟩
        · exact IH.1 d hd
      · simp only [List.take_succ_cons, List.map_cons, column, hsh]
        rw [hvc, IH.2.1]
        have e1 : wy + ((my + sh : Nat) : Int) = wy + my + sh := by push_cast; omega
        have e2 : whn - (my + sh) = whn - my - sh := by omega
        rw [e1, e2]
      · simp only [List.drop_succ_cons]
        exact IH.2.2
    · -- stack column
      have e0 : min n kn - i = 0 := by omega
      have e0' : min n kn - (i + 1) = 0 := by omega
      have emax : max i (min n kn) = i := by omega
      have emax' : max (i + 1) (min n kn) = i + 1 := by omega
      obtain ⟨D, hD⟩ : ∃ D, n - i = D + 1 := ⟨n - i - 1, by omega⟩
      have hD' : n - (i + 1) = D := by omega
      obtain ⟨sh, hsh⟩ : ∃ sh, (whn - ty) / (D + 1) = sh := ⟨_, rfl⟩
      have hsle : sh ≤ whn - ty := by rw [← hsh]; exact Nat.div_le_self _ _
      obtain ⟨⟨rest, hhead⟩, hstep⟩ := tilestep_stack m n mw kn whn wy T c i my ty s
        D sh hkn hwh hwy0 hwy1 hn hskip hmon hbw hwy hwhs hk hi hD hIs hsh
      have hfit : max 1 s.bh + 2 * (s.client c).bw ≤ (sh : Int) := by
        have := hP _ (by rw [hhead]; exact List.mem_cons_self _ _)
        simp only [] at this
        omega
      obtain ⟨s1, hloop, htr, hfr, hmonr, hvg⟩ := hstep hfit
      have IH := ih (i + 1) my (ty + sh) s1 (by omega) hndT (hrest s1 hfr)
        (by rw [hmonr]; exact hwy) (by rw [hmonr]; exact hwhs) (by rw [hmonr]; exact hk)
        (by
          intro d hd
          rw [hfr.2.2.1]
          exact hP d (by rw [htr]; exact List.mem_cons_of_mem _ hd))
        (by intro hlt; omega)
        (by intro hle; omega)
        (by omega)
      rw [hloop, htr, e0, emax, hD]
      rw [e0', emax', hD'] at IH
      have hvc : vgeom (tileloop m n mw T (i + 1) my (ty + sh) s1) c = (wy + ty, (sh : Int)) := by
        unfold vgeom at hvg ⊢
        rw [tileloop_client_notin _ _ _ _ _ _ _ _ _ hcT]; exact hvg
      refine ⟨?_, ?_, ?_⟩
      · intro d hd
        rcases List.mem_cons.mp hd with hd | hd
        · rw [hd]; exact ⟨rfl, hIs⟩
        · exact IH.1 d hd
      · simp [column]
      · have IH2 := IH.2.2
        simp only [List.drop_zero, List.map_cons, column, hsh] at IH2 ⊢
        rw [hvc, IH2]
        have e1 : wy + ((ty + sh : Nat) : Int) = wy + ty + sh := by push_cast; omega
        have e2 : whn - (ty + sh) = whn - ty - sh := by omega
        rw [e1, e2]

/-- The quotients of the loop of `tile` from position `i` on, when the floor shares `qm`
and `qs` of the two columns leave at least `max 1 bh` inside the border of every member:
so does every quotient of the record. -/
theorem tiledivs_fit (m n mw kn whn qm qs : Nat) (wy : Int)
    (hkn : kn < 2147483648) (hwh : whn < 2147483648)
    (hwy0 : -2147483648 ≤ wy) (hwy1 : wy + whn < 2147483648) (hn : n < 4294967296) :
    ∀ (T : List Nat) (i my ty : Nat) (s : State),
      i + T.length = n → T.Nodup →
      (∀ c ∈ T, ((s.client c).isfloating || !ISVISIBLE s c) = false ∧ (s.client c).mon = m
        ∧ 0 ≤ (s.client c).bw) →
      (s.monitor m).wy = wy → (s.monitor m).wh = (whn : Int) →
      (montotag (s.monitor m)).nmaster = (kn : Int) →
      (∀ c ∈ T.take (min n kn - i), max 1 s.bh + 2 * (s.client c).bw ≤ (qm : Int)) →
      (∀ c ∈ T.drop (min n kn - i), max 1 s.bh + 2 * (s.client c).bw ≤ (qs : Int)) →
      (i < min n kn → my ≤ whn ∧ qm * (min n kn - i) ≤ whn - my) →
      (i ≤ min n kn → ty = 0) →
      (ty ≤ whn ∧ qs * (n - max i (min n kn)) ≤ whn - ty) →
      ∀ d ∈ tiledivs m n mw T i my ty s, max 1 s.bh ≤ (d.h : Int) - 2 * d.bw := by
  intro T
  induction T with
  | nil =>
    intro i my ty s _ _ _ _ _ _ _ _ _ _ _ d hd
    simp [tiledivs] at hd
  | cons c T ih =>
    intro i my ty s hlen hnd hall hwy hwhs hk hfm hfs hIm hty hIs
    simp only [List.length_cons] at hlen
    obtain ⟨hskip, hmon, hbw⟩ := hall c (List.mem_cons_self _ _)
    have hndT : T.Nodup := (List.nodup_cons.mp hnd).2
    have hrest : ∀ (s1 : State), Frame s s1 →
        (∀ c' ∈ T, ((s1.client c').isfloating || !ISVISIBLE s1 c') = false
          ∧ (s1.client c').mon = m ∧ 0 ≤ (s1.client c').bw) := by
      intro s1 hfr c' hc'
      obtain ⟨a1, a2, a3⟩ := hall c' (List.mem_cons_of_mem _ hc')
      have g := geomless_fields (hfr.2.2.2.2.2.2 c')
      exact ⟨by rw [hfr.skip c']; exact a1, by rw [g.2.2.1]; exact a2, by rw [g.2.2.2.1]; exact a3⟩
    have hfitfr : ∀ (s1 : State), Frame s s1 → ∀ c' (q : Int),
        max 1 s.bh + 2 * (s.client c').bw ≤ q → max 1 s1.bh + 2 * (s1.client c').bw ≤ q := by
      intro s1 hfr c' q hq
      rw [hfr.2.2.1, (geomless_fields (hfr.2.2.2.2.2.2 c')).2.2.2.1]; exact hq
    by_cases hi : i < min n kn
    · -- master column
      obtain ⟨hmy, hq⟩ := hIm hi
      have hty0 := hty (by omega)
      obtain ⟨D, hD⟩ : ∃ D, min n kn - i = D + 1 := ⟨min n kn - i - 1, by omega⟩
      have hD' : min n kn - (i + 1) = D := by omega
      have hfitc : max 1 s.bh + 2 * (s.client c).bw ≤ (qm : Int) :=
        hfm c (by rw [hD]; exact List.mem_cons_self _ _)
      rw [hD] at hq
      obtain ⟨sh, hsh⟩ : ∃ sh, (whn - my) / (D + 1) = sh := ⟨_, rfl⟩
      obtain ⟨hq1, hq2, hq3⟩ := share_invariant _ _ _ _ hq hsh
      obtain ⟨s1, _, htr, hfr, hmonr, _⟩ := (tilestep_master m n mw kn whn wy T c i my ty s
        D sh hkn hwh hwy0 hwy1 hn hskip hmon hbw hwy hwhs hk hi hD hmy hsh).2 (by omega)
      have e : max (i + 1) (min n kn) = max i (min n kn) := by omega
      have IH := ih (i + 1) (my + sh) ty s1 (by omega) hndT (hrest s1 hfr)
        (by rw [hmonr]; exact hwy) (by rw [hmonr]; exact hwhs) (by rw [hmonr]; exact hk)
        (by
          intro c' hc'
          rw [hD'] at hc'
          exact hfitfr s1 hfr c' _ (hfm c' (by rw [hD]; exact List.mem_cons_of_mem _ hc')))
        (by
          intro c' hc'
          rw [hD'] at hc'
          exact hfitfr s1 hfr c' _ (hfs c' (by rw [hD]; exact hc')))
        (by
          intro _
          rw [hD']
          exact ⟨by omega, by omega⟩)
        (by intro _; exact hty0)
        (by rw [e]; exact hIs)
      intro d hd
      rw [htr] at hd
      rcases List.mem_cons.mp hd with hd | hd
      · rw [hd]
        simp only []
        omega
      · have := IH d hd
        rw [hfr.2.2.1] at this
        exact this
    · -- stack column
      obtain ⟨htyle, hq⟩ := hIs
      have e0 : min n kn - i = 0 := by omega
      have e0' : min n kn - (i + 1) = 0 := by omega
      have emax : max i (min n kn) = i := by omega
      have emax' : max (i + 1) (min n kn) = i + 1 := by omega
      rw [emax] at hq
      obtain ⟨D, hD⟩ : ∃ D, n - i = D + 1 := ⟨n - i - 1, by omega⟩
      have hD' : n - (i + 1) = D := by omega
      have hfitc : max 1 s.bh + 2 * (s.client c).bw ≤ (qs : Int) :=
        hfs c (by rw [e0]; exact List.mem_cons_self _ _)
      rw [hD] at hq
      obtain ⟨sh, hsh⟩ : ∃ sh, (whn - ty) / (D + 1) = sh := ⟨_, rfl⟩
      obtain ⟨hq1, hq2, hq3⟩ := share_invariant _ _ _ _ hq hsh
      obtain ⟨s1, _, htr, hfr, hmonr, _⟩ := (tilestep_stack m n mw kn whn wy T c i my ty s
        D sh hkn hwh hwy0 hwy1 hn hskip hmon hbw hwy hwhs hk hi hD htyle hsh).2 (by omega)
      have IH := ih (i + 1) my (ty + sh) s1 (by omega) hndT (hrest s1 hfr)
        (by rw [hmonr]; exact hwy) (by rw [hmonr]; exact hwhs) (by rw [hmonr]; exact hk)
        (by intro c' hc'; rw [e0'] at hc'; simp at hc')
        (by
          intro c' hc'
          rw [e0'] at hc'
          exact hfitfr s1 hfr c' _ (hfs c' (by rw [e0]; exact List.mem_cons_of_mem _ hc')))
        (by intro hlt; omega)
        (by intro hle; omega)
        (by
          rw [emax', hD']
          exact ⟨by omega, by omega⟩)
      intro d hd
      rw [htr] at hd
      rcases List.mem_cons.mp hd with hd | hd
      · rw [hd]
        simp only []
        omega
      · have := IH d hd
        rw [hfr.2.2.1] at this
        exact this

/-- Under `TileFits` every quotient of `tile` leaves at least `max 1 bh` inside the border
of its client: the precondition of claim C27 follows from the floor shares of the two
columns. -/
theorem tiletrace_fit (s : State) (m : Nat) (h : TileFits s m) :
    TileEnv s m ∧ ∀ d ∈ tiletrace s m, max 1 s.bh ≤ (d.h : Int) - 2 * d.bw := by
  obtain ⟨hnd, hown, hk0, hk1, hwh0, hwh1, hwy0, hwy1, hfm, hfs⟩ := h
  refine ⟨⟨hnd, hown, hwh0, hwh1, hwy0, hwy1⟩, ?_⟩
  obtain ⟨whn, hwhn⟩ : ∃ whn : Nat, (s.monitor m).wh = (whn : Int) :=
    ⟨(s.monitor m).wh.toNat, by omega⟩
  obtain ⟨kn, hkn⟩ : ∃ kn : Nat, (montotag (s.monitor m)).nmaster = (kn : Int) :=
    ⟨(montotag (s.monitor m)).nmaster.toNat, by omega⟩
  have hcnt := counttiled_eq_length s (s.monitor m).clients
  by_cases hn0 : counttiled s (s.monitor m).clients = 0
  · have htr : tiletrace s m = [] := by
      simp only [tiletrace, hn0, ↓reduceIte]
    rw [htr]
    simp
  have htr : tiletrace s m = tiledivs m (counttiled s (s.monitor m).clients)
      (if counttiled s (s.monitor m).clients > toU (montotag (s.monitor m)).nmaster then
         (if (montotag (s.monitor m)).nmaster ≠ 0
          then toU (ftoi (tofloat
                 (itof (s.monitor m).ww * (montotag (s.monitor m)).mfact))) else 0)
       else toU (s.monitor m).ww)
      (s.monitor m).clients 0 0 0
      (s.setMon m ((s.monitor m).setTag
        { montotag (s.monitor m) with
            ltsymbol := tilesymbol (counttiled s (s.monitor m).clients)
              (montotag (s.monitor m)).nmaster })) := by
    simp only [tiletrace]
    rw [if_neg hn0]
  have hfr : Frame s (s.setMon m ((s.monitor m).setTag
        { montotag (s.monitor m) with
            ltsymbol := tilesymbol (counttiled s (s.monitor m).clients)
              (montotag (s.monitor m)).nmaster })) :=
    setMon_frame _ _ _ (setTag_layoutless _ _ rfl)
  have hmon1 : (s.setMon m ((s.monitor m).setTag
        { montotag (s.monitor m) with
            ltsymbol := tilesymbol (counttiled s (s.monitor m).clients)
              (montotag (s.monitor m)).nmaster })).monitor m = (s.monitor m).setTag
        { montotag (s.monitor m) with
            ltsymbol := tilesymbol (counttiled s (s.monitor m).clients)
              (montotag (s.monitor m)).nmaster } := by simp
  generalize (if counttiled s (s.monitor m).clients > toU (montotag (s.monitor m)).nmaster then
         (if (montotag (s.monitor m)).nmaster ≠ 0
          then toU (ftoi (tofloat
                 (itof (s.monitor m).ww * (montotag (s.monitor m)).mfact))) else 0)
       else toU (s.monitor m).ww) = mw at htr
  generalize s.setMon m ((s.monitor m).setTag
        { montotag (s.monitor m) with
            ltsymbol := tilesymbol (counttiled s (s.monitor m).clients)
              (montotag (s.monitor m)).nmaster }) = s1 at htr hfr hmon1
  have hk1' : (montotag (s1.monitor m)).nmaster = (kn : Int) := by
    rw [hmon1, montotag_setTag]; exact hkn
  rw [htr, tiledivs_filter, tiledclients_frame hfr, hcnt]
  rw [hcnt] at hn0
  have hmc : mastercnt s m = min (tiledclients s (s.monitor m).clients).length kn := by
    unfold mastercnt; rw [hcnt, hkn]; simp
  have hmeq : masters s m = (tiledclients s (s.monitor m).clients).take
      (min (tiledclients s (s.monitor m).clients).length kn) := by
    unfold masters; rw [hmc]
  have hseq : stackers s m = (tiledclients s (s.monitor m).clients).drop
      (min (tiledclients s (s.monitor m).clients).length kn) := by
    unfold stackers; rw [hmc]
  have hskipT : ∀ c ∈ tiledclients s (s.monitor m).clients,
      ((s.client c).isfloating || !ISVISIBLE s c) = false := fun c hc => mem_tiledclients hc
  rw [hmeq] at hfm
  rw [hseq] at hfs
  rw [hwhn] at hfm hfs hwh1 hwy1
  generalize tiledclients s (s.monitor m).clients = T at *
  simp only [List.length_take, List.length_drop] at hfm hfs
  have hmin : min (min T.length kn) T.length = min T.length kn := by omega
  rw [hmin] at hfm
  have hqm : ∀ c ∈ T.take (min T.length kn),
      max 1 s1.bh + 2 * (s1.client c).bw ≤ ((whn / min T.length kn : Nat) : Int) := by
    intro c hc
    rw [hfr.2.2.1, (geomless_fields (hfr.2.2.2.2.2.2 c)).2.2.2.1]
    have := hfm c hc
    rw [Int.natCast_div]; exact this
  have hqs : ∀ c ∈ T.drop (min T.length kn),
      max 1 s1.bh + 2 * (s1.client c).bw ≤ ((whn / (T.length - min T.length kn) : Nat) : Int) := by
    intro c hc
    rw [hfr.2.2.1, (geomless_fields (hfr.2.2.2.2.2.2 c)).2.2.2.1]
    have := hfs c hc
    rw [Int.natCast_div]; exact this
  have hle1 : min T.length kn ≤ whn := by
    by_cases h0 : min T.length kn = 0
    · omega
    · obtain ⟨c, hc⟩ := List.exists_mem_of_length_pos
        (show 0 < (T.take (min T.length kn)).length by rw [List.length_take]; omega)
      have h1 := hfm c hc
      have h2 := (hown c (List.mem_of_mem_take hc)).2
      have h3 : (1 : Int) ≤ ((whn / min T.length kn : Nat) : Int) := by
        rw [Int.natCast_div]; omega
      have h4 : 0 < whn / min T.length kn := by exact_mod_cast h3
      exact (Nat.div_pos_iff h0).mp h4
  have hle2 : T.length - min T.length kn ≤ whn := by
    by_cases h0 : T.length - min T.length kn = 0
    · omega
    · obtain ⟨c, hc⟩ := List.exists_mem_of_length_pos
        (show 0 < (T.drop (min T.length kn)).length by rw [List.length_drop]; omega)
      have h1 := hfs c hc
      have h2 := (hown c (List.mem_of_mem_drop hc)).2
      have h3 : (1 : Int) ≤ ((whn / (T.length - min T.length kn) : Nat) : Int) := by
        rw [Int.natCast_div]; omega
      have h4 : 0 < whn / (T.length - min T.length kn) := by exact_mod_cast h3
      exact (Nat.div_pos_iff h0).mp h4
  have key := tiledivs_fit m T.length mw kn whn (whn / min T.length kn)
      (whn / (T.length - min T.length kn)) (s.monitor m).wy
      (by omega) (by omega) hwy0 (by omega) (by omega)
      T 0 0 0 s1 (by omega) hnd
      (by
        intro c hc
        have g := geomless_fields (hfr.2.2.2.2.2.2 c)
        refine ⟨?_, ?_, ?_⟩
        · rw [hfr.skip c]; exact hskipT c hc
        · rw [g.2.2.1]; exact (hown c hc).1
        · rw [g.2.2.2.1]; exact (hown c hc).2)
      (by rw [hmon1]; rfl) (by rw [hmon1]; exact hwhn) hk1'
      (by simpa using hqm) (by simpa using hqs)
      (by intro _; exact ⟨Nat.zero_le _, by simpa using Nat.div_mul_le_self _ _⟩)
      (by intro _; rfl)
      (by
        refine ⟨Nat.zero_le _, ?_⟩
        have : max 0 (min T.length kn) = min T.length kn := by omega
        rw [this]
        simpa using Nat.div_mul_le_self _ _)
  intro d hd
  have := key d hd
  rw [hfr.2.2.1] at this
  exact this

/-- C27: for a tag with `0 <= nmaster` (and `nmaster` and the number `n` of tiled clients
within the range of their C types), at every division of `tile` the counter `i` is below
the bound it is subtracted from, so the divisors `MIN(n, nmaster) - i` and `n - i` are at
least 1; and for distinct tiled clients of the monitor with non-negative borders on a work
area of non-negative height, when every computed share `h` satisfies
`h - 2*bw >= max(1, bh)`, the offsets `my` and `ty` never exceed `wh`, so `wh - my` and
`wh - ty` do not wrap, and the outer heights of each non-empty column sum to `wh`. -/
theorem tile_guarded (s : State) (m : Nat)
    (hk0 : 0 ≤ (montotag (s.monitor m)).nmaster)
    (hk1 : (montotag (s.monitor m)).nmaster < 2147483648)
    (hn : counttiled s (s.monitor m).clients < 4294967296) : TileGuarded s m := by
  obtain ⟨kn, hkn⟩ : ∃ kn : Nat, (montotag (s.monitor m)).nmaster = (kn : Int) :=
    ⟨(montotag (s.monitor m)).nmaster.toNat, by omega⟩
  have hcnt := counttiled_eq_length s (s.monitor m).clients
  by_cases hn0 : counttiled s (s.monitor m).clients = 0
  · -- no tiled client: no division, and both columns are empty
    have htr : tiletrace s m = [] := by
      simp only [tiletrace, hn0, ↓reduceIte]
    have hT : tiledclients s (s.monitor m).clients = [] := by
      rw [hcnt] at hn0
      exact List.length_eq_zero.mp hn0
    refine ⟨by rw [htr]; simp, fun _ _ => ⟨by rw [htr]; simp, ?_, ?_⟩⟩
    · intro hne; exact absurd (by unfold masters; rw [hT]; simp) hne
    · intro hne; exact absurd (by unfold stackers; rw [hT]; simp) hne
  · have htr : tiletrace s m = tiledivs m (counttiled s (s.monitor m).clients)
        (if counttiled s (s.monitor m).clients > toU (montotag (s.monitor m)).nmaster then
           (if (montotag (s.monitor m)).nmaster ≠ 0
            then toU (ftoi (tofloat
                   (itof (s.monitor m).ww * (montotag (s.monitor m)).mfact))) else 0)
         else toU (s.monitor m).ww)
        (s.monitor m).clients 0 0 0
        (s.setMon m ((s.monitor m).setTag
          { montotag (s.monitor m) with
              ltsymbol := tilesymbol (counttiled s (s.monitor m).clients)
                (montotag (s.monitor m)).nmaster })) := by
      simp only [tiletrace]
      rw [if_neg hn0]
    have htile : tile s m = tileloop m (counttiled s (s.monitor m).clients)
        (if counttiled s (s.monitor m).clients > toU (montotag (s.monitor m)).nmaster then
           (if (montotag (s.monitor m)).nmaster ≠ 0
            then toU (ftoi (tofloat
                   (itof (s.monitor m).ww * (montotag (s.monitor m)).mfact))) else 0)
         else toU (s.monitor m).ww)
        (s.monitor m).clients 0 0 0
        (s.setMon m ((s.monitor m).setTag
          { montotag (s.monitor m) with
              ltsymbol := tilesymbol (counttiled s (s.monitor m).clients)
                (montotag (s.monitor m)).nmaster })) := by
      simp only [tile]
      rw [if_neg hn0]
    have hfr : Frame s (s.setMon m ((s.monitor m).setTag
          { montotag (s.monitor m) with
              ltsymbol := tilesymbol (counttiled s (s.monitor m).clients)
                (montotag (s.monitor m)).nmaster })) :=
      setMon_frame _ _ _ (setTag_layoutless _ _ rfl)
    have hmon1 : (s.setMon m ((s.monitor m).setTag
          { montotag (s.monitor m) with
              ltsymbol := tilesymbol (counttiled s (s.monitor m).clients)
                (montotag (s.monitor m)).nmaster })).monitor m = (s.monitor m).setTag
          { montotag (s.monitor m) with
              ltsymbol := tilesymbol (counttiled s (s.monitor m).clients)
                (montotag (s.monitor m)).nmaster } := by simp
    generalize (if counttiled s (s.monitor m).clients > toU (montotag (s.monitor m)).nmaster then
           (if (montotag (s.monitor m)).nmaster ≠ 0
            then toU (ftoi (tofloat
                   (itof (s.monitor m).ww * (montotag (s.monitor m)).mfact))) else 0)
         else toU (s.monitor m).ww) = mw at htr htile
    generalize s.setMon m ((s.monitor m).setTag
          { montotag (s.monitor m) with
              ltsymbol := tilesymbol (counttiled s (s.monitor m).clients)
                (montotag (s.monitor m)).nmaster }) = s1 at htr htile hfr hmon1
    have hk1' : (montotag (s1.monitor m)).nmaster = (kn : Int) := by
      rw [hmon1, montotag_setTag]; exact hkn
    unfold TileGuarded
    rw [htr]
    refine ⟨?_, ?_⟩
    · exact tiledivs_divisor m _ mw kn (by omega) hn (s.monitor m).clients 0 0 0 s1 hk1'
        (by rw [hfr.counttiled_eq]; omega)
    · intro henv hP
      obtain ⟨hnd, hown, hwh0, hwh1, hwy0, hwy1⟩ := henv
      obtain ⟨whn, hwhn⟩ : ∃ whn : Nat, (s.monitor m).wh = (whn : Int) :=
        ⟨(s.monitor m).wh.toNat, by omega⟩
      rw [tiledivs_filter, tiledclients_frame hfr] at hP ⊢
      rw [htile, tileloop_filter, tiledclients_frame hfr]
      have hmc : mastercnt s m = min (tiledclients s (s.monitor m).clients).length kn := by
        unfold mastercnt; rw [hcnt, hkn]; simp
      have hmeq : masters s m = (tiledclients s (s.monitor m).clients).take
          (min (tiledclients s (s.monitor m).clients).length kn) := by
        unfold masters; rw [hmc]
      have hseq : stackers s m = (tiledclients s (s.monitor m).clients).drop
          (min (tiledclients s (s.monitor m).clients).length kn) := by
        unfold stackers; rw [hmc]
      rw [hcnt] at hP hn ⊢
      have hskipT : ∀ c ∈ tiledclients s (s.monitor m).clients,
          ((s.client c).isfloating || !ISVISIBLE s c) = false := fun c hc => mem_tiledclients hc
      generalize tiledclients s (s.monitor m).clients = T at *
      have key := tileloop_traced m T.length mw kn whn (s.monitor m).wy
        (by omega) (by omega) hwy0 (by omega) hn
        T 0 0 0 s1 (by omega) hnd
        (by
          intro c hc
          have g := geomless_fields (hfr.2.2.2.2.2.2 c)
          refine ⟨?_, ?_, ?_⟩
          · rw [hfr.skip c]; exact hskipT c hc
          · rw [g.2.2.1]; exact (hown c hc).1
          · rw [g.2.2.2.1]; exact (hown c hc).2)
        (by rw [hmon1]; rfl) (by rw [hmon1]; exact hwhn) hk1'
        (by intro d hd; rw [hfr.2.2.1]; exact hP d hd)
        (by intro _; omega) (by intro _; rfl) (by omega)
      simp only [Nat.sub_zero, Nat.cast_zero, Int.add_zero, Nat.zero_max] at key
      obtain ⟨k1, k2, k3⟩ := key
      refine ⟨?_, ?_, ?_⟩
      · intro d hd
        obtain ⟨a, b⟩ := k1 d hd
        exact ⟨by rw [a, hwhn], b⟩
      · intro hm
        rw [hmeq] at hm ⊢
        have := column_sum_of_map _ _ _ _ _ k2 (by
          have := List.length_pos.mpr hm
          rw [List.length_take] at this
          omega)
        rw [hwhn]
        exact this
      · intro hm
        rw [hseq] at hm ⊢
        have := column_sum_of_map _ _ _ _ _ k3 (by
          have := List.length_pos.mpr hm
          rw [List.length_drop] at this
          omega)
        rw [hwhn]
        exact this

/-- C27, witness: Scenario A, whose three divisions are 780/1, 780/2 and 390/1; every
share leaves room for its client, no offset exceeds `wh`, and the two clients of the stack
column get 780 pixels together. -/
theorem tile_guarded_witness :
    (∀ d ∈ tiletrace scenarioA 0, d.i < d.lim ∧ d.off ≤ d.wh)
    ∧ ((stackers scenarioA 0).map (fun c => HEIGHT ((tile scenarioA 0).client c))).sum = 780 := by
  have hf := tiletrace_fit scenarioA 0 (by unfold TileFits; decide)
  have h := tile_guarded scenarioA 0 (by decide) (by decide) (by decide)
  have h2 := h.2 hf.1 hf.2
  exact ⟨fun d hd => ⟨(h.1 d hd).1, (h2.1 d hd).2⟩, h2.2.2 (by decide)⟩

/-! ## Fullscreen round trip -/

theorem setfullscreen_leave (s : State) (c : Nat) :
    setfullscreen s c false
      = arrange (leavefullscreen s c) (some ((leavefullscreen s c).client c).mon) := rfl

/-- The record of `c` after `setfullscreen(c, true)`. -/
theorem setfullscreen_enter (s : State) (c : Nat) :
    (setfullscreen s c true).client c
      = { s.client c with
            isfullscreen := true, oldstate := (s.client c).isfloating, oldbw := (s.client c).bw,
            bw := 0, isfloating := true,
            oldx := (s.client c).x, oldy := (s.client c).y, oldw := (s.client c).w,
            oldh := (s.client c).h,
            x := (s.monitor (s.client c).mon).mx, y := (s.monitor (s.client c).mon).my,
            w := (s.monitor (s.client c).mon).mw, h := (s.monitor (s.client c).mon).mh }
      ∧ (setfullscreen s c true).monitor = s.monitor := by
  simp [setfullscreen, resizeclient, Client.resized, State.setClient]

/-- The record of `c` after the part of `setfullscreen(c, false)` before `arrange`. -/
theorem leavefullscreen_client (s : State) (c : Nat) :
    (leavefullscreen s c).client c
      = { s.client c with
            isfullscreen := false, isfloating := (s.client c).oldstate, bw := (s.client c).oldbw,
            x := (s.client c).oldx, y := (s.client c).oldy, w := (s.client c).oldw,
            h := (s.client c).oldh } := by
  simp [leavefullscreen, resizeclient, Client.resized, State.setClient]

/-- The re-arrange at the end of `setfullscreen(c, false)` keeps border, floating flag,
fullscreen flag and monitor of every client. -/
theorem setfullscreen_leave_fields (s : State) (c : Nat) :
    ((setfullscreen s c false).client c).bw = ((leavefullscreen s c).client c).bw
    ∧ ((setfullscreen s c false).client c).isfloating
        = ((leavefullscreen s c).client c).isfloating
    ∧ ((setfullscreen s c false).client c).isfullscreen
        = ((leavefullscreen s c).client c).isfullscreen := by
  rw [setfullscreen_leave]
  have h := geomless_fields
    ((arrange_frame (leavefullscreen s c) (some ((leavefullscreen s c).client c).mon)).2.2.2.2.2.2 c)
  exact ⟨h.2.2.2.1, h.1, h.2.2.2.2.1⟩

/-- C29: `setfullscreen(c, true)` gives the client the full rect of its monitor, border
0 and the floating flag; a following `setfullscreen(c, false)` hands the geometry the client
had to `resizeclient` before the re-arrange and restores its border width and floating flag;
after `setfullscreen(c, true)` twice, leaving gives the monitor rect, border 0 and the
floating flag instead. -/
theorem setfullscreen_round_trip (s : State) (c : Nat) :
    FullscreenRoundTrip s c ∧ FullscreenTwice s c := by
  obtain ⟨e1, m1⟩ := setfullscreen_enter s c
  obtain ⟨e2, m2⟩ := setfullscreen_enter (setfullscreen s c true) c
  have l1 := leavefullscreen_client (setfullscreen s c true) c
  have l2 := leavefullscreen_client (setfullscreen (setfullscreen s c true) c true) c
  have f1 := setfullscreen_leave_fields (setfullscreen s c true) c
  have f2 := setfullscreen_leave_fields (setfullscreen (setfullscreen s c true) c true) c
  have hmon : ((leavefullscreen (setfullscreen s c true) c).client c).mon = (s.client c).mon := by
    rw [l1, e1]
  have r1 : ((leavefullscreen (setfullscreen s c true) c).client c).rect = (s.client c).rect := by
    rw [l1, e1]; rfl
  have b1 : ((leavefullscreen (setfullscreen s c true) c).client c).bw = (s.client c).bw := by
    rw [l1, e1]
  have g1 : ((leavefullscreen (setfullscreen s c true) c).client c).isfloating
      = (s.client c).isfloating := by
    rw [l1, e1]
  have u1 : ((leavefullscreen (setfullscreen s c true) c).client c).isfullscreen = false := by
    rw [l1]
  have r2 : ((leavefullscreen (setfullscreen (setfullscreen s c true) c true) c).client c).rect
      = (s.monitor (s.client c).mon).screen := by
    rw [l2, e2, e1]; rfl
  have b2 : ((leavefullscreen (setfullscreen (setfullscreen s c true) c true) c).client c).bw
      = 0 := by
    rw [l2, e2, e1]
  have g2 : ((leavefullscreen (setfullscreen (setfullscreen s c true) c true) c).client
      c).isfloating = true := by
    rw [l2, e2, e1]
  constructor
  · refine ⟨by rw [e1]; rfl, by rw [e1], by rw [e1], by rw [e1], ?_, r1, b1, g1,
      f1.1.trans b1, f1.2.1.trans g1, f1.2.2.trans u1⟩
    rw [setfullscreen_leave, hmon]
  · refine ⟨r2, f2.1.trans b2, f2.2.1.trans g2, ?_⟩
    intro hdiff hsame
    obtain ⟨s1, s2, s3⟩ := hsame
    rw [r2] at s1
    rw [f2.1, b2] at s2
    rw [f2.2.1, g2] at s3
    rcases hdiff with h1 | h1 | h1
    · exact h1 s1.symm
    · exact h1 s2.symm
    · rw [h1] at s3; cases s3

/-- C29, instance: the tiled client of `oneClientState` (100 by 100, border 1) gets its
border back after one round trip, and border 0 after entering twice. -/
theorem setfullscreen_round_trip_witness :
    ((setfullscreen (setfullscreen oneClientState 1 true) 1 false).client 1).bw = 1
    ∧ ((setfullscreen (setfullscreen (setfullscreen oneClientState 1 true) 1 true) 1
        false).client 1).bw = 0 :=
  ⟨(setfullscreen_round_trip oneClientState 1).1.2.2.2.2.2.2.2.2.1,
   (setfullscreen_round_trip oneClientState 1).2.2.1⟩

/-! ## A second call of `updategeom` -/

/-- The step of `setgeoms` gives the monitor the rect of its screen. -/
theorem geomupd_rect (bh : Int) (n i : Nat) (M : Monitor) (u : XineramaScreenInfo) :
    (geomupd bh n i M u).mx = u.x_org ∧ (geomupd bh n i M u).my = u.y_org
      ∧ (geomupd bh n i M u).mw = u.width ∧ (geomupd bh n i M u).mh = u.height := by
  unfold geomupd
  split
  · simp [updatebarpos]
    split <;> exact ⟨rfl, rfl, rfl, rfl⟩
  · rename_i hc
    push_neg at hc
    exact ⟨hc.2.1.symm, hc.2.2.1.symm, hc.2.2.2.1.symm, hc.2.2.2.2.symm⟩

/-- The loop `setgeoms` changes nothing when every monitor it visits is an old one that
has the rect of its screen. -/
theorem setgeoms_noop (n : Nat) : ∀ (ms : List Nat) (us : List XineramaScreenInfo) (i : Nat)
    (s : State) (d : Bool),
    (∀ (j m : Nat) (u : XineramaScreenInfo), ms[j]? = some m → us[j]? = some u →
      i + j < n ∧ u.x_org = (s.monitor m).mx ∧ u.y_org = (s.monitor m).my
        ∧ u.width = (s.monitor m).mw ∧ u.height = (s.monitor m).mh) →
    setgeoms n ms us i (s, d) = (s, d) := by
  intro ms
  induction ms with
  | nil =>
    intro us i s d _
    cases us <;> simp [setgeoms]
  | cons m ms ih =>
    intro us i s d h
    cases us with
    | nil => simp [setgeoms]
    | cons u us =>
      obtain ⟨h1, h2, h3, h4, h5⟩ := h 0 m u (by simp) (by simp)
      have hc : ¬ (i ≥ n ∨ u.x_org ≠ (s.monitor m).mx ∨ u.y_org ≠ (s.monitor m).my
          ∨ u.width ≠ (s.monitor m).mw ∨ u.height ≠ (s.monitor m).mh) := by
        push_neg
        exact ⟨by omega, h2, h3, h4, h5⟩
      simp only [setgeoms, if_neg hc]
      apply ih
      intro j a v ha hv
      have := h (j + 1) a v (by simpa using ha) (by simpa using hv)
      exact ⟨by omega, this.2⟩

theorem addmons_display (k : Nat) (s : State) :
    (addmons k s).sw = s.sw ∧ (addmons k s).sh = s.sh := by
  induction k generalizing s with
  | zero => exact ⟨rfl, rfl⟩
  | succ k ih =>
    simp only [addmons]
    exact ih _

theorem addmons_ne_nil (s : State) : (addmons 1 s).mons ≠ [] := by
  intro h
  have := addmons_mons_length 1 s
  rw [h] at this
  simp at this

/-- The Xinerama case of claim C30. -/
theorem updategeom_again_xinerama (s : State) (info : List XineramaScreenInfo)
    (ptr ptr' : Option (Int × Int)) (hnd : s.mons.Nodup)
    (hle : s.mons.length ≤ (uniquegeoms info).length) :
    ∃ s' d, updategeom s (some info) ptr = some (s', d)
      ∧ updategeom s' (some info) ptr' = some (s', false) := by
  refine ⟨(updategeomend ptr (setgeoms s.mons.length
          (addmons ((uniquegeoms info).length - s.mons.length) s).mons (uniquegeoms info) 0
          (addmons ((uniquegeoms info).length - s.mons.length) s, false))).1,
    (updategeomend ptr (setgeoms s.mons.length
          (addmons ((uniquegeoms info).length - s.mons.length) s).mons (uniquegeoms info) 0
          (addmons ((uniquegeoms info).length - s.mons.length) s, false))).2,
    updategeom_grow_eq s info ptr hle, ?_⟩
  obtain ⟨new, a1, a2, _, a4, _, _, _, _, _⟩ :=
    addmons_spec ((uniquegeoms info).length - s.mons.length) s
  generalize addmons ((uniquegeoms info).length - s.mons.length) s = s1 at a1
  have hnd1 : s1.mons.Nodup := by rw [a1]; exact a4 hnd
  have hlen1 : s1.mons.length = (uniquegeoms info).length := by
    rw [a1, List.length_append, a2]; omega
  obtain ⟨_, _, _, _, g5, _, _⟩ :=
    setgeoms_spec s.mons.length s1.mons (uniquegeoms info) 0 s1 false hnd1
  have gm := setgeoms_mons s.mons.length s1.mons (uniquegeoms info) 0 (s1, false)
  obtain ⟨e1, _, e3, _, _⟩ := updategeomend_fields ptr
    (setgeoms s.mons.length s1.mons (uniquegeoms info) 0 (s1, false))
  generalize (updategeomend ptr (setgeoms s.mons.length s1.mons (uniquegeoms info) 0
    (s1, false))).1 = r at e1 e3
  have hrm : r.mons = s1.mons := e3.trans gm
  have hrl : r.mons.length = (uniquegeoms info).length := by rw [hrm, hlen1]
  rw [updategeom_grow_eq r info ptr' (le_of_eq hrl)]
  have h0 : (uniquegeoms info).length - r.mons.length = 0 := by omega
  rw [h0]
  simp only [addmons]
  rw [setgeoms_noop]
  · rfl
  · intro j m u hm hu
    have hj : j < r.mons.length := by
      by_contra hc
      rw [List.getElem?_eq_none (by omega)] at hm
      cases hm
    rw [hrm] at hm
    have hg := g5 j m u hm hu
    rw [e1, hg]
    obtain ⟨k1, k2, k3, k4⟩ := geomupd_rect s1.bh s.mons.length (0 + j) (s1.monitor m) u
    exact ⟨by omega, k1.symm, k2.symm, k3.symm, k4.symm⟩

/-- The case of claim C30 without Xinerama. -/
theorem updategeom_again_default (s : State) (ptr ptr' : Option (Int × Int)) :
    ∃ s' d, updategeom s none ptr = some (s', d)
      ∧ updategeom s' none ptr' = some (s', false) := by
  have key : ∀ (r : State) (d : Bool), r.mons ≠ [] →
      (r.monitor (r.mons.headD 0)).mw = r.sw → (r.monitor (r.mons.headD 0)).mh = r.sh →
      updategeom (updategeomend ptr (r, d)).1 none ptr'
        = some ((updategeomend ptr (r, d)).1, false) := by
    intro r d hne hw hh
    have hf : (updategeomend ptr (r, d)).1.mons = r.mons
        ∧ (updategeomend ptr (r, d)).1.monitor = r.monitor
        ∧ (updategeomend ptr (r, d)).1.sw = r.sw ∧ (updategeomend ptr (r, d)).1.sh = r.sh := by
      unfold updategeomend
      split <;> exact ⟨rfl, rfl, rfl, rfl⟩
    generalize (updategeomend ptr (r, d)).1 = t at hf
    obtain ⟨f1, f2, f3, f4⟩ := hf
    unfold updategeom
    simp only []
    have hne' : t.mons ≠ [] := by rw [f1]; exact hne
    simp only [hne', ↓reduceIte]
    have hc : ¬ ((t.monitor (t.mons.headD 0)).mw ≠ t.sw ∨ (t.monitor (t.mons.headD 0)).mh ≠ t.sh) := by
      rw [f1, f2, f3, f4]
      push_neg
      exact ⟨hw, hh⟩
    rw [if_neg hc]
    rfl
  have first : ∃ (r : State) (d : Bool), updategeom s none ptr = some (updategeomend ptr (r, d))
      ∧ r.mons ≠ [] ∧ (r.monitor (r.mons.headD 0)).mw = r.sw
      ∧ (r.monitor (r.mons.headD 0)).mh = r.sh := by
    have hs1 : (if s.mons = [] then addmons 1 s else s).mons ≠ [] := by
      split
      · exact addmons_ne_nil s
      · rename_i h
        exact h
    unfold updategeom
    simp only []
    generalize (if s.mons = [] then addmons 1 s else s) = s1 at hs1
    by_cases hc : (s1.monitor (s1.mons.headD 0)).mw ≠ s1.sw
        ∨ (s1.monitor (s1.mons.headD 0)).mh ≠ s1.sh
    · rw [if_pos hc]
      refine ⟨_, true, rfl, hs1, ?_, ?_⟩
      · simp [State.setMon, updatebarpos]
        split <;> rfl
      · simp [State.setMon, updatebarpos]
        split <;> rfl
    · rw [if_neg hc]
      push_neg at hc
      exact ⟨s1, false, rfl, hs1, hc.1, hc.2⟩
  obtain ⟨r, d, e, hne, hw, hh⟩ := first
  exact ⟨(updategeomend ptr (r, d)).1, (updategeomend ptr (r, d)).2, e, key r d hne hw hh⟩

/-- C30: for a monitor chain without repetition and a report of at least as many distinct
screens as monitors, or without Xinerama, `updategeom` returns, and a second call with the
same report, whatever the pointer position, returns false and the very same state: chain,
monitor records and client records. -/
theorem updategeom_idempotent (s : State) (xin : Option (List XineramaScreenInfo))
    (ptr ptr' : Option (Int × Int)) (hnd : s.mons.Nodup)
    (hle : ∀ info, xin = some info → s.mons.length ≤ (uniquegeoms info).length) :
    ∃ s' d, updategeom s xin ptr = some (s', d) ∧ updategeom s' xin ptr' = some (s', false) := by
  cases xin with
  | none => exact updategeom_again_default s ptr ptr'
  | some info => exact updategeom_again_xinerama s info ptr ptr' hnd (hle info rfl)

/-- C30, witness: one monitor and two reported screens side by side. -/
theorem updategeom_idempotent_witness :
    ∃ s' d, updategeom bareState (some [plainScreen, rightScreen]) none = some (s', d)
      ∧ updategeom s' (some [plainScreen, rightScreen]) (some (5, 5)) = some (s', false) :=
  updategeom_idempotent bareState (some [plainScreen, rightScreen]) none (some (5, 5))
    (by decide) (by
      intro info h
      cases h
      decide)

end Dwm
